import Mathlib

/-!
# CSAPP-Labs: malloclab allocators and datalab floating-point puzzles

A shallow embedding of the allocators of `malloclab/` (32-bit build: pointers,
`size_t` and `unsigned int` are four bytes wide, words are little-endian) and
of `floatScale2` and `floatFloat2Int` of `datalab/bits.p.c`.

* The arena is a byte-addressed memory `Nat → Nat` together with the three
  variables of the arena-growth primitive (`mem_start_brk`, `mem_brk`,
  `mem_max_addr`).  Addresses are absolute, `NULL` is address `0`.
* Every load and store is checked against the current arena
  `[mem_start_brk, mem_brk)`; an access outside of it is undefined behaviour in
  C and is reported as `Err.fault`.
* Loops whose termination depends on the heap contents (free-list walks) take
  an explicit iteration budget; exhausting it is reported as `Err.diverge`.
* `unsigned`/pointer arithmetic wraps modulo `2^32`.
-/

set_option linter.all false

namespace Malloclab

/-! ## Machine model -/

/-- Ways in which a run of the C code fails to produce a result. -/
inductive Err where
  | fault
  | diverge
  | misuse
  deriving DecidableEq, Repr

/-- The allocator state: arena bytes, the variables of the growth primitive,
and the static variables of the allocator sources. -/
structure Heap where
  mem : Nat → Nat
  mem_start_brk : Nat
  mem_brk : Nat
  mem_max_addr : Nat
  heap_listp : Nat
  seglist_start : Nat
  freelist_headp : Nat
  prev_listp : Nat

/-- Number of values of a 32-bit word. -/
def U32 : Nat := 4294967296

/-- Addition of `unsigned`/pointer values. -/
def add32 (a b : Nat) : Nat := (a + b) % U32

/-- Subtraction of `unsigned`/pointer values. -/
def sub32 (a b : Nat) : Nat := (a + (U32 - b % U32)) % U32

/-- Multiplication of `unsigned` values. -/
def mul32 (a b : Nat) : Nat := (a * b) % U32

/-- The null pointer. -/
def NULL : Nat := 0

/-- A freshly created simulated heap of capacity `cap` bytes starting at
address `base`; no byte belongs to the arena yet and all bytes are zero. -/
def mem_init (base cap : Nat) : Heap :=
  { mem := fun _ => 0
    mem_start_brk := base
    mem_brk := base
    mem_max_addr := base + cap
    heap_listp := 0
    seglist_start := 0
    freelist_headp := 0
    prev_listp := 0 }

/-- Modelled from the spec: the arena-growth primitive `mem_sbrk` (memlib.c is
not among the sources).  "request N more bytes at the end, or fail": the new
region starts at the previous end of the arena; the request fails when the
capacity is exceeded or when the `int` argument is negative. -/
def mem_sbrk (h : Heap) (incr : Nat) : Option (Nat × Heap) :=
  if 2147483648 ≤ incr ∨ h.mem_max_addr < h.mem_brk + incr then none
  else some (h.mem_brk, { h with mem_brk := h.mem_brk + incr })

/-- Function update of one byte. -/
def setByte (m : Nat → Nat) (a v : Nat) : Nat → Nat :=
  fun x => if x = a then v else m x

/-- Function update of the four bytes of a little-endian word. -/
def setWord (m : Nat → Nat) (p val : Nat) : Nat → Nat :=
  setByte (setByte (setByte (setByte m p (val % 256))
    (p + 1) (val / 256 % 256)) (p + 2) (val / 65536 % 256))
    (p + 3) (val / 16777216 % 256)

/-- Load of one byte (`char`). -/
def load8 (h : Heap) (p : Nat) : Except Err Nat :=
  if h.mem_start_brk ≤ p ∧ p < h.mem_brk then .ok (h.mem p % 256)
  else .error .fault

/-- Store of one byte (`char`). -/
def store8 (h : Heap) (p v : Nat) : Except Err Heap :=
  if h.mem_start_brk ≤ p ∧ p < h.mem_brk then
    .ok { h with mem := setByte h.mem p (v % 256) }
  else .error .fault

/-- Source `GET(p)`: `*(unsigned int *)(p)`. -/
def GET (h : Heap) (p : Nat) : Except Err Nat :=
  if h.mem_start_brk ≤ p ∧ p + 4 ≤ h.mem_brk then
    .ok (h.mem p % 256 + 256 * (h.mem (p + 1) % 256)
          + 65536 * (h.mem (p + 2) % 256) + 16777216 * (h.mem (p + 3) % 256))
  else .error .fault

/-- Source `PUT(p, val)`: `*(unsigned int *)(p) = (val)`. -/
def PUT (h : Heap) (p val : Nat) : Except Err Heap :=
  if h.mem_start_brk ≤ p ∧ p + 4 ≤ h.mem_brk then
    .ok { h with mem := setWord h.mem p val }
  else .error .fault

/-- Source `memcpy(dst, src, n)` as a forward byte copy. -/
def memcpy : Nat → Heap → Nat → Nat → Except Err Heap
  | 0, h, _, _ => .ok h
  | n + 1, h, dst, src => do
    let b ← load8 h src
    let h1 ← store8 h dst b
    memcpy n h1 (dst + 1) (src + 1)

/-- Stores a list of bytes at consecutive addresses (the caller writing into a
payload). -/
def storeBytes : List Nat → Heap → Nat → Except Err Heap
  | [], h, _ => .ok h
  | b :: bs, h, p => do
    let h1 ← store8 h p b
    storeBytes bs h1 (p + 1)

/-! ## Constants and macros shared by the three allocators -/

def WSIZE : Nat := 4
def DSIZE : Nat := 8
def CHUNKSIZE : Nat := 4096

/-- Source `ALIGN(size)`: `(((size) + (ALIGNMENT-1)) & ~0x7)` on `size_t`. -/
def ALIGN (size : Nat) : Nat := (add32 size 7) &&& 4294967288

/-- Source `MAX(x, y)`. -/
def MAX (x y : Nat) : Nat := if x > y then x else y

/-- Source `PACK(size, alloc)`. -/
def PACK (size alloc : Nat) : Nat := size ||| alloc

/-- Source `GET_SIZE(p)`: `GET(p) & ~0x7`. -/
def GET_SIZE (h : Heap) (p : Nat) : Except Err Nat := do
  let w ← GET h p
  pure (w &&& 4294967288)

/-- Source `GET_ALLOC(p)`: `GET(p) & 0x1`. -/
def GET_ALLOC (h : Heap) (p : Nat) : Except Err Nat := do
  let w ← GET h p
  pure (w &&& 1)

/-- Source `HDRP(bp)`. -/
def HDRP (bp : Nat) : Nat := sub32 bp WSIZE

/-- Source `FTRP(bp)`. -/
def FTRP (h : Heap) (bp : Nat) : Except Err Nat := do
  let s ← GET_SIZE h (HDRP bp)
  pure (sub32 (add32 bp s) DSIZE)

/-- Source `NEXT_BLKP(bp)`. -/
def NEXT_BLKP (h : Heap) (bp : Nat) : Except Err Nat := do
  let s ← GET_SIZE h (HDRP bp)
  pure (add32 bp s)

/-- The byte count requested by `extend_heap(words)`:
`(words % 2) ? (words + 1) * WSIZE : words * WSIZE`. -/
def extend_size (words : Nat) : Nat :=
  if words % 2 ≠ 0 then mul32 (add32 words 1) WSIZE else mul32 words WSIZE

/-- Source `PREV_BLKP(bp)`. -/
def PREV_BLKP (h : Heap) (bp : Nat) : Except Err Nat := do
  let s ← GET_SIZE h (sub32 bp DSIZE)
  pure (sub32 bp s)

/-! ## mm_segregated_list.c -/

namespace Seg

def MINBLOCKSIZE : Nat := 16

/-- Source `FDP(bp)`: `*(char **)(bp)`. -/
def FDP (h : Heap) (bp : Nat) : Except Err Nat := GET h bp

/-- Source `BKP(bp)`: `*(char **)(bp + WSIZE)`. -/
def BKP (h : Heap) (bp : Nat) : Except Err Nat := GET h (add32 bp WSIZE)

/-- Source `SET_FDP(bp, fdp)`. -/
def SET_FDP (h : Heap) (bp fdp : Nat) : Except Err Heap := PUT h bp fdp

/-- Source `SET_BKP(bp, bkp)`. -/
def SET_BKP (h : Heap) (bp bkp : Nat) : Except Err Heap := PUT h (add32 bp WSIZE) bkp

/-- Source `LIST_OFFSET(size)`. -/
def LIST_OFFSET (size : Nat) : Nat :=
  if size ≤ 16 then 0
  else if size ≤ 32 then 1
  else if size ≤ 64 then 2
  else if size ≤ 128 then 3
  else if size ≤ 256 then 4
  else if size ≤ 512 then 5
  else if size ≤ 1024 then 6
  else if size ≤ 2048 then 7
  else if size ≤ 4096 then 8
  else 9

/-- Source `insert(bp)`: push `bp` onto the head of the list of its size class. -/
def insert (h : Heap) (bp : Nat) : Except Err Heap := do
  let sz ← GET_SIZE h (HDRP bp)
  let ptr_to_freelist_headp := add32 h.seglist_start (LIST_OFFSET sz * WSIZE)
  let head ← GET h ptr_to_freelist_headp
  let h := { h with freelist_headp := head }
  if head = NULL then
    let h ← SET_FDP h bp NULL
    let h ← SET_BKP h bp NULL
    PUT h ptr_to_freelist_headp bp
  else
    let h ← SET_FDP h bp head
    let h ← SET_BKP h bp 0
    let h ← SET_BKP h head bp
    PUT h ptr_to_freelist_headp bp

/-- Source `delete(bp)`: unlink `bp` from the list of its size class.  Every use of
the macros `FDP`/`BKP` is a fresh load, in the order of the C statements. -/
def delete (h : Heap) (bp : Nat) : Except Err Heap := do
  let sz ← GET_SIZE h (HDRP bp)
  let ptr_to_freelist_headp := add32 h.seglist_start (LIST_OFFSET sz * WSIZE)
  let bk ← BKP h bp
  if bk = NULL then
    let fd ← FDP h bp
    if fd = NULL then
      PUT h ptr_to_freelist_headp NULL
    else
      let h ← SET_BKP h fd NULL
      let fd1 ← FDP h bp
      PUT h ptr_to_freelist_headp fd1
  else
    let fd ← FDP h bp
    if fd = NULL then
      SET_FDP h bk NULL
    else
      let h ← SET_FDP h bk fd
      let fd1 ← FDP h bp
      let bk1 ← BKP h bp
      SET_BKP h fd1 bk1

/-- Source `coalesce(bp)`: merge the freed block with its free neighbours and insert
the result; returns the payload pointer of the merged block. -/
def coalesce (h : Heap) (bp : Nat) : Except Err (Nat × Heap) := do
  let prev_bp ← PREV_BLKP h bp
  let next_bp ← NEXT_BLKP h bp
  let prev_alloc ← GET_ALLOC h (← FTRP h prev_bp)
  let next_alloc ← GET_ALLOC h (HDRP next_bp)
  let current_size ← GET_SIZE h (HDRP bp)
  if prev_alloc ≠ 0 ∧ next_alloc ≠ 0 then
    let h ← insert h bp
    pure (bp, h)
  else if prev_alloc = 0 ∧ next_alloc ≠ 0 then
    let current_size := add32 current_size (← GET_SIZE h (HDRP prev_bp))
    let h ← delete h prev_bp
    let h ← PUT h (HDRP prev_bp) (PACK current_size 0)
    let h ← PUT h (← FTRP h bp) (PACK current_size 0)
    let h ← insert h prev_bp
    pure (prev_bp, h)
  else if prev_alloc ≠ 0 ∧ next_alloc = 0 then
    let current_size := add32 current_size (← GET_SIZE h (HDRP next_bp))
    let h ← delete h next_bp
    let h ← PUT h (HDRP bp) (PACK current_size 0)
    let h ← PUT h (← FTRP h bp) (PACK current_size 0)
    let h ← insert h bp
    pure (bp, h)
  else
    let current_size := add32 current_size (← GET_SIZE h (HDRP prev_bp))
    let current_size := add32 current_size (← GET_SIZE h (← FTRP h next_bp))
    let h ← delete h prev_bp
    let h ← delete h next_bp
    let h ← PUT h (HDRP prev_bp) (PACK current_size 0)
    let h ← PUT h (← FTRP h next_bp) (PACK current_size 0)
    let h ← insert h prev_bp
    pure (prev_bp, h)

/-- Source `extend_heap(words)`: grow the arena by an even number of words and turn
the new extent into a free block; `NULL` when the growth fails. -/
def extend_heap (h : Heap) (words : Nat) : Except Err (Nat × Heap) :=
  let size := extend_size words
  match mem_sbrk h size with
  | none => pure (NULL, h)
  | some (bp, h) => do
    let h ← PUT h (HDRP bp) (PACK size 0)
    let h ← PUT h (← FTRP h bp) (PACK size 0)
    let h ← PUT h (HDRP (← NEXT_BLKP h bp)) (PACK 0 1)
    coalesce h bp

/-- The inner loop of `find_fit`: first entry of the list starting at
`current` whose size is at least `asize`, or `NULL`. -/
def find_fit_list (h : Heap) (asize : Nat) : Nat → Nat → Except Err Nat
  | 0, current => if current = NULL then pure NULL else throw Err.diverge
  | fuel + 1, current =>
    if current = NULL then pure NULL
    else do
      let sz ← GET_SIZE h (HDRP current)
      if sz ≥ asize then pure current
      else do
        let next ← FDP h current
        find_fit_list h asize fuel next

/-- The outer loop of `find_fit`, with `k` buckets left to visit, starting
at bucket `i`. -/
def find_fit_from (fuel asize : Nat) : Nat → Nat → Heap → Except Err (Nat × Heap)
  | 0, _, h => pure (NULL, h)
  | k + 1, i, h => do
    let head ← GET h (add32 h.seglist_start (i * WSIZE))
    let h := { h with freelist_headp := head }
    let r ← find_fit_list h asize fuel head
    if r ≠ NULL then pure (r, h)
    else find_fit_from fuel asize k (i + 1) h

/-- Source `find_fit(asize)`: scan the ten buckets from bucket 0 upward. -/
def find_fit (fuel : Nat) (h : Heap) (asize : Nat) : Except Err (Nat × Heap) :=
  find_fit_from fuel asize 10 0 h

/-- Source `place(bp, asize)`: take `bp` out of its list, split it when the rest is
at least a minimum block. -/
def place (h : Heap) (bp asize : Nat) : Except Err Heap := do
  let h ← delete h bp
  let size ← GET_SIZE h (HDRP bp)
  if sub32 size asize ≥ MINBLOCKSIZE then
    let h ← PUT h (HDRP bp) (PACK asize 1)
    let h ← PUT h (← FTRP h bp) (PACK asize 1)
    let h ← PUT h (HDRP (← NEXT_BLKP h bp)) (PACK (sub32 size asize) 0)
    let h ← PUT h (← FTRP h (← NEXT_BLKP h bp)) (PACK (sub32 size asize) 0)
    let r ← coalesce h (← NEXT_BLKP h bp)
    pure r.2
  else
    let h ← PUT h (HDRP bp) (PACK size 1)
    PUT h (← FTRP h bp) (PACK size 1)

/-- The adjusted block size computed by `mm_malloc`. -/
def adjust (size : Nat) : Nat :=
  if size < DSIZE then 2 * DSIZE else ALIGN (add32 size 8)

/-- Source `mm_init()`: returns `-1` or `0`. -/
def mm_init (h : Heap) : Except Err (Int × Heap) :=
  match mem_sbrk h (14 * WSIZE) with
  | none => pure (-1, { h with heap_listp := U32 - 1 })
  | some (p, h) => do
    let h := { h with heap_listp := p }
    let h ← PUT h h.heap_listp 0
    let h ← PUT h (add32 h.heap_listp (1 * WSIZE)) 0
    let h ← PUT h (add32 h.heap_listp (2 * WSIZE)) 0
    let h ← PUT h (add32 h.heap_listp (3 * WSIZE)) 0
    let h ← PUT h (add32 h.heap_listp (4 * WSIZE)) 0
    let h ← PUT h (add32 h.heap_listp (5 * WSIZE)) 0
    let h ← PUT h (add32 h.heap_listp (6 * WSIZE)) 0
    let h ← PUT h (add32 h.heap_listp (7 * WSIZE)) 0
    let h ← PUT h (add32 h.heap_listp (8 * WSIZE)) 0
    let h ← PUT h (add32 h.heap_listp (9 * WSIZE)) 0
    let h ← PUT h (add32 h.heap_listp (10 * WSIZE)) 0
    let h ← PUT h (add32 h.heap_listp (11 * WSIZE)) (PACK DSIZE 1)
    let h ← PUT h (add32 h.heap_listp (12 * WSIZE)) (PACK DSIZE 1)
    let h ← PUT h (add32 h.heap_listp (13 * WSIZE)) (PACK 0 1)
    let h := { h with seglist_start := add32 h.heap_listp WSIZE }
    let r ← extend_heap h (CHUNKSIZE / WSIZE)
    if r.1 = NULL then pure (-1, r.2) else pure (0, r.2)

/-- Source `mm_malloc(size)`: returns the payload pointer or `NULL`. -/
def mm_malloc (fuel : Nat) (h : Heap) (size : Nat) : Except Err (Nat × Heap) :=
  if size = 0 then pure (NULL, h)
  else do
    let asize := adjust size
    let r ← find_fit fuel h asize
    if r.1 ≠ NULL then
      let h ← place r.2 r.1 asize
      pure (r.1, h)
    else
      let extendsize := MAX asize CHUNKSIZE
      let e ← extend_heap r.2 (extendsize / WSIZE)
      if e.1 = NULL then pure (NULL, e.2)
      else
        let h ← place e.2 e.1 asize
        pure (e.1, h)

/-- Source `mm_free(bp)`. -/
def mm_free (h : Heap) (bp : Nat) : Except Err Heap := do
  let h ← PUT h (HDRP bp) (PACK (← GET_SIZE h (HDRP bp)) 0)
  let h ← PUT h (← FTRP h bp) (PACK (← GET_SIZE h (HDRP bp)) 0)
  let r ← coalesce h bp
  pure r.2

/-- Source `mm_realloc(ptr, size)`. -/
def mm_realloc (fuel : Nat) (h : Heap) (ptr size : Nat) : Except Err (Nat × Heap) := do
  let oldptr := ptr
  let r ← mm_malloc fuel h size
  let newptr := r.1
  let h := r.2
  if newptr = NULL then pure (NULL, h)
  else
    let size ← GET_SIZE h (HDRP oldptr)
    let copySize ← GET_SIZE h (HDRP newptr)
    let copySize := if size < copySize then size else copySize
    let h ← memcpy (sub32 copySize WSIZE) h newptr oldptr
    let h ← mm_free h oldptr
    pure (newptr, h)

/-! ### Call sequences of a client -/

/-- One step of a client of the allocator. -/
inductive Op where
  | malloc (size : Nat)
  | free (ptr : Nat)
  | realloc (ptr size : Nat)
  | store (ptr off : Nat) (bytes : List Nat)

/-- Allocator state together with the client's view: the live allocations
(pointer, requested size), most recent first, and the pointers returned so
far, most recent first. -/
structure Run where
  heap : Heap
  live : List (Nat × Nat)
  out : List Nat

/-- Removes the first live allocation whose pointer is `p`. -/
def unlive (p : Nat) : List (Nat × Nat) → List (Nat × Nat)
  | [] => []
  | a :: l => if a.1 = p then l else a :: unlive p l

/-- Source `p` is a live pointer. -/
def isLive (p : Nat) (live : List (Nat × Nat)) : Bool :=
  live.any (fun a => a.1 == p)

/-- The bytes `[p + off, p + off + len)` lie in a live allocation at `p`. -/
def inLive (p off len : Nat) (live : List (Nat × Nat)) : Bool :=
  live.any (fun a => a.1 == p && decide (off + len ≤ a.2))

/-- Executes one client step; a step that breaks the preconditions (free or
realloc of a pointer that is not live, a store outside a live payload) is
`Err.misuse`. -/
def step (fuel : Nat) (r : Run) : Op → Except Err Run
  | .malloc size => do
    let x ← mm_malloc fuel r.heap size
    pure { heap := x.2
           live := if x.1 = NULL then r.live else (x.1, size) :: r.live
           out := x.1 :: r.out }
  | .free ptr =>
    if isLive ptr r.live then do
      let h ← mm_free r.heap ptr
      pure { heap := h, live := unlive ptr r.live, out := r.out }
    else throw Err.misuse
  | .realloc ptr size =>
    if isLive ptr r.live then do
      let x ← mm_realloc fuel r.heap ptr size
      pure { heap := x.2
             live := if x.1 = NULL then (if size = 0 then unlive ptr r.live else r.live)
                     else (x.1, size) :: unlive ptr r.live
             out := x.1 :: r.out }
    else throw Err.misuse
  | .store ptr off bytes =>
    if inLive ptr off bytes.length r.live then do
      let h ← storeBytes bytes r.heap (ptr + off)
      pure { heap := h, live := r.live, out := r.out }
    else throw Err.misuse

/-- Executes a sequence of client steps. -/
def steps (fuel : Nat) : Run → List Op → Except Err Run
  | r, [] => pure r
  | r, op :: ops => do
    let r1 ← step fuel r op
    steps fuel r1 ops

/-- A successful `mm_init` on a fresh simulated heap. -/
def boot (base cap : Nat) : Except Err Run := do
  let x ← mm_init (mem_init base cap)
  if x.1 = 0 then pure { heap := x.2, live := [], out := [] }
  else throw Err.misuse

/-- The state after a successful `mm_init` followed by the client steps
`ops`. -/
def run (fuel base cap : Nat) (ops : List Op) : Except Err Run := do
  let r ← boot base cap
  steps fuel r ops

/-! ### Observations on a heap state -/

/-- The block traversal of `mm_checkheap`: starting at the header `header`,
follow the header sizes until a header of size 0; yields (header address,
size, allocated bit) of every block passed. -/
def heapWalk (h : Heap) : Nat → Nat → Except Err (List (Nat × Nat × Nat))
  | 0, _ => throw Err.diverge
  | fuel + 1, header => do
    let sz ← GET_SIZE h header
    if sz = 0 then pure []
    else do
      let a ← GET_ALLOC h header
      let rest ← heapWalk h fuel (add32 header sz)
      pure ((header, sz, a) :: rest)

/-- The blocks between the prologue and the epilogue, as `mm_checkheap`
visits them (`header_start + DSIZE` with `header_start = heap_listp + 11 * WSIZE`). -/
def blocks (fuel : Nat) (h : Heap) : Except Err (List (Nat × Nat × Nat)) :=
  heapWalk h fuel (add32 (add32 h.heap_listp (11 * WSIZE)) DSIZE)

/-- Some block of the walk and its successor are both free. -/
def adjacentFree : List (Nat × Nat × Nat) → Bool
  | a :: b :: l => (a.2.2 == 0 && b.2.2 == 0) || adjacentFree (b :: l)
  | _ => false

/-- Payload pointers of the free blocks of a walk. -/
def freePayloads (l : List (Nat × Nat × Nat)) : List Nat :=
  (l.filter (fun b => b.2.2 == 0)).map (fun b => add32 b.1 WSIZE)

/-- The entries of a free list from `current` on, following `FDP`. -/
def listFrom (h : Heap) : Nat → Nat → Except Err (List Nat)
  | 0, current => if current = NULL then pure [] else throw Err.diverge
  | fuel + 1, current =>
    if current = NULL then pure []
    else do
      let next ← FDP h current
      let rest ← listFrom h fuel next
      pure (current :: rest)

/-- The entries of bucket `i`. -/
def bucket (fuel : Nat) (h : Heap) (i : Nat) : Except Err (List Nat) := do
  let head ← GET h (add32 h.seglist_start (i * WSIZE))
  listFrom h fuel head

/-- The entries of the ten buckets, bucket 0 first. -/
def buckets (fuel : Nat) (h : Heap) : Except Err (List (List Nat)) :=
  (List.range 10).mapM (bucket fuel h)

/-- The `n` bytes stored at `[p, p + n)`. -/
def bytesAt (h : Heap) (p n : Nat) : List Nat :=
  (List.range n).map (fun i => h.mem (p + i) % 256)

/-- The byte ranges `[p, p + n)` of the live allocations are pairwise
disjoint. -/
def liveDisjoint : List (Nat × Nat) → Bool
  | [] => true
  | a :: l => l.all (fun b => decide (a.1 + a.2 ≤ b.1 ∨ b.1 + b.2 ≤ a.1)) && liveDisjoint l

/-! ### Client call sequences used below

All of them start from `mm_init` on a simulated heap whose first byte has
address 1000.  After `mm_init` the first payload pointer is 1056. -/

/-- Source `x = malloc(8)` (1056), `p = malloc(24)` (1072), `b = malloc(24)` (1104);
the client zeroes the first twelve bytes of `p`, frees `x` and shrinks `p`
with `realloc(p, 8)`. -/
def traceSelfMerge : List Op :=
  [.malloc 8, .malloc 24, .malloc 24,
   .store 1072 0 [0, 0, 0, 0, 0, 0, 0, 0, 0, 0, 0, 0],
   .free 1056, .realloc 1072 8]

/-- Source `x = malloc(8)` (1056), `p = malloc(24)` (1072); the client stores the
words 1084, 0, 16, 0, 0 into `p`, frees `x` and shrinks `p` with
`realloc(p, 8)`. -/
def traceForgedLink : List Op :=
  [.malloc 8, .malloc 24,
   .store 1072 0 [60, 4, 0, 0, 0, 0, 0, 0, 16, 0, 0, 0, 0, 0, 0, 0, 0, 0, 0, 0],
   .free 1056, .realloc 1072 8]

/-- Source `x = malloc(8)` (1056), `p = malloc(24)` (1072), `b = malloc(24)` (1104);
the client fills the first eight bytes of `b` with ones, stores the words
1104, 0, 16 into `p` and frees `x`. -/
def traceWildStore : List Op :=
  [.malloc 8, .malloc 24, .malloc 24,
   .store 1104 0 [1, 1, 1, 1, 1, 1, 1, 1],
   .store 1072 0 [80, 4, 0, 0, 0, 0, 0, 0, 16, 0, 0, 0],
   .free 1056]

/-- Source `f = malloc(8)` (1056), `g = malloc(100)` (1072), `free(f)`, then a
request of `2^32 - 8` bytes. -/
def traceWrap : List Op :=
  [.malloc 8, .malloc 100, .free 1056, .malloc 4294967288]

/-- The heap right after `mm_init` when the simulated heap has room for
exactly the initial arena (56 + 4096 bytes). -/
def fullHeap : Heap :=
  match boot 1000 4152 with
  | .ok r => r.heap
  | .error _ => mem_init 0 0

/-- The arena and the allocator's persistent variables of two states agree
(`freelist_headp` is a scratch variable that `find_fit` and `insert`
overwrite before use). -/
def sameArena (a b : Heap) : Prop :=
  a.mem = b.mem ∧ a.mem_start_brk = b.mem_start_brk ∧ a.mem_brk = b.mem_brk
    ∧ a.mem_max_addr = b.mem_max_addr ∧ a.heap_listp = b.heap_listp
    ∧ a.seglist_start = b.seglist_start ∧ a.prev_listp = b.prev_listp

end Seg

/-! ## mm.c (explicit free list) -/

namespace Mm

def MINBLOCKSIZE : Nat := 16

/-- Source `FDP(bp)`: `*(char **)(bp + WSIZE)`. -/
def FDP (h : Heap) (bp : Nat) : Except Err Nat := GET h (add32 bp WSIZE)

/-- Source `BKP(bp)`: `*(char **)(bp)`. -/
def BKP (h : Heap) (bp : Nat) : Except Err Nat := GET h bp

/-- Source `SET_BKP(bp, bkp)`. -/
def SET_BKP (h : Heap) (bp bkp : Nat) : Except Err Heap := PUT h bp bkp

/-- Source `SET_FDP(bp, fdp)`. -/
def SET_FDP (h : Heap) (bp fdp : Nat) : Except Err Heap := PUT h (add32 bp WSIZE) fdp

/-- Source `insert(bp)`: push `bp` onto the head of the free list. -/
def insert (h : Heap) (bp : Nat) : Except Err Heap := do
  if h.freelist_headp = NULL then
    let h := { h with freelist_headp := bp }
    let h ← SET_FDP h bp NULL
    SET_BKP h bp NULL
  else
    let h ← SET_FDP h bp h.freelist_headp
    let h ← SET_BKP h bp 0
    let h ← SET_BKP h h.freelist_headp bp
    pure { h with freelist_headp := bp }

/-- Source `delete(bp)`: unlink `bp` from the free list. -/
def delete (h : Heap) (bp : Nat) : Except Err Heap := do
  let bk ← BKP h bp
  if bk = NULL then
    let fd ← FDP h bp
    if fd = NULL then
      pure { h with freelist_headp := NULL }
    else
      let h ← SET_BKP h fd NULL
      let fd1 ← FDP h bp
      pure { h with freelist_headp := fd1 }
  else
    let fd ← FDP h bp
    if fd = NULL then
      SET_FDP h bk NULL
    else
      let h ← SET_FDP h bk fd
      let fd1 ← FDP h bp
      let bk1 ← BKP h bp
      SET_BKP h fd1 bk1

/-- Source `coalesce(bp)`. -/
def coalesce (h : Heap) (bp : Nat) : Except Err (Nat × Heap) := do
  let prev_bp ← PREV_BLKP h bp
  let next_bp ← NEXT_BLKP h bp
  let prev_alloc ← GET_ALLOC h (← FTRP h prev_bp)
  let next_alloc ← GET_ALLOC h (HDRP next_bp)
  let current_size ← GET_SIZE h (HDRP bp)
  if prev_alloc ≠ 0 ∧ next_alloc ≠ 0 then
    let h ← insert h bp
    pure (bp, h)
  else if prev_alloc = 0 ∧ next_alloc ≠ 0 then
    let current_size := add32 current_size (← GET_SIZE h (HDRP prev_bp))
    let h ← PUT h (HDRP prev_bp) (PACK current_size 0)
    let h ← PUT h (← FTRP h bp) (PACK current_size 0)
    pure (prev_bp, h)
  else if prev_alloc ≠ 0 ∧ next_alloc = 0 then
    let h ← delete h next_bp
    let current_size := add32 current_size (← GET_SIZE h (HDRP next_bp))
    let h ← PUT h (HDRP bp) (PACK current_size 0)
    let h ← PUT h (← FTRP h bp) (PACK current_size 0)
    let h ← insert h bp
    pure (bp, h)
  else
    let h ← delete h next_bp
    let current_size := add32 current_size (← GET_SIZE h (HDRP prev_bp))
    let current_size := add32 current_size (← GET_SIZE h (← FTRP h next_bp))
    let h ← PUT h (HDRP prev_bp) (PACK current_size 0)
    let h ← PUT h (← FTRP h next_bp) (PACK current_size 0)
    pure (prev_bp, h)

/-- Source `extend_heap(words)`. -/
def extend_heap (h : Heap) (words : Nat) : Except Err (Nat × Heap) :=
  let size := extend_size words
  match mem_sbrk h size with
  | none => pure (NULL, h)
  | some (bp, h) => do
    let h ← PUT h (HDRP bp) (PACK size 0)
    let h ← PUT h (← FTRP h bp) (PACK size 0)
    let h ← PUT h (HDRP (← NEXT_BLKP h bp)) (PACK 0 1)
    coalesce h bp

/-- Source `find_fit(asize)`: first entry of the free list whose size is at least
`asize`, or `NULL`; the walk starts at `current`. -/
def find_fit_list (h : Heap) (asize : Nat) : Nat → Nat → Except Err Nat
  | 0, current => if current = NULL then pure NULL else throw Err.diverge
  | fuel + 1, current =>
    if current = NULL then pure NULL
    else do
      let sz ← GET_SIZE h (HDRP current)
      if sz ≥ asize then pure current
      else do
        let next ← FDP h current
        find_fit_list h asize fuel next

/-- Source `find_fit(asize)`. -/
def find_fit (fuel : Nat) (h : Heap) (asize : Nat) : Except Err Nat :=
  find_fit_list h asize fuel h.freelist_headp

/-- Source `place(bp, asize)`. -/
def place (h : Heap) (bp asize : Nat) : Except Err Heap := do
  let h ← delete h bp
  let size ← GET_SIZE h (HDRP bp)
  if sub32 size asize ≥ MINBLOCKSIZE then
    let h ← PUT h (HDRP bp) (PACK asize 1)
    let h ← PUT h (← FTRP h bp) (PACK asize 1)
    let h ← PUT h (HDRP (← NEXT_BLKP h bp)) (PACK (sub32 size asize) 0)
    let h ← PUT h (← FTRP h (← NEXT_BLKP h bp)) (PACK (sub32 size asize) 0)
    let r ← coalesce h (← NEXT_BLKP h bp)
    pure r.2
  else
    let h ← PUT h (HDRP bp) (PACK size 1)
    PUT h (← FTRP h bp) (PACK size 1)

/-- The adjusted block size computed by `mm_malloc`. -/
def adjust (size : Nat) : Nat :=
  if size < DSIZE then 2 * DSIZE else ALIGN (add32 size 8)

/-- Source `mm_init()`: returns `-1` or `0`. -/
def mm_init (h : Heap) : Except Err (Int × Heap) :=
  match mem_sbrk h (4 * WSIZE) with
  | none => pure (-1, { h with heap_listp := U32 - 1 })
  | some (p, h) => do
    let h := { h with heap_listp := p }
    let h ← PUT h h.heap_listp 0
    let h ← PUT h (add32 h.heap_listp (1 * WSIZE)) (PACK DSIZE 1)
    let h ← PUT h (add32 h.heap_listp (2 * WSIZE)) (PACK DSIZE 1)
    let h ← PUT h (add32 h.heap_listp (3 * WSIZE)) (PACK 0 1)
    let h := { h with freelist_headp := NULL }
    let r ← extend_heap h (CHUNKSIZE / WSIZE)
    if r.1 = NULL then pure (-1, r.2) else pure (0, r.2)

/-- Source `mm_malloc(size)`. -/
def mm_malloc (fuel : Nat) (h : Heap) (size : Nat) : Except Err (Nat × Heap) :=
  if size = 0 then pure (NULL, h)
  else do
    let asize := adjust size
    let bp ← find_fit fuel h asize
    if bp ≠ NULL then
      let h ← place h bp asize
      pure (bp, h)
    else
      let extendsize := MAX asize CHUNKSIZE
      let e ← extend_heap h (extendsize / WSIZE)
      if e.1 = NULL then pure (NULL, e.2)
      else
        let h ← place e.2 e.1 asize
        pure (e.1, h)

/-- Source `mm_free(bp)`. -/
def mm_free (h : Heap) (bp : Nat) : Except Err Heap := do
  let h ← PUT h (HDRP bp) (PACK (← GET_SIZE h (HDRP bp)) 0)
  let h ← PUT h (← FTRP h bp) (PACK (← GET_SIZE h (HDRP bp)) 0)
  let r ← coalesce h bp
  pure r.2

/-- Source `mm_realloc(ptr, size)`. -/
def mm_realloc (fuel : Nat) (h : Heap) (ptr size : Nat) : Except Err (Nat × Heap) := do
  let oldptr := ptr
  let r ← mm_malloc fuel h size
  let newptr := r.1
  let h := r.2
  if newptr = NULL then pure (NULL, h)
  else
    let size ← GET_SIZE h (HDRP oldptr)
    let copySize ← GET_SIZE h (HDRP newptr)
    let copySize := if size < copySize then size else copySize
    let h ← memcpy (sub32 copySize WSIZE) h newptr oldptr
    let h ← mm_free h oldptr
    pure (newptr, h)

/-- The heap after a successful `mm_init` on a fresh simulated heap. -/
def boot (base cap : Nat) : Except Err Heap := do
  let x ← mm_init (mem_init base cap)
  if x.1 = 0 then pure x.2 else throw Err.misuse

end Mm

/-! ## Further definitions for mm_segregated_list.c -/

namespace Seg

/-- First fit within one bucket, as the specification words it: the first list
entry whose size is at least `min_size`. -/
def first_fit (sz : Nat → Nat) (min_size : Nat) (l : List Nat) : Option Nat :=
  l.find? (fun x => decide (min_size ≤ sz x))

/-- The scan over `k` buckets from bucket `i` upward: the first fit of the
lowest bucket that has one. -/
def scan_buckets (L : Nat → List Nat) (sz : Nat → Nat) (min_size : Nat) :
    Nat → Nat → Option Nat
  | 0, _ => none
  | k + 1, i =>
    match first_fit sz min_size (L i) with
    | some x => some x
    | none => scan_buckets L sz min_size k (i + 1)

/-- The search as the specification words it, on bucket lists `L` of blocks
with sizes `sz`: scan the buckets from the smallest bucket whose range can
contain `min_size` (the bucket `LIST_OFFSET min_size`) upward to the last
bucket 9; within a bucket, first fit; none when no bucket has a fit.  It is
written on the lists alone and shares nothing with the loops of `find_fit`. -/
def find_fit_spec (L : Nat → List Nat) (sz : Nat → Nat) (min_size : Nat) : Option Nat :=
  scan_buckets L sz min_size (10 - LIST_OFFSET min_size) (LIST_OFFSET min_size)

/-- The address at which the block traversal of `mm_checkheap` stops: the
first header of size 0 met when following the header sizes from `header`. -/
def walkEnd (h : Heap) : Nat → Nat → Except Err Nat
  | 0, _ => throw Err.diverge
  | fuel + 1, header => do
    let sz ← GET_SIZE h header
    if sz = 0 then pure header
    else walkEnd h fuel (add32 header sz)

/-- The heap of a run (an empty heap when the run failed). -/
def heapOf (r : Except Err Run) : Heap :=
  match r with
  | .ok r => r.heap
  | .error _ => mem_init 0 0

/-- `x = malloc(40)` (1056), `y = malloc(8)` (1104), `p = malloc(24)` (1120),
`g = malloc(8)` (1152); the client stores the words 64, 0 at `p + 8`, frees
`y`, shrinks `p` with `realloc(p, 8)` (which returns 1104), frees `x`,
allocates 24 bytes again (1120) and frees them. -/
def traceStaleFooter : List Op :=
  [.malloc 40, .malloc 8, .malloc 24, .malloc 8,
   .store 1120 8 [64, 0, 0, 0, 0, 0, 0, 0],
   .free 1104, .realloc 1120 8, .free 1056, .malloc 24, .free 1120]

/-- A heap with several listed blocks: six allocations at 1056, 1072, 1088,
1104, 1120 (32 bytes) and 1152, of which 1056, 1088 and 1120 were freed in
this order. -/
def sampleHeap : Heap :=
  heapOf (run 64 1000 20971520
    [.malloc 8, .malloc 8, .malloc 8, .malloc 8, .malloc 24, .malloc 8,
     .free 1056, .free 1088, .free 1120])

/-- The bucket lists of `sampleHeap`. -/
def sampleLists (i : Nat) : List Nat :=
  if i = 0 then [1088, 1056] else if i = 1 then [1120] else if i = 8 then [1168] else []

/-- The block sizes of the listed blocks of `sampleHeap`. -/
def sampleSize (x : Nat) : Nat :=
  if x = 1120 then 32 else if x = 1168 then 3984 else 16

/-- The heap after `mm_init` and `malloc(8)` when the simulated heap has room
for exactly the initial arena. -/
def busyHeap : Heap := heapOf (run 64 1000 4152 [.malloc 8])

end Seg

/-! ## Bucket lists as a predicate on states -/

namespace Seg

/-- The little-endian word stored at `p`. -/
def getw (m : Nat → Nat) (p : Nat) : Nat :=
  m p % 256 + 256 * (m (p + 1) % 256) + 65536 * (m (p + 2) % 256)
    + 16777216 * (m (p + 3) % 256)

/-- The nodes reached from `hd` by following the forward links up to `NULL`
are the list `l`, and every node's back link is its predecessor (`prev` for
the first node). -/
def Chain (m : Nat → Nat) : Nat → Nat → List Nat → Prop
  | _, hd, [] => hd = NULL
  | prev, hd, x :: l => hd = x ∧ x ≠ NULL ∧ getw m (x + 4) = prev ∧ Chain m x (getw m x) l

/-- Everything but the arena bytes and the scratch variable `freelist_headp`
agrees. -/
def sameBounds (a b : Heap) : Prop :=
  a.mem_start_brk = b.mem_start_brk ∧ a.mem_brk = b.mem_brk
    ∧ a.mem_max_addr = b.mem_max_addr ∧ a.heap_listp = b.heap_listp
    ∧ a.seglist_start = b.seglist_start ∧ a.prev_listp = b.prev_listp

/-- The ten bucket lists of the state `h` are the lists `L 0 .. L 9`: each is a
well-formed doubly linked list starting at its bucket head, the link fields
`[x, x + 8)` of the entries lie in the arena above the bucket heads, and the
link fields of different entries do not overlap. -/
structure Buckets (h : Heap) (L : Nat → List Nat) : Prop where
  lo : h.mem_start_brk ≤ h.seglist_start
  slots : h.seglist_start + 40 ≤ h.mem_brk
  hi : h.mem_brk < 4294967296
  chain : ∀ i, i < 10 → Chain h.mem NULL (getw h.mem (h.seglist_start + i * 4)) (L i)
  arena : ∀ i, i < 10 → ∀ x ∈ L i, h.seglist_start + 44 ≤ x ∧ x + 8 ≤ h.mem_brk
  sep : ∀ i j, i < 10 → j < 10 → ∀ x ∈ L i, ∀ y ∈ L j,
    (i = j ∧ x = y) ∨ x + 8 ≤ y ∨ y + 8 ≤ x
  nodup : ∀ i, i < 10 → (L i).Nodup

/-- The bucket lists `L` with `x` removed from bucket `k`. -/
def removeFrom (L : Nat → List Nat) (k x : Nat) : Nat → List Nat :=
  fun i => if i = k then (L i).erase x else L i

/-- The bucket lists `L` with `x` pushed onto the head of bucket `k`. -/
def pushOn (L : Nat → List Nat) (k x : Nat) : Nat → List Nat :=
  fun i => if i = k then x :: L i else L i

/-- A heap in which the block 1072 lies between two listed free blocks: four
allocations of 8 bytes at 1056, 1072, 1088 and 1104, of which 1056 and 1088
were freed, and the header and footer of 1072 already marked free (the two
stores of `mm_free` that precede its call of `coalesce`). -/
def mergeHeap : Heap :=
  match (do
    let h ← PUT (heapOf (run 64 1000 20971520
      [.malloc 8, .malloc 8, .malloc 8, .malloc 8, .free 1056, .free 1088])) 1068 16
    PUT h 1080 16 : Except Err Heap) with
  | .ok h => h
  | .error _ => mem_init 0 0

/-- The bucket lists of `mergeHeap`. -/
def mergeLists (i : Nat) : List Nat :=
  if i = 0 then [1088, 1056] else if i = 8 then [1120] else []

/-- `Chain` can be checked by following the list. -/
instance decChain (m : Nat → Nat) : ∀ (l : List Nat) (prev hd : Nat),
    Decidable (Chain m prev hd l)
  | [], _, hd => inferInstanceAs (Decidable (hd = NULL))
  | x :: l, prev, hd =>
    have : Decidable (Chain m x (getw m x) l) := decChain m l x (getw m x)
    inferInstanceAs (Decidable (hd = x ∧ x ≠ NULL ∧ getw m (x + 4) = prev ∧
      Chain m x (getw m x) l))

/-- The fields of `Buckets` as one decidable proposition. -/
def BucketsB (h : Heap) (L : Nat → List Nat) : Prop :=
  h.mem_start_brk ≤ h.seglist_start ∧ h.seglist_start + 40 ≤ h.mem_brk ∧
  h.mem_brk < 4294967296 ∧
  (∀ i, i < 10 → Chain h.mem NULL (getw h.mem (h.seglist_start + i * 4)) (L i)) ∧
  (∀ i, i < 10 → ∀ x ∈ L i, h.seglist_start + 44 ≤ x ∧ x + 8 ≤ h.mem_brk) ∧
  (∀ i, i < 10 → ∀ j, j < 10 → ∀ x ∈ L i, ∀ y ∈ L j,
    (i = j ∧ x = y) ∨ x + 8 ≤ y ∨ y + 8 ≤ x) ∧
  (∀ i, i < 10 → (L i).Nodup)

/-- `BucketsB` can be checked for concrete lists. -/
instance decBucketsB (h : Heap) (L : Nat → List Nat) : Decidable (BucketsB h L) := by
  unfold BucketsB
  infer_instance

/-- A heap with two listed free blocks: `malloc(8)` at 1056, `malloc(4000)` at
1072, then `free(1056)`; the free blocks are 1056 (16 bytes) and the
remainder 5080 (72 bytes) in front of the epilogue. -/
def placeHeap : Heap :=
  heapOf (run 64 1000 20971520 [.malloc 8, .malloc 4000, .free 1056])

/-- The bucket lists of `placeHeap`. -/
def placeLists (i : Nat) : List Nat :=
  if i = 0 then [1056] else if i = 3 then [5080] else []

/-- Source `p = malloc(24)` (1056); the client stores the bytes 1, 2, 3, 4 at
`p + 8` and shrinks `p` with `realloc(p, 8)`, which returns 1088. -/
def traceShrink : List Op :=
  [.malloc 24, .store 1056 8 [1, 2, 3, 4], .realloc 1056 8]

/-- Source `a = malloc(24)` (1056), `b = malloc(16)` (1088), `c = malloc(8)` (1112),
`d = malloc(8)` (1128), `e = malloc(100)` (1144, block size 112),
`g = malloc(8)` (1256); the client stores the words 16, 0, 0, 16 at `a + 4`,
frees `b`, calls `realloc(a, 16)` (which returns `q` = 1088), frees `c`, stores
the word 112 at `q + 4` and frees `e`, whose neighbours `d` and `g` are
allocated. -/
def traceLargerEntry : List Op :=
  [.malloc 24, .malloc 16, .malloc 8, .malloc 8, .malloc 100, .malloc 8,
   .store 1056 4 [16, 0, 0, 0, 0, 0, 0, 0, 0, 0, 0, 0, 16, 0, 0, 0],
   .free 1088, .realloc 1056 16, .free 1112,
   .store 1088 4 [112, 0, 0, 0],
   .free 1144]

/-- The inner loop of `check_freelist` from the entry `cur` on: the walk
aborts (`false`, the source calls `exit(1)`) when the successor of an entry
does not point back to it, and completes (`true`) at `NULL`. -/
def check_list (h : Heap) : Nat → Nat → Except Err Bool
  | 0, cur => if cur = NULL then pure true else throw Err.diverge
  | fuel + 1, cur =>
    if cur = NULL then pure true
    else do
      let next ← FDP h cur
      let _ ← GET_SIZE h (HDRP cur)
      if next ≠ NULL then
        let b ← BKP h next
        if b ≠ cur then pure false
        else check_list h fuel next
      else check_list h fuel next

/-- The outer loop of `check_freelist`, with `k` buckets left to visit,
starting at bucket `i`. -/
def check_freelist_from (fuel : Nat) : Nat → Nat → Heap → Except Err (Bool × Heap)
  | 0, _, h => pure (true, h)
  | k + 1, i, h => do
    let head ← GET h (add32 h.seglist_start (i * WSIZE))
    let h := { h with freelist_headp := head }
    if head ≠ NULL then
      let _ ← BKP h head
      let ok ← check_list h fuel head
      if ok then check_freelist_from fuel k (i + 1) h else pure (false, h)
    else check_freelist_from fuel k (i + 1) h

/-- Source `check_freelist()`; `false` stands for `exit(1)`. -/
def check_freelist (fuel : Nat) (h : Heap) : Except Err (Bool × Heap) :=
  check_freelist_from fuel 10 0 h

/-- The block traversal of `mm_checkheap` from the header `header` on;
`false` stands for `exit(1)`. -/
def check_walk (lfuel : Nat) (h : Heap) : Nat → Nat → Except Err Bool
  | 0, _ => throw Err.diverge
  | fuel + 1, header => do
    let sz ← GET_SIZE h header
    if sz = 0 then pure true
    else if (add32 header WSIZE) % 8 ≠ 0 then pure false
    else do
      let next := add32 header (← GET_SIZE h header)
      let a ← GET_ALLOC h header
      if a = 0 then
        let na ← GET_ALLOC h next
        if na = 0 then
          let _ ← check_freelist lfuel h
          pure false
        else check_walk lfuel h fuel next
      else check_walk lfuel h fuel next

/-- Source `mm_checkheap(verbose)`: `true` when the function returns, `false`
when it calls `exit(1)`. -/
def mm_checkheap (fuel : Nat) (h : Heap) : Except Err (Bool × Heap) := do
  let r ← check_freelist fuel h
  if r.1 = false then pure r
  else
    let h := r.2
    let header_start := add32 h.heap_listp (11 * WSIZE)
    let s1 ← GET_SIZE h header_start
    let bad1 ← (if s1 ≠ DSIZE then pure true
      else do let a1 ← GET_ALLOC h header_start; pure (decide (a1 ≠ 1)) : Except Err Bool)
    if bad1 then pure (false, h)
    else
      let s2 ← GET_SIZE h (add32 header_start WSIZE)
      let bad2 ← (if s2 ≠ DSIZE then pure true
        else do let a2 ← GET_ALLOC h (add32 header_start WSIZE); pure (decide (a2 ≠ 1))
          : Except Err Bool)
      if bad2 then pure (false, h)
      else
        let ok ← check_walk fuel h fuel (add32 header_start DSIZE)
        pure (ok, h)

/-- The heap after `mm_init` and `malloc(8)`: the allocated block 1056 and the
free remainder 1072 of 4080 bytes in front of the epilogue. -/
def growHeap : Heap := heapOf (run 64 1000 20971520 [.malloc 8])

/-- The bucket lists of `growHeap`. -/
def growLists (i : Nat) : List Nat := if i = 8 then [1072] else []

/-- The state in which the failed search for 5008 bytes leaves `growHeap`. -/
def growSearched : Heap :=
  match find_fit 64 growHeap (adjust 5000) with
  | .ok r => r.2
  | .error _ => growHeap

/-- A heap with a free-marked block of 8 bytes: `a = malloc(4294967295)`, whose
adjusted size wraps to 8 (block 1056), `b = malloc(8)` (block 1064), and the
header and footer of `a` marked free (the two stores of `mm_free(a)` that
precede its call of `coalesce`). -/
def tinyHeap : Heap :=
  match (do
    let h ← PUT (heapOf (run 64 1000 20971520 [.malloc 4294967295, .malloc 8])) 1052 8
    PUT h 1056 8 : Except Err Heap) with
  | .ok h => h
  | .error _ => mem_init 0 0

/-- The bucket lists of `tinyHeap`: the free remainder 1080 in bucket 8. -/
def tinyLists (i : Nat) : List Nat :=
  if i = 8 then [1080] else []

/-! ### The heap invariant of mm_segregated_list.c -/

/-- The block `b` = (size, allocated bit) at the payload address `p`: its size
is a multiple of 8 and at least 16, and its header and footer hold the size
and the allocated bit. -/
def Blk (m : Nat → Nat) (p : Nat) (b : Nat × Nat) : Prop :=
  b.1 % 8 = 0 ∧ 16 ≤ b.1 ∧ b.2 < 2 ∧ getw m (p - 4) = b.1 + b.2 ∧
  getw m (p + b.1 - 8) = b.1 + b.2

/-- The blocks `l` are laid out from the payload address `p` to the payload
address `q`; `a` is the allocated bit of the block in front of `p` and `c`
the allocated bit of the last block of `l`; no free block follows a free
block. -/
def Segm (m : Nat → Nat) : Nat → Nat → List (Nat × Nat) → Nat → Nat → Prop
  | p, a, [], q, c => p = q ∧ a = c
  | p, a, b :: l, q, c => Blk m p b ∧ (b.2 = 0 → a = 1) ∧ Segm m (p + b.1) b.2 l q c

/-- The number of bytes that the blocks `l` take. -/
def span : List (Nat × Nat) → Nat
  | [] => 0
  | b :: l => b.1 + span l

/-- The block of the layout `l`, laid out from `p`, whose payload address is
`x`. -/
def descr : Nat → List (Nat × Nat) → Nat → Option (Nat × Nat)
  | _, [], _ => none
  | p, b :: l, x => if x = p then some b else descr (p + b.1) l x

/-- The fixed part of the arena: the ten bucket heads follow the padding word,
the arena lies in the 32-bit address space, the prologue header and footer
hold `PACK(8, 1)` and the last word of the arena is the epilogue header
`PACK(0, 1)`. -/
structure SBase (h : Heap) : Prop where
  seg : h.seglist_start = h.heap_listp + 4
  top : h.mem_brk ≤ h.mem_max_addr
  max : h.mem_max_addr < 4294967296
  proh : getw h.mem (h.seglist_start + 40) = 9
  prof : getw h.mem (h.seglist_start + 44) = 9
  epi : getw h.mem (h.mem_brk - 4) = 1

/-- The heap invariant of the segregated-list allocator: the bucket lists are
`L`; the prologue and the epilogue are in place; behind the prologue the
blocks `l` fill the arena up to the epilogue header; no two free blocks are
adjacent; and the entries of bucket `i` are exactly the free blocks whose size
belongs to bucket `i`. -/
structure SInv (h : Heap) (l : List (Nat × Nat)) (L : Nat → List Nat) : Prop where
  lists : Buckets h L
  base : SBase h
  blocks : ∃ c, Segm h.mem (h.seglist_start + 52) 1 l h.mem_brk c
  free : ∀ i, i < 10 → ∀ x, x ∈ L i ↔
    ∃ s, descr (h.seglist_start + 52) l x = some (s, 0) ∧ LIST_OFFSET s = i

/-- The client steps covered by the heap invariant: `mm_malloc` below the
wrap-around of the adjusted size, `mm_free`, and stores into a payload. -/
def plainOp : Op → Bool
  | .malloc size => decide (size ≤ 4294967280)
  | .free _ => true
  | .realloc _ _ => false
  | .store _ _ _ => true

/-- The invariant of a run: the heap satisfies `SInv` for some layout, every
live pointer is an allocated block of that layout with room for the requested
payload, the header and the footer, and no pointer is live twice. -/
def RunInv (r : Run) : Prop :=
  ∃ l L, SInv r.heap l L ∧
    (∀ p ∈ r.live, ∃ t, descr (r.heap.seglist_start + 52) l p.1 = some (t, 1) ∧ p.2 + 8 ≤ t) ∧
    (r.live.map Prod.fst).Nodup

/-- A client run with allocations, a store into a payload, a request that
grows the arena, and frees that merge and reuse blocks. -/
def sentinelOps : List Op :=
  [.malloc 40, .malloc 8, .store 1056 0 [1, 2, 3], .malloc 5000, .free 1056, .malloc 24,
   .free 1104]

/-- A client run with a shrinking `mm_realloc`: the client stores four words
at offset 12 of its 56-byte allocation 1056 (16, 1120, the address with the
low bytes `b0`, `b1`, and 16), shrinks the allocation to 24 bytes (the new
block is 1120), allocates 100 bytes (1152) and frees them. -/
def shrinkOps (b0 b1 : Nat) : List Op :=
  [.malloc 56, .store 1056 12 [16, 0, 0, 0, 96, 4, 0, 0, b0, b1, 0, 0, 16, 0, 0, 0],
   .realloc 1056 24, .malloc 100, .free 1152]

end Seg

namespace Mm

/-- Source mm.c: `a` .. `e` are five allocations of 8 bytes (1016, 1032, 1048,
1064, 1080); `a` and `d` are freed, then `b`, whose previous block `a` is free
and whose next block `c` is allocated.  Yields the pointers and the final
state. -/
def traceMergePrev : Except Err (List Nat × Heap) := do
  let h ← boot 1000 20971520
  let a ← mm_malloc 64 h 8
  let b ← mm_malloc 64 a.2 8
  let c ← mm_malloc 64 b.2 8
  let d ← mm_malloc 64 c.2 8
  let e ← mm_malloc 64 d.2 8
  let h ← mm_free e.2 a.1
  let h ← mm_free h d.1
  let h ← mm_free h b.1
  pure ([a.1, b.1, c.1, d.1, e.1], h)

end Mm

/-! ## mm_implicit_no_footer.c (implicit list, no footer in allocated blocks) -/

namespace NoFooter

def MINBLOCKSIZE : Nat := 8

/-- Source `GET_PREV_ALLOC(p)`: `GET(p) & 0x2`. -/
def GET_PREV_ALLOC (h : Heap) (p : Nat) : Except Err Nat := do
  let w ← GET h p
  pure (w &&& 2)

/-- Source `SET_PREV_ALLOC(p)`: `PUT(p, GET(p) | 0x2)`. -/
def SET_PREV_ALLOC (h : Heap) (p : Nat) : Except Err Heap := do
  let w ← GET h p
  PUT h p (w ||| 2)

/-- Source `CLR_PREV_ALLOC(p)`: `PUT(p, GET(p) & ~0x2)`. -/
def CLR_PREV_ALLOC (h : Heap) (p : Nat) : Except Err Heap := do
  let w ← GET h p
  PUT h p (w &&& 4294967293)

/-- Source `coalesce(bp)`: merge the freed block with its free neighbours, clear
the previous-allocated bit of the block behind the result and make the result
the rover. -/
def coalesce (h : Heap) (bp : Nat) : Except Err (Nat × Heap) := do
  let prev_bp ← PREV_BLKP h bp
  let next_bp ← NEXT_BLKP h bp
  let prev_alloc ← GET_PREV_ALLOC h (HDRP bp)
  let next_alloc ← GET_ALLOC h (HDRP (← NEXT_BLKP h bp))
  let size ← GET_SIZE h (HDRP bp)
  let r ← (if prev_alloc ≠ 0 ∧ next_alloc ≠ 0 then
      pure (bp, h)
    else if prev_alloc ≠ 0 ∧ next_alloc = 0 then do
      let size := add32 size (← GET_SIZE h (HDRP next_bp))
      let h ← PUT h (← FTRP h next_bp) (PACK size 2)
      let h ← PUT h (HDRP bp) (PACK size 2)
      pure (bp, h)
    else if prev_alloc = 0 ∧ next_alloc ≠ 0 then do
      let size := add32 size (← GET_SIZE h (HDRP prev_bp))
      let h ← PUT h (← FTRP h bp) (PACK size 2)
      let h ← PUT h (HDRP prev_bp) (PACK size 2)
      pure (prev_bp, h)
    else do
      let size := add32 size (add32 (← GET_SIZE h (HDRP prev_bp))
        (← GET_SIZE h (← FTRP h next_bp)))
      let h ← PUT h (← FTRP h next_bp) (PACK size 2)
      let h ← PUT h (HDRP prev_bp) (PACK size 2)
      pure (prev_bp, h) : Except Err (Nat × Heap))
  let bp := r.1
  let h := r.2
  let h ← CLR_PREV_ALLOC h (HDRP (← NEXT_BLKP h bp))
  pure (bp, { h with prev_listp := bp })

/-- Source `extend_heap(words)`: grow the arena by an even number of words and
turn the new extent into a free block that inherits the previous-allocated bit
of the old epilogue; `NULL` when the growth fails. -/
def extend_heap (h : Heap) (words : Nat) : Except Err (Nat × Heap) :=
  let size := extend_size words
  match mem_sbrk h size with
  | none => pure (NULL, h)
  | some (bp, h) => do
    let h ← PUT h (HDRP bp) (PACK size (← GET_PREV_ALLOC h (HDRP bp)))
    let h ← PUT h (← FTRP h bp) (PACK size (← GET_PREV_ALLOC h (HDRP bp)))
    let h ← PUT h (HDRP (← NEXT_BLKP h bp)) (PACK 0 1)
    coalesce h bp

/-- The first loop of `find_fit`: from the rover to the epilogue. -/
def find_fit_rover (h : Heap) (asize : Nat) : Nat → Nat → Except Err Nat
  | 0, _ => throw Err.diverge
  | fuel + 1, bp => do
    let sz ← GET_SIZE h (HDRP bp)
    if sz > 0 then
      let a ← GET_ALLOC h (HDRP bp)
      if a = 0 then
        let sz1 ← GET_SIZE h (HDRP bp)
        if sz1 ≥ asize then pure bp
        else find_fit_rover h asize fuel (← NEXT_BLKP h bp)
      else find_fit_rover h asize fuel (← NEXT_BLKP h bp)
    else pure NULL

/-- The second loop of `find_fit`: from `heap_listp` to the rover. -/
def find_fit_start (h : Heap) (asize : Nat) : Nat → Nat → Except Err Nat
  | 0, bp => if bp ≠ h.prev_listp then throw Err.diverge else pure NULL
  | fuel + 1, bp =>
    if bp ≠ h.prev_listp then do
      let a ← GET_ALLOC h (HDRP bp)
      if a = 0 then
        let sz1 ← GET_SIZE h (HDRP bp)
        if sz1 ≥ asize then pure bp
        else find_fit_start h asize fuel (← NEXT_BLKP h bp)
      else find_fit_start h asize fuel (← NEXT_BLKP h bp)
    else pure NULL

/-- Source `find_fit(asize)`: next fit; a block that is found becomes the
rover. -/
def find_fit (fuel : Nat) (h : Heap) (asize : Nat) : Except Err (Nat × Heap) := do
  let bp ← find_fit_rover h asize fuel h.prev_listp
  if bp ≠ NULL then pure (bp, { h with prev_listp := bp })
  else
    let bp ← find_fit_start h asize fuel h.heap_listp
    if bp ≠ NULL then pure (bp, { h with prev_listp := bp })
    else pure (NULL, h)

/-- Source `place(bp, asize)`: split when the rest is at least a minimum block,
keep the previous-allocated bit of the following block up to date, and make
`bp` the rover. -/
def place (h : Heap) (bp asize : Nat) : Except Err Heap := do
  let blk_size ← GET_SIZE h (HDRP bp)
  let remain_size := sub32 blk_size asize
  if remain_size ≥ MINBLOCKSIZE then
    let h ← PUT h (HDRP bp) (PACK asize 3)
    let h ← PUT h (HDRP (← NEXT_BLKP h bp)) (PACK remain_size 2)
    let h ← PUT h (← FTRP h (← NEXT_BLKP h bp)) (PACK remain_size 2)
    let h ← CLR_PREV_ALLOC h (HDRP (← NEXT_BLKP h (← NEXT_BLKP h bp)))
    pure { h with prev_listp := bp }
  else
    let h ← PUT h (HDRP bp) (PACK blk_size 3)
    let h ← SET_PREV_ALLOC h (HDRP (← NEXT_BLKP h bp))
    pure { h with prev_listp := bp }

/-- The adjusted block size computed by `mm_malloc`:
`size < WSIZE ? MINBLOCKSIZE : ALIGN(size + 4)`. -/
def adjust (size : Nat) : Nat :=
  if size < WSIZE then MINBLOCKSIZE else ALIGN (add32 size 4)

/-- Source `mm_init()`: returns `-1` or `0`. -/
def mm_init (h : Heap) : Except Err (Int × Heap) :=
  match mem_sbrk h (4 * WSIZE) with
  | none => pure (-1, { h with heap_listp := U32 - 1 })
  | some (p, h) => do
    let h := { h with heap_listp := p }
    let h ← PUT h h.heap_listp 0
    let h ← PUT h (add32 h.heap_listp (1 * WSIZE)) (PACK DSIZE 3)
    let h ← PUT h (add32 h.heap_listp (2 * WSIZE)) (PACK DSIZE 3)
    let h ← PUT h (add32 h.heap_listp (3 * WSIZE)) (PACK 0 3)
    let h := { h with heap_listp := add32 h.heap_listp (2 * WSIZE) }
    let h := { h with prev_listp := h.heap_listp }
    let r ← extend_heap h (CHUNKSIZE / WSIZE)
    if r.1 = NULL then pure (-1, r.2) else pure (0, r.2)

/-- Source `mm_malloc(size)`. -/
def mm_malloc (fuel : Nat) (h : Heap) (size : Nat) : Except Err (Nat × Heap) :=
  if size = 0 then pure (NULL, h)
  else do
    let asize := adjust size
    let r ← find_fit fuel h asize
    if r.1 ≠ NULL then
      let h ← place r.2 r.1 asize
      pure (r.1, h)
    else
      let extendsize := MAX asize CHUNKSIZE
      let e ← extend_heap r.2 (extendsize / WSIZE)
      if e.1 = NULL then pure (NULL, e.2)
      else
        let h ← place e.2 e.1 asize
        pure (e.1, h)

/-- Source `mm_free(bp)`. -/
def mm_free (h : Heap) (bp : Nat) : Except Err Heap := do
  let size ← GET_SIZE h (HDRP bp)
  let h ← PUT h (HDRP bp) (PACK size (← GET_PREV_ALLOC h (HDRP bp)))
  let h ← PUT h (← FTRP h bp) (PACK size (← GET_PREV_ALLOC h (HDRP bp)))
  let r ← coalesce h bp
  pure r.2

/-- Source `mm_realloc(ptr, size)`. -/
def mm_realloc (fuel : Nat) (h : Heap) (ptr size : Nat) : Except Err (Nat × Heap) :=
  if ptr = NULL then mm_malloc fuel h size
  else do
    let h ← (if size = 0 then mm_free h ptr else pure h : Except Err Heap)
    let oldptr := ptr
    let r ← mm_malloc fuel h size
    let newptr := r.1
    let h := r.2
    if newptr = NULL then pure (NULL, h)
    else
      let size ← GET_SIZE h (HDRP oldptr)
      let copySize ← GET_SIZE h (HDRP newptr)
      let copySize := if size < copySize then size else copySize
      let h ← memcpy (sub32 copySize WSIZE) h newptr oldptr
      let h ← mm_free h oldptr
      pure (newptr, h)

/-- The heap after a successful `mm_init` on a fresh simulated heap. -/
def boot (base cap : Nat) : Except Err Heap := do
  let x ← mm_init (mem_init base cap)
  if x.1 = 0 then pure x.2 else throw Err.misuse

/-- The heap walk from the block `bp` to the epilogue: the payload pointer and
the header word of every block passed, the epilogue included. -/
def walk (h : Heap) : Nat → Nat → Except Err (List (Nat × Nat))
  | 0, _ => throw Err.diverge
  | fuel + 1, bp => do
    let w ← GET h (HDRP bp)
    let sz ← GET_SIZE h (HDRP bp)
    if sz = 0 then pure [(bp, w)]
    else do
      let rest ← walk h fuel (← NEXT_BLKP h bp)
      pure ((bp, w) :: rest)

/-- The heap walk from the prologue. -/
def blocks (fuel : Nat) (h : Heap) : Except Err (List (Nat × Nat)) :=
  walk h fuel h.heap_listp

/-- Bit 1 of every header word of the walk is set exactly when the allocated
bit of the preceding header word is set; `a` is the allocated bit of the
block in front of the list. -/
def prevBitsOk : Nat → List (Nat × Nat) → Bool
  | _, [] => true
  | a, x :: l => (decide ((x.2 &&& 2 ≠ 0) ↔ a ≠ 0)) && prevBitsOk (x.2 &&& 1) l

/-- The previous-allocated bits of all blocks behind the prologue are right
and the rover is the start of a block of the walk. -/
def invariantOk (fuel : Nat) (h : Heap) : Except Err Bool := do
  let l ← blocks fuel h
  match l with
  | [] => pure false
  | p :: rest =>
    pure (prevBitsOk (p.2 &&& 1) rest && decide (h.prev_listp ∈ l.map Prod.fst))

/-- Source `a`, `b`, `c` are three allocations of 8 bytes (1016, 1032, 1048); `a`
is freed; yields the pointers and the state. -/
def traceFreeFirst : Except Err (List Nat × Heap) := do
  let h ← boot 1000 20971520
  let a ← mm_malloc 64 h 8
  let b ← mm_malloc 64 a.2 8
  let c ← mm_malloc 64 b.2 8
  let h ← mm_free c.2 a.1
  pure ([a.1, b.1, c.1], h)


end NoFooter

end Malloclab

/-! ## datalab/bits.p.c: the floating-point puzzles

`int` and `unsigned` are 32 bits wide; a value of either type is represented
by its bit pattern, a natural number below `2^32`.  Left shifts and additions
keep the low 32 bits. -/

namespace Datalab

/-- Left shift of a 32-bit word. -/
def shl32 (x k : Nat) : Nat := (x <<< k) % 4294967296

/-- Bitwise complement `~x` of a 32-bit word. -/
def not32 (x : Nat) : Nat := 4294967295 - x % 4294967296

/-- The `int` denoted by a 32-bit pattern (two's complement). -/
def toInt32 (x : Nat) : Int :=
  if x % 4294967296 < 2147483648 then (x % 4294967296 : Nat)
  else ((x % 4294967296 : Nat) : Int) - 4294967296

/-- Source `floatScale2(uf)`. -/
def floatScale2 (uf : Nat) : Nat :=
  let sign := (uf >>> 31) &&& 1
  let exp := (uf >>> 23) &&& 255
  let frac := uf &&& 8388607
  if exp = 0 ∧ frac = 0 then uf
  else if exp = 255 then uf
  else if exp = 0 then shl32 sign 31 ||| shl32 frac 1
  else shl32 sign 31 ||| shl32 (exp + 1) 23 ||| frac

/-- Source `floatFloat2Int(uf)`; the result is the bit pattern of the returned
`int`. -/
def floatFloat2Int (uf : Nat) : Nat :=
  let sign := (uf >>> 31) &&& 1
  let exp := (uf >>> 23) &&& 255
  let frac := uf &&& 8388607
  let E : Int := (exp : Int) - 127
  if exp = 255 then shl32 1 31
  else if exp = 0 then 0
  else
    let frac := frac ||| shl32 1 23
    if E > 31 then shl32 1 31
    else if E < 0 then 0
    else
      let frac := if E ≥ 23 then shl32 frac (E - 23).toNat else frac >>> (23 - E).toNat
      if sign ≠ 0 then (not32 frac + 1) % 4294967296 else frac

/-! ### The encoded values, after the claims -/

/-- The sign field (bit 31) of a single-precision pattern. -/
def signOf (uf : Nat) : Nat := uf / 2147483648 % 2

/-- The exponent field (bits 23..30) of a single-precision pattern. -/
def expOf (uf : Nat) : Nat := uf / 8388608 % 256

/-- The fraction field (bits 0..22) of a single-precision pattern. -/
def fracOf (uf : Nat) : Nat := uf % 8388608

/-- The pattern encodes NaN or an infinity. -/
def isNanOrInf (uf : Nat) : Prop := expOf uf = 255

instance (uf : Nat) : Decidable (isNanOrInf uf) := by
  unfold isNanOrInf
  infer_instance

/-- The magnitude of the value encoded by a finite pattern, multiplied by
`2^149`: a denormal encodes `frac * 2^(-149)`, a normalised pattern
`(2^23 + frac) * 2^(exp - 150)`. -/
def scaledMagnitude (uf : Nat) : Nat :=
  if expOf uf = 0 then fracOf uf else (8388608 + fracOf uf) * 2 ^ (expOf uf - 1)

/-- The value encoded by a finite pattern, multiplied by `2^149`. -/
def scaledValue (uf : Nat) : Int :=
  if signOf uf = 0 then (scaledMagnitude uf : Int) else - (scaledMagnitude uf : Int)

/-- The result of `floatFloat2Int` as claimed: the encoded value truncated
toward zero when it lies in `[-2^31, 2^31)`, and `0x80000000` otherwise. -/
def float2IntSpec (uf : Nat) : Int :=
  if isNanOrInf uf then -2147483648
  else if -2147483648 * 2 ^ 149 ≤ scaledValue uf ∧ scaledValue uf < 2147483648 * 2 ^ 149 then
    (if signOf uf = 0 then ((scaledMagnitude uf / 2 ^ 149 : Nat) : Int)
     else - ((scaledMagnitude uf / 2 ^ 149 : Nat) : Int))
  else -2147483648

/-- The result of `floatScale2` as claimed: the pattern itself for NaN and
infinities, the infinity of the same sign when the exponent field is `0xFE`,
and otherwise the pattern of the same sign that encodes twice the value. -/
def scale2Spec (uf r : Nat) : Prop :=
  if isNanOrInf uf then r = uf
  else if expOf uf = 254 then r = signOf uf * 2147483648 + 2139095040
  else r < 4294967296 ∧ ¬ isNanOrInf r ∧ signOf r = signOf uf ∧
    scaledMagnitude r = 2 * scaledMagnitude uf

instance (uf r : Nat) : Decidable (scale2Spec uf r) := by
  unfold scale2Spec
  infer_instance

end Datalab

namespace Malloclab

deriving instance DecidableEq for Except

/-! ## Theorems: mm_segregated_list.c and mm.c -/

namespace Seg

/-! ### Frame lemmas -/

theorem find_fit_from_frame (fuel asize : Nat) :
    ∀ (k i : Nat) (h : Heap) (r : Nat × Heap),
      find_fit_from fuel asize k i h = .ok r → sameArena r.2 h := by
  intro k
  induction k with
  | zero =>
    intro i h r hr
    simp [find_fit_from, pure, Except.pure] at hr
    subst hr
    simp [sameArena]
  | succ k ih =>
    intro i h r hr
    simp only [find_fit_from, bind, Except.bind] at hr
    split at hr
    · cases hr
    · split at hr
      · cases hr
      · split at hr
        · simp [pure, Except.pure] at hr
          subst hr
          simp [sameArena]
        · have := ih _ _ _ hr
          simpa [sameArena] using this

theorem mem_sbrk_congr (a b : Heap) (n : Nat) (h1 : a.mem_brk = b.mem_brk)
    (h2 : a.mem_max_addr = b.mem_max_addr) (hb : mem_sbrk b n = none) :
    mem_sbrk a n = none := by
  unfold mem_sbrk at *
  rw [h1, h2]
  split at hb
  · simp [*]
  · cases hb

/-! ### The claims -/

/-- C1 (fails on the code): after `traceSelfMerge`, a further `malloc(56)`
returns 1072 while the allocation `b = 1104` of 24 bytes is still live; the
byte ranges `[1072, 1128)` and `[1104, 1128)` of two live allocations
overlap. -/
theorem live_allocations_overlap_after_shrinking_realloc :
    (run 64 1000 20971520 (traceSelfMerge ++ [.malloc 56])).map
        (fun r => (r.out, r.live, liveDisjoint r.live))
      = .ok ([1072, 1056, 1104, 1072, 1056],
             [(1072, 56), (1056, 8), (1104, 24)], false) := by
  decide!

/-- C2 (fails on the code): with the arena starting at address 1000 (a
multiple of 8), the `malloc(8)` that follows `traceForgedLink` returns 1084,
which is 4 modulo 8. -/
theorem malloc_returns_unaligned_pointer :
    (run 64 1000 20971520 (traceForgedLink ++ [.malloc 8])).map
        (fun r => (r.heap.mem_start_brk % 8, r.out.head?, r.out.head?.map (fun p => p % 8)))
      = .ok (0, some 1084, some 4) := by
  decide!

/-- C3 (fails on the code): right after the `realloc(p, 8)` of
`traceSelfMerge` the heap walk is: an allocated block of 16 bytes, a free
block of 64 bytes and, adjacent to it, a free block of 4016 bytes. -/
theorem adjacent_free_blocks_after_shrinking_realloc :
    (run 64 1000 20971520 traceSelfMerge).bind (fun r => blocks 64 r.heap)
      = .ok [(1052, 16, 1), (1068, 64, 0), (1132, 4016, 0)] ∧
    adjacentFree [(1052, 16, 1), (1068, 64, 0), (1132, 4016, 0)] = true := by
  decide!

/-- C4 (fails on the code): right after the `realloc(p, 8)` of
`traceForgedLink` bucket 0 holds the entry 1084 and bucket 8 the entry 1056,
while the only free block of the heap walk is the one with payload 1056: a
listed entry is not a block of the heap. -/
theorem bucket_entry_is_no_block_after_shrinking_realloc :
    (run 64 1000 20971520 traceForgedLink).bind (fun r => do
        let bs ← buckets 64 r.heap
        let w ← blocks 64 r.heap
        pure (bs, freePayloads w))
      = .ok ([[1084], [], [], [], [], [], [], [], [1056], []], [1056]) := by
  decide!

/-- C5 (fails on the code): `b = 1104` is live before and after the call
`realloc(1072, 8)` that follows `traceWildStore`, and that call changes the
bytes 4..7 of `b` from 1 to 0. -/
theorem realloc_overwrites_other_live_payload :
    (run 64 1000 20971520 traceWildStore).map
        (fun r => (isLive 1104 r.live, bytesAt r.heap 1104 8))
      = .ok (true, [1, 1, 1, 1, 1, 1, 1, 1]) ∧
    (run 64 1000 20971520 (traceWildStore ++ [.realloc 1072 8])).map
        (fun r => (isLive 1104 r.live, bytesAt r.heap 1104 8))
      = .ok (true, [1, 1, 1, 1, 0, 0, 0, 0]) := by
  decide!

/-- C6 (fails on the code): in `traceForgedLink` the live allocation
`p = 1072` of 24 bytes starts with the bytes 60, 4, 0, 0, 0, 0, 0, 0; the call
`realloc(p, 8)` returns 1056, and the eight bytes at 1056 are all 0. -/
theorem realloc_loses_the_first_bytes :
    (run 64 1000 20971520 (traceForgedLink.take 4)).map
        (fun r => (r.live, bytesAt r.heap 1072 8))
      = .ok ([(1072, 24)], [60, 4, 0, 0, 0, 0, 0, 0]) ∧
    (run 64 1000 20971520 traceForgedLink).map
        (fun r => (r.out.head?, bytesAt r.heap 1056 8))
      = .ok (some 1056, [0, 0, 0, 0, 0, 0, 0, 0]) := by
  decide!

/-- C7 (fails on the code): right after `mm_init`, `mm_malloc(8)` returns a
pointer (1056 in the segregated-list allocator, 1016 in mm.c), whereas
`mm_realloc(NULL, 8)` loads the word at `NULL - 4`, outside the arena, in both
allocators. -/
theorem realloc_of_null_leaves_the_arena :
    ((boot 1000 20971520).bind (fun r => mm_malloc 64 r.heap 8)).map Prod.fst = .ok 1056 ∧
    ((boot 1000 20971520).bind (fun r => mm_realloc 64 r.heap NULL 8)).map Prod.fst
      = .error Err.fault ∧
    ((Mm.boot 1000 20971520).bind (fun h => Mm.mm_malloc 64 h 8)).map Prod.fst = .ok 1016 ∧
    ((Mm.boot 1000 20971520).bind (fun h => Mm.mm_realloc 64 h NULL 8)).map Prod.fst
      = .error Err.fault := by
  decide!

/-- C8 (fails on the code): in both allocators `mm_realloc(p, 0)` returns
`NULL` and leaves the heap state as it was, in every state and for every `p`;
for instance after `mm_init`, `p = mm_malloc(8)` and a second `mm_malloc(8)`
the header of `p` is still 17 (size 16, allocated) after `mm_realloc(p, 0)` and
bucket 0 is empty, whereas `mm_free(p)` makes the header 16 and puts `p` into
bucket 0. -/
theorem realloc_to_zero_does_not_free :
    (∀ (fuel : Nat) (h : Heap) (p : Nat),
      mm_realloc fuel h p 0 = .ok (NULL, h) ∧ Mm.mm_realloc fuel h p 0 = .ok (NULL, h)) ∧
    (run 64 1000 20971520 [.malloc 8, .malloc 8, .realloc 1056 0]).bind (fun r => do
        let w ← GET r.heap (HDRP 1056)
        let bs ← bucket 64 r.heap 0
        pure (r.out, w, bs))
      = .ok ([0, 1072, 1056], 17, []) ∧
    (run 64 1000 20971520 [.malloc 8, .malloc 8, .free 1056]).bind (fun r => do
        let w ← GET r.heap (HDRP 1056)
        let bs ← bucket 64 r.heap 0
        pure (w, bs))
      = .ok (16, [1056]) := by
  refine ⟨fun fuel h p => ⟨rfl, rfl⟩, ?_, ?_⟩
  · decide!
  · decide!

/-- C9 (fails on the code): after `traceWrap` the request of `2^32 - 8` bytes
has returned 1056, and the header of that block is 4096 with the allocated bit
clear; the block is the entry of bucket 8. -/
theorem malloc_returns_a_free_block_on_wrapped_size :
    (run 64 1000 20971520 traceWrap).bind (fun r => do
        let w ← GET r.heap (HDRP 1056)
        let bs ← buckets 64 r.heap
        pure (r.out.head?, adjust 4294967288, w, w &&& 1, bs))
      = .ok (some 1056, 0, 4096, 0, [[], [], [], [], [], [], [], [], [1056], []]) := by
  decide!

/-- C10: when `mm_malloc(n)` returns `NULL` in a state in which the
arena-growth request it makes (`mem_sbrk` of `extend_size (MAX asize CHUNKSIZE / WSIZE)`
bytes) fails, the arena bytes (headers, footers, payloads, links, bucket
heads), the arena bounds and the allocator's base pointers are what they
were before the call. -/
theorem malloc_null_on_growth_failure (fuel : Nat) (h h' : Heap) (n : Nat)
    (hret : mm_malloc fuel h n = .ok (NULL, h'))
    (hgrow : mem_sbrk h (extend_size (MAX (adjust n) CHUNKSIZE / WSIZE)) = none) :
    h'.mem = h.mem ∧ h'.mem_start_brk = h.mem_start_brk ∧ h'.mem_brk = h.mem_brk
      ∧ h'.mem_max_addr = h.mem_max_addr ∧ h'.heap_listp = h.heap_listp
      ∧ h'.seglist_start = h.seglist_start := by
  unfold mm_malloc at hret
  split at hret
  · simp [pure, Except.pure] at hret
    subst hret
    simp
  · simp only [bind, Except.bind] at hret
    split at hret
    · cases hret
    · rename_i r hr
      have hf := find_fit_from_frame fuel (adjust n) 10 0 h r hr
      split at hret
      · rename_i hne
        split at hret
        · cases hret
        · simp [pure, Except.pure] at hret
          exact absurd hret.1 hne
      · have hs : mem_sbrk r.2 (extend_size (MAX (adjust n) CHUNKSIZE / WSIZE)) = none :=
          mem_sbrk_congr _ _ _ hf.2.2.1 hf.2.2.2.1 hgrow
        simp only [extend_heap, hs, pure, Except.pure] at hret
        simp at hret
        subst hret
        obtain ⟨a, b, c, d, e, f, _⟩ := hf
        exact ⟨a, b, c, d, e, f⟩

/-- C10, at a concrete input: in the heap right after `mm_init` with no room
left to grow, `mm_malloc(5000)` finds no fit, the growth request of 5008 bytes
fails, `NULL` is returned and the arena is unchanged. -/
theorem malloc_null_on_growth_failure_witness :
    mm_malloc 64 fullHeap 5000 = .ok (NULL, { fullHeap with freelist_headp := 0 }) ∧
    mem_sbrk fullHeap (extend_size (MAX (adjust 5000) CHUNKSIZE / WSIZE)) = none ∧
    (({ fullHeap with freelist_headp := 0 } : Heap).mem = fullHeap.mem
      ∧ ({ fullHeap with freelist_headp := 0 } : Heap).mem_start_brk = fullHeap.mem_start_brk
      ∧ ({ fullHeap with freelist_headp := 0 } : Heap).mem_brk = fullHeap.mem_brk
      ∧ ({ fullHeap with freelist_headp := 0 } : Heap).mem_max_addr = fullHeap.mem_max_addr
      ∧ ({ fullHeap with freelist_headp := 0 } : Heap).heap_listp = fullHeap.heap_listp
      ∧ ({ fullHeap with freelist_headp := 0 } : Heap).seglist_start
          = fullHeap.seglist_start) :=
  ⟨rfl, rfl, malloc_null_on_growth_failure 64 fullHeap
    { fullHeap with freelist_headp := 0 } 5000 rfl rfl⟩

/-! ### Inversion of monadic code -/

theorem bind_eq_ok {α β : Type} (x : Except Err α) (f : α → Except Err β) (r : β) :
    (x >>= f) = .ok r ↔ ∃ a, x = .ok a ∧ f a = .ok r := by
  cases x with
  | error e => simp [bind, Except.bind]
  | ok a => simp [bind, Except.bind]

theorem pure_eq_ok {α : Type} (a r : α) : (pure a : Except Err α) = .ok r ↔ a = r := by
  simp [pure, Except.pure]

theorem ok_bind {α β : Type} (a : α) (f : α → Except Err β) :
    ((Except.ok a : Except Err α) >>= f) = f a := rfl

/-! ### Bit operations of the macros -/

theorem land_mask (x : Nat) (hx : x < 4294967296) : x &&& 4294967288 = 8 * (x / 8) := by
  apply Nat.eq_of_testBit_eq
  intro j
  have hx8 : x = 2 ^ 3 * (x / 8) + x % 8 := by omega
  have hm : (4294967288 : Nat) = 2 ^ 3 * (2 ^ 29 - 1) + 0 := by norm_num
  have hr : 8 * (x / 8) = 2 ^ 3 * (x / 8) + 0 := by omega
  rw [Nat.testBit_and, hr, hm]
  conv => lhs; arg 1; rw [hx8]
  rw [Nat.testBit_mul_pow_two_add _ (by omega : x % 8 < 2 ^ 3),
    Nat.testBit_mul_pow_two_add _ (by norm_num : 0 < 2 ^ 3),
    Nat.testBit_mul_pow_two_add _ (by norm_num : 0 < 2 ^ 3)]
  by_cases hj : j < 3
  · simp [hj]
  · simp only [hj, if_false, Nat.testBit_two_pow_sub_one]
    by_cases hj2 : j - 3 < 29
    · simp [hj2]
    · have : x / 8 < 2 ^ (j - 3) := by
        have h1 : x / 8 < 2 ^ 29 := by omega
        have h2 : 2 ^ 29 ≤ 2 ^ (j - 3) := Nat.pow_le_pow_right (by norm_num) (by omega)
        omega
      simp [Nat.testBit_lt_two_pow this]

theorem lor_one (x : Nat) (hx : x % 2 = 0) : x ||| 1 = x + 1 := by
  have h : x = 2 ^ 1 * (x / 2) := by omega
  have := Nat.mul_add_lt_is_or (i := 1) (b := 1) (by norm_num) (x / 2)
  rw [← h] at this
  exact this.symm

/-- Below the wrap-around the adjusted size is a multiple of 8, at least 16
and leaves room for the payload, the header and the footer. -/
theorem adjust_ok (n : Nat) (h0 : 0 < n) (h1 : n ≤ 4294967280) :
    adjust n % 8 = 0 ∧ 16 ≤ adjust n ∧ n + 8 ≤ adjust n := by
  unfold adjust ALIGN add32 U32 DSIZE
  split
  · omega
  · have e1 : (n + 8) % 4294967296 = n + 8 := Nat.mod_eq_of_lt (by omega)
    have e2 : (n + 8 + 7) % 4294967296 = n + 15 := Nat.mod_eq_of_lt (by omega)
    rw [e1, e2, land_mask _ (by omega)]
    omega

/-! ### `mm_malloc` returning `NULL` -/

theorem GET_null_hdr (h : Heap) (hb : h.mem_brk < U32) : GET h (HDRP 0) = .error Err.fault := by
  unfold GET HDRP sub32 WSIZE U32 at *
  have : ¬ (h.mem_start_brk ≤ (0 + (4294967296 - 4 % 4294967296)) % 4294967296 ∧
      (0 + (4294967296 - 4 % 4294967296)) % 4294967296 + 4 ≤ h.mem_brk) := by
    norm_num
    omega
  rw [if_neg this]

theorem GET_SIZE_null_hdr (h : Heap) (hb : h.mem_brk < U32) (s : Nat) :
    GET_SIZE h (HDRP 0) ≠ .ok s := by
  simp [GET_SIZE, GET_null_hdr h hb, bind, Except.bind]

theorem coalesce_ne_null (h : Heap) (bp : Nat) (r : Nat × Heap) (hb : h.mem_brk < U32)
    (hr : coalesce h bp = .ok r) : r.1 ≠ NULL := by
  unfold coalesce at hr
  simp only [bind_eq_ok, pure_eq_ok] at hr
  obtain ⟨prev_bp, _, next_bp, _, f, hf, pa, _, na, _, cs, hcs, hr⟩ := hr
  have hbp : bp ≠ NULL := by
    rintro rfl
    exact GET_SIZE_null_hdr h hb cs hcs
  have hpv : prev_bp ≠ NULL := by
    rintro rfl
    simp only [FTRP, bind_eq_ok, pure_eq_ok] at hf
    obtain ⟨s, hs, _⟩ := hf
    exact GET_SIZE_null_hdr h hb s hs
  split at hr
  · simp only [bind_eq_ok, pure_eq_ok] at hr
    obtain ⟨_, _, rfl⟩ := hr
    exact hbp
  · split at hr
    · simp only [bind_eq_ok, pure_eq_ok] at hr
      obtain ⟨_, _, _, _, _, _, _, _, _, _, _, _, rfl⟩ := hr
      exact hpv
    · split at hr
      · simp only [bind_eq_ok, pure_eq_ok] at hr
        obtain ⟨_, _, _, _, _, _, _, _, _, _, _, _, rfl⟩ := hr
        exact hbp
      · simp only [bind_eq_ok, pure_eq_ok] at hr
        obtain ⟨_, _, _, _, _, _, _, _, _, _, _, _, _, _, _, _, _, _, rfl⟩ := hr
        exact hpv

theorem PUT_brk (h h1 : Heap) (p v : Nat) (hp : PUT h p v = .ok h1) :
    h1.mem_brk = h.mem_brk ∧ h1.mem_start_brk = h.mem_start_brk
      ∧ h1.mem_max_addr = h.mem_max_addr := by
  unfold PUT at hp
  split at hp
  · cases hp
    exact ⟨rfl, rfl, rfl⟩
  · cases hp

/-- When `mm_malloc` returns `NULL`, nothing but the scratch variable
`freelist_headp` has changed. -/
theorem malloc_null_frame (fuel : Nat) (h h1 : Heap) (n : Nat)
    (hmax : h.mem_max_addr < U32)
    (hret : mm_malloc fuel h n = .ok (NULL, h1)) : sameArena h1 h := by
  unfold mm_malloc at hret
  split at hret
  · simp only [pure_eq_ok, Prod.mk.injEq, true_and] at hret
    subst hret
    simp [sameArena]
  · simp only [bind_eq_ok, pure_eq_ok] at hret
    obtain ⟨r, hr, hret⟩ := hret
    have hf := find_fit_from_frame fuel (adjust n) 10 0 h r hr
    split at hret
    · rename_i hne
      simp only [bind_eq_ok, pure_eq_ok, Prod.mk.injEq] at hret
      obtain ⟨_, _, h0, _⟩ := hret
      exact absurd h0 hne
    · simp only [bind_eq_ok, pure_eq_ok] at hret
      obtain ⟨e, he, hret⟩ := hret
      unfold extend_heap at he
      simp only at he
      split at he
      · simp only [pure_eq_ok] at he
        subst he
        simp only [if_true, pure_eq_ok, Prod.mk.injEq, true_and] at hret
        subst hret
        exact hf
      · rename_i bp h2 hs
        simp only [bind_eq_ok, pure_eq_ok] at he
        obtain ⟨h3, hp1, f, _, h4, hp2, nb, _, h5, hp3, he⟩ := he
        have hb5 : h5.mem_brk < U32 := by
          have e3 := (PUT_brk _ _ _ _ hp1).1
          have e4 := (PUT_brk _ _ _ _ hp2).1
          have e5 := (PUT_brk _ _ _ _ hp3).1
          have e2 : h2.mem_brk ≤ r.2.mem_max_addr := by
            unfold mem_sbrk at hs
            split at hs
            · cases hs
            · rename_i hc
              simp only [Option.some.injEq, Prod.mk.injEq] at hs
              obtain ⟨_, rfl⟩ := hs
              simp only
              omega
          have : r.2.mem_max_addr = h.mem_max_addr := hf.2.2.2.1
          omega
        have hne := coalesce_ne_null h5 bp e hb5 he
        split at hret
        · rename_i h0
          exact absurd h0 hne
        · simp only [bind_eq_ok, pure_eq_ok, Prod.mk.injEq] at hret
          obtain ⟨_, _, h0, _⟩ := hret
          exact absurd h0 hne

theorem GET_congr (h1 h : Heap) (hs : sameArena h1 h) (p : Nat) : GET h1 p = GET h p := by
  obtain ⟨a, b, c, _⟩ := hs
  unfold GET
  rw [a, b, c]

/-- C11: if the allocation inside `mm_realloc(p, n)` fails (the inner
`mm_malloc(n)` returns `NULL`), then `mm_realloc` returns `NULL`, and every
byte of the arena is as before: the header word of `p` (size and allocated
bit) and the payload bytes of `p` are unchanged.  The arena is assumed to lie
inside the 32-bit address space. -/
theorem realloc_failure_keeps_block (fuel : Nat) (h h1 : Heap) (p n : Nat)
    (hmax : h.mem_max_addr < U32)
    (hfail : mm_malloc fuel h n = .ok (NULL, h1)) :
    mm_realloc fuel h p n = .ok (NULL, h1)
      ∧ GET h1 (HDRP p) = GET h (HDRP p)
      ∧ (∀ k, bytesAt h1 p k = bytesAt h p k)
      ∧ h1.mem = h.mem ∧ h1.mem_brk = h.mem_brk := by
  have hs := malloc_null_frame fuel h h1 n hmax hfail
  refine ⟨?_, GET_congr h1 h hs _, ?_, hs.1, hs.2.2.1⟩
  · simp [mm_realloc, hfail, ok_bind, pure, Except.pure]
  · intro k
    simp [bytesAt, hs.1]

/-- C11, at a concrete input: after `mm_init` and `p = malloc(8)` on a
simulated heap without room to grow, `mm_realloc(p, 5000)` returns `NULL` and
the header of `p` is still 17 (size 16, allocated). -/
theorem realloc_failure_keeps_block_witness :
    busyHeap.mem_max_addr < U32 ∧
    mm_malloc 64 busyHeap 5000 = .ok (NULL, { busyHeap with freelist_headp := 0 }) ∧
    GET busyHeap (HDRP 1056) = .ok 17 ∧
    (mm_realloc 64 busyHeap 1056 5000 = .ok (NULL, { busyHeap with freelist_headp := 0 })
      ∧ GET { busyHeap with freelist_headp := 0 } (HDRP 1056) = GET busyHeap (HDRP 1056)
      ∧ (∀ k, bytesAt { busyHeap with freelist_headp := 0 } 1056 k = bytesAt busyHeap 1056 k)
      ∧ ({ busyHeap with freelist_headp := 0 } : Heap).mem = busyHeap.mem
      ∧ ({ busyHeap with freelist_headp := 0 } : Heap).mem_brk = busyHeap.mem_brk) :=
  ⟨by decide!, rfl, by decide!,
    realloc_failure_keeps_block 64 busyHeap { busyHeap with freelist_headp := 0 } 1056 5000
      (by decide!) rfl⟩

/-- C12: `mm_malloc(0)` returns `NULL` and leaves the whole state, hence every
byte of the arena and every bucket head, as it was; this holds in every
state. -/
theorem malloc_zero_is_noop (fuel : Nat) (h : Heap) : mm_malloc fuel h 0 = .ok (NULL, h) :=
  rfl

/-- C13 (fails on the code): for the request sizes `2^32 - 15 .. 2^32 - 8` the
adjusted size is 0 and for `2^32 - 7 .. 2^32 - 1` it is 8: it is neither at
least 16 nor at least `n + 8`; `2^32 - 16` is the largest size for which it
is. -/
theorem adjusted_size_wraps :
    adjust 4294967280 = 4294967288 ∧ adjust 4294967281 = 0 ∧ adjust 4294967288 = 0
      ∧ adjust 4294967289 = 8 ∧ adjust 4294967295 = 8 := by
  decide!

/-- C15 (fails on the code): after `traceStaleFooter` the heap walk consists of
one free block with header word 80 at 1052, and the word in its footer
position 1052 + 80 - 4 is 64. -/
theorem free_block_footer_differs_after_shrinking_realloc :
    (run 64 1000 20971520 traceStaleFooter).bind (fun r => do
        let w ← blocks 64 r.heap
        let hd ← GET r.heap 1052
        let ft ← GET r.heap (1052 + 80 - 4)
        pure (w, hd, ft))
      = .ok ([(1052, 80, 0)], 80, 64) := by
  decide!

/-- C16 (fails on the code): after `traceStaleFooter` the walk from the
prologue by header sizes stops at address 1132, while the last word of the
arena, where the epilogue header lies, is at 5148. -/
theorem heap_walk_stops_short_after_shrinking_realloc :
    (run 64 1000 20971520 traceStaleFooter).bind (fun r => do
        let e ← walkEnd r.heap 64 (add32 (add32 r.heap.heap_listp (11 * WSIZE)) DSIZE)
        let w ← GET r.heap (r.heap.mem_brk - WSIZE)
        pure (e, r.heap.mem_brk - WSIZE, w))
      = .ok (1132, 5148, 1) := by
  decide!

/-! ### `find_fit` -/

theorem find_fit_list_congr (h1 h : Heap) (hs : sameArena h1 h) (a : Nat) :
    ∀ fuel cur, find_fit_list h1 a fuel cur = find_fit_list h a fuel cur := by
  intro fuel
  induction fuel with
  | zero => intro cur; rfl
  | succ k ih =>
    intro cur
    simp only [find_fit_list, GET_SIZE, FDP, GET_congr h1 h hs, ih]

/-- The inner loop of `find_fit` on a NULL-terminated list `l`. -/
theorem find_fit_list_spec (h : Heap) (a : Nat) (sz : Nat → Nat) :
    ∀ (fuel cur : Nat) (l : List Nat), listFrom h fuel cur = .ok l →
      (∀ x ∈ l, GET_SIZE h (HDRP x) = .ok (sz x)) →
      ∃ r, find_fit_list h a fuel cur = .ok r ∧
        ((r = NULL ∧ ∀ x ∈ l, sz x < a) ∨
         (r ≠ NULL ∧ ∃ pre post, l = pre ++ r :: post ∧ (∀ x ∈ pre, sz x < a) ∧ a ≤ sz r)) := by
  intro fuel
  induction fuel with
  | zero =>
    intro cur l hl _
    simp only [listFrom] at hl
    split at hl
    · rename_i h0
      simp only [pure_eq_ok] at hl
      subst hl
      exact ⟨NULL, by simp [find_fit_list, h0, pure, Except.pure], Or.inl ⟨rfl, by simp⟩⟩
    · cases hl
  | succ k ih =>
    intro cur l hl hsz
    simp only [listFrom] at hl
    split at hl
    · rename_i h0
      simp only [pure_eq_ok] at hl
      subst hl
      exact ⟨NULL, by simp [find_fit_list, h0, pure, Except.pure], Or.inl ⟨rfl, by simp⟩⟩
    · rename_i h0
      simp only [bind_eq_ok, pure_eq_ok] at hl
      obtain ⟨next, hnext, rest, hrest, rfl⟩ := hl
      have hc : GET_SIZE h (HDRP cur) = .ok (sz cur) := hsz cur (by simp)
      by_cases hfit : sz cur ≥ a
      · refine ⟨cur, ?_, Or.inr ⟨h0, [], rest, rfl, by simp, hfit⟩⟩
        simp [find_fit_list, h0, hc, ok_bind, hfit, pure, Except.pure]
      · obtain ⟨r, hr, hcase⟩ := ih next rest hrest (fun x hx => hsz x (by simp [hx]))
        refine ⟨r, ?_, ?_⟩
        · simp [find_fit_list, h0, hc, ok_bind, hfit, hnext, hr]
        · rcases hcase with ⟨r0, hall⟩ | ⟨rn, pre, post, hl, hpre, hr⟩
          · left
            refine ⟨r0, ?_⟩
            intro x hx
            rcases List.mem_cons.mp hx with rfl | hx
            · omega
            · exact hall x hx
          · right
            refine ⟨rn, cur :: pre, post, by simp [hl], ?_, hr⟩
            intro x hx
            rcases List.mem_cons.mp hx with rfl | hx
            · omega
            · exact hpre x hx

theorem sameArena_set_head (h h0 : Heap) (x : Nat) (hs : sameArena h h0) :
    sameArena { h with freelist_headp := x } h0 := hs

/-- The outer loop of `find_fit`, started at bucket `i` with `k` buckets to go. -/
theorem find_fit_from_spec (fuel a : Nat) (h0 : Heap) (L : Nat → List Nat) (sz : Nat → Nat)
    (hL : ∀ i, i < 10 → bucket fuel h0 i = .ok (L i))
    (hsz : ∀ i, i < 10 → ∀ x ∈ L i, GET_SIZE h0 (HDRP x) = .ok (sz x)) :
    ∀ (k i : Nat) (h : Heap), i + k = 10 → sameArena h h0 →
      ∃ r h', find_fit_from fuel a k i h = .ok (r, h') ∧ sameArena h' h0 ∧
        ((r = NULL ∧ ∀ j, i ≤ j → j < 10 → ∀ x ∈ L j, sz x < a) ∨
         (r ≠ NULL ∧ ∃ j pre post, i ≤ j ∧ j < 10 ∧ L j = pre ++ r :: post ∧
            (∀ x ∈ pre, sz x < a) ∧ a ≤ sz r ∧
            ∀ j', i ≤ j' → j' < j → ∀ x ∈ L j', sz x < a)) := by
  intro k
  induction k with
  | zero =>
    intro i h hi hs
    refine ⟨NULL, h, rfl, hs, Or.inl ⟨rfl, ?_⟩⟩
    intro j h1 h2
    omega
  | succ k ih =>
    intro i h hi hs
    have hi10 : i < 10 := by omega
    have hb := hL i hi10
    simp only [bucket, bind_eq_ok] at hb
    obtain ⟨head, hhead, hlist⟩ := hb
    have hseg : h.seglist_start = h0.seglist_start := hs.2.2.2.2.2.1
    have hget : GET h (add32 h.seglist_start (i * WSIZE)) = .ok head := by
      rw [GET_congr h h0 hs, hseg]; exact hhead
    obtain ⟨r, hr, hcase⟩ := find_fit_list_spec h0 a sz fuel head (L i) hlist (hsz i hi10)
    have hr' : find_fit_list { h with freelist_headp := head } a fuel head = .ok r := by
      rw [find_fit_list_congr _ h0 (sameArena_set_head h h0 head hs)]; exact hr
    rcases hcase with ⟨r0, hall⟩ | ⟨rn, pre, post, hl, hpre, hfit⟩
    · subst r0
      obtain ⟨r2, h2, hrec, hs2, hcase2⟩ :=
        ih (i + 1) { h with freelist_headp := head } (by omega) (sameArena_set_head h h0 head hs)
      refine ⟨r2, h2, ?_, hs2, ?_⟩
      · simp only [find_fit_from, hget, ok_bind, hr']
        simpa using hrec
      · rcases hcase2 with ⟨r0, hall2⟩ | ⟨rn, j, pre, post, hj1, hj2, hl, hpre, hfit, hlow⟩
        · left
          refine ⟨r0, ?_⟩
          intro j hj1 hj2
          by_cases e : j = i
          · subst e; exact hall
          · exact hall2 j (by omega) hj2
        · right
          refine ⟨rn, j, pre, post, by omega, hj2, hl, hpre, hfit, ?_⟩
          intro j' h1 h2
          by_cases e : j' = i
          · subst e; exact hall
          · exact hlow j' (by omega) h2
    · refine ⟨r, { h with freelist_headp := head }, ?_, sameArena_set_head h h0 head hs, ?_⟩
      · simp only [find_fit_from, hget, ok_bind, hr']
        simp [rn, pure, Except.pure]
      · right
        refine ⟨rn, i, pre, post, Nat.le_refl i, hi10, hl, hpre, hfit, ?_⟩
        intro j' h1 h2
        omega

theorem sameArena_refl (h : Heap) : sameArena h h := by simp [sameArena]

/-- C19: in a state whose ten bucket lists are NULL-terminated lists `L i` of
blocks with readable headers (sizes `sz`), `find_fit(a)` returns a result; the
result is `NULL` exactly when no listed block has size at least `a`, and
otherwise it is the first entry, in list order, of size at least `a` in the
lowest-indexed bucket that has such an entry. -/
theorem find_fit_correct (fuel : Nat) (h : Heap) (a : Nat) (L : Nat → List Nat)
    (sz : Nat → Nat)
    (hL : ∀ i, i < 10 → bucket fuel h i = .ok (L i))
    (hsz : ∀ i, i < 10 → ∀ x ∈ L i, GET_SIZE h (HDRP x) = .ok (sz x)) :
    ∃ r h', find_fit fuel h a = .ok (r, h') ∧ sameArena h' h ∧
      (r = NULL ↔ ∀ i, i < 10 → ∀ x ∈ L i, sz x < a) ∧
      (r ≠ NULL → ∃ i pre post, i < 10 ∧ L i = pre ++ r :: post ∧
          (∀ x ∈ pre, sz x < a) ∧ a ≤ sz r ∧
          ∀ j, j < i → ∀ x ∈ L j, sz x < a) := by
  obtain ⟨r, h', hr, hs, hcase⟩ :=
    find_fit_from_spec fuel a h L sz hL hsz 10 0 h rfl (sameArena_refl h)
  refine ⟨r, h', hr, hs, ?_, ?_⟩
  · rcases hcase with ⟨r0, hall⟩ | ⟨rn, j, pre, post, _, hj2, hl, _, hfit, _⟩
    · exact ⟨fun _ i hi => hall i (Nat.zero_le i) hi, fun _ => r0⟩
    · constructor
      · intro e; exact absurd e rn
      · intro hall
        have : sz r < a := hall j hj2 r (by simp [hl])
        omega
  · intro rn
    rcases hcase with ⟨r0, _⟩ | ⟨_, j, pre, post, _, hj2, hl, hpre, hfit, hlow⟩
    · exact absurd r0 rn
    · exact ⟨j, pre, post, hj2, hl, hpre, hfit, fun j' hj' => hlow j' (Nat.zero_le j') hj'⟩

theorem LIST_OFFSET_class (s : Nat) :
    (s ≤ 16 ∧ LIST_OFFSET s = 0) ∨ (16 < s ∧ s ≤ 32 ∧ LIST_OFFSET s = 1) ∨
    (32 < s ∧ s ≤ 64 ∧ LIST_OFFSET s = 2) ∨ (64 < s ∧ s ≤ 128 ∧ LIST_OFFSET s = 3) ∨
    (128 < s ∧ s ≤ 256 ∧ LIST_OFFSET s = 4) ∨ (256 < s ∧ s ≤ 512 ∧ LIST_OFFSET s = 5) ∨
    (512 < s ∧ s ≤ 1024 ∧ LIST_OFFSET s = 6) ∨ (1024 < s ∧ s ≤ 2048 ∧ LIST_OFFSET s = 7) ∨
    (2048 < s ∧ s ≤ 4096 ∧ LIST_OFFSET s = 8) ∨ (4096 < s ∧ LIST_OFFSET s = 9) := by
  unfold LIST_OFFSET
  split_ifs <;> omega

theorem LIST_OFFSET_mono (a s : Nat) (h : a ≤ s) : LIST_OFFSET a ≤ LIST_OFFSET s := by
  have ha := LIST_OFFSET_class a
  have hs := LIST_OFFSET_class s
  omega

theorem LIST_OFFSET_le (a : Nat) : LIST_OFFSET a ≤ 9 := by
  have ha := LIST_OFFSET_class a
  omega

theorem set_head_eq (h1 h2 : Heap) (hs : sameArena h1 h2) (x : Nat) :
    ({ h1 with freelist_headp := x } : Heap) = { h2 with freelist_headp := x } := by
  obtain ⟨a, b, c, d, e, f, g⟩ := hs
  cases h1
  cases h2
  simp only at a b c d e f g
  subst a b c d e f g
  rfl

/-- The state with which a non-empty scan is entered matters only through the
arena: the scratch variable `freelist_headp` is overwritten first. -/
theorem find_fit_from_entry (fuel a k i : Nat) (h1 h2 : Heap) (hs : sameArena h1 h2) :
    find_fit_from fuel a (k + 1) i h1 = find_fit_from fuel a (k + 1) i h2 := by
  obtain ⟨a1, b, c, d, e, f, g⟩ := hs
  cases h1
  cases h2
  simp only at a1 b c d e f g
  subst a1 b c d e f g
  simp only [find_fit_from]
  rfl

theorem find_fit_from_skip (fuel a : Nat) (h0 : Heap) (L : Nat → List Nat) (sz : Nat → Nat)
    (hL : ∀ i, i < 10 → bucket fuel h0 i = .ok (L i))
    (hsz : ∀ i, i < 10 → ∀ x ∈ L i, GET_SIZE h0 (HDRP x) = .ok (sz x))
    (hclass : ∀ i, i < 10 → ∀ x ∈ L i, LIST_OFFSET (sz x) = i) :
    ∀ (d i : Nat), i + d = LIST_OFFSET a →
      find_fit_from fuel a (10 - i) i h0
        = find_fit_from fuel a (10 - LIST_OFFSET a) (LIST_OFFSET a) h0 := by
  intro d
  induction d with
  | zero =>
    intro i hi
    have : i = LIST_OFFSET a := by omega
    rw [this]
  | succ d ih =>
    intro i hi
    have ho := LIST_OFFSET_le a
    have hi10 : i < 10 := by omega
    have hk : 10 - i = (10 - (i + 1)) + 1 := by omega
    rw [hk]
    have hb := hL i hi10
    simp only [bucket, bind_eq_ok] at hb
    obtain ⟨head, hhead, hlist⟩ := hb
    obtain ⟨r, hr, hcase⟩ := find_fit_list_spec h0 a sz fuel head (L i) hlist (hsz i hi10)
    have hr0 : r = NULL := by
      rcases hcase with ⟨r0, _⟩ | ⟨_, pre, post, hl, _, hfit⟩
      · exact r0
      · exfalso
        have hm := LIST_OFFSET_mono a (sz r) hfit
        have hc := hclass i hi10 r (by simp [hl])
        omega
    subst hr0
    have hr' : find_fit_list { h0 with freelist_headp := head } a fuel head = .ok NULL := by
      rw [find_fit_list_congr _ h0 (sameArena_set_head h0 h0 head (sameArena_refl h0))]
      exact hr
    have hstep : find_fit_from fuel a ((10 - (i + 1)) + 1) i h0
        = find_fit_from fuel a (10 - (i + 1)) (i + 1) { h0 with freelist_headp := head } := by
      simp only [find_fit_from, hhead, ok_bind, hr']
      simp
    rw [hstep]
    have hk2 : 10 - (i + 1) = (10 - (i + 1) - 1) + 1 := by omega
    rw [hk2, find_fit_from_entry fuel a _ (i + 1) _ h0
      (sameArena_set_head h0 h0 head (sameArena_refl h0)), ← hk2]
    exact ih (i + 1) (by omega)

theorem first_fit_none (sz : Nat → Nat) (a : Nat) (l : List Nat)
    (h : ∀ x ∈ l, sz x < a) : first_fit sz a l = none := by
  unfold first_fit
  rw [List.find?_eq_none]
  intro x hx
  have := h x hx
  simp only [decide_eq_true_eq]
  omega

theorem first_fit_some (sz : Nat → Nat) (a r : Nat) (pre post : List Nat)
    (hpre : ∀ x ∈ pre, sz x < a) (hr : a ≤ sz r) :
    first_fit sz a (pre ++ r :: post) = some r := by
  induction pre with
  | nil =>
    unfold first_fit
    simp only [List.nil_append, List.find?_cons]
    rw [decide_eq_true hr]
  | cons y pre ih =>
    have hy := hpre y (List.mem_cons_self _ _)
    have := ih (fun x hx => hpre x (List.mem_cons_of_mem _ hx))
    unfold first_fit at this ⊢
    simp only [List.cons_append, List.find?_cons]
    rw [decide_eq_false (by omega)]
    exact this

theorem scan_buckets_none (L : Nat → List Nat) (sz : Nat → Nat) (a : Nat) :
    ∀ k i, (∀ j, i ≤ j → j < i + k → ∀ x ∈ L j, sz x < a) →
      scan_buckets L sz a k i = none := by
  intro k
  induction k with
  | zero => intro i _; rfl
  | succ k ih =>
    intro i h
    simp only [scan_buckets]
    rw [first_fit_none sz a (L i) (h i (Nat.le_refl _) (by omega))]
    exact ih (i + 1) (fun j h1 h2 => h j (by omega) (by omega))

theorem scan_buckets_some (L : Nat → List Nat) (sz : Nat → Nat) (a r j : Nat)
    (hfit : first_fit sz a (L j) = some r) :
    ∀ k i, i ≤ j → j < i + k → (∀ t, i ≤ t → t < j → ∀ x ∈ L t, sz x < a) →
      scan_buckets L sz a k i = some r := by
  intro k
  induction k with
  | zero => intro i h1 h2; omega
  | succ k ih =>
    intro i h1 h2 hlow
    simp only [scan_buckets]
    by_cases e : i = j
    · subst e
      rw [hfit]
    · rw [first_fit_none sz a (L i) (hlow i (Nat.le_refl _) (by omega))]
      exact ih (i + 1) (by omega) (by omega) (fun t h3 h4 => hlow t (by omega) h4)

/-- C20: in a state whose bucket lists are `L`, where every listed block has a
readable header (size `sz`) and sits in the bucket of its size, `find_fit(a)`,
which scans from bucket 0, returns; its result is the result of the specified
search `find_fit_spec` over the buckets `LIST_OFFSET(a)..9` (`NULL` standing
for none), and a block it returns lies in a bucket of index at least
`LIST_OFFSET(a)`. -/
theorem find_fit_refines_spec (fuel : Nat) (h : Heap) (a : Nat) (L : Nat → List Nat)
    (sz : Nat → Nat)
    (hL : ∀ i, i < 10 → bucket fuel h i = .ok (L i))
    (hsz : ∀ i, i < 10 → ∀ x ∈ L i, GET_SIZE h (HDRP x) = .ok (sz x))
    (hclass : ∀ i, i < 10 → ∀ x ∈ L i, LIST_OFFSET (sz x) = i) :
    ∃ r h', find_fit fuel h a = .ok (r, h') ∧ sameArena h' h ∧
      find_fit_spec L sz a = (if r = NULL then none else some r) ∧
      (r ≠ NULL → ∃ i, LIST_OFFSET a ≤ i ∧ i < 10 ∧ r ∈ L i) := by
  have ho := LIST_OFFSET_le a
  obtain ⟨r, h', hr, hs, hcase⟩ :=
    find_fit_from_spec fuel a h L sz hL hsz 10 0 h rfl (sameArena_refl h)
  refine ⟨r, h', hr, hs, ?_, ?_⟩
  · rcases hcase with ⟨r0, hall⟩ | ⟨rn, j, pre, post, _, hj, hl, hpre, hfit, hlow⟩
    · rw [if_pos r0]
      exact scan_buckets_none L sz a _ _
        (fun j _ h2 => hall j (Nat.zero_le _) (by omega))
    · rw [if_neg rn]
      have hm := LIST_OFFSET_mono a (sz r) hfit
      have hc := hclass j hj r (by simp [hl])
      exact scan_buckets_some L sz a r j (by rw [hl]; exact first_fit_some sz a r pre post hpre hfit)
        _ _ (by omega) (by omega) (fun t _ h4 => hlow t (Nat.zero_le _) h4)
  · intro rn
    rcases hcase with ⟨r0, _⟩ | ⟨_, i, pre, post, _, hi, hl, _, hfit, _⟩
    · exact absurd r0 rn
    · have hm := LIST_OFFSET_mono a (sz r) hfit
      have hc := hclass i hi r (by simp [hl])
      exact ⟨i, by omega, hi, by simp [hl]⟩


/-- C19, at a concrete input: `sampleHeap` with the request size 32. -/
theorem find_fit_correct_witness :
    (∀ i, i < 10 → bucket 64 sampleHeap i = .ok (sampleLists i)) ∧
    (∀ i, i < 10 → ∀ x ∈ sampleLists i, GET_SIZE sampleHeap (HDRP x) = .ok (sampleSize x)) ∧
    ∃ r h', find_fit 64 sampleHeap 32 = .ok (r, h') ∧ sameArena h' sampleHeap ∧
      (r = NULL ↔ ∀ i, i < 10 → ∀ x ∈ sampleLists i, sampleSize x < 32) ∧
      (r ≠ NULL → ∃ i pre post, i < 10 ∧ sampleLists i = pre ++ r :: post ∧
          (∀ x ∈ pre, sampleSize x < 32) ∧ 32 ≤ sampleSize r ∧
          ∀ j, j < i → ∀ x ∈ sampleLists j, sampleSize x < 32) :=
  ⟨by decide!, by decide!,
    find_fit_correct 64 sampleHeap 32 sampleLists sampleSize (by decide!) (by decide!)⟩

/-- C20, at a concrete input: `sampleHeap` with the request size 32; the
specified search starts at bucket 1 and finds 1120. -/
theorem find_fit_refines_spec_witness :
    (∀ i, i < 10 → bucket 64 sampleHeap i = .ok (sampleLists i)) ∧
    (∀ i, i < 10 → ∀ x ∈ sampleLists i, GET_SIZE sampleHeap (HDRP x) = .ok (sampleSize x)) ∧
    (∀ i, i < 10 → ∀ x ∈ sampleLists i, LIST_OFFSET (sampleSize x) = i) ∧
    find_fit_spec sampleLists sampleSize 32 = some 1120 ∧
    ∃ r h', find_fit 64 sampleHeap 32 = .ok (r, h') ∧ sameArena h' sampleHeap ∧
      find_fit_spec sampleLists sampleSize 32 = (if r = NULL then none else some r) ∧
      (r ≠ NULL → ∃ i, LIST_OFFSET 32 ≤ i ∧ i < 10 ∧ r ∈ sampleLists i) :=
  ⟨by decide!, by decide!, by decide!, by decide,
    find_fit_refines_spec 64 sampleHeap 32 sampleLists sampleSize
      (by decide!) (by decide!) (by decide!)⟩

theorem getw_lt (m : Nat → Nat) (p : Nat) : getw m p < 4294967296 := by
  unfold getw
  omega

theorem getw_setWord_same (m : Nat → Nat) (p v : Nat) :
    getw (setWord m p v) p = v % 4294967296 := by
  simp [getw, setWord, setByte]
  omega

theorem getw_setWord_disj (m : Nat → Nat) (p q v : Nat) (h : p + 4 ≤ q ∨ q + 4 ≤ p) :
    getw (setWord m p v) q = getw m q := by
  have e0 : q ≠ p := by omega
  have e1 : q ≠ p + 1 := by omega
  have e2 : q ≠ p + 2 := by omega
  have e3 : q ≠ p + 3 := by omega
  have f0 : q + 1 ≠ p := by omega
  have f1 : q + 1 ≠ p + 1 := by omega
  have f2 : q + 1 ≠ p + 2 := by omega
  have f3 : q + 1 ≠ p + 3 := by omega
  have g0 : q + 2 ≠ p := by omega
  have g1 : q + 2 ≠ p + 1 := by omega
  have g2 : q + 2 ≠ p + 2 := by omega
  have g3 : q + 2 ≠ p + 3 := by omega
  have k0 : q + 3 ≠ p := by omega
  have k1 : q + 3 ≠ p + 1 := by omega
  have k2 : q + 3 ≠ p + 2 := by omega
  have k3 : q + 3 ≠ p + 3 := by omega
  simp [getw, setWord, setByte, *]

theorem GET_ok (h : Heap) (p : Nat) (h1 : h.mem_start_brk ≤ p) (h2 : p + 4 ≤ h.mem_brk) :
    GET h p = .ok (getw h.mem p) := by
  unfold GET
  rw [if_pos ⟨h1, h2⟩]
  rfl

theorem PUT_ok (h : Heap) (p v : Nat) (h1 : h.mem_start_brk ≤ p) (h2 : p + 4 ≤ h.mem_brk) :
    PUT h p v = .ok { h with mem := setWord h.mem p v } := by
  unfold PUT
  rw [if_pos ⟨h1, h2⟩]

theorem add32_eq (a b : Nat) (h : a + b < 4294967296) : add32 a b = a + b := by
  unfold add32 U32
  exact Nat.mod_eq_of_lt h

theorem sub32_eq (a b : Nat) (h : b ≤ a) (ha : a < 4294967296) : sub32 a b = a - b := by
  unfold sub32 U32
  have hb : b % 4294967296 = b := Nat.mod_eq_of_lt (by omega)
  rw [hb]
  have : a + (4294967296 - b) = (a - b) + 4294967296 := by omega
  rw [this, Nat.add_mod_right]
  exact Nat.mod_eq_of_lt (by omega)

theorem GET_SIZE_ok (h : Heap) (p : Nat) (h1 : h.mem_start_brk ≤ p) (h2 : p + 4 ≤ h.mem_brk) :
    GET_SIZE h p = .ok (8 * (getw h.mem p / 8)) := by
  unfold GET_SIZE
  rw [GET_ok h p h1 h2]
  show Except.ok _ = _
  rw [land_mask _ (getw_lt _ _)]

theorem GET_ALLOC_ok (h : Heap) (p : Nat) (h1 : h.mem_start_brk ≤ p) (h2 : p + 4 ≤ h.mem_brk) :
    GET_ALLOC h p = .ok (getw h.mem p % 2) := by
  unfold GET_ALLOC
  rw [GET_ok h p h1 h2]
  show Except.ok _ = _
  rw [Nat.and_one_is_mod]

theorem Chain_congr (m m' : Nat → Nat) :
    ∀ (l : List Nat) (prev hd : Nat),
      (∀ x ∈ l, getw m' x = getw m x ∧ getw m' (x + 4) = getw m (x + 4)) →
      Chain m prev hd l → Chain m' prev hd l := by
  intro l
  induction l with
  | nil => intro prev hd _ h; exact h
  | cons x l ih =>
    intro prev hd hx h
    obtain ⟨h1, h2, h3, h4⟩ := h
    have hxx := hx x (by simp)
    refine ⟨h1, h2, by rw [hxx.2]; exact h3, ?_⟩
    rw [hxx.1]
    exact ih x (getw m x) (fun y hy => hx y (by simp [hy])) h4

theorem Chain_ne_null (m : Nat → Nat) :
    ∀ (l : List Nat) (prev hd : Nat), Chain m prev hd l → ∀ x ∈ l, x ≠ NULL := by
  intro l
  induction l with
  | nil => intro _ _ _ x hx; simp at hx
  | cons a l ih =>
    intro prev hd hc x hx
    obtain ⟨_, e2, _, e4⟩ := hc
    rcases List.mem_cons.mp hx with rfl | hx
    · exact e2
    · exact ih a (getw m a) e4 x hx

theorem Chain_back (m : Nat → Nat) (bp : Nat) (post : List Nat) :
    ∀ (pre : List Nat) (prev hd : Nat), Chain m prev hd (pre ++ bp :: post) →
      (pre = [] ∧ getw m (bp + 4) = prev) ∨ (pre ≠ [] ∧ getw m (bp + 4) ∈ pre) := by
  intro pre
  induction pre with
  | nil =>
    intro prev hd hc
    exact Or.inl ⟨rfl, hc.2.2.1⟩
  | cons a pre ih =>
    intro prev hd hc
    right
    refine ⟨by simp, ?_⟩
    rcases ih a (getw m a) hc.2.2.2 with ⟨rfl, h⟩ | ⟨_, h⟩
    · simp [h]
    · simp [h]

theorem Chain_fwd (m : Nat → Nat) (bp : Nat) (post : List Nat) :
    ∀ (pre : List Nat) (prev hd : Nat), Chain m prev hd (pre ++ bp :: post) →
      (post = [] ∧ getw m bp = NULL) ∨ (∃ t, post = getw m bp :: t) := by
  intro pre
  induction pre with
  | nil =>
    intro prev hd hc
    have h := hc.2.2.2
    cases post with
    | nil => exact Or.inl ⟨rfl, h⟩
    | cons y t => exact Or.inr ⟨t, by rw [h.1]⟩
  | cons a pre ih =>
    intro prev hd hc
    exact ih a (getw m a) hc.2.2.2

theorem Chain_head (m : Nat → Nat) (prev hd : Nat) (l : List Nat) (hc : Chain m prev hd l) :
    (l = [] ∧ hd = NULL) ∨ (∃ t, l = hd :: t) := by
  cases l with
  | nil => exact Or.inl ⟨rfl, hc⟩
  | cons y t => exact Or.inr ⟨t, by rw [hc.1]⟩

/-- Unlinking `bp` from the list `pre ++ bp :: post`: if the memory `m'`
differs from `m` on the link fields of the remaining nodes only by the new
forward link of the predecessor and the new back link of the successor, the
remaining nodes form a list again. -/
theorem Chain_unlink (m m' : Nat → Nat) (bp : Nat) (post : List Nat) :
    ∀ (pre : List Nat) (prev hd : Nat),
      Chain m prev hd (pre ++ bp :: post) →
      (pre ++ bp :: post).Nodup →
      prev ∉ pre ++ bp :: post →
      (∀ x ∈ pre ++ post, x ≠ getw m (bp + 4) → getw m' x = getw m x) →
      (∀ x ∈ pre ++ post, x ≠ getw m bp → getw m' (x + 4) = getw m (x + 4)) →
      (pre ≠ [] → getw m' (getw m (bp + 4)) = getw m bp) →
      (post ≠ [] → getw m' (getw m bp + 4) = getw m (bp + 4)) →
      Chain m' prev (if pre = [] then getw m bp else hd) (pre ++ post) := by
  intro pre
  induction pre with
  | nil =>
    intro prev hd hc hnd hprev hfd hbk _ hsucc
    simp only [List.nil_append] at *
    obtain ⟨_, _, hb, hrest⟩ := hc
    simp only [if_true]
    cases post with
    | nil => exact hrest
    | cons y t =>
      obtain ⟨e1, e2, e3, e4⟩ := hrest
      have hy : y ∉ t := by
        have := (List.nodup_cons.mp hnd).2
        exact (List.nodup_cons.mp this).1
      have hyp : y ≠ prev := by
        rintro rfl
        exact hprev (by simp)
      refine ⟨e1, e2, ?_, ?_⟩
      · have := hsucc (by simp)
        rw [e1] at this
        rw [this]; exact hb
      · rw [hfd y (by simp) (by rw [hb]; exact hyp)]
        refine Chain_congr m m' t y (getw m y) ?_ e4
        intro x hx
        refine ⟨hfd x (by simp [hx]) ?_, hbk x (by simp [hx]) ?_⟩
        · rw [hb]
          rintro rfl
          exact hprev (by simp [hx])
        · rw [e1]
          rintro rfl
          exact hy hx
  | cons a pre ih =>
    intro prev hd hc hnd hprev hfd hbk hpred hsucc
    simp only [List.cons_append] at hc hnd ⊢
    obtain ⟨e1, e2, e3, e4⟩ := hc
    have hnd' := (List.nodup_cons.mp hnd).2
    have ha : a ∉ pre ++ bp :: post := (List.nodup_cons.mp hnd).1
    simp only [List.cons_ne_nil, if_false]
    refine ⟨e1, e2, ?_, ?_⟩
    · rw [hbk a (by simp)]
      · exact e3
      · rcases Chain_fwd m bp post pre a (getw m a) e4 with ⟨_, h0⟩ | ⟨t, ht⟩
        · rw [h0]; exact e2
        · intro hh
          apply ha
          rw [ht, ← hh]
          simp
    · have key : getw m' a = (if pre = [] then getw m bp else getw m a) := by
        rcases Chain_back m bp post pre a (getw m a) e4 with ⟨hp, hb⟩ | ⟨hp, hb⟩
        · subst hp
          simp only [if_true]
          have := hpred (by simp)
          rw [hb] at this
          exact this
        · simp only [hp, if_false]
          refine hfd a (by simp) ?_
          intro hh
          apply ha
          rw [hh]
          simp [hb]
      rw [key]
      refine ih a (getw m a) e4 hnd' ha ?_ ?_ ?_ hsucc
      · intro x hx hl
        exact hfd x (by simp only [List.cons_append, List.mem_cons]; exact Or.inr hx) hl
      · intro x hx hl
        exact hbk x (by simp only [List.cons_append, List.mem_cons]; exact Or.inr hx) hl
      · intro _
        exact hpred (by simp)

/-- Pushing `bp` in front of the list `l`. -/
theorem Chain_push (m m' : Nat → Nat) (bp hd : Nat) (l : List Nat)
    (hc : Chain m NULL hd l) (hbp : bp ≠ NULL) (hnd : l.Nodup)
    (hf : getw m' bp = hd) (hb : getw m' (bp + 4) = NULL)
    (hfd : ∀ x ∈ l, getw m' x = getw m x)
    (hbk : ∀ x ∈ l, x ≠ hd → getw m' (x + 4) = getw m (x + 4))
    (hhd : hd ≠ NULL → getw m' (hd + 4) = bp) :
    Chain m' NULL bp (bp :: l) := by
  refine ⟨rfl, hbp, hb, ?_⟩
  rw [hf]
  cases l with
  | nil => exact hc
  | cons y t =>
    obtain ⟨e1, e2, e3, e4⟩ := hc
    subst e1
    refine ⟨rfl, e2, hhd e2, ?_⟩
    rw [hfd hd (by simp)]
    refine Chain_congr m m' t hd (getw m hd) ?_ e4
    intro x hx
    refine ⟨hfd x (by simp [hx]), hbk x (by simp [hx]) ?_⟩
    rintro rfl
    exact (List.nodup_cons.mp hnd).1 hx

theorem erase_mid (pre post : List Nat) (bp : Nat) (hnd : (pre ++ bp :: post).Nodup) :
    (pre ++ bp :: post).erase bp = pre ++ post := by
  have hbp : bp ∉ pre := by
    intro hx
    have := List.nodup_append.mp hnd
    exact this.2.2 hx (by simp)
  rw [List.erase_append_right _ hbp, List.erase_cons_head]

theorem getw_of_bytes (m m' : Nat → Nat) (q : Nat)
    (h : ∀ a, q ≤ a → a < q + 4 → m' a = m a) : getw m' q = getw m q := by
  unfold getw
  rw [h q (by omega) (by omega), h (q + 1) (by omega) (by omega),
    h (q + 2) (by omega) (by omega), h (q + 3) (by omega) (by omega)]

theorem setWord_other (m : Nat → Nat) (p v a : Nat) (h : a < p ∨ p + 4 ≤ a) :
    setWord m p v a = m a := by
  have e0 : a ≠ p := by omega
  have e1 : a ≠ p + 1 := by omega
  have e2 : a ≠ p + 2 := by omega
  have e3 : a ≠ p + 3 := by omega
  simp [setWord, setByte, *]

/-- Replacing the list of bucket `k`: the other buckets are untouched when
their heads and the link fields of their entries are. -/
theorem Buckets_replace (h h' : Heap) (L : Nat → List Nat) (k : Nat) (l : List Nat)
    (hB : Buckets h L) (hb : sameBounds h' h)
    (harena : ∀ x ∈ l, h.seglist_start + 44 ≤ x ∧ x + 8 ≤ h.mem_brk)
    (hsep1 : ∀ x ∈ l, ∀ y ∈ l, x = y ∨ x + 8 ≤ y ∨ y + 8 ≤ x)
    (hsep2 : ∀ x ∈ l, ∀ j, j < 10 → j ≠ k → ∀ y ∈ L j, x + 8 ≤ y ∨ y + 8 ≤ x)
    (hnd : l.Nodup)
    (hchain : Chain h'.mem NULL (getw h'.mem (h.seglist_start + k * 4)) l)
    (hslot : ∀ i, i < 10 → i ≠ k →
      getw h'.mem (h.seglist_start + i * 4) = getw h.mem (h.seglist_start + i * 4))
    (hfld : ∀ i, i < 10 → i ≠ k → ∀ x ∈ L i,
      getw h'.mem x = getw h.mem x ∧ getw h'.mem (x + 4) = getw h.mem (x + 4)) :
    Buckets h' (fun i => if i = k then l else L i) := by
  obtain ⟨b1, b2, b3, b4, b5, b6⟩ := hb
  refine ⟨by rw [b1, b5]; exact hB.lo, by rw [b2, b5]; exact hB.slots,
    by rw [b2]; exact hB.hi, ?_, ?_, ?_, ?_⟩
  · intro i hi
    rw [b5]
    by_cases e : i = k
    · subst e; simp only [if_true]; exact hchain
    · simp only [e, if_false]
      rw [hslot i hi e]
      exact Chain_congr h.mem h'.mem (L i) _ _ (hfld i hi e) (hB.chain i hi)
  · intro i hi x hx
    rw [b2, b5]
    by_cases e : i = k
    · subst e; simp only [if_true] at hx; exact harena x hx
    · simp only [e, if_false] at hx; exact hB.arena i hi x hx
  · intro i j hi hj x hx y hy
    by_cases e : i = k
    · by_cases f : j = k
      · subst e; subst f
        simp only [if_true] at hx hy
        rcases hsep1 x hx y hy with r | r
        · exact Or.inl ⟨rfl, r⟩
        · exact Or.inr r
      · subst e
        simp only [if_true] at hx
        simp only [f, if_false] at hy
        exact Or.inr (hsep2 x hx j hj f y hy)
    · by_cases f : j = k
      · subst f
        simp only [if_true] at hy
        simp only [e, if_false] at hx
        have := hsep2 y hy i hi e x hx
        exact Or.inr (by omega)
      · simp only [e, if_false] at hx
        simp only [f, if_false] at hy
        exact hB.sep i j hi hj x hx y hy
  · intro i hi
    by_cases e : i = k
    · subst e; simp only [if_true]; exact hnd
    · simp only [e, if_false]; exact hB.nodup i hi

theorem nodup_mid (pre post : List Nat) (bp : Nat) (hnd : (pre ++ bp :: post).Nodup) :
    bp ∉ pre ∧ bp ∉ post ∧ ∀ x ∈ pre, x ∉ post := by
  have h := List.nodup_append.mp hnd
  refine ⟨fun hx => h.2.2 hx (by simp), (List.nodup_cons.mp h.2.1).1, ?_⟩
  intro x hx hp
  exact h.2.2 hx (by simp [hp])

/-- The memory effect of `delete(bp)` on the list `pre ++ bp :: post` of bucket
`k`, with `z = BKP(bp)` and `y = FDP(bp)`. -/
theorem delete_mem (h : Heap) (L : Nat → List Nat) (bp k : Nat) (pre post : List Nat)
    (hB : Buckets h L) (hk : k < 10) (hl : L k = pre ++ bp :: post)
    (hsz : LIST_OFFSET (8 * (getw h.mem (bp - 4) / 8)) = k) :
    ∃ m', delete h bp = .ok { h with mem := m' } ∧
      getw m' (h.seglist_start + k * 4)
        = (if pre = [] then getw h.mem bp else getw h.mem (h.seglist_start + k * 4)) ∧
      (pre ≠ [] → getw m' (getw h.mem (bp + 4)) = getw h.mem bp) ∧
      (post ≠ [] → getw m' (getw h.mem bp + 4) = getw h.mem (bp + 4)) ∧
      (∀ a, (a < h.seglist_start + k * 4 ∨ h.seglist_start + k * 4 + 4 ≤ a) →
        (pre = [] ∨ a < getw h.mem (bp + 4) ∨ getw h.mem (bp + 4) + 4 ≤ a) →
        (post = [] ∨ a < getw h.mem bp + 4 ∨ getw h.mem bp + 8 ≤ a) → m' a = h.mem a) := by
  have hmem : bp ∈ L k := by rw [hl]; simp
  have hc := hB.chain k hk
  rw [hl] at hc
  have hnd := hB.nodup k hk
  rw [hl] at hnd
  obtain ⟨ha1, ha2⟩ := hB.arena k hk bp hmem
  have hlo := hB.lo
  have hhi := hB.hi
  have hslots := hB.slots
  have hH : HDRP bp = bp - 4 := by
    unfold HDRP WSIZE; exact sub32_eq bp 4 (by omega) (by omega)
  have hsize : GET_SIZE h (HDRP bp) = .ok (8 * (getw h.mem (bp - 4) / 8)) := by
    rw [hH]; exact GET_SIZE_ok h _ (by omega) (by omega)
  have hslot : add32 h.seglist_start (k * WSIZE) = h.seglist_start + k * 4 := by
    unfold WSIZE; exact add32_eq _ _ (by omega)
  have hbk : BKP h bp = .ok (getw h.mem (bp + 4)) := by
    unfold BKP WSIZE
    rw [add32_eq _ _ (by omega)]
    exact GET_ok h _ (by omega) (by omega)
  have hfd : FDP h bp = .ok (getw h.mem bp) := GET_ok h _ (by omega) (by omega)
  have hback := Chain_back h.mem bp post pre NULL _ hc
  have hfwd := Chain_fwd h.mem bp post pre NULL _ hc
  have hnn := Chain_ne_null h.mem _ NULL _ hc
  rcases hback with ⟨hpre, hz⟩ | ⟨hpre, hz⟩
  · -- `bp` is the first entry
    rcases hfwd with ⟨hpost, hy⟩ | ⟨t, hpost⟩
    · -- and the only one
      refine ⟨setWord h.mem (h.seglist_start + k * 4) NULL, ?_, ?_, ?_, ?_, ?_⟩
      · simp only [delete, hsize, ok_bind, hsz, hslot, hbk, hz, hfd, hy, if_true]
        exact PUT_ok h _ _ (by omega) (by omega)
      · rw [getw_setWord_same, hy]; simp [hpre, NULL]
      · intro hp; exact absurd hpre hp
      · intro hp; exact absurd hpost hp
      · intro a h1 _ _
        exact setWord_other _ _ _ _ h1
    · -- with a successor
      have hy_mem : getw h.mem bp ∈ L k := by rw [hl, hpost]; simp
      obtain ⟨hy1, hy2⟩ := hB.arena k hk _ hy_mem
      have hy0 : getw h.mem bp ≠ NULL := hnn _ (by rw [hpost]; simp)
      have hsepy : bp + 8 ≤ getw h.mem bp ∨ getw h.mem bp + 8 ≤ bp := by
        rcases hB.sep k k hk hk bp hmem _ hy_mem with ⟨_, e⟩ | e
        · exfalso
          apply (nodup_mid pre post bp hnd).2.1
          rw [e, hpost]; simp
        · exact e
      refine ⟨setWord (setWord h.mem (getw h.mem bp + 4) NULL) (h.seglist_start + k * 4)
        (getw h.mem bp), ?_, ?_, ?_, ?_, ?_⟩
      · have e1 : SET_BKP h (getw h.mem bp) NULL
            = .ok { h with mem := setWord h.mem (getw h.mem bp + 4) NULL } := by
          unfold SET_BKP WSIZE
          rw [add32_eq _ _ (by omega)]
          exact PUT_ok h _ _ (by omega) (by omega)
        have e2 : FDP { h with mem := setWord h.mem (getw h.mem bp + 4) NULL } bp
            = .ok (getw h.mem bp) := by
          unfold FDP
          rw [GET_ok _ _ (by simp only; omega) (by simp only; omega)]
          simp only
          rw [getw_setWord_disj _ _ _ _ (by omega)]
        simp only [delete, hsize, ok_bind, hsz, hslot, hbk, hz, hfd, hy0, if_true, if_false,
          e1, e2]
        exact PUT_ok _ _ _ (by simp only; omega) (by simp only; omega)
      · rw [getw_setWord_same, Nat.mod_eq_of_lt (getw_lt _ _)]; simp [hpre]
      · intro hp; exact absurd hpre hp
      · intro _
        rw [getw_setWord_disj _ _ _ _ (by omega), getw_setWord_same, hz]
        rfl
      · intro a h1 _ h3
        have h3' : a < getw h.mem bp + 4 ∨ getw h.mem bp + 8 ≤ a := by
          rcases h3 with h3 | h3
          · rw [hpost] at h3; simp at h3
          · exact h3
        rw [setWord_other _ _ _ _ h1, setWord_other _ _ _ _ (by omega)]
  · -- `bp` has a predecessor
    have hz_mem : getw h.mem (bp + 4) ∈ L k := by rw [hl]; simp [hz]
    obtain ⟨hz1, hz2⟩ := hB.arena k hk _ hz_mem
    have hz0 : getw h.mem (bp + 4) ≠ NULL := hnn _ (by simp [hz])
    have hsepz : bp + 8 ≤ getw h.mem (bp + 4) ∨ getw h.mem (bp + 4) + 8 ≤ bp := by
      rcases hB.sep k k hk hk bp hmem _ hz_mem with ⟨_, e⟩ | e
      · exfalso
        apply (nodup_mid pre post bp hnd).1
        rw [e]; exact hz
      · exact e
    rcases hfwd with ⟨hpost, hy⟩ | ⟨t, hpost⟩
    · -- and no successor
      refine ⟨setWord h.mem (getw h.mem (bp + 4)) NULL, ?_, ?_, ?_, ?_, ?_⟩
      · simp only [delete, hsize, ok_bind, hsz, hslot, hbk, hz0, hfd, hy, if_true, if_false]
        unfold SET_FDP
        exact PUT_ok h _ _ (by omega) (by omega)
      · rw [getw_setWord_disj _ _ _ _ (by omega)]; simp [hpre]
      · intro _
        rw [getw_setWord_same, hy]; rfl
      · intro hp; exact absurd hpost hp
      · intro a _ h2 _
        have h2' : a < getw h.mem (bp + 4) ∨ getw h.mem (bp + 4) + 4 ≤ a := by
          rcases h2 with h2 | h2
          · exact absurd h2 hpre
          · exact h2
        exact setWord_other _ _ _ _ h2'
    · -- and a successor
      have hy_mem : getw h.mem bp ∈ L k := by rw [hl, hpost]; simp
      obtain ⟨hy1, hy2⟩ := hB.arena k hk _ hy_mem
      have hy0 : getw h.mem bp ≠ NULL := hnn _ (by rw [hpost]; simp)
      have hsepy : bp + 8 ≤ getw h.mem bp ∨ getw h.mem bp + 8 ≤ bp := by
        rcases hB.sep k k hk hk bp hmem _ hy_mem with ⟨_, e⟩ | e
        · exfalso
          apply (nodup_mid pre post bp hnd).2.1
          rw [e, hpost]; simp
        · exact e
      have hsepzy : getw h.mem (bp + 4) + 8 ≤ getw h.mem bp
          ∨ getw h.mem bp + 8 ≤ getw h.mem (bp + 4) := by
        rcases hB.sep k k hk hk _ hz_mem _ hy_mem with ⟨_, e⟩ | e
        · exfalso
          apply (nodup_mid pre post bp hnd).2.2 _ hz
          rw [e, hpost]; simp
        · exact e
      refine ⟨setWord (setWord h.mem (getw h.mem (bp + 4)) (getw h.mem bp))
        (getw h.mem bp + 4) (getw h.mem (bp + 4)), ?_, ?_, ?_, ?_, ?_⟩
      · have e1 : SET_FDP h (getw h.mem (bp + 4)) (getw h.mem bp)
            = .ok { h with mem := setWord h.mem (getw h.mem (bp + 4)) (getw h.mem bp) } := by
          unfold SET_FDP
          exact PUT_ok h _ _ (by omega) (by omega)
        have e2 : FDP { h with mem := setWord h.mem (getw h.mem (bp + 4)) (getw h.mem bp) } bp
            = .ok (getw h.mem bp) := by
          unfold FDP
          rw [GET_ok _ _ (by simp only; omega) (by simp only; omega)]
          simp only
          rw [getw_setWord_disj _ _ _ _ (by omega)]
        have e3 : BKP { h with mem := setWord h.mem (getw h.mem (bp + 4)) (getw h.mem bp) } bp
            = .ok (getw h.mem (bp + 4)) := by
          unfold BKP WSIZE
          rw [add32_eq _ _ (by omega), GET_ok _ _ (by simp only; omega) (by simp only; omega)]
          simp only
          rw [getw_setWord_disj _ _ _ _ (by omega)]
        simp only [delete, hsize, ok_bind, hsz, hslot, hbk, hz0, hfd, hy0, if_false, e1, e2, e3]
        unfold SET_BKP WSIZE
        rw [add32_eq _ _ (by omega)]
        exact PUT_ok _ _ _ (by simp only; omega) (by simp only; omega)
      · rw [getw_setWord_disj _ _ _ _ (by omega), getw_setWord_disj _ _ _ _ (by omega)]
        simp [hpre]
      · intro _
        rw [getw_setWord_disj _ _ _ _ (by omega), getw_setWord_same,
          Nat.mod_eq_of_lt (getw_lt _ _)]
      · intro _
        rw [getw_setWord_same, Nat.mod_eq_of_lt (getw_lt _ _)]
      · intro a _ h2 h3
        have h2' : a < getw h.mem (bp + 4) ∨ getw h.mem (bp + 4) + 4 ≤ a := by
          rcases h2 with h2 | h2
          · exact absurd h2 hpre
          · exact h2
        have h3' : a < getw h.mem bp + 4 ∨ getw h.mem bp + 8 ≤ a := by
          rcases h3 with h3 | h3
          · rw [hpost] at h3; simp at h3
          · exact h3
        rw [setWord_other _ _ _ _ h3', setWord_other _ _ _ _ h2']

/-- `delete(bp)` for an entry `bp` of the bucket of its size: afterwards the
bucket lists are the old ones with `bp` removed from its bucket, and all bytes
outside the bucket heads and outside the link fields of the other entries are
unchanged. -/
theorem delete_spec (h : Heap) (L : Nat → List Nat) (bp k : Nat)
    (hB : Buckets h L) (hk : k < 10) (hmem : bp ∈ L k)
    (hsz : LIST_OFFSET (8 * (getw h.mem (bp - 4) / 8)) = k) :
    ∃ m', delete h bp = .ok { h with mem := m' } ∧
      Buckets { h with mem := m' } (fun i => if i = k then (L i).erase bp else L i) ∧
      (∀ a, (a < h.seglist_start ∨ h.seglist_start + 40 ≤ a) →
        (∀ i, i < 10 → ∀ x ∈ L i, x ≠ bp → a < x ∨ x + 8 ≤ a) → m' a = h.mem a) := by
  obtain ⟨pre, post, hl⟩ := List.append_of_mem hmem
  obtain ⟨m', hdel, hP1, hP2, hP3, hP4⟩ := delete_mem h L bp k pre post hB hk hl hsz
  have hc := hB.chain k hk
  rw [hl] at hc
  have hnd := hB.nodup k hk
  rw [hl] at hnd
  have hnm := nodup_mid pre post bp hnd
  have hback := Chain_back h.mem bp post pre NULL _ hc
  have hfwd := Chain_fwd h.mem bp post pre NULL _ hc
  have hnn := Chain_ne_null h.mem _ NULL _ hc
  have hsub : ∀ x ∈ pre ++ post, x ∈ L k := by
    intro x hx
    rw [hl]
    rcases List.mem_append.mp hx with hx | hx
    · simp [hx]
    · simp [hx]
  have hz : pre ≠ [] → getw h.mem (bp + 4) ∈ L k ∧ getw h.mem (bp + 4) ≠ bp := by
    intro hp
    rcases hback with ⟨e, _⟩ | ⟨_, hz⟩
    · exact absurd e hp
    · refine ⟨by rw [hl]; simp [hz], ?_⟩
      intro e
      exact hnm.1 (e ▸ hz)
  have hy : post ≠ [] → getw h.mem bp ∈ L k ∧ getw h.mem bp ≠ bp := by
    intro hp
    rcases hfwd with ⟨e, _⟩ | ⟨t, ht⟩
    · exact absurd e hp
    · have hyp : getw h.mem bp ∈ post := by rw [ht]; simp
      refine ⟨by rw [hl]; simp [hyp], ?_⟩
      intro e
      exact hnm.2.1 (e ▸ hyp)
  have key : ∀ a, (a < h.seglist_start + k * 4 ∨ h.seglist_start + k * 4 + 4 ≤ a) →
      (pre ≠ [] → a < getw h.mem (bp + 4) ∨ getw h.mem (bp + 4) + 4 ≤ a) →
      (post ≠ [] → a < getw h.mem bp + 4 ∨ getw h.mem bp + 8 ≤ a) → m' a = h.mem a := by
    intro a h1 h2 h3
    refine hP4 a h1 ?_ ?_
    · by_cases hp : pre = []
      · exact Or.inl hp
      · exact Or.inr (h2 hp)
    · by_cases hp : post = []
      · exact Or.inl hp
      · exact Or.inr (h3 hp)
  -- bytes of the link fields of an entry, and how they relate to the words written
  have fld : ∀ i, i < 10 → ∀ x ∈ L i, ∀ a, x ≤ a → a < x + 8 →
      (a < x + 4 → pre ≠ [] → x = getw h.mem (bp + 4) → False) →
      (x + 4 ≤ a → post ≠ [] → x = getw h.mem bp → False) → m' a = h.mem a := by
    intro i hi x hx a ha1 ha2 hnz hny
    have hxa := hB.arena i hi x hx
    refine key a (by omega) ?_ ?_
    · intro hp
      obtain ⟨hzm, _⟩ := hz hp
      rcases hB.sep i k hi hk x hx _ hzm with ⟨_, e⟩ | e
      · by_cases hlt : a < x + 4
        · exact absurd (hnz hlt hp e) id
        · omega
      · omega
    · intro hp
      obtain ⟨hym, _⟩ := hy hp
      rcases hB.sep i k hi hk x hx _ hym with ⟨_, e⟩ | e
      · by_cases hlt : a < x + 4
        · omega
        · exact absurd (hny (by omega) hp e) id
      · omega
  refine ⟨m', hdel, ?_, ?_⟩
  · have hfun : (fun i => if i = k then (L i).erase bp else L i)
        = (fun i => if i = k then pre ++ post else L i) := by
      funext i
      by_cases e : i = k
      · subst e; simp only [if_true]; rw [hl, erase_mid pre post bp hnd]
      · simp only [e, if_false]
    rw [hfun]
    refine Buckets_replace h { h with mem := m' } L k (pre ++ post) hB
      ⟨rfl, rfl, rfl, rfl, rfl, rfl⟩ ?_ ?_ ?_ ?_ ?_ ?_ ?_
    · intro x hx; exact hB.arena k hk x (hsub x hx)
    · intro x hx y hy'
      rcases hB.sep k k hk hk x (hsub x hx) y (hsub y hy') with ⟨_, e⟩ | e
      · exact Or.inl e
      · exact Or.inr e
    · intro x hx j hj hjk y hy'
      rcases hB.sep k j hk hj x (hsub x hx) y hy' with ⟨e, _⟩ | e
      · exact absurd e.symm hjk
      · exact e
    · have := List.Nodup.erase bp (hB.nodup k hk)
      rw [hl, erase_mid pre post bp hnd] at this
      exact this
    · simp only
      rw [hP1]
      refine Chain_unlink h.mem m' bp post pre NULL _ hc hnd ?_ ?_ ?_ hP2 hP3
      · intro h0; exact hnn NULL h0 rfl
      · intro x hx hxz
        refine getw_of_bytes _ _ _ ?_
        intro a ha1 ha2
        refine fld k hk x (hsub x hx) a ha1 (by omega) ?_ ?_
        · intro _ _ e; exact hxz e
        · intro hh _ _; omega
      · intro x hx hxy
        refine getw_of_bytes _ _ _ ?_
        intro a ha1 ha2
        refine fld k hk x (hsub x hx) a (by omega) (by omega) ?_ ?_
        · intro hh _ _; omega
        · intro _ _ e; exact hxy e
    · intro i hi hik
      refine getw_of_bytes _ _ _ ?_
      intro a ha1 ha2
      simp only
      refine key a (by omega) ?_ ?_
      · intro hp
        have := hB.arena k hk _ (hz hp).1
        omega
      · intro hp
        have := hB.arena k hk _ (hy hp).1
        omega
    · intro i hi hik x hx
      simp only
      constructor
      · refine getw_of_bytes _ _ _ ?_
        intro a ha1 ha2
        refine fld i hi x hx a ha1 (by omega) ?_ ?_
        · intro _ hp e
          rcases hB.sep i k hi hk x hx _ (hz hp).1 with ⟨e', _⟩ | e'
          · exact hik e'
          · omega
        · intro hh _ _; omega
      · refine getw_of_bytes _ _ _ ?_
        intro a ha1 ha2
        refine fld i hi x hx a (by omega) (by omega) ?_ ?_
        · intro hh _ _; omega
        · intro _ hp e
          rcases hB.sep i k hi hk x hx _ (hy hp).1 with ⟨e', _⟩ | e'
          · exact hik e'
          · omega
  · intro a hout hnodes
    refine key a (by omega) ?_ ?_
    · intro hp
      obtain ⟨hzm, hzb⟩ := hz hp
      have := hnodes k hk _ hzm hzb
      omega
    · intro hp
      obtain ⟨hym, hyb⟩ := hy hp
      have := hnodes k hk _ hym hyb
      omega

/-- `insert(bp)` for a block that is in no list and whose link fields overlap
no entry: afterwards `bp` is the head of the bucket of its size, and all
bytes outside the bucket heads, the link fields of `bp` and the link fields
of the entries are unchanged. -/
theorem insert_spec (h : Heap) (L : Nat → List Nat) (bp k : Nat)
    (hB : Buckets h L) (hsz : LIST_OFFSET (8 * (getw h.mem (bp - 4) / 8)) = k)
    (hb1 : h.seglist_start + 44 ≤ bp) (hb2 : bp + 8 ≤ h.mem_brk)
    (hfresh : ∀ i, i < 10 → ∀ x ∈ L i, x + 8 ≤ bp ∨ bp + 8 ≤ x) :
    ∃ h', insert h bp = .ok h' ∧ sameBounds h' h ∧
      Buckets h' (fun i => if i = k then bp :: L i else L i) ∧
      (∀ a, (a < h.seglist_start ∨ h.seglist_start + 40 ≤ a) → (a < bp ∨ bp + 8 ≤ a) →
        (∀ i, i < 10 → ∀ x ∈ L i, a < x ∨ x + 8 ≤ a) → h'.mem a = h.mem a) := by
  have hk : k < 10 := by
    have := LIST_OFFSET_le (8 * (getw h.mem (bp - 4) / 8))
    omega
  have hlo := hB.lo
  have hhi := hB.hi
  have hslots := hB.slots
  have hc := hB.chain k hk
  have hH : HDRP bp = bp - 4 := by
    unfold HDRP WSIZE; exact sub32_eq bp 4 (by omega) (by omega)
  have hsize : GET_SIZE h (HDRP bp) = .ok (8 * (getw h.mem (bp - 4) / 8)) := by
    rw [hH]; exact GET_SIZE_ok h _ (by omega) (by omega)
  have hslot : add32 h.seglist_start (k * WSIZE) = h.seglist_start + k * 4 := by
    unfold WSIZE; exact add32_eq _ _ (by omega)
  have hget : GET h (h.seglist_start + k * 4) = .ok (getw h.mem (h.seglist_start + k * 4)) :=
    GET_ok h _ (by omega) (by omega)
  have hbp0 : bp ≠ NULL := by unfold NULL; omega
  have hbp32 : bp % 4294967296 = bp := Nat.mod_eq_of_lt (by omega)
  -- the part of the result that does not depend on the shape of the list
  have fin : ∀ m' : Nat → Nat, ∀ fh : Nat,
      getw m' (h.seglist_start + k * 4) = bp →
      getw m' bp = getw h.mem (h.seglist_start + k * 4) →
      getw m' (bp + 4) = NULL →
      (getw h.mem (h.seglist_start + k * 4) ≠ NULL →
        getw m' (getw h.mem (h.seglist_start + k * 4) + 4) = bp) →
      (∀ a, (a < h.seglist_start + k * 4 ∨ h.seglist_start + k * 4 + 4 ≤ a) →
        (a < bp ∨ bp + 8 ≤ a) →
        (getw h.mem (h.seglist_start + k * 4) ∈ L k →
          a < getw h.mem (h.seglist_start + k * 4) + 4 ∨
          getw h.mem (h.seglist_start + k * 4) + 8 ≤ a) → m' a = h.mem a) →
      sameBounds { h with mem := m', freelist_headp := fh } h ∧
      Buckets { h with mem := m', freelist_headp := fh }
        (fun i => if i = k then bp :: L i else L i) ∧
      (∀ a, (a < h.seglist_start ∨ h.seglist_start + 40 ≤ a) → (a < bp ∨ bp + 8 ≤ a) →
        (∀ i, i < 10 → ∀ x ∈ L i, a < x ∨ x + 8 ≤ a) → m' a = h.mem a) := by
    intro m' fh g1 g2 g3 g4 g5
    refine ⟨⟨rfl, rfl, rfl, rfl, rfl, rfl⟩, ?_, ?_⟩
    · have hfun : (fun i => if i = k then bp :: L i else L i)
          = (fun i => if i = k then bp :: L k else L i) := by
        funext i
        by_cases e : i = k
        · subst e; rfl
        · simp only [e, if_false]
      rw [hfun]
      refine Buckets_replace h { h with mem := m', freelist_headp := fh } L k (bp :: L k) hB
        ⟨rfl, rfl, rfl, rfl, rfl, rfl⟩ ?_ ?_ ?_ ?_ ?_ ?_ ?_
      · intro x hx
        rcases List.mem_cons.mp hx with ex | hx'
        · rw [ex]; exact ⟨hb1, hb2⟩
        · exact hB.arena k hk x hx'
      · intro x hx y hy
        rcases List.mem_cons.mp hx with ex | hx'
        · rcases List.mem_cons.mp hy with ey | hy'
          · exact Or.inl (ex.trans ey.symm)
          · have := hfresh k hk y hy'
            exact Or.inr (by omega)
        · rcases List.mem_cons.mp hy with ey | hy'
          · have := hfresh k hk x hx'
            exact Or.inr (by omega)
          · rcases hB.sep k k hk hk x hx' y hy' with ⟨_, e⟩ | e
            · exact Or.inl e
            · exact Or.inr e
      · intro x hx j hj hjk y hy
        rcases List.mem_cons.mp hx with ex | hx'
        · have := hfresh j hj y hy
          omega
        · rcases hB.sep k j hk hj x hx' y hy with ⟨e, _⟩ | e
          · exact absurd e.symm hjk
          · exact e
      · refine List.nodup_cons.mpr ⟨?_, hB.nodup k hk⟩
        intro hx
        have := hfresh k hk bp hx
        omega
      · simp only
        rw [g1]
        refine Chain_push h.mem m' bp _ (L k) hc hbp0 (hB.nodup k hk) g2 g3 ?_ ?_ g4
        · intro x hx
          have ha := hB.arena k hk x hx
          have hf := hfresh k hk x hx
          refine getw_of_bytes _ _ _ ?_
          intro a ha1 ha2
          refine g5 a (by omega) (by omega) ?_
          intro hm
          rcases hB.sep k k hk hk x hx _ hm with ⟨_, e⟩ | e
          · omega
          · omega
        · intro x hx hne
          have ha := hB.arena k hk x hx
          have hf := hfresh k hk x hx
          refine getw_of_bytes _ _ _ ?_
          intro a ha1 ha2
          refine g5 a (by omega) (by omega) ?_
          intro hm
          rcases hB.sep k k hk hk x hx _ hm with ⟨_, e⟩ | e
          · exact absurd e hne
          · omega
      · intro i hi hik
        simp only
        refine getw_of_bytes _ _ _ ?_
        intro a ha1 ha2
        refine g5 a (by omega) (by omega) ?_
        intro hm
        have := hB.arena k hk _ hm
        omega
      · intro i hi hik x hx
        simp only
        have ha := hB.arena i hi x hx
        have hf := hfresh i hi x hx
        have hs : getw h.mem (h.seglist_start + k * 4) ∈ L k →
            x + 8 ≤ getw h.mem (h.seglist_start + k * 4) ∨
              getw h.mem (h.seglist_start + k * 4) + 8 ≤ x := by
          intro hm
          rcases hB.sep i k hi hk x hx _ hm with ⟨e, _⟩ | e
          · exact absurd e hik
          · exact e
        constructor
        · refine getw_of_bytes _ _ _ ?_
          intro a ha1 ha2
          refine g5 a (by omega) (by omega) ?_
          intro hm
          have := hs hm
          omega
        · refine getw_of_bytes _ _ _ ?_
          intro a ha1 ha2
          refine g5 a (by omega) (by omega) ?_
          intro hm
          have := hs hm
          omega
    · intro a h1 h2 h3
      refine g5 a (by omega) h2 ?_
      intro hm
      have := h3 k hk _ hm
      omega
  rcases Chain_head h.mem NULL _ (L k) hc with ⟨hnil, hd0⟩ | ⟨t, hcons⟩
  · -- empty bucket
    refine ⟨{ h with
      mem := setWord (setWord (setWord h.mem bp NULL) (bp + 4) NULL) (h.seglist_start + k * 4) bp,
      freelist_headp := getw h.mem (h.seglist_start + k * 4) }, ?_, ?_⟩
    · simp only [insert, hsize, ok_bind, hsz, hslot, hget, hd0, if_true, SET_FDP, SET_BKP]
      rw [PUT_ok _ _ _ (by simp only; omega) (by simp only; omega)]
      simp only [ok_bind]
      have e4 : add32 bp WSIZE = bp + 4 := by unfold WSIZE; exact add32_eq _ _ (by omega)
      rw [e4, PUT_ok _ _ _ (by simp only; omega) (by simp only; omega)]
      simp only [ok_bind]
      rw [PUT_ok _ _ _ (by simp only; omega) (by simp only; omega)]
    · refine fin _ _ ?_ ?_ ?_ ?_ ?_
      · rw [getw_setWord_same, hbp32]
      · rw [getw_setWord_disj _ _ _ _ (by omega), getw_setWord_disj _ _ _ _ (by omega),
          getw_setWord_same, hd0]
        rfl
      · rw [getw_setWord_disj _ _ _ _ (by omega), getw_setWord_same]
        rfl
      · intro hne; exact absurd hd0 hne
      · intro a h1 h2 _
        rw [setWord_other _ _ _ _ h1, setWord_other _ _ _ _ (by omega),
          setWord_other _ _ _ _ (by omega)]
  · -- the bucket has a head
    have hm : getw h.mem (h.seglist_start + k * 4) ∈ L k := by rw [hcons]; simp
    have hd0 : getw h.mem (h.seglist_start + k * 4) ≠ NULL :=
      Chain_ne_null h.mem _ NULL _ hc _ hm
    obtain ⟨hd1, hd2⟩ := hB.arena k hk _ hm
    have hdf := hfresh k hk _ hm
    have hd32 := Nat.mod_eq_of_lt (getw_lt h.mem (h.seglist_start + k * 4))
    refine ⟨{ h with
      mem := setWord (setWord (setWord (setWord h.mem bp
        (getw h.mem (h.seglist_start + k * 4))) (bp + 4) 0)
        (getw h.mem (h.seglist_start + k * 4) + 4) bp) (h.seglist_start + k * 4) bp,
      freelist_headp := getw h.mem (h.seglist_start + k * 4) }, ?_, ?_⟩
    · simp only [insert, hsize, ok_bind, hsz, hslot, hget, hd0, if_false, SET_FDP, SET_BKP]
      rw [PUT_ok _ _ _ (by simp only; omega) (by simp only; omega)]
      simp only [ok_bind]
      have e4 : add32 bp WSIZE = bp + 4 := by unfold WSIZE; exact add32_eq _ _ (by omega)
      have e5 : add32 (getw h.mem (h.seglist_start + k * 4)) WSIZE
          = getw h.mem (h.seglist_start + k * 4) + 4 := by
        unfold WSIZE; exact add32_eq _ _ (by omega)
      rw [e4, PUT_ok _ _ _ (by simp only; omega) (by simp only; omega)]
      simp only [ok_bind]
      rw [e5, PUT_ok _ _ _ (by simp only; omega) (by simp only; omega)]
      simp only [ok_bind]
      rw [PUT_ok _ _ _ (by simp only; omega) (by simp only; omega)]
    · refine fin _ _ ?_ ?_ ?_ ?_ ?_
      · rw [getw_setWord_same, hbp32]
      · rw [getw_setWord_disj _ _ _ _ (by omega), getw_setWord_disj _ _ _ _ (by omega),
          getw_setWord_disj _ _ _ _ (by omega), getw_setWord_same, hd32]
      · rw [getw_setWord_disj _ _ _ _ (by omega), getw_setWord_disj _ _ _ _ (by omega),
          getw_setWord_same]
        rfl
      · intro _
        rw [getw_setWord_disj _ _ _ _ (by omega), getw_setWord_same, hbp32]
      · intro a h1 h2 h3
        have := h3 hm
        rw [setWord_other _ _ _ _ h1, setWord_other _ _ _ _ (by omega),
          setWord_other _ _ _ _ (by omega), setWord_other _ _ _ _ (by omega)]

theorem mem_removeFrom (h : Heap) (L : Nat → List Nat) (k p i x : Nat)
    (hB : Buckets h L) (hk : k < 10) (hp : p ∈ L k) (hi : i < 10)
    (hx : x ∈ removeFrom L k p i) : x ∈ L i ∧ x ≠ p := by
  unfold removeFrom at hx
  by_cases e : i = k
  · rw [if_pos e] at hx
    have hnd := hB.nodup i hi
    exact ⟨List.mem_of_mem_erase hx, ((List.Nodup.mem_erase_iff hnd).mp hx).1⟩
  · rw [if_neg e] at hx
    refine ⟨hx, ?_⟩
    intro exp
    rcases hB.sep i k hi hk x hx p hp with ⟨e', _⟩ | e'
    · exact e e'
    · omega

/-- The bucket lists only depend on the bucket heads and on the link fields
of the entries. -/
theorem Buckets_congr (h h' : Heap) (L : Nat → List Nat) (hB : Buckets h L)
    (hb : sameBounds h' h)
    (hslot : ∀ a, h.seglist_start ≤ a → a < h.seglist_start + 40 → h'.mem a = h.mem a)
    (hfld : ∀ i, i < 10 → ∀ x ∈ L i, ∀ a, x ≤ a → a < x + 8 → h'.mem a = h.mem a) :
    Buckets h' L := by
  obtain ⟨b1, b2, b3, b4, b5, b6⟩ := hb
  refine ⟨by rw [b1, b5]; exact hB.lo, by rw [b2, b5]; exact hB.slots,
    by rw [b2]; exact hB.hi, ?_, ?_, hB.sep, hB.nodup⟩
  · intro i hi
    rw [b5]
    have e : getw h'.mem (h.seglist_start + i * 4) = getw h.mem (h.seglist_start + i * 4) := by
      refine getw_of_bytes _ _ _ ?_
      intro a ha1 ha2
      exact hslot a (by omega) (by omega)
    rw [e]
    refine Chain_congr h.mem h'.mem (L i) _ _ ?_ (hB.chain i hi)
    intro x hx
    constructor
    · refine getw_of_bytes _ _ _ ?_
      intro a ha1 ha2
      exact hfld i hi x hx a ha1 (by omega)
    · refine getw_of_bytes _ _ _ ?_
      intro a ha1 ha2
      exact hfld i hi x hx a (by omega) (by omega)
  · intro i hi x hx
    rw [b2, b5]
    exact hB.arena i hi x hx

theorem sameBounds_trans (a b c : Heap) (h1 : sameBounds a b) (h2 : sameBounds b c) :
    sameBounds a c := by
  obtain ⟨a1, a2, a3, a4, a5, a6⟩ := h1
  obtain ⟨b1, b2, b3, b4, b5, b6⟩ := h2
  exact ⟨a1.trans b1, a2.trans b2, a3.trans b3, a4.trans b4, a5.trans b5, a6.trans b6⟩

theorem size_round (s : Nat) (h : s % 8 = 0) : 8 * (s / 8) = s := by omega

/-- What `coalesce(bp)` reads before it branches: `pw` is the footer word of
the previous block, `nw` the header word of the next block, `s` the size of
`bp`. -/
theorem coalesce_reads (h : Heap) (bp s pw nw : Nat)
    (hlo : h.mem_start_brk ≤ h.seglist_start) (hhi : h.mem_brk < 4294967296)
    (hs8 : s % 8 = 0) (hs16 : 16 ≤ s)
    (hprev : 8 * (pw / 8) + h.seglist_start + 44 ≤ bp)
    (hnext : bp + s ≤ h.mem_brk)
    (hhdr : getw h.mem (bp - 4) = s)
    (hpw : getw h.mem (bp - 8) = pw) (hph : getw h.mem (bp - 8 * (pw / 8) - 4) = pw)
    (hnw : getw h.mem (bp + s - 4) = nw) :
    PREV_BLKP h bp = .ok (bp - 8 * (pw / 8)) ∧
    NEXT_BLKP h bp = .ok (bp + s) ∧
    FTRP h (bp - 8 * (pw / 8)) = .ok (bp - 8) ∧
    GET_ALLOC h (bp - 8) = .ok (pw % 2) ∧
    GET_ALLOC h (HDRP (bp + s)) = .ok (nw % 2) ∧
    GET_SIZE h (HDRP bp) = .ok s ∧
    GET_SIZE h (HDRP (bp - 8 * (pw / 8))) = .ok (8 * (pw / 8)) ∧
    GET_SIZE h (HDRP (bp + s)) = .ok (8 * (nw / 8)) := by
  have hH : HDRP bp = bp - 4 := by
    unfold HDRP WSIZE; exact sub32_eq bp 4 (by omega) (by omega)
  have hHp : HDRP (bp - 8 * (pw / 8)) = bp - 8 * (pw / 8) - 4 := by
    unfold HDRP WSIZE; exact sub32_eq _ 4 (by omega) (by omega)
  have hHn : HDRP (bp + s) = bp + s - 4 := by
    unfold HDRP WSIZE; exact sub32_eq _ 4 (by omega) (by omega)
  have eS : GET_SIZE h (HDRP bp) = .ok s := by
    rw [hH, GET_SIZE_ok h _ (by omega) (by omega), hhdr, size_round s hs8]
  have ePs : GET_SIZE h (HDRP (bp - 8 * (pw / 8))) = .ok (8 * (pw / 8)) := by
    rw [hHp, GET_SIZE_ok h _ (by omega) (by omega), hph]
  refine ⟨?_, ?_, ?_, ?_, ?_, eS, ePs, ?_⟩
  · unfold PREV_BLKP DSIZE
    rw [sub32_eq bp 8 (by omega) (by omega), GET_SIZE_ok h _ (by omega) (by omega), hpw]
    simp only [ok_bind]
    rw [sub32_eq bp _ (by omega) (by omega)]
    rfl
  · unfold NEXT_BLKP
    rw [eS]
    simp only [ok_bind]
    rw [add32_eq _ _ (by omega)]
    rfl
  · unfold FTRP DSIZE
    rw [ePs]
    simp only [ok_bind]
    rw [add32_eq _ _ (by omega), sub32_eq _ 8 (by omega) (by omega)]
    have : bp - 8 * (pw / 8) + 8 * (pw / 8) - 8 = bp - 8 := by omega
    rw [this]
    rfl
  · rw [GET_ALLOC_ok h _ (by omega) (by omega), hpw]
  · rw [hHn, GET_ALLOC_ok h _ (by omega) (by omega), hnw]
  · rw [hHn, GET_SIZE_ok h _ (by omega) (by omega), hnw]

/-- Case 1 of `coalesce`: both neighbours are allocated. -/
theorem coalesce_none (h : Heap) (L : Nat → List Nat) (bp s pw nw : Nat)
    (hB : Buckets h L) (hs8 : s % 8 = 0) (hs16 : 16 ≤ s)
    (hprev : 8 * (pw / 8) + h.seglist_start + 44 ≤ bp)
    (hnext : bp + s ≤ h.mem_brk)
    (hhdr : getw h.mem (bp - 4) = s)
    (hpw : getw h.mem (bp - 8) = pw) (hph : getw h.mem (bp - 8 * (pw / 8) - 4) = pw)
    (hnw : getw h.mem (bp + s - 4) = nw)
    (hout : ∀ i, i < 10 → ∀ x ∈ L i, x + 12 ≤ bp ∨ bp + s ≤ x)
    (hpa : pw % 2 = 1) (hna : nw % 2 = 1) :
    ∃ h', coalesce h bp = .ok (bp, h') ∧ sameBounds h' h ∧
      Buckets h' (pushOn L (LIST_OFFSET s) bp) ∧
      (∀ a, (a < h.seglist_start ∨ h.seglist_start + 40 ≤ a) → (a < bp ∨ bp + 8 ≤ a) →
        (∀ i, i < 10 → ∀ x ∈ L i, a < x ∨ x + 8 ≤ a) → h'.mem a = h.mem a) := by
  obtain ⟨e1, e2, e3, e4, e5, e6, _, _⟩ :=
    coalesce_reads h bp s pw nw hB.lo hB.hi hs8 hs16 hprev hnext hhdr hpw hph hnw
  have hps : 8 ≤ 8 * (pw / 8) := by
    by_contra hc
    have h0 : 8 * (pw / 8) = 0 := by omega
    rw [h0] at hph
    simp only [Nat.sub_zero] at hph
    rw [hph] at hhdr
    omega
  obtain ⟨h', hi, hsb, hBk, hfr⟩ := insert_spec h L bp (LIST_OFFSET s) hB
    (by rw [hhdr, size_round s hs8]) (by omega) (by omega)
    (by intro i hi x hx; have := hout i hi x hx; omega)
  refine ⟨h', ?_, hsb, hBk, hfr⟩
  simp only [coalesce, e1, e2, e3, e4, e5, e6, ok_bind, hpa, hna, hi]
  rfl

theorem PACK_zero (x : Nat) : PACK x 0 = x := by
  unfold PACK
  exact Nat.or_zero x

/-- The common end of the merging cases of `coalesce`: once the size `t` is
stored in the header of `M` and in the footer at `M + t - 8`, `insert(M)`
makes `M` the head of the bucket of `t`. -/
theorem merge_tail (h : Heap) (L : Nat → List Nat) (M t : Nat) (m2 m3 : Nat → Nat)
    (hB : Buckets h L) (ht8 : t % 8 = 0) (ht16 : 16 ≤ t)
    (hM : h.seglist_start + 44 ≤ M) (hend : M + t ≤ h.mem_brk)
    (hm2 : m2 = setWord h.mem (M - 4) t) (hm3 : m3 = setWord m2 (M + t - 8) t)
    (hfresh : ∀ i, i < 10 → ∀ x ∈ L i, x + 12 ≤ M ∨ M + t ≤ x) :
    ∃ h', insert { h with mem := m3 } M = .ok h' ∧ sameBounds h' h ∧
      getw h'.mem (M - 4) = t ∧ getw h'.mem (M + t - 8) = t ∧
      Buckets h' (pushOn L (LIST_OFFSET t) M) ∧
      (∀ a, (a < h.seglist_start ∨ h.seglist_start + 40 ≤ a) →
        (a < M - 4 ∨ M + t - 4 ≤ a) →
        (∀ i, i < 10 → ∀ x ∈ L i, a < x ∨ x + 8 ≤ a) → h'.mem a = h.mem a) := by
  have hlo := hB.lo
  have hhi := hB.hi
  have ht32 : t % 4294967296 = t := Nat.mod_eq_of_lt (by omega)
  have hB3 : Buckets { h with mem := m3 } L := by
    refine Buckets_congr _ _ _ hB ⟨rfl, rfl, rfl, rfl, rfl, rfl⟩ ?_ ?_
    · intro a ha1 ha2
      simp only
      rw [hm3, hm2, setWord_other _ _ _ _ (by omega), setWord_other _ _ _ _ (by omega)]
    · intro i hi x hx a ha1 ha2
      have := hfresh i hi x hx
      simp only
      rw [hm3, hm2, setWord_other _ _ _ _ (by omega), setWord_other _ _ _ _ (by omega)]
  have hw1 : getw m3 (M - 4) = t := by
    rw [hm3, hm2, getw_setWord_disj _ _ _ _ (by omega), getw_setWord_same, ht32]
  have hw2 : getw m3 (M + t - 8) = t := by
    rw [hm3, getw_setWord_same, ht32]
  obtain ⟨h', hins, hsb, hBk, hfr⟩ := insert_spec _ _ M (LIST_OFFSET t) hB3
    (by simp only; rw [hw1, size_round _ ht8])
    (by simp only; omega) (by simp only; omega)
    (by intro i hi x hx; have := hfresh i hi x hx; omega)
  simp only at hfr
  have hother : ∀ a, (M - 4 ≤ a ∧ a < M) ∨ (M + t - 8 ≤ a ∧ a < M + t - 4) →
      ∀ i, i < 10 → ∀ x ∈ L i, a < x ∨ x + 8 ≤ a := by
    intro a ha i hi x hx
    have := hfresh i hi x hx
    omega
  refine ⟨h', hins, hsb, ?_, ?_, hBk, ?_⟩
  · refine Eq.trans ?_ hw1
    refine getw_of_bytes _ _ _ ?_
    intro a ha1 ha2
    exact hfr a (by omega) (by omega) (hother a (by omega))
  · refine Eq.trans ?_ hw2
    refine getw_of_bytes _ _ _ ?_
    intro a ha1 ha2
    exact hfr a (by omega) (by omega) (hother a (by omega))
  · intro a ha1 ha2 ha3
    rw [hfr a ha1 (by omega) ha3, hm3, hm2,
      setWord_other _ _ _ _ (by omega), setWord_other _ _ _ _ (by omega)]

/-- Case 2 of `coalesce`: the previous block `bp - ps` is free, the next
block is allocated. -/
theorem coalesce_prev (h : Heap) (L : Nat → List Nat) (bp s pw nw : Nat)
    (hB : Buckets h L) (hs8 : s % 8 = 0) (hs16 : 16 ≤ s)
    (hnext : bp + s ≤ h.mem_brk)
    (hhdr : getw h.mem (bp - 4) = s)
    (hpw : getw h.mem (bp - 8) = pw) (hph : getw h.mem (bp - 8 * (pw / 8) - 4) = pw)
    (hnw : getw h.mem (bp + s - 4) = nw)
    (hp16 : 16 ≤ 8 * (pw / 8))
    (hpm : bp - 8 * (pw / 8) ∈ L (LIST_OFFSET (8 * (pw / 8))))
    (hout : ∀ i, i < 10 → ∀ x ∈ L i,
      x = bp - 8 * (pw / 8) ∨ x + 12 ≤ bp - 8 * (pw / 8) ∨ bp + s ≤ x)
    (hpf : pw % 2 = 0) (hna : nw % 2 = 1) :
    ∃ h', coalesce h bp = .ok (bp - 8 * (pw / 8), h') ∧ sameBounds h' h ∧
      getw h'.mem (bp - 8 * (pw / 8) - 4) = s + 8 * (pw / 8) ∧
      getw h'.mem (bp + s - 8) = s + 8 * (pw / 8) ∧
      Buckets h' (pushOn (removeFrom L (LIST_OFFSET (8 * (pw / 8))) (bp - 8 * (pw / 8)))
        (LIST_OFFSET (s + 8 * (pw / 8))) (bp - 8 * (pw / 8))) ∧
      (∀ a, (a < h.seglist_start ∨ h.seglist_start + 40 ≤ a) →
        (a < bp - 8 * (pw / 8) - 4 ∨ bp + s - 4 ≤ a) →
        (∀ i, i < 10 → ∀ x ∈ L i, a < x ∨ x + 8 ≤ a) → h'.mem a = h.mem a) := by
  have hk : LIST_OFFSET (8 * (pw / 8)) < 10 := by
    have := LIST_OFFSET_le (8 * (pw / 8)); omega
  obtain ⟨hP1, hP2⟩ := hB.arena _ hk _ hpm
  have hlo := hB.lo
  have hhi := hB.hi
  obtain ⟨e1, e2, e3, e4, e5, e6, e7, _⟩ :=
    coalesce_reads h bp s pw nw hB.lo hB.hi hs8 hs16 (by omega) hnext hhdr hpw hph hnw
  obtain ⟨m1, hdel, hB1, hfr1⟩ := delete_spec h L (bp - 8 * (pw / 8)) _ hB hk hpm
    (by rw [hph])
  have hH : HDRP bp = bp - 4 := by
    unfold HDRP WSIZE; exact sub32_eq bp 4 (by omega) (by omega)
  have hHp : HDRP (bp - 8 * (pw / 8)) = bp - 8 * (pw / 8) - 4 := by
    unfold HDRP WSIZE; exact sub32_eq _ 4 (by omega) (by omega)
  have hsum : PACK (add32 s (8 * (pw / 8))) 0 = s + 8 * (pw / 8) := by
    rw [PACK_zero, add32_eq _ _ (by omega)]
  have hftr : bp + s - 8 = bp - 8 * (pw / 8) + (s + 8 * (pw / 8)) - 8 := by omega
  -- the header of `bp` is not touched by the removal
  have hhdr1 : getw m1 (bp - 4) = s := by
    rw [← hhdr]
    refine getw_of_bytes _ _ _ ?_
    intro a ha1 ha2
    refine hfr1 a (by omega) ?_
    intro i hi x hx hne
    rcases hout i hi x hx with e | e | e
    · exact absurd e hne
    · omega
    · omega
  obtain ⟨m2, hm2⟩ : ∃ m, m = setWord m1 (bp - 8 * (pw / 8) - 4) (s + 8 * (pw / 8)) :=
    ⟨_, rfl⟩
  obtain ⟨m3, hm3⟩ : ∃ m, m = setWord m2 (bp + s - 8) (s + 8 * (pw / 8)) := ⟨_, rfl⟩
  have ep1 : PUT { h with mem := m1 } (HDRP (bp - 8 * (pw / 8)))
      (PACK (add32 s (8 * (pw / 8))) 0) = .ok { h with mem := m2 } := by
    rw [hHp, hsum, hm2]
    exact PUT_ok _ _ _ (by simp only; omega) (by simp only; omega)
  have ef : FTRP { h with mem := m2 } bp = .ok (bp + s - 8) := by
    unfold FTRP DSIZE
    rw [hH, GET_SIZE_ok _ _ (by simp only; omega) (by simp only; omega)]
    simp only [ok_bind]
    rw [hm2, getw_setWord_disj _ _ _ _ (by omega), hhdr1, size_round s hs8,
      add32_eq _ _ (by omega), sub32_eq _ 8 (by omega) (by omega)]
    rfl
  have ep2 : PUT { h with mem := m2 } (bp + s - 8) (PACK (add32 s (8 * (pw / 8))) 0)
      = .ok { h with mem := m3 } := by
    rw [hsum, hm3]
    exact PUT_ok _ _ _ (by simp only; omega) (by simp only; omega)
  have hmemL : ∀ i, i < 10 → ∀ x ∈ removeFrom L (LIST_OFFSET (8 * (pw / 8)))
      (bp - 8 * (pw / 8)) i, x ∈ L i ∧ (x + 12 ≤ bp - 8 * (pw / 8) ∨ bp + s ≤ x) := by
    intro i hi x hx
    obtain ⟨hx1, hx2⟩ := mem_removeFrom h L _ _ i x hB hk hpm hi hx
    refine ⟨hx1, ?_⟩
    rcases hout i hi x hx1 with e | e | e
    · exact absurd e hx2
    · exact Or.inl e
    · exact Or.inr e
  obtain ⟨h', hins, hsb, hw1, hw2, hBk, hfr⟩ := merge_tail { h with mem := m1 } _
    (bp - 8 * (pw / 8)) (s + 8 * (pw / 8)) m2 m3 hB1 (by omega) (by omega)
    (by simp only; omega) (by simp only; omega) hm2 (by rw [hm3, hftr])
    (by intro i hi x hx; have := (hmemL i hi x hx).2; omega)
  simp only at hfr hins
  refine ⟨h', ?_, hsb, hw1, by rw [hftr]; exact hw2, hBk, ?_⟩
  · simp only [coalesce, e1, e2, e3, e4, e5, e6, e7, ok_bind, hpf, hna, hdel, ep1, ef, ep2,
      hins]
    rfl
  · intro a ha1 ha2 ha3
    rw [hfr a ha1 (by omega) (fun i hi x hx => ha3 i hi x (hmemL i hi x hx).1)]
    exact hfr1 a ha1 (fun i hi x hx _ => ha3 i hi x hx)

/-- Case 3 of `coalesce`: the previous block is allocated, the next block
`bp + s` is free. -/
theorem coalesce_next (h : Heap) (L : Nat → List Nat) (bp s pw nw : Nat)
    (hB : Buckets h L) (hs8 : s % 8 = 0) (hs16 : 16 ≤ s)
    (hprev : 8 * (pw / 8) + h.seglist_start + 44 ≤ bp)
    (hhdr : getw h.mem (bp - 4) = s)
    (hpw : getw h.mem (bp - 8) = pw) (hph : getw h.mem (bp - 8 * (pw / 8) - 4) = pw)
    (hnw : getw h.mem (bp + s - 4) = nw)
    (hn16 : 16 ≤ 8 * (nw / 8))
    (hnm : bp + s ∈ L (LIST_OFFSET (8 * (nw / 8))))
    (hnend : bp + s + 8 * (nw / 8) ≤ h.mem_brk)
    (hout : ∀ i, i < 10 → ∀ x ∈ L i,
      x = bp + s ∨ x + 12 ≤ bp ∨ bp + s + 8 * (nw / 8) ≤ x)
    (hpa : pw % 2 = 1) (hnf : nw % 2 = 0) :
    ∃ h', coalesce h bp = .ok (bp, h') ∧ sameBounds h' h ∧
      getw h'.mem (bp - 4) = s + 8 * (nw / 8) ∧
      getw h'.mem (bp + (s + 8 * (nw / 8)) - 8) = s + 8 * (nw / 8) ∧
      Buckets h' (pushOn (removeFrom L (LIST_OFFSET (8 * (nw / 8))) (bp + s))
        (LIST_OFFSET (s + 8 * (nw / 8))) bp) ∧
      (∀ a, (a < h.seglist_start ∨ h.seglist_start + 40 ≤ a) →
        (a < bp - 4 ∨ bp + (s + 8 * (nw / 8)) - 4 ≤ a) →
        (∀ i, i < 10 → ∀ x ∈ L i, a < x ∨ x + 8 ≤ a) → h'.mem a = h.mem a) := by
  have hk : LIST_OFFSET (8 * (nw / 8)) < 10 := by
    have := LIST_OFFSET_le (8 * (nw / 8)); omega
  have hlo := hB.lo
  have hhi := hB.hi
  obtain ⟨e1, e2, e3, e4, e5, e6, _, e8⟩ :=
    coalesce_reads h bp s pw nw hB.lo hB.hi hs8 hs16 hprev (by omega) hhdr hpw hph hnw
  obtain ⟨m1, hdel, hB1, hfr1⟩ := delete_spec h L (bp + s) _ hB hk hnm (by rw [hnw])
  have hH : HDRP bp = bp - 4 := by
    unfold HDRP WSIZE; exact sub32_eq bp 4 (by omega) (by omega)
  have hsum : PACK (add32 s (8 * (nw / 8))) 0 = s + 8 * (nw / 8) := by
    rw [PACK_zero, add32_eq _ _ (by omega)]
  have hsum32 : (s + 8 * (nw / 8)) % 4294967296 = s + 8 * (nw / 8) :=
    Nat.mod_eq_of_lt (by omega)
  obtain ⟨m2, hm2⟩ : ∃ m, m = setWord m1 (bp - 4) (s + 8 * (nw / 8)) := ⟨_, rfl⟩
  obtain ⟨m3, hm3⟩ : ∃ m, m = setWord m2 (bp + (s + 8 * (nw / 8)) - 8) (s + 8 * (nw / 8)) :=
    ⟨_, rfl⟩
  have ep1 : PUT { h with mem := m1 } (HDRP bp)
      (PACK (add32 s (8 * (nw / 8))) 0) = .ok { h with mem := m2 } := by
    rw [hH, hsum, hm2]
    exact PUT_ok _ _ _ (by simp only; omega) (by simp only; omega)
  have ef : FTRP { h with mem := m2 } bp = .ok (bp + (s + 8 * (nw / 8)) - 8) := by
    unfold FTRP DSIZE
    rw [hH, GET_SIZE_ok _ _ (by simp only; omega) (by simp only; omega)]
    simp only [ok_bind]
    rw [hm2, getw_setWord_same, hsum32, size_round _ (by omega),
      add32_eq _ _ (by omega), sub32_eq _ 8 (by omega) (by omega)]
    rfl
  have ep2 : PUT { h with mem := m2 } (bp + (s + 8 * (nw / 8)) - 8)
      (PACK (add32 s (8 * (nw / 8))) 0) = .ok { h with mem := m3 } := by
    rw [hsum, hm3]
    exact PUT_ok _ _ _ (by simp only; omega) (by simp only; omega)
  have hmemL : ∀ i, i < 10 → ∀ x ∈ removeFrom L (LIST_OFFSET (8 * (nw / 8))) (bp + s) i,
      x ∈ L i ∧ (x + 12 ≤ bp ∨ bp + s + 8 * (nw / 8) ≤ x) := by
    intro i hi x hx
    obtain ⟨hx1, hx2⟩ := mem_removeFrom h L _ _ i x hB hk hnm hi hx
    refine ⟨hx1, ?_⟩
    rcases hout i hi x hx1 with e | e | e
    · exact absurd e hx2
    · exact Or.inl e
    · exact Or.inr e
  obtain ⟨h', hins, hsb, hw1, hw2, hBk, hfr⟩ := merge_tail { h with mem := m1 } _
    bp (s + 8 * (nw / 8)) m2 m3 hB1 (by omega) (by omega)
    (by simp only; omega) (by simp only; omega) hm2 hm3
    (by intro i hi x hx; have := (hmemL i hi x hx).2; omega)
  simp only at hfr hins
  refine ⟨h', ?_, hsb, hw1, hw2, hBk, ?_⟩
  · simp only [coalesce, e1, e2, e3, e4, e5, e6, e8, ok_bind, hpa, hnf, hdel, ep1, ef, ep2,
      hins]
    rfl
  · intro a ha1 ha2 ha3
    rw [hfr a ha1 ha2 (fun i hi x hx => ha3 i hi x (hmemL i hi x hx).1)]
    exact hfr1 a ha1 (fun i hi x hx _ => ha3 i hi x hx)

/-- Case 4 of `coalesce`: both neighbours are free. -/
theorem coalesce_both (h : Heap) (L : Nat → List Nat) (bp s pw nw : Nat)
    (hB : Buckets h L) (hs8 : s % 8 = 0) (hs16 : 16 ≤ s)
    (hhdr : getw h.mem (bp - 4) = s)
    (hpw : getw h.mem (bp - 8) = pw) (hph : getw h.mem (bp - 8 * (pw / 8) - 4) = pw)
    (hnw : getw h.mem (bp + s - 4) = nw)
    (hp16 : 16 ≤ 8 * (pw / 8))
    (hpm : bp - 8 * (pw / 8) ∈ L (LIST_OFFSET (8 * (pw / 8))))
    (hn16 : 16 ≤ 8 * (nw / 8))
    (hnm : bp + s ∈ L (LIST_OFFSET (8 * (nw / 8))))
    (hnend : bp + s + 8 * (nw / 8) ≤ h.mem_brk)
    (hnf : getw h.mem (bp + s + 8 * (nw / 8) - 8) = nw)
    (hout : ∀ i, i < 10 → ∀ x ∈ L i, x = bp - 8 * (pw / 8) ∨ x = bp + s ∨
      x + 12 ≤ bp - 8 * (pw / 8) ∨ bp + s + 8 * (nw / 8) ≤ x)
    (hpf : pw % 2 = 0) (hnfr : nw % 2 = 0) :
    ∃ h', coalesce h bp = .ok (bp - 8 * (pw / 8), h') ∧ sameBounds h' h ∧
      getw h'.mem (bp - 8 * (pw / 8) - 4) = s + 8 * (pw / 8) + 8 * (nw / 8) ∧
      getw h'.mem (bp + s + 8 * (nw / 8) - 8) = s + 8 * (pw / 8) + 8 * (nw / 8) ∧
      Buckets h' (pushOn (removeFrom (removeFrom L (LIST_OFFSET (8 * (pw / 8)))
          (bp - 8 * (pw / 8))) (LIST_OFFSET (8 * (nw / 8))) (bp + s))
        (LIST_OFFSET (s + 8 * (pw / 8) + 8 * (nw / 8))) (bp - 8 * (pw / 8))) ∧
      (∀ a, (a < h.seglist_start ∨ h.seglist_start + 40 ≤ a) →
        (a < bp - 8 * (pw / 8) - 4 ∨ bp + s + 8 * (nw / 8) - 4 ≤ a) →
        (∀ i, i < 10 → ∀ x ∈ L i, a < x ∨ x + 8 ≤ a) → h'.mem a = h.mem a) := by
  have hkp : LIST_OFFSET (8 * (pw / 8)) < 10 := by
    have := LIST_OFFSET_le (8 * (pw / 8)); omega
  have hkn : LIST_OFFSET (8 * (nw / 8)) < 10 := by
    have := LIST_OFFSET_le (8 * (nw / 8)); omega
  obtain ⟨hP1, hP2⟩ := hB.arena _ hkp _ hpm
  have hlo := hB.lo
  have hhi := hB.hi
  obtain ⟨e1, e2, e3, e4, e5, e6, e7, e8⟩ :=
    coalesce_reads h bp s pw nw hB.lo hB.hi hs8 hs16 (by omega) (by omega) hhdr hpw hph hnw
  have hH : HDRP bp = bp - 4 := by
    unfold HDRP WSIZE; exact sub32_eq bp 4 (by omega) (by omega)
  have hHp : HDRP (bp - 8 * (pw / 8)) = bp - 8 * (pw / 8) - 4 := by
    unfold HDRP WSIZE; exact sub32_eq _ 4 (by omega) (by omega)
  have hHn : HDRP (bp + s) = bp + s - 4 := by
    unfold HDRP WSIZE; exact sub32_eq _ 4 (by omega) (by omega)
  -- the size read from the footer of the next block
  have ef0 : FTRP h (bp + s) = .ok (bp + s + 8 * (nw / 8) - 8) := by
    unfold FTRP DSIZE
    rw [e8]
    simp only [ok_bind]
    rw [add32_eq _ _ (by omega), sub32_eq _ 8 (by omega) (by omega)]
    rfl
  have es0 : GET_SIZE h (bp + s + 8 * (nw / 8) - 8) = .ok (8 * (nw / 8)) := by
    rw [GET_SIZE_ok h _ (by omega) (by omega), hnf]
  have hsum : PACK (add32 (add32 s (8 * (pw / 8))) (8 * (nw / 8))) 0
      = s + 8 * (pw / 8) + 8 * (nw / 8) := by
    rw [PACK_zero, add32_eq s _ (by omega), add32_eq _ _ (by omega)]
  have hsum32 : (s + 8 * (pw / 8) + 8 * (nw / 8)) % 4294967296
      = s + 8 * (pw / 8) + 8 * (nw / 8) := Nat.mod_eq_of_lt (by omega)
  -- first removal
  obtain ⟨m1, hdel1, hB1, hfr1⟩ := delete_spec h L (bp - 8 * (pw / 8)) _ hB hkp hpm
    (by rw [hph])
  have hne : bp + s ≠ bp - 8 * (pw / 8) := by omega
  have hnm1 : bp + s ∈ removeFrom L (LIST_OFFSET (8 * (pw / 8))) (bp - 8 * (pw / 8))
      (LIST_OFFSET (8 * (nw / 8))) := by
    unfold removeFrom
    by_cases e : LIST_OFFSET (8 * (nw / 8)) = LIST_OFFSET (8 * (pw / 8))
    · rw [if_pos e]
      exact (List.mem_erase_of_ne hne).mpr hnm
    · rw [if_neg e]
      exact hnm
  have hmem1 : ∀ i, i < 10 → ∀ x ∈ removeFrom L (LIST_OFFSET (8 * (pw / 8)))
      (bp - 8 * (pw / 8)) i, x ∈ L i ∧ x ≠ bp - 8 * (pw / 8) :=
    fun i hi x hx => mem_removeFrom h L _ _ i x hB hkp hpm hi hx
  have hnw1 : getw m1 (bp + s - 4) = nw := by
    rw [← hnw]
    refine getw_of_bytes _ _ _ ?_
    intro a ha1 ha2
    refine hfr1 a (by omega) ?_
    intro i hi x hx hxne
    rcases hout i hi x hx with e | e | e | e
    · exact absurd e hxne
    · omega
    · omega
    · omega
  -- second removal
  obtain ⟨m1b, hdel2, hB2, hfr2⟩ := delete_spec { h with mem := m1 } _ (bp + s) _ hB1 hkn hnm1
    (by simp only; rw [hnw1])
  simp only at hfr2
  have hmem2 : ∀ i, i < 10 → ∀ x ∈ removeFrom (removeFrom L (LIST_OFFSET (8 * (pw / 8)))
      (bp - 8 * (pw / 8))) (LIST_OFFSET (8 * (nw / 8))) (bp + s) i,
      x ∈ L i ∧ (x + 12 ≤ bp - 8 * (pw / 8) ∨ bp + s + 8 * (nw / 8) ≤ x) := by
    intro i hi x hx
    obtain ⟨hx1, hx2⟩ := mem_removeFrom _ _ _ _ i x hB1 hkn hnm1 hi hx
    obtain ⟨hx3, hx4⟩ := hmem1 i hi x hx1
    refine ⟨hx3, ?_⟩
    rcases hout i hi x hx3 with e | e | e | e
    · exact absurd e hx4
    · exact absurd e hx2
    · exact Or.inl e
    · exact Or.inr e
  -- bytes outside the bucket heads and outside the link fields are kept by both removals
  have hkeep : ∀ a, (a < h.seglist_start ∨ h.seglist_start + 40 ≤ a) →
      (∀ i, i < 10 → ∀ x ∈ L i, a < x ∨ x + 8 ≤ a) → m1b a = h.mem a := by
    intro a ha1 ha3
    rw [hfr2 a ha1 (fun i hi x hx _ => ha3 i hi x (hmem1 i hi x hx).1)]
    exact hfr1 a ha1 (fun i hi x hx _ => ha3 i hi x hx)
  have hnw2 : getw m1b (bp + s - 4) = nw := by
    rw [← hnw]
    refine getw_of_bytes _ _ _ ?_
    intro a ha1 ha2
    refine hkeep a (by omega) ?_
    intro i hi x hx
    rcases hout i hi x hx with e | e | e | e
    · omega
    · omega
    · omega
    · omega
  have hftr : bp + s + 8 * (nw / 8) - 8
      = bp - 8 * (pw / 8) + (s + 8 * (pw / 8) + 8 * (nw / 8)) - 8 := by omega
  obtain ⟨m2, hm2⟩ : ∃ m, m = setWord m1b (bp - 8 * (pw / 8) - 4)
      (s + 8 * (pw / 8) + 8 * (nw / 8)) := ⟨_, rfl⟩
  obtain ⟨m3, hm3⟩ : ∃ m, m = setWord m2 (bp + s + 8 * (nw / 8) - 8)
      (s + 8 * (pw / 8) + 8 * (nw / 8)) := ⟨_, rfl⟩
  have ep1 : PUT { h with mem := m1b } (HDRP (bp - 8 * (pw / 8)))
      (PACK (add32 (add32 s (8 * (pw / 8))) (8 * (nw / 8))) 0)
      = .ok { h with mem := m2 } := by
    rw [hHp, hsum, hm2]
    exact PUT_ok _ _ _ (by simp only; omega) (by simp only; omega)
  have ef : FTRP { h with mem := m2 } (bp + s) = .ok (bp + s + 8 * (nw / 8) - 8) := by
    unfold FTRP DSIZE
    rw [hHn, GET_SIZE_ok _ _ (by simp only; omega) (by simp only; omega)]
    simp only [ok_bind]
    rw [hm2, getw_setWord_disj _ _ _ _ (by omega), hnw2,
      add32_eq _ _ (by omega), sub32_eq _ 8 (by omega) (by omega)]
    rfl
  have ep2 : PUT { h with mem := m2 } (bp + s + 8 * (nw / 8) - 8)
      (PACK (add32 (add32 s (8 * (pw / 8))) (8 * (nw / 8))) 0)
      = .ok { h with mem := m3 } := by
    rw [hsum, hm3]
    exact PUT_ok _ _ _ (by simp only; omega) (by simp only; omega)
  obtain ⟨h', hins, hsb, hw1, hw2, hBk, hfr⟩ := merge_tail { h with mem := m1b } _
    (bp - 8 * (pw / 8)) (s + 8 * (pw / 8) + 8 * (nw / 8)) m2 m3 hB2 (by omega) (by omega)
    (by simp only; omega) (by simp only; omega) hm2 (by rw [hm3, hftr])
    (by intro i hi x hx; have := (hmem2 i hi x hx).2; omega)
  simp only at hfr hins
  refine ⟨h', ?_, hsb, hw1, by rw [hftr]; exact hw2, hBk, ?_⟩
  · simp only [coalesce, e1, e2, e3, e4, e5, e6, e7, ef0, es0, ok_bind, hpf, hnfr, hdel1,
      hdel2, ep1, ef, ep2, hins]
    rfl
  · intro a ha1 ha2 ha3
    rw [hfr a ha1 (by omega) (fun i hi x hx => ha3 i hi x (hmem2 i hi x hx).1)]
    exact hkeep a ha1 ha3

theorem Buckets_head (h : Heap) (L : Nat → List Nat) (k x : Nat) (t : List Nat)
    (hB : Buckets h L) (hk : k < 10) (hl : L k = x :: t) :
    getw h.mem (h.seglist_start + k * 4) = x := by
  have hc := hB.chain k hk
  rw [hl] at hc
  exact hc.1

theorem pushOn_head (L : Nat → List Nat) (k x : Nat) : pushOn L k x k = x :: L k := by
  unfold pushOn
  rw [if_pos rfl]

/-- C17 (amended): `coalesce(bp)` for a block `bp` of size `s`, at least 16
bytes, whose header and footer
are marked free, in a state whose bucket lists are `L` and whose neighbours
are consistent (`pw` is the footer word of the previous block and equals its
header word, `nw` is the header word of the next block; a free neighbour is a
listed block of at least 16 bytes, and no other listed block overlaps the
blocks involved).  In each of the four cases the call returns the payload
pointer of the merged block, whose header and footer hold the sum of the
merged sizes with the allocated bit clear; the merged neighbours are removed
from the buckets of their sizes and the merged block is the head of the bucket
of the new size. -/
theorem coalesce_merges_free_neighbours (h : Heap) (L : Nat → List Nat) (bp s pw nw : Nat)
    (hB : Buckets h L) (hs8 : s % 8 = 0) (hs16 : 16 ≤ s)
    (hhdr : getw h.mem (bp - 4) = s) (hftr : getw h.mem (bp + s - 8) = s)
    (hpw : getw h.mem (bp - 8) = pw) (hph : getw h.mem (bp - 8 * (pw / 8) - 4) = pw)
    (hprev : 8 * (pw / 8) + h.seglist_start + 44 ≤ bp)
    (hnw : getw h.mem (bp + s - 4) = nw) (hnext : bp + s ≤ h.mem_brk)
    (hout : ∀ i, i < 10 → ∀ x ∈ L i, x + 12 ≤ bp ∨ bp + s ≤ x)
    (hP : pw % 2 = 0 → 16 ≤ 8 * (pw / 8) ∧
      bp - 8 * (pw / 8) ∈ L (LIST_OFFSET (8 * (pw / 8))) ∧
      ∀ i, i < 10 → ∀ x ∈ L i, x = bp - 8 * (pw / 8) ∨ x + 12 ≤ bp - 8 * (pw / 8) ∨ bp ≤ x)
    (hN : nw % 2 = 0 → 16 ≤ 8 * (nw / 8) ∧
      bp + s ∈ L (LIST_OFFSET (8 * (nw / 8))) ∧
      bp + s + 8 * (nw / 8) ≤ h.mem_brk ∧
      getw h.mem (bp + s + 8 * (nw / 8) - 8) = nw ∧
      ∀ i, i < 10 → ∀ x ∈ L i, x = bp + s ∨ x + 12 ≤ bp + s ∨ bp + s + 8 * (nw / 8) ≤ x) :
    (pw % 2 = 1 ∧ nw % 2 = 1 →
      ∃ h', coalesce h bp = .ok (bp, h') ∧ sameBounds h' h ∧
        getw h'.mem (bp - 4) = s ∧ getw h'.mem (bp + s - 8) = s ∧
        getw h'.mem (h.seglist_start + LIST_OFFSET s * 4) = bp ∧
        Buckets h' (pushOn L (LIST_OFFSET s) bp)) ∧
    (pw % 2 = 0 ∧ nw % 2 = 1 →
      ∃ h', coalesce h bp = .ok (bp - 8 * (pw / 8), h') ∧ sameBounds h' h ∧
        getw h'.mem (bp - 8 * (pw / 8) - 4) = s + 8 * (pw / 8) ∧
        getw h'.mem (bp + s - 8) = s + 8 * (pw / 8) ∧
        getw h'.mem (h.seglist_start + LIST_OFFSET (s + 8 * (pw / 8)) * 4)
          = bp - 8 * (pw / 8) ∧
        Buckets h' (pushOn (removeFrom L (LIST_OFFSET (8 * (pw / 8))) (bp - 8 * (pw / 8)))
          (LIST_OFFSET (s + 8 * (pw / 8))) (bp - 8 * (pw / 8)))) ∧
    (pw % 2 = 1 ∧ nw % 2 = 0 →
      ∃ h', coalesce h bp = .ok (bp, h') ∧ sameBounds h' h ∧
        getw h'.mem (bp - 4) = s + 8 * (nw / 8) ∧
        getw h'.mem (bp + (s + 8 * (nw / 8)) - 8) = s + 8 * (nw / 8) ∧
        getw h'.mem (h.seglist_start + LIST_OFFSET (s + 8 * (nw / 8)) * 4) = bp ∧
        Buckets h' (pushOn (removeFrom L (LIST_OFFSET (8 * (nw / 8))) (bp + s))
          (LIST_OFFSET (s + 8 * (nw / 8))) bp)) ∧
    (pw % 2 = 0 ∧ nw % 2 = 0 →
      ∃ h', coalesce h bp = .ok (bp - 8 * (pw / 8), h') ∧ sameBounds h' h ∧
        getw h'.mem (bp - 8 * (pw / 8) - 4) = s + 8 * (pw / 8) + 8 * (nw / 8) ∧
        getw h'.mem (bp + s + 8 * (nw / 8) - 8) = s + 8 * (pw / 8) + 8 * (nw / 8) ∧
        getw h'.mem (h.seglist_start + LIST_OFFSET (s + 8 * (pw / 8) + 8 * (nw / 8)) * 4)
          = bp - 8 * (pw / 8) ∧
        Buckets h' (pushOn (removeFrom (removeFrom L (LIST_OFFSET (8 * (pw / 8)))
            (bp - 8 * (pw / 8))) (LIST_OFFSET (8 * (nw / 8))) (bp + s))
          (LIST_OFFSET (s + 8 * (pw / 8) + 8 * (nw / 8))) (bp - 8 * (pw / 8)))) := by
  have hlt : ∀ t, LIST_OFFSET t < 10 := fun t => by
    have := LIST_OFFSET_le t; omega
  have hhead : ∀ (h' : Heap) (L' : Nat → List Nat) (k x : Nat), sameBounds h' h →
      Buckets h' (pushOn L' k x) → k < 10 → getw h'.mem (h.seglist_start + k * 4) = x := by
    intro h' L' k x hsb hBk hk
    have := Buckets_head h' _ k x _ hBk hk (pushOn_head L' k x)
    rw [hsb.2.2.2.2.1] at this
    exact this
  refine ⟨?_, ?_, ?_, ?_⟩
  · rintro ⟨hpa, hna⟩
    obtain ⟨h', hc, hsb, hBk, hfr⟩ :=
      coalesce_none h L bp s pw nw hB hs8 hs16 hprev hnext hhdr hpw hph hnw hout hpa hna
    have hps : 8 ≤ 8 * (pw / 8) := by
      by_contra hcon
      have h0 : 8 * (pw / 8) = 0 := by omega
      rw [h0] at hph
      simp only [Nat.sub_zero] at hph
      rw [hph] at hhdr
      omega
    refine ⟨h', hc, hsb, ?_, ?_, hhead h' L _ bp hsb hBk (hlt s), hBk⟩
    · refine Eq.trans ?_ hhdr
      refine getw_of_bytes _ _ _ ?_
      intro a ha1 ha2
      refine hfr a (by omega) (by omega) ?_
      intro i hi x hx
      have := hout i hi x hx
      omega
    · refine Eq.trans ?_ hftr
      refine getw_of_bytes _ _ _ ?_
      intro a ha1 ha2
      refine hfr a (by omega) (by omega) ?_
      intro i hi x hx
      have := hout i hi x hx
      omega
  · rintro ⟨hpf, hna⟩
    obtain ⟨hp16, hpm, hpo⟩ := hP hpf
    obtain ⟨h', hc, hsb, hw1, hw2, hBk, _⟩ :=
      coalesce_prev h L bp s pw nw hB hs8 hs16 hnext hhdr hpw hph hnw hp16 hpm
        (by
          intro i hi x hx
          have h1 := hout i hi x hx
          have h2 := hpo i hi x hx
          omega)
        hpf hna
    exact ⟨h', hc, hsb, hw1, hw2, hhead h' _ _ _ hsb hBk (hlt _), hBk⟩
  · rintro ⟨hpa, hnf⟩
    obtain ⟨hn16, hnm, hnend, _, hno⟩ := hN hnf
    obtain ⟨h', hc, hsb, hw1, hw2, hBk, _⟩ :=
      coalesce_next h L bp s pw nw hB hs8 hs16 hprev hhdr hpw hph hnw hn16 hnm hnend
        (by
          intro i hi x hx
          have h1 := hout i hi x hx
          have h2 := hno i hi x hx
          omega)
        hpa hnf
    exact ⟨h', hc, hsb, hw1, hw2, hhead h' _ _ _ hsb hBk (hlt _), hBk⟩
  · rintro ⟨hpf, hnf⟩
    obtain ⟨hp16, hpm, hpo⟩ := hP hpf
    obtain ⟨hn16, hnm, hnend, hnftr, hno⟩ := hN hnf
    obtain ⟨h', hc, hsb, hw1, hw2, hBk, _⟩ :=
      coalesce_both h L bp s pw nw hB hs8 hs16 hhdr hpw hph hnw hp16 hpm hn16 hnm hnend
        hnftr
        (by
          intro i hi x hx
          have h1 := hout i hi x hx
          have h2 := hpo i hi x hx
          have h3 := hno i hi x hx
          omega)
        hpf hnf
    exact ⟨h', hc, hsb, hw1, hw2, hhead h' _ _ _ hsb hBk (hlt _), hBk⟩

theorem Buckets_of_B (h : Heap) (L : Nat → List Nat) (hb : BucketsB h L) : Buckets h L :=
  ⟨hb.1, hb.2.1, hb.2.2.1, hb.2.2.2.1, hb.2.2.2.2.1,
    fun i j hi hj => hb.2.2.2.2.2.1 i hi j hj, hb.2.2.2.2.2.2⟩

theorem mergeHeap_buckets : BucketsB mergeHeap mergeLists := by
  decide!

theorem mergeHeap_words :
    getw mergeHeap.mem (1072 - 4) = 16 ∧ getw mergeHeap.mem (1072 + 16 - 8) = 16 ∧
    getw mergeHeap.mem (1072 - 8) = 16 ∧ getw mergeHeap.mem (1072 - 8 * (16 / 8) - 4) = 16 ∧
    8 * (16 / 8) + mergeHeap.seglist_start + 44 ≤ 1072 ∧
    getw mergeHeap.mem (1072 + 16 - 4) = 16 ∧ 1072 + 16 ≤ mergeHeap.mem_brk ∧
    1072 + 16 + 8 * (16 / 8) ≤ mergeHeap.mem_brk ∧
    getw mergeHeap.mem (1072 + 16 + 8 * (16 / 8) - 8) = 16 := by
  decide!

theorem mergeLists_apart :
    (∀ i, i < 10 → ∀ x ∈ mergeLists i, x + 12 ≤ 1072 ∨ 1072 + 16 ≤ x) ∧
    (1072 - 8 * (16 / 8) ∈ mergeLists (LIST_OFFSET (8 * (16 / 8))) ∧
      ∀ i, i < 10 → ∀ x ∈ mergeLists i,
        x = 1072 - 8 * (16 / 8) ∨ x + 12 ≤ 1072 - 8 * (16 / 8) ∨ 1072 ≤ x) ∧
    (1072 + 16 ∈ mergeLists (LIST_OFFSET (8 * (16 / 8))) ∧
      ∀ i, i < 10 → ∀ x ∈ mergeLists i,
        x = 1072 + 16 ∨ x + 12 ≤ 1072 + 16 ∨ 1072 + 16 + 8 * (16 / 8) ≤ x) := by
  decide

/-- C17, at a concrete input: in `mergeHeap` the block 1072 lies between the
free blocks 1056 and 1088 (all of 16 bytes); the three blocks become one free
block of 48 bytes at 1056, the head of bucket 2, and bucket 0 is emptied. -/
theorem coalesce_merges_free_neighbours_witness :
    Buckets mergeHeap mergeLists ∧
    ∃ h', coalesce mergeHeap 1072 = .ok (1072 - 8 * (16 / 8), h') ∧
      sameBounds h' mergeHeap ∧
      getw h'.mem (1072 - 8 * (16 / 8) - 4) = 16 + 8 * (16 / 8) + 8 * (16 / 8) ∧
      getw h'.mem (1072 + 16 + 8 * (16 / 8) - 8) = 16 + 8 * (16 / 8) + 8 * (16 / 8) ∧
      getw h'.mem (mergeHeap.seglist_start
          + LIST_OFFSET (16 + 8 * (16 / 8) + 8 * (16 / 8)) * 4) = 1072 - 8 * (16 / 8) ∧
      Buckets h' (pushOn (removeFrom (removeFrom mergeLists (LIST_OFFSET (8 * (16 / 8)))
          (1072 - 8 * (16 / 8))) (LIST_OFFSET (8 * (16 / 8))) (1072 + 16))
        (LIST_OFFSET (16 + 8 * (16 / 8) + 8 * (16 / 8))) (1072 - 8 * (16 / 8))) :=
  ⟨Buckets_of_B _ _ mergeHeap_buckets,
    (coalesce_merges_free_neighbours mergeHeap mergeLists 1072 16 16 16
      (Buckets_of_B _ _ mergeHeap_buckets) (by decide) (by decide)
      mergeHeap_words.1 mergeHeap_words.2.1 mergeHeap_words.2.2.1
      mergeHeap_words.2.2.2.1 mergeHeap_words.2.2.2.2.1 mergeHeap_words.2.2.2.2.2.1
      mergeHeap_words.2.2.2.2.2.2.1 mergeLists_apart.1
      (fun _ => ⟨by decide, mergeLists_apart.2.1⟩)
      (fun _ => ⟨by decide, mergeLists_apart.2.2.1, mergeHeap_words.2.2.2.2.2.2.2.1,
        mergeHeap_words.2.2.2.2.2.2.2.2, mergeLists_apart.2.2.2⟩)).2.2.2
      ⟨by decide, by decide⟩⟩

/-- C17 (counterexample): a block of 8 bytes.  `mm_malloc(4294967295)` returns
1056, a block of 8 bytes (the adjusted size wraps), and `mm_malloc(8)` returns
the block 1064 behind it.  In `tinyHeap` the header and footer of 1056 are
marked free with size 8, both neighbours (prologue footer 9, next header 17)
are allocated and consistent, and the bucket lists are well formed.
`coalesce(1056)` returns 1056 with header 8, but the footer word, which is the
first payload word of so small a block, now holds the forward link 0, and the
back link has overwritten the header of the allocated block 1064 (17 before)
with 0: the returned block's header differs from its footer.  The same three
words result from `mm_free(1056)` itself, while 1064 is still live. -/
theorem coalesce_of_an_eight_byte_block_overwrites_its_footer :
    (run 64 1000 20971520 [.malloc 4294967295, .malloc 8]).map (fun r => r.out)
      = .ok [1064, 1056] ∧
    BucketsB tinyHeap tinyLists ∧
    (getw tinyHeap.mem (1056 - 4) = 8 ∧ getw tinyHeap.mem (1056 + 8 - 8) = 8 ∧
      getw tinyHeap.mem (1056 - 8) = 9 ∧ getw tinyHeap.mem (1056 - 8 * (9 / 8) - 4) = 9 ∧
      getw tinyHeap.mem (1056 + 8 - 4) = 17 ∧ getw tinyHeap.mem (1064 + 16 - 8) = 17) ∧
    (coalesce tinyHeap 1056).map
        (fun r => (r.1, getw r.2.mem (1056 - 4), getw r.2.mem (1056 + 8 - 8),
          getw r.2.mem (1064 - 4)))
      = .ok (1056, 8, 0, 0) ∧
    (run 64 1000 20971520 [.malloc 4294967295, .malloc 8, .free 1056]).map
        (fun r => (getw r.heap.mem 1052, getw r.heap.mem 1056, getw r.heap.mem 1060,
          isLive 1064 r.live))
      = .ok (8, 0, 0, true) := by
  refine ⟨?_, ?_, ?_, ?_, ?_⟩
  · decide!
  · decide!
  · decide!
  · decide!
  · decide!

theorem HDRP_eq (bp : Nat) (h1 : 4 ≤ bp) (h2 : bp < 4294967296) : HDRP bp = bp - 4 := by
  unfold HDRP WSIZE
  exact sub32_eq bp 4 h1 h2

theorem NEXT_BLKP_ok (h : Heap) (bp sz : Nat) (h1 : h.mem_start_brk + 4 ≤ bp)
    (h2 : bp ≤ h.mem_brk) (h3 : h.mem_brk < 4294967296)
    (hsz : 8 * (getw h.mem (bp - 4) / 8) = sz) (h4 : bp + sz < 4294967296) :
    NEXT_BLKP h bp = .ok (bp + sz) := by
  unfold NEXT_BLKP
  rw [HDRP_eq bp (by omega) (by omega), GET_SIZE_ok h _ (by omega) (by omega), hsz]
  simp only [ok_bind]
  rw [add32_eq _ _ h4]
  rfl

theorem FTRP_ok (h : Heap) (bp sz : Nat) (h1 : h.mem_start_brk + 4 ≤ bp)
    (h2 : bp ≤ h.mem_brk) (h3 : h.mem_brk < 4294967296)
    (hsz : 8 * (getw h.mem (bp - 4) / 8) = sz) (h4 : bp + sz < 4294967296)
    (h5 : 8 ≤ bp + sz) :
    FTRP h bp = .ok (bp + sz - 8) := by
  unfold FTRP DSIZE
  rw [HDRP_eq bp (by omega) (by omega), GET_SIZE_ok h _ (by omega) (by omega), hsz]
  simp only [ok_bind]
  rw [add32_eq _ _ h4, sub32_eq _ 8 h5 h4]
  rfl

theorem PACK_one (x : Nat) (hx : x % 8 = 0) : PACK x 1 = x + 1 := by
  unfold PACK
  exact lor_one x (by omega)

theorem not_mem_removeFrom (h : Heap) (L : Nat → List Nat) (k p i : Nat)
    (hB : Buckets h L) (hk : k < 10) (hp : p ∈ L k) (hi : i < 10) :
    p ∉ removeFrom L k p i := by
  intro hx
  exact (mem_removeFrom h L k p i p hB hk hp hi hx).2 rfl

/-- The state after `delete(bp)` in `place`: the header of `bp` and the header
of the next block are still the same. -/
theorem place_delete (h : Heap) (L : Nat → List Nat) (bp s : Nat)
    (hB : Buckets h L) (hs8 : s % 8 = 0)
    (hhdr : getw h.mem (bp - 4) = s) (hm : bp ∈ L (LIST_OFFSET s))
    (hend : bp + s ≤ h.mem_brk)
    (hout : ∀ i, i < 10 → ∀ x ∈ L i, x = bp ∨ x + 12 ≤ bp ∨ bp + s ≤ x) :
    ∃ m1, delete h bp = .ok { h with mem := m1 } ∧
      Buckets { h with mem := m1 } (removeFrom L (LIST_OFFSET s) bp) ∧
      GET_SIZE { h with mem := m1 } (HDRP bp) = .ok s ∧
      getw m1 (bp + s - 4) = getw h.mem (bp + s - 4) ∧
      (∀ i, i < 10 → ∀ x ∈ removeFrom L (LIST_OFFSET s) bp i,
        x ∈ L i ∧ (x + 12 ≤ bp ∨ bp + s ≤ x)) := by
  have hk : LIST_OFFSET s < 10 := by
    have := LIST_OFFSET_le s; omega
  obtain ⟨hP1, hP2⟩ := hB.arena _ hk _ hm
  have hlo := hB.lo
  have hhi := hB.hi
  obtain ⟨m1, hdel, hB1, hfr1⟩ := delete_spec h L bp _ hB hk hm
    (by rw [hhdr, size_round s hs8])
  have hother : ∀ i, i < 10 → ∀ x ∈ L i, x ≠ bp → x + 12 ≤ bp ∨ bp + s ≤ x := by
    intro i hi x hx hne
    rcases hout i hi x hx with e | e | e
    · exact absurd e hne
    · exact Or.inl e
    · exact Or.inr e
  have hhdr1 : getw m1 (bp - 4) = s := by
    rw [← hhdr]
    refine getw_of_bytes _ _ _ ?_
    intro a ha1 ha2
    refine hfr1 a (by omega) ?_
    intro i hi x hx hne
    have := hother i hi x hx hne
    omega
  refine ⟨m1, hdel, hB1, ?_, ?_, ?_⟩
  · rw [HDRP_eq bp (by omega) (by omega),
      GET_SIZE_ok _ _ (by simp only; omega) (by simp only; omega)]
    simp only
    rw [hhdr1, size_round s hs8]
  · refine getw_of_bytes _ _ _ ?_
    intro a ha1 ha2
    refine hfr1 a (by omega) ?_
    intro i hi x hx hne
    have := hother i hi x hx hne
    have := hB.arena i hi x hx
    omega
  · intro i hi x hx
    obtain ⟨hx1, hx2⟩ := mem_removeFrom h L _ _ i x hB hk hm hi hx
    exact ⟨hx1, hother i hi x hx1 hx2⟩

/-- `place(bp, a)` when the rest `s - a` is smaller than a minimum block: the
whole block becomes allocated. -/
theorem place_whole (h : Heap) (L : Nat → List Nat) (bp s a : Nat)
    (hB : Buckets h L) (hs8 : s % 8 = 0) (hs : 8 ≤ s) (has : a ≤ s) (hlt : s - a < 16)
    (hhdr : getw h.mem (bp - 4) = s) (hm : bp ∈ L (LIST_OFFSET s))
    (hend : bp + s ≤ h.mem_brk)
    (hout : ∀ i, i < 10 → ∀ x ∈ L i, x = bp ∨ x + 12 ≤ bp ∨ bp + s ≤ x) :
    ∃ h', place h bp a = .ok h' ∧ sameBounds h' h ∧
      getw h'.mem (bp - 4) = s + 1 ∧ getw h'.mem (bp + s - 8) = s + 1 ∧
      Buckets h' (removeFrom L (LIST_OFFSET s) bp) := by
  have hk : LIST_OFFSET s < 10 := by
    have := LIST_OFFSET_le s; omega
  obtain ⟨hP1, hP2⟩ := hB.arena _ hk _ hm
  have hlo := hB.lo
  have hhi := hB.hi
  obtain ⟨m1, hdel, hB1, hsize, _, hmemL⟩ := place_delete h L bp s hB hs8 hhdr hm hend hout
  have hcond : ¬ (sub32 s a ≥ MINBLOCKSIZE) := by
    rw [sub32_eq s a has (by omega)]
    unfold MINBLOCKSIZE
    omega
  have hs32 : (s + 1) % 4294967296 = s + 1 := Nat.mod_eq_of_lt (by omega)
  obtain ⟨m2, hm2⟩ : ∃ m, m = setWord m1 (bp - 4) (s + 1) := ⟨_, rfl⟩
  obtain ⟨m3, hm3⟩ : ∃ m, m = setWord m2 (bp + s - 8) (s + 1) := ⟨_, rfl⟩
  have ep1 : PUT { h with mem := m1 } (HDRP bp) (PACK s 1) = .ok { h with mem := m2 } := by
    rw [HDRP_eq bp (by omega) (by omega), PACK_one s hs8, hm2]
    exact PUT_ok _ _ _ (by simp only; omega) (by simp only; omega)
  have ef : FTRP { h with mem := m2 } bp = .ok (bp + s - 8) := by
    refine FTRP_ok _ bp s (by simp only; omega) (by simp only; omega) (by simp only; omega)
      ?_ (by omega) (by omega)
    simp only
    rw [hm2, getw_setWord_same, hs32]
    omega
  have ep2 : PUT { h with mem := m2 } (bp + s - 8) (PACK s 1) = .ok { h with mem := m3 } := by
    rw [PACK_one s hs8, hm3]
    exact PUT_ok _ _ _ (by simp only; omega) (by simp only; omega)
  refine ⟨{ h with mem := m3 }, ?_, ⟨rfl, rfl, rfl, rfl, rfl, rfl⟩, ?_, ?_, ?_⟩
  · simp only [place, hdel, ok_bind, hsize, if_neg hcond, ep1, ef, ep2]
  · simp only
    rw [hm3, hm2]
    by_cases e : s = 8
    · subst e
      rw [getw_setWord_disj _ _ _ _ (by omega), getw_setWord_same]
    · rw [getw_setWord_disj _ _ _ _ (by omega), getw_setWord_same, hs32]
  · simp only
    rw [hm3, getw_setWord_same, hs32]
  · refine Buckets_congr _ _ _ hB1 ⟨rfl, rfl, rfl, rfl, rfl, rfl⟩ ?_ ?_
    · intro x hx1 hx2
      simp only at hx1 hx2 ⊢
      rw [hm3, hm2, setWord_other _ _ _ _ (by omega), setWord_other _ _ _ _ (by omega)]
    · intro i hi x hx y hy1 hy2
      have := (hmemL i hi x hx).2
      simp only
      rw [hm3, hm2, setWord_other _ _ _ _ (by omega), setWord_other _ _ _ _ (by omega)]

/-- The four stores of the splitting branch of `place(bp, a)`, starting from
the state after `delete(bp)`, with the addresses that `FTRP` and `NEXT_BLKP`
compute from the headers in between. -/
theorem place_stores (h : Heap) (m1 : Nat → Nat) (bp s a : Nat)
    (hlo : h.mem_start_brk + 4 ≤ bp) (hhi : h.mem_brk < 4294967296)
    (hend : bp + s ≤ h.mem_brk)
    (hs8 : s % 8 = 0) (ha8 : a % 8 = 0) (ha : 8 ≤ a) (hsplit : a + 16 ≤ s) :
    ∃ m2 m3 m4 m5,
      PUT { h with mem := m1 } (HDRP bp) (PACK a 1) = .ok { h with mem := m2 } ∧
      FTRP { h with mem := m2 } bp = .ok (bp + a - 8) ∧
      PUT { h with mem := m2 } (bp + a - 8) (PACK a 1) = .ok { h with mem := m3 } ∧
      NEXT_BLKP { h with mem := m3 } bp = .ok (bp + a) ∧
      PUT { h with mem := m3 } (HDRP (bp + a)) (PACK (sub32 s a) 0)
        = .ok { h with mem := m4 } ∧
      NEXT_BLKP { h with mem := m4 } bp = .ok (bp + a) ∧
      FTRP { h with mem := m4 } (bp + a) = .ok (bp + s - 8) ∧
      PUT { h with mem := m4 } (bp + s - 8) (PACK (sub32 s a) 0)
        = .ok { h with mem := m5 } ∧
      NEXT_BLKP { h with mem := m5 } bp = .ok (bp + a) ∧
      getw m5 (bp - 4) = a + 1 ∧ getw m5 (bp + a - 8) = a + 1 ∧
      getw m5 (bp + a - 4) = s - a ∧ getw m5 (bp + s - 8) = s - a ∧
      (∀ x, (x < bp - 4 ∨ bp + s - 4 ≤ x) → m5 x = m1 x) := by
  have ha32 : (a + 1) % 4294967296 = a + 1 := Nat.mod_eq_of_lt (by omega)
  have hr32 : (s - a) % 4294967296 = s - a := Nat.mod_eq_of_lt (by omega)
  have hsub : PACK (sub32 s a) 0 = s - a := by
    rw [PACK_zero, sub32_eq s a (by omega) (by omega)]
  obtain ⟨m2, hm2⟩ : ∃ m, m = setWord m1 (bp - 4) (a + 1) := ⟨_, rfl⟩
  obtain ⟨m3, hm3⟩ : ∃ m, m = setWord m2 (bp + a - 8) (a + 1) := ⟨_, rfl⟩
  obtain ⟨m4, hm4⟩ : ∃ m, m = setWord m3 (bp + a - 4) (s - a) := ⟨_, rfl⟩
  obtain ⟨m5, hm5⟩ : ∃ m, m = setWord m4 (bp + s - 8) (s - a) := ⟨_, rfl⟩
  have w2 : getw m2 (bp - 4) = a + 1 := by rw [hm2, getw_setWord_same, ha32]
  have w3 : getw m3 (bp - 4) = a + 1 := by
    rw [hm3, getw_setWord_disj _ _ _ _ (by omega), w2]
  have w4 : getw m4 (bp - 4) = a + 1 := by
    rw [hm4, getw_setWord_disj _ _ _ _ (by omega), w3]
  have w5 : getw m5 (bp - 4) = a + 1 := by
    rw [hm5, getw_setWord_disj _ _ _ _ (by omega), w4]
  have r4 : getw m4 (bp + a - 4) = s - a := by rw [hm4, getw_setWord_same, hr32]
  have hsz : 8 * ((a + 1) / 8) = a := by omega
  have hrz : 8 * ((s - a) / 8) = s - a := by omega
  have ep1 : PUT { h with mem := m1 } (HDRP bp) (PACK a 1) = .ok { h with mem := m2 } := by
    rw [HDRP_eq bp (by omega) (by omega), PACK_one a ha8, hm2]
    exact PUT_ok _ _ _ (by simp only; omega) (by simp only; omega)
  have ef2 : FTRP { h with mem := m2 } bp = .ok (bp + a - 8) :=
    FTRP_ok _ bp a (by simp only; omega) (by simp only; omega) (by simp only; omega)
      (by simp only; rw [w2, hsz]) (by omega) (by omega)
  have ep2 : PUT { h with mem := m2 } (bp + a - 8) (PACK a 1) = .ok { h with mem := m3 } := by
    rw [PACK_one a ha8, hm3]
    exact PUT_ok _ _ _ (by simp only; omega) (by simp only; omega)
  have en3 : NEXT_BLKP { h with mem := m3 } bp = .ok (bp + a) :=
    NEXT_BLKP_ok _ bp a (by simp only; omega) (by simp only; omega) (by simp only; omega)
      (by simp only; rw [w3, hsz]) (by omega)
  have ep3 : PUT { h with mem := m3 } (HDRP (bp + a)) (PACK (sub32 s a) 0)
      = .ok { h with mem := m4 } := by
    rw [HDRP_eq _ (by omega) (by omega), hsub, hm4]
    exact PUT_ok _ _ _ (by simp only; omega) (by simp only; omega)
  have en4 : NEXT_BLKP { h with mem := m4 } bp = .ok (bp + a) :=
    NEXT_BLKP_ok _ bp a (by simp only; omega) (by simp only; omega) (by simp only; omega)
      (by simp only; rw [w4, hsz]) (by omega)
  have ef4 : FTRP { h with mem := m4 } (bp + a) = .ok (bp + s - 8) := by
    have := FTRP_ok { h with mem := m4 } (bp + a) (s - a) (by simp only; omega)
      (by simp only; omega) (by simp only; omega)
      (by
        simp only
        have e : bp + a - 4 = bp + a - 4 := rfl
        rw [r4, hrz]) (by omega) (by omega)
    rw [this]
    have e : bp + a + (s - a) - 8 = bp + s - 8 := by omega
    rw [e]
  have ep4 : PUT { h with mem := m4 } (bp + s - 8) (PACK (sub32 s a) 0)
      = .ok { h with mem := m5 } := by
    rw [hsub, hm5]
    exact PUT_ok _ _ _ (by simp only; omega) (by simp only; omega)
  have en5 : NEXT_BLKP { h with mem := m5 } bp = .ok (bp + a) :=
    NEXT_BLKP_ok _ bp a (by simp only; omega) (by simp only; omega) (by simp only; omega)
      (by simp only; rw [w5, hsz]) (by omega)
  refine ⟨m2, m3, m4, m5, ep1, ef2, ep2, en3, ep3, en4, ef4, ep4, en5, w5, ?_, ?_, ?_, ?_⟩
  · rw [hm5, getw_setWord_disj _ _ _ _ (by omega), hm4,
      getw_setWord_disj _ _ _ _ (by omega), hm3, getw_setWord_same, ha32]
  · rw [hm5, getw_setWord_disj _ _ _ _ (by omega), r4]
  · rw [hm5, getw_setWord_same, hr32]
  · intro x hx
    rw [hm5, hm4, hm3, hm2, setWord_other _ _ _ _ (by omega), setWord_other _ _ _ _ (by omega),
      setWord_other _ _ _ _ (by omega), setWord_other _ _ _ _ (by omega)]

/-- `place(bp, a)` when the rest `s - a` is at least a minimum block and the
block after `bp` is allocated: `bp` becomes an allocated block of size `a`,
the rest a listed free block. -/
theorem place_split (h : Heap) (L : Nat → List Nat) (bp s a nw : Nat)
    (hB : Buckets h L) (hs8 : s % 8 = 0) (ha8 : a % 8 = 0) (ha : 8 ≤ a)
    (hsplit : a + 16 ≤ s)
    (hhdr : getw h.mem (bp - 4) = s) (hm : bp ∈ L (LIST_OFFSET s))
    (hend : bp + s ≤ h.mem_brk)
    (hnw : getw h.mem (bp + s - 4) = nw) (hna : nw % 2 = 1)
    (hout : ∀ i, i < 10 → ∀ x ∈ L i, x = bp ∨ x + 12 ≤ bp ∨ bp + s ≤ x) :
    ∃ h', place h bp a = .ok h' ∧ sameBounds h' h ∧
      getw h'.mem (bp - 4) = a + 1 ∧ getw h'.mem (bp + a - 8) = a + 1 ∧
      getw h'.mem (bp + a - 4) = s - a ∧ getw h'.mem (bp + s - 8) = s - a ∧
      Buckets h' (pushOn (removeFrom L (LIST_OFFSET s) bp) (LIST_OFFSET (s - a)) (bp + a)) := by
  have hk : LIST_OFFSET s < 10 := by
    have := LIST_OFFSET_le s; omega
  obtain ⟨hP1, hP2⟩ := hB.arena _ hk _ hm
  have hlo := hB.lo
  have hhi := hB.hi
  obtain ⟨m1, hdel, hB1, hsize, hnw1, hmemL⟩ :=
    place_delete h L bp s hB hs8 hhdr hm hend hout
  have hcond : sub32 s a ≥ MINBLOCKSIZE := by
    rw [sub32_eq s a (by omega) (by omega)]
    unfold MINBLOCKSIZE
    omega
  obtain ⟨m2, m3, m4, m5, ep1, ef2, ep2, en3, ep3, en4, ef4, ep4, en5, w1, w2, w3, w4, hfr5⟩ :=
    place_stores h m1 bp s a (by omega) hhi hend hs8 ha8 ha hsplit
  have hB5 : Buckets { h with mem := m5 } (removeFrom L (LIST_OFFSET s) bp) := by
    refine Buckets_congr _ _ _ hB1 ⟨rfl, rfl, rfl, rfl, rfl, rfl⟩ ?_ ?_
    · intro x hx1 hx2
      simp only at hx1 hx2 ⊢
      exact hfr5 x (by omega)
    · intro i hi x hx y hy1 hy2
      have := (hmemL i hi x hx).2
      simp only
      exact hfr5 y (by omega)
  have e1 : bp + a - 4 = bp + a - 4 := rfl
  have hsz : 8 * ((a + 1) / 8) = a := by omega
  have eq1 : bp + a - 8 * ((a + 1) / 8) - 4 = bp - 4 := by omega
  have eq2 : bp + a + (s - a) - 4 = bp + s - 4 := by omega
  have eq3 : bp + a + (s - a) - 8 = bp + s - 8 := by omega
  obtain ⟨h', hc, hsb, hBk, hfr⟩ := coalesce_none { h with mem := m5 } _ (bp + a) (s - a)
    (a + 1) nw hB5 (by omega) (by omega) (by simp only; omega) (by simp only; omega)
    (by simp only; exact w3)
    (by
      simp only
      have e : bp + a - 8 = bp + a - 8 := rfl
      exact w2)
    (by simp only; rw [eq1]; exact w1)
    (by
      simp only
      rw [eq2, ← hnw, ← hnw1]
      refine getw_of_bytes _ _ _ ?_
      intro x hx1 hx2
      exact hfr5 x (by omega))
    (by
      intro i hi x hx
      have := (hmemL i hi x hx).2
      omega)
    (by omega) hna
  simp only at hfr
  have hkeep : ∀ q, (bp - 4 ≤ q ∧ q + 4 ≤ bp + a) ∨ (bp + s - 8 ≤ q ∧ q + 4 ≤ bp + s - 4) →
      getw h'.mem q = getw m5 q := by
    intro q hq
    refine getw_of_bytes _ _ _ ?_
    intro x hx1 hx2
    refine hfr x (by omega) (by omega) ?_
    intro i hi y hy
    have := (hmemL i hi y hy).2
    omega
  refine ⟨h', ?_, hsb, ?_, ?_, ?_, ?_, hBk⟩
  · simp only [place, hdel, ok_bind, hsize, if_pos hcond, ep1, ef2, ep2, en3, ep3, en4, ef4,
      ep4, en5, hc]
    rfl
  · rw [hkeep _ (by omega), w1]
  · rw [hkeep _ (by omega), w2]
  · rw [hkeep _ (by omega), w3]
  · rw [hkeep _ (by omega), w4]

theorem not_mem_pushOn (L : Nat → List Nat) (k x p i : Nat) (hx : p ≠ x) (hp : p ∉ L i) :
    p ∉ pushOn L k x i := by
  unfold pushOn
  by_cases e : i = k
  · rw [if_pos e]
    intro hm
    rcases List.mem_cons.mp hm with e1 | e1
    · exact hx e1
    · exact hp e1
  · rw [if_neg e]
    exact hp

/-- C18 (for adjusted sizes `a ≥ 8`): `place(bp, a)` for a listed free block
`bp` of size `s ≥ a` (both multiples of 8) in a state whose bucket lists are
`L` and in which no other listed block overlaps the block of `bp`.  If
`s - a ≥ 16` and the block after `bp` is allocated, then afterwards `bp` is an
allocated block of size `a` (header and footer `a | 1`), the block at `bp + a`
is a free block of size `s - a` (header and footer `s - a`) at the head of the
bucket of `s - a`, and `bp` is in no list.  If `s - a < 16`, then `bp` is an
allocated block of size `s`, the lists are the old ones without `bp`. -/
theorem place_splits_or_takes_whole (h : Heap) (L : Nat → List Nat) (bp s a nw : Nat)
    (hB : Buckets h L) (hs8 : s % 8 = 0) (ha8 : a % 8 = 0) (ha : 8 ≤ a) (has : a ≤ s)
    (hhdr : getw h.mem (bp - 4) = s) (hm : bp ∈ L (LIST_OFFSET s))
    (hend : bp + s ≤ h.mem_brk)
    (hnw : getw h.mem (bp + s - 4) = nw)
    (hout : ∀ i, i < 10 → ∀ x ∈ L i, x = bp ∨ x + 12 ≤ bp ∨ bp + s ≤ x) :
    (16 ≤ s - a → nw % 2 = 1 →
      ∃ h', place h bp a = .ok h' ∧ sameBounds h' h ∧
        getw h'.mem (bp - 4) = a + 1 ∧ getw h'.mem (bp + a - 8) = a + 1 ∧
        getw h'.mem (bp + a - 4) = s - a ∧ getw h'.mem (bp + s - 8) = s - a ∧
        Buckets h' (pushOn (removeFrom L (LIST_OFFSET s) bp) (LIST_OFFSET (s - a)) (bp + a)) ∧
        ∀ i, i < 10 →
          bp ∉ pushOn (removeFrom L (LIST_OFFSET s) bp) (LIST_OFFSET (s - a)) (bp + a) i) ∧
    (s - a < 16 →
      ∃ h', place h bp a = .ok h' ∧ sameBounds h' h ∧
        getw h'.mem (bp - 4) = s + 1 ∧ getw h'.mem (bp + s - 8) = s + 1 ∧
        Buckets h' (removeFrom L (LIST_OFFSET s) bp) ∧
        ∀ i, i < 10 → bp ∉ removeFrom L (LIST_OFFSET s) bp i) := by
  have hk : LIST_OFFSET s < 10 := by
    have := LIST_OFFSET_le s; omega
  have hno : ∀ i, i < 10 → bp ∉ removeFrom L (LIST_OFFSET s) bp i :=
    fun i hi => not_mem_removeFrom h L _ bp i hB hk hm hi
  constructor
  · intro hsplit hna
    obtain ⟨h', hp, hsb, w1, w2, w3, w4, hBk⟩ :=
      place_split h L bp s a nw hB hs8 ha8 ha (by omega) hhdr hm hend hnw hna hout
    exact ⟨h', hp, hsb, w1, w2, w3, w4, hBk,
      fun i hi => not_mem_pushOn _ _ _ bp i (by omega) (hno i hi)⟩
  · intro hlt
    obtain ⟨h', hp, hsb, w1, w2, hBk⟩ :=
      place_whole h L bp s a hB hs8 (by omega) has hlt hhdr hm hend hout
    exact ⟨h', hp, hsb, w1, w2, hBk, hno⟩

theorem placeHeap_buckets : BucketsB placeHeap placeLists := by
  decide!

theorem placeHeap_words :
    getw placeHeap.mem (5080 - 4) = 72 ∧ 5080 + 72 ≤ placeHeap.mem_brk ∧
    getw placeHeap.mem (5080 + 72 - 4) = 1 := by
  decide!

theorem placeLists_apart :
    5080 ∈ placeLists (LIST_OFFSET 72) ∧
    ∀ i, i < 10 → ∀ x ∈ placeLists i, x = 5080 ∨ x + 12 ≤ 5080 ∨ 5080 + 72 ≤ x := by
  decide

/-- C18, at a concrete input: in `placeHeap` the free block 5080 of 72 bytes
is split by `place(5080, 16)` into the allocated block 5080 of 16 bytes and
the free block 5096 of 56 bytes, the head of bucket 2. -/
theorem place_splits_or_takes_whole_witness :
    Buckets placeHeap placeLists ∧
    ∃ h', place placeHeap 5080 16 = .ok h' ∧ sameBounds h' placeHeap ∧
      getw h'.mem (5080 - 4) = 16 + 1 ∧ getw h'.mem (5080 + 16 - 8) = 16 + 1 ∧
      getw h'.mem (5080 + 16 - 4) = 72 - 16 ∧ getw h'.mem (5080 + 72 - 8) = 72 - 16 ∧
      Buckets h' (pushOn (removeFrom placeLists (LIST_OFFSET 72) 5080)
        (LIST_OFFSET (72 - 16)) (5080 + 16)) ∧
      ∀ i, i < 10 → 5080 ∉ pushOn (removeFrom placeLists (LIST_OFFSET 72) 5080)
        (LIST_OFFSET (72 - 16)) (5080 + 16) i :=
  ⟨Buckets_of_B _ _ placeHeap_buckets,
    (place_splits_or_takes_whole placeHeap placeLists 5080 72 16 1
      (Buckets_of_B _ _ placeHeap_buckets) (by decide) (by decide) (by decide) (by decide)
      placeHeap_words.1 placeLists_apart.1 placeHeap_words.2.1 placeHeap_words.2.2
      placeLists_apart.2).1 (by decide) (by decide)⟩

/-- C18 as stated fails for the adjusted size 0: in `placeHeap` the listed free
block 1056 has size 16, and after `place(1056, 0)` the block 1056 is free again
(header 4096, allocated bit clear) and is the entry of bucket 8: the call has
written a header of size 0, taken the block itself for its successor, and
merged it with the allocated block 1072 and the free block 5080. -/
theorem place_of_size_zero_frees_the_block_again :
    bucket 64 placeHeap 0 = .ok [1056] ∧ GET placeHeap (HDRP 1056) = .ok 16 ∧
    GET placeHeap (HDRP 1072) = .ok 4009 ∧
    (place placeHeap 1056 0).bind (fun h => do
        let w ← GET h (HDRP 1056)
        let bs ← buckets 64 h
        let bl ← blocks 64 h
        pure (w, bs, bl))
      = .ok (4096, [[], [], [], [], [], [], [], [], [1056], []], [(1052, 4096, 0)]) := by
  decide!

/-- The bucket lists survive a growth of the arena that leaves the bucket
heads and the link fields of the entries alone. -/
theorem Buckets_grow (h h' : Heap) (L : Nat → List Nat) (hB : Buckets h L)
    (h1 : h'.mem_start_brk = h.mem_start_brk) (h2 : h.mem_brk ≤ h'.mem_brk)
    (h3 : h'.mem_brk < 4294967296) (h5 : h'.seglist_start = h.seglist_start)
    (hslot : ∀ a, h.seglist_start ≤ a → a < h.seglist_start + 40 → h'.mem a = h.mem a)
    (hfld : ∀ i, i < 10 → ∀ x ∈ L i, ∀ a, x ≤ a → a < x + 8 → h'.mem a = h.mem a) :
    Buckets h' L := by
  refine ⟨by rw [h1, h5]; exact hB.lo, by rw [h5]; have := hB.slots; omega, h3, ?_, ?_,
    hB.sep, hB.nodup⟩
  · intro i hi
    rw [h5]
    have e : getw h'.mem (h.seglist_start + i * 4) = getw h.mem (h.seglist_start + i * 4) := by
      refine getw_of_bytes _ _ _ ?_
      intro a ha1 ha2
      exact hslot a (by omega) (by omega)
    rw [e]
    refine Chain_congr h.mem h'.mem (L i) _ _ ?_ (hB.chain i hi)
    intro x hx
    constructor
    · refine getw_of_bytes _ _ _ ?_
      intro a ha1 ha2
      exact hfld i hi x hx a ha1 (by omega)
    · refine getw_of_bytes _ _ _ ?_
      intro a ha1 ha2
      exact hfld i hi x hx a (by omega) (by omega)
  · intro i hi x hx
    rw [h5]
    have := hB.arena i hi x hx
    omega

theorem listFrom_of_Chain (h : Heap) : ∀ (l : List Nat) (prev hd fuel : Nat),
    Chain h.mem prev hd l → (∀ x ∈ l, h.mem_start_brk ≤ x ∧ x + 4 ≤ h.mem_brk) →
    l.length ≤ fuel → listFrom h fuel hd = .ok l := by
  intro l
  induction l with
  | nil =>
    intro prev hd fuel hc _ _
    have e : hd = NULL := hc
    subst e
    cases fuel with
    | zero => rw [listFrom, if_pos rfl]; rfl
    | succ f => rw [listFrom, if_pos rfl]; rfl
  | cons x t ih =>
    intro prev hd fuel hc hb hf
    obtain ⟨e1, e2, _, e4⟩ := hc
    subst e1
    cases fuel with
    | zero => simp at hf
    | succ f =>
      have hx := hb hd (by simp)
      have hfd : FDP h hd = .ok (getw h.mem hd) := GET_ok h _ hx.1 hx.2
      have := ih hd (getw h.mem hd) f e4 (fun y hy => hb y (by simp [hy]))
        (by simp at hf; omega)
      simp only [listFrom, if_neg e2, hfd, ok_bind, this]
      rfl

/-- The executable list walk `bucket` yields the lists of `Buckets`. -/
theorem bucket_of_Buckets (h : Heap) (L : Nat → List Nat) (hB : Buckets h L)
    (fuel i : Nat) (hi : i < 10) (hf : (L i).length ≤ fuel) :
    bucket fuel h i = .ok (L i) := by
  have hlo := hB.lo
  have hhi := hB.hi
  have hs := hB.slots
  unfold bucket WSIZE
  rw [add32_eq _ _ (by omega), GET_ok h _ (by omega) (by omega)]
  simp only [ok_bind]
  refine listFrom_of_Chain h (L i) NULL _ fuel (hB.chain i hi) ?_ hf
  intro x hx
  have := hB.arena i hi x hx
  omega

theorem PACK_zero_one : PACK 0 1 = 1 := by decide

/-- `extend_heap(words)` behind an allocated last block: when the growth
succeeds, the new extent `[brk - 4, brk + sz - 4)` is a free block at the head
of the bucket of its size `sz`, followed by a new epilogue header. -/
theorem extend_heap_fresh (g : Heap) (L : Nat → List Nat) (words sz pw : Nat)
    (hB : Buckets g L) (hsz : extend_size words = sz) (hs8 : sz % 8 = 0) (hs16 : 16 ≤ sz)
    (hs31 : sz < 2147483648) (hmax : g.mem_max_addr < 4294967296)
    (hfit : g.mem_brk + sz ≤ g.mem_max_addr)
    (hpw : getw g.mem (g.mem_brk - 8) = pw)
    (hph : getw g.mem (g.mem_brk - 8 * (pw / 8) - 4) = pw)
    (hprev : 8 * (pw / 8) + g.seglist_start + 44 ≤ g.mem_brk) (hps : 8 ≤ 8 * (pw / 8))
    (hpa : pw % 2 = 1)
    (hout : ∀ i, i < 10 → ∀ x ∈ L i, x + 12 ≤ g.mem_brk) :
    ∃ h', extend_heap g words = .ok (g.mem_brk, h') ∧
      h'.mem_brk = g.mem_brk + sz ∧ h'.mem_start_brk = g.mem_start_brk ∧
      h'.mem_max_addr = g.mem_max_addr ∧ h'.heap_listp = g.heap_listp ∧
      h'.seglist_start = g.seglist_start ∧
      getw h'.mem (g.mem_brk - 4) = sz ∧ getw h'.mem (g.mem_brk + sz - 8) = sz ∧
      getw h'.mem (g.mem_brk + sz - 4) = 1 ∧
      Buckets h' (pushOn L (LIST_OFFSET sz) g.mem_brk) ∧
      (∀ a, (a < g.seglist_start ∨ g.seglist_start + 40 ≤ a) → a < g.mem_brk - 4 →
        (∀ i, i < 10 → ∀ x ∈ L i, a < x ∨ x + 8 ≤ a) → h'.mem a = g.mem a) := by
  have hlo := hB.lo
  have hhi := hB.hi
  have hsl := hB.slots
  have hsb : mem_sbrk g sz = some (g.mem_brk, { g with mem_brk := g.mem_brk + sz }) := by
    unfold mem_sbrk
    rw [if_neg (by omega)]
  have hs32 : sz % 4294967296 = sz := Nat.mod_eq_of_lt (by omega)
  obtain ⟨m1, hm1⟩ : ∃ m, m = setWord g.mem (g.mem_brk - 4) sz := ⟨_, rfl⟩
  obtain ⟨m2, hm2⟩ : ∃ m, m = setWord m1 (g.mem_brk + sz - 8) sz := ⟨_, rfl⟩
  obtain ⟨m3, hm3⟩ : ∃ m, m = setWord m2 (g.mem_brk + sz - 4) 1 := ⟨_, rfl⟩
  have w1 : getw m1 (g.mem_brk - 4) = sz := by rw [hm1, getw_setWord_same, hs32]
  have w2 : getw m2 (g.mem_brk - 4) = sz := by
    rw [hm2, getw_setWord_disj _ _ _ _ (by omega), w1]
  have ep1 : PUT { g with mem_brk := g.mem_brk + sz } (HDRP g.mem_brk) (PACK sz 0)
      = .ok { g with mem_brk := g.mem_brk + sz, mem := m1 } := by
    rw [HDRP_eq _ (by omega) (by omega), PACK_zero, hm1]
    exact PUT_ok _ _ _ (by simp only; omega) (by simp only; omega)
  have ef1 : FTRP { g with mem_brk := g.mem_brk + sz, mem := m1 } g.mem_brk
      = .ok (g.mem_brk + sz - 8) :=
    FTRP_ok _ _ sz (by simp only; omega) (by simp only; omega) (by simp only; omega)
      (by simp only; rw [w1, size_round sz hs8]) (by omega) (by omega)
  have ep2 : PUT { g with mem_brk := g.mem_brk + sz, mem := m1 } (g.mem_brk + sz - 8)
      (PACK sz 0) = .ok { g with mem_brk := g.mem_brk + sz, mem := m2 } := by
    rw [PACK_zero, hm2]
    exact PUT_ok _ _ _ (by simp only; omega) (by simp only; omega)
  have en2 : NEXT_BLKP { g with mem_brk := g.mem_brk + sz, mem := m2 } g.mem_brk
      = .ok (g.mem_brk + sz) :=
    NEXT_BLKP_ok _ _ sz (by simp only; omega) (by simp only; omega) (by simp only; omega)
      (by simp only; rw [w2, size_round sz hs8]) (by omega)
  have ep3 : PUT { g with mem_brk := g.mem_brk + sz, mem := m2 } (HDRP (g.mem_brk + sz))
      (PACK 0 1) = .ok { g with mem_brk := g.mem_brk + sz, mem := m3 } := by
    rw [HDRP_eq _ (by omega) (by omega), PACK_zero_one, hm3]
    exact PUT_ok _ _ _ (by simp only; omega) (by simp only; omega)
  have hfr3 : ∀ a, a < g.mem_brk - 4 → m3 a = g.mem a := by
    intro a ha
    rw [hm3, hm2, hm1, setWord_other _ _ _ _ (by omega), setWord_other _ _ _ _ (by omega),
      setWord_other _ _ _ _ (by omega)]
  have hB3 : Buckets { g with mem_brk := g.mem_brk + sz, mem := m3 } L := by
    refine Buckets_grow g _ L hB rfl (by simp only; omega) (by simp only; omega) rfl ?_ ?_
    · intro a ha1 ha2
      exact hfr3 a (by omega)
    · intro i hi x hx a ha1 ha2
      have := hout i hi x hx
      exact hfr3 a (by omega)
  have e3 : getw m3 (g.mem_brk - 4) = sz := by
    rw [hm3, getw_setWord_disj _ _ _ _ (by omega), w2]
  have e4 : getw m3 (g.mem_brk + sz - 8) = sz := by
    rw [hm3, getw_setWord_disj _ _ _ _ (by omega), hm2, getw_setWord_same, hs32]
  have e5 : getw m3 (g.mem_brk + sz - 4) = 1 := by
    rw [hm3, getw_setWord_same]
  obtain ⟨h', hc, hsb', hBk, hfr⟩ := coalesce_none
    { g with mem_brk := g.mem_brk + sz, mem := m3 } L g.mem_brk sz pw 1 hB3 hs8 hs16
    (by simp only; omega) (by simp only; omega) (by simp only; exact e3)
    (by
      simp only
      refine Eq.trans ?_ hpw
      exact getw_of_bytes _ _ (g.mem_brk - 8) (fun a ha1 ha2 => hfr3 a (by omega)))
    (by
      simp only
      refine Eq.trans ?_ hph
      exact getw_of_bytes _ _ (g.mem_brk - 8 * (pw / 8) - 4)
        (fun a ha1 ha2 => hfr3 a (by omega)))
    (by simp only; exact e5)
    (by intro i hi x hx; have := hout i hi x hx; omega)
    hpa (by decide)
  simp only at hfr
  obtain ⟨b1, b2, b3, b4, b5, b6⟩ := hsb'
  simp only at b1 b2 b3 b4 b5 b6
  have hkeep : ∀ q, (g.mem_brk - 4 ≤ q ∧ q + 4 ≤ g.mem_brk) ∨
      (g.mem_brk + sz - 8 ≤ q ∧ q + 4 ≤ g.mem_brk + sz) → getw h'.mem q = getw m3 q := by
    intro q hq
    refine getw_of_bytes _ _ _ ?_
    intro a ha1 ha2
    refine hfr a (by omega) (by omega) ?_
    intro i hi x hx
    have := hout i hi x hx
    omega
  refine ⟨h', ?_, b2, b1, b3, b4, b5, ?_, ?_, ?_, hBk, ?_⟩
  · simp only [extend_heap, hsz, hsb, ep1, ok_bind, ef1, ep2, en2, ep3, hc]
  · rw [hkeep _ (by omega), e3]
  · rw [hkeep _ (by omega), e4]
  · rw [hkeep _ (by omega), e5]
  · intro a ha1 ha2 ha3
    rw [hfr a ha1 (by omega) ha3]
    exact hfr3 a ha2

theorem add32_word (p k : Nat) (h : p + 56 < 4294967296) (hk : k ≤ 14) :
    add32 p (k * WSIZE) = p + k * 4 := by
  simp only [add32, U32, WSIZE]
  omega

theorem getw_setWord_eq (m : Nat → Nat) (p q v : Nat) (h : q = p) :
    getw (setWord m p v) q = v % 4294967296 := by
  rw [h]
  exact getw_setWord_same m p v

/-- The first part of `mm_init` when the first growth succeeds: the padding
word, the ten empty bucket heads, the prologue and the first epilogue are
stored into the new 56 bytes at the old end `p` of the arena, and
`extend_heap` is called in that state. -/
theorem mm_init_stores (h : Heap) (hs : h.mem_start_brk ≤ h.mem_brk)
    (hmax : h.mem_max_addr < 4294967296) (hfit : h.mem_brk + 56 ≤ h.mem_max_addr) :
    ∃ g, mm_init h = (do
          let r ← extend_heap g (CHUNKSIZE / WSIZE)
          if r.1 = NULL then pure (-1, r.2) else pure (0, r.2)) ∧
      g.mem_start_brk = h.mem_start_brk ∧ g.mem_brk = h.mem_brk + 56 ∧
      g.mem_max_addr = h.mem_max_addr ∧ g.heap_listp = h.mem_brk ∧
      g.seglist_start = h.mem_brk + 4 ∧
      (∀ i, i < 10 → getw g.mem (h.mem_brk + 4 + i * 4) = 0) ∧
      getw g.mem (h.mem_brk + 44) = 9 ∧ getw g.mem (h.mem_brk + 48) = 9 ∧
      (∀ a, a < h.mem_brk → g.mem a = h.mem a) := by
  have hsb : mem_sbrk h (14 * WSIZE)
      = some (h.mem_brk, { h with mem_brk := h.mem_brk + 56 }) := by
    unfold mem_sbrk WSIZE
    rw [if_neg (by omega)]
  have hlt : h.mem_brk + 56 < 4294967296 := by omega
  have a14 : add32 h.mem_brk WSIZE = h.mem_brk + 4 := by
    simp only [add32, U32, WSIZE]; omega
  have hp9 : PACK DSIZE 1 = 9 := by decide
  apply Exists.intro
  refine ⟨?_, ?_, ?_, ?_, ?_, ?_, ?_, ?_, ?_, ?_⟩
  · simp only [mm_init, hsb]
    rw [PUT_ok _ _ _ (by simp only; omega) (by simp only; omega)]
    simp only [ok_bind]
    rw [add32_word h.mem_brk 1 hlt (by decide),
      PUT_ok _ _ _ (by simp only; omega) (by simp only; omega)]
    simp only [ok_bind]
    rw [add32_word h.mem_brk 2 hlt (by decide),
      PUT_ok _ _ _ (by simp only; omega) (by simp only; omega)]
    simp only [ok_bind]
    rw [add32_word h.mem_brk 3 hlt (by decide),
      PUT_ok _ _ _ (by simp only; omega) (by simp only; omega)]
    simp only [ok_bind]
    rw [add32_word h.mem_brk 4 hlt (by decide),
      PUT_ok _ _ _ (by simp only; omega) (by simp only; omega)]
    simp only [ok_bind]
    rw [add32_word h.mem_brk 5 hlt (by decide),
      PUT_ok _ _ _ (by simp only; omega) (by simp only; omega)]
    simp only [ok_bind]
    rw [add32_word h.mem_brk 6 hlt (by decide),
      PUT_ok _ _ _ (by simp only; omega) (by simp only; omega)]
    simp only [ok_bind]
    rw [add32_word h.mem_brk 7 hlt (by decide),
      PUT_ok _ _ _ (by simp only; omega) (by simp only; omega)]
    simp only [ok_bind]
    rw [add32_word h.mem_brk 8 hlt (by decide),
      PUT_ok _ _ _ (by simp only; omega) (by simp only; omega)]
    simp only [ok_bind]
    rw [add32_word h.mem_brk 9 hlt (by decide),
      PUT_ok _ _ _ (by simp only; omega) (by simp only; omega)]
    simp only [ok_bind]
    rw [add32_word h.mem_brk 10 hlt (by decide),
      PUT_ok _ _ _ (by simp only; omega) (by simp only; omega)]
    simp only [ok_bind]
    rw [add32_word h.mem_brk 11 hlt (by decide), hp9,
      PUT_ok _ _ _ (by simp only; omega) (by simp only; omega)]
    simp only [ok_bind]
    rw [add32_word h.mem_brk 12 hlt (by decide),
      PUT_ok _ _ _ (by simp only; omega) (by simp only; omega)]
    simp only [ok_bind]
    rw [add32_word h.mem_brk 13 hlt (by decide), PACK_zero_one,
      PUT_ok _ _ _ (by simp only; omega) (by simp only; omega)]
    simp only [ok_bind, a14]
    rfl
  · rfl
  · rfl
  · rfl
  · rfl
  · rfl
  · intro i hi
    simp only
    interval_cases i <;>
      repeat (first
        | rw [getw_setWord_eq _ _ _ _ (by omega)]
        | rw [getw_setWord_disj _ _ _ _ (by omega)])
  · simp only
    repeat (first
      | rw [getw_setWord_eq _ _ _ _ (by omega)]
      | rw [getw_setWord_disj _ _ _ _ (by omega)])
  · simp only
    repeat (first
      | rw [getw_setWord_eq _ _ _ _ (by omega)]
      | rw [getw_setWord_disj _ _ _ _ (by omega)])
  · intro a ha
    simp only
    repeat rw [setWord_other _ _ _ _ (by omega)]

theorem extend_size_chunk : extend_size (CHUNKSIZE / WSIZE) = 4096 := by decide

/-- `mm_init` when the first growth succeeds and the second one fails. -/
theorem mm_init_second_fails (h : Heap) (hs : h.mem_start_brk ≤ h.mem_brk)
    (hmax : h.mem_max_addr < 4294967296) (hfit : h.mem_brk + 56 ≤ h.mem_max_addr)
    (hno : h.mem_max_addr < h.mem_brk + 56 + 4096) :
    ∃ h', mm_init h = .ok (-1, h') := by
  obtain ⟨g, hinit, g1, g2, g3, g4, g5, gw, gp1, gp2, gfr⟩ := mm_init_stores h hs hmax hfit
  have hsb : mem_sbrk g 4096 = none := by
    unfold mem_sbrk
    rw [if_pos (by rw [g2, g3]; omega)]
  refine ⟨g, ?_⟩
  rw [hinit]
  simp only [extend_heap, extend_size_chunk, hsb]
  rfl

/-- `mm_init` when both growths succeed. -/
theorem mm_init_ok (h : Heap) (hs : h.mem_start_brk ≤ h.mem_brk)
    (hmax : h.mem_max_addr < 4294967296) (hfit : h.mem_brk + 56 + 4096 ≤ h.mem_max_addr) :
    ∃ h', mm_init h = .ok (0, h') ∧
      h'.mem_start_brk = h.mem_start_brk ∧ h'.mem_brk = h.mem_brk + 4152 ∧
      h'.mem_max_addr = h.mem_max_addr ∧
      h'.heap_listp = h.mem_brk ∧ h'.seglist_start = h.mem_brk + 4 ∧
      getw h'.mem (h.mem_brk + 44) = 9 ∧ getw h'.mem (h.mem_brk + 48) = 9 ∧
      getw h'.mem (h.mem_brk + 52) = 4096 ∧ getw h'.mem (h.mem_brk + 4144) = 4096 ∧
      getw h'.mem (h.mem_brk + 4148) = 1 ∧
      Buckets h' (pushOn (fun _ => []) 8 (h.mem_brk + 56)) ∧
      (∀ a, a < h.mem_brk → h'.mem a = h.mem a) := by
  obtain ⟨g, hinit, g1, g2, g3, g4, g5, gw, gp1, gp2, gfr⟩ :=
    mm_init_stores h hs hmax (by omega)
  have e1 : g.mem_brk - 8 = h.mem_brk + 48 := by clear gw gp1 gp2 gfr hinit; omega
  have e2 : g.mem_brk - 8 * (9 / 8) - 4 = h.mem_brk + 44 := by
    clear gw gp1 gp2 gfr hinit; omega
  have e3 : g.mem_brk - 4 = h.mem_brk + 52 := by clear gw gp1 gp2 gfr hinit; omega
  have e4 : g.mem_brk + 4096 - 8 = h.mem_brk + 4144 := by clear gw gp1 gp2 gfr hinit; omega
  have e5 : g.mem_brk + 4096 - 4 = h.mem_brk + 4148 := by clear gw gp1 gp2 gfr hinit; omega
  have e6 : g.mem_brk + 4096 = h.mem_brk + 4152 := by clear gw gp1 gp2 gfr hinit; omega
  have hne : g.mem_brk ≠ NULL := by
    clear gw gp1 gp2 gfr hinit; unfold NULL; omega
  have hlo : LIST_OFFSET 4096 = 8 := by decide
  have c1 : g.mem_start_brk ≤ g.seglist_start := by clear gw gp1 gp2 gfr hinit; omega
  have c2 : g.seglist_start + 40 ≤ g.mem_brk := by clear gw gp1 gp2 gfr hinit; omega
  have c3 : g.mem_brk < 4294967296 := by clear gw gp1 gp2 gfr hinit; omega
  have c4 : g.mem_brk + 4096 ≤ g.mem_max_addr := by clear gw gp1 gp2 gfr hinit; omega
  have c5 : 8 * (9 / 8) + g.seglist_start + 44 ≤ g.mem_brk := by
    clear gw gp1 gp2 gfr hinit; omega
  have c6 : ∀ a, (a < h.mem_brk + 4 ∨ h.mem_brk + 44 ≤ a) → a < h.mem_brk + 52 →
      (a < g.seglist_start ∨ g.seglist_start + 40 ≤ a) ∧ a < g.mem_brk - 4 := by
    clear gw gp1 gp2 gfr hinit
    intro a ha1 ha2
    omega
  have c7 : ∀ a, h.mem_brk + 44 ≤ a → a < h.mem_brk + 48 + 4 →
      (a < h.mem_brk + 4 ∨ h.mem_brk + 44 ≤ a) ∧ a < h.mem_brk + 52 := by
    clear gw gp1 gp2 gfr hinit
    intro a ha1 ha2
    omega
  have hBg : Buckets g (fun _ => []) := by
    refine ⟨c1, c2, c3, ?_, ?_, ?_, ?_⟩
    · intro i hi
      rw [g5]
      exact gw i hi
    · intro i _ x hx
      simp at hx
    · intro i j _ _ x hx
      simp at hx
    · intro i _
      exact List.nodup_nil
  obtain ⟨h', he, b1, b2, b3, b4, b5, w1, w2, w3, hBk, hfr⟩ :=
    extend_heap_fresh g (fun _ => []) (CHUNKSIZE / WSIZE) 4096 9 hBg extend_size_chunk
      (by decide) (by decide) (by decide) (by rw [g3]; exact hmax) c4
      (by rw [e1]; exact gp2) (by rw [e2]; exact gp1) c5
      (by decide) (by decide)
      (by intro i _ x hx; simp at hx)
  rw [e3] at w1
  rw [e4] at w2
  rw [e5] at w3
  rw [hlo, g2] at hBk
  have hfr' : ∀ a, (a < h.mem_brk + 4 ∨ h.mem_brk + 44 ≤ a) → a < h.mem_brk + 52 →
      h'.mem a = g.mem a := by
    intro a ha1 ha2
    refine hfr a (c6 a ha1 ha2).1 (c6 a ha1 ha2).2 ?_
    intro i _ x hx
    simp at hx
  refine ⟨h', ?_, b2.trans g1, b1.trans e6, b3.trans g3, b4.trans g4,
    b5.trans g5, ?_, ?_, w1, w2, w3, hBk, ?_⟩
  · rw [hinit, he]
    simp only [ok_bind, if_neg hne]
    rfl
  · refine Eq.trans ?_ gp1
    refine getw_of_bytes _ _ (h.mem_brk + 44) ?_
    intro a ha1 ha2
    exact hfr' a (c7 a ha1 (Nat.lt_trans ha2 (Nat.add_lt_add_right
      (Nat.add_lt_add_left (by decide) _) _))).1 (c7 a ha1 (Nat.lt_trans ha2
      (Nat.add_lt_add_right (Nat.add_lt_add_left (by decide) _) _))).2
  · refine Eq.trans ?_ gp2
    refine getw_of_bytes _ _ (h.mem_brk + 48) ?_
    intro a ha1 ha2
    exact hfr' a (c7 a (Nat.le_trans (Nat.add_le_add_left (by decide) _) ha1) ha2).1
      (c7 a (Nat.le_trans (Nat.add_le_add_left (by decide) _) ha1) ha2).2
  · intro a ha
    rw [hfr' a (Or.inl (Nat.lt_of_lt_of_le ha (Nat.le_add_right _ _)))
      (Nat.lt_of_lt_of_le ha (Nat.le_add_right _ _))]
    exact gfr a ha

theorem mem_sbrk_none_iff (g : Heap) (n : Nat) (hn : n < 2147483648) :
    mem_sbrk g n = none ↔ g.mem_max_addr < g.mem_brk + n := by
  unfold mem_sbrk
  constructor
  · intro hnone
    by_contra hc
    rw [if_neg (by omega)] at hnone
    exact Option.noConfusion hnone
  · intro hlt
    rw [if_pos (Or.inr hlt)]

/-- The block walk of a heap that consists of one free block of 4096 bytes
between the prologue and the epilogue. -/
theorem blocks_single (h' : Heap) (p fuel : Nat) (hp : h'.heap_listp = p)
    (hs : h'.mem_start_brk ≤ p) (hb : h'.mem_brk = p + 4152) (hlt : p + 4152 < 4294967296)
    (w1 : getw h'.mem (p + 52) = 4096) (w3 : getw h'.mem (p + 4148) = 1) (hf : 2 ≤ fuel) :
    blocks fuel h' = .ok [(p + 52, 4096, 0)] := by
  have a1 : add32 (add32 p (11 * WSIZE)) DSIZE = p + 52 := by
    clear w1 w3
    simp only [add32, U32, WSIZE, DSIZE]
    omega
  have a2 : add32 (p + 52) 4096 = p + 4148 := by
    clear w1 w3
    simp only [add32, U32]
    omega
  have b1 : h'.mem_start_brk ≤ p + 52 := by clear w1 w3; omega
  have b2 : p + 52 + 4 ≤ h'.mem_brk := by clear w1 w3; omega
  have b3 : h'.mem_start_brk ≤ p + 4148 := by clear w1 w3; omega
  have b4 : p + 4148 + 4 ≤ h'.mem_brk := by clear w1 w3; omega
  obtain ⟨f, rfl⟩ : ∃ f, fuel = f + 2 := ⟨fuel - 2, by clear w1 w3; omega⟩
  have s1 : GET_SIZE h' (p + 52) = .ok 4096 := by
    rw [GET_SIZE_ok h' _ b1 b2, w1]
  have s2 : GET_ALLOC h' (p + 52) = .ok 0 := by
    rw [GET_ALLOC_ok h' _ b1 b2, w1]
  have s3 : GET_SIZE h' (p + 4148) = .ok 0 := by
    rw [GET_SIZE_ok h' _ b3 b4, w3]
  unfold blocks
  rw [hp, a1]
  simp only [heapWalk, s1, ok_bind, s2, a2, s3]
  rfl

/-- C14: in every state with `mem_start_brk ≤ mem_brk` and 32-bit addresses
`mm_init` returns; it returns `-1` exactly when its first growth request
(`14 * WSIZE` bytes) or the growth request of `extend_heap(CHUNKSIZE/WSIZE)`
fails, and otherwise `0`.  When it returns `0`, with `p` the old end of the
arena: the prologue header and footer at `p + 44`, `p + 48` are
`PACK(DSIZE, 1)`, the block at `p + 56` has header and footer
`PACK(CHUNKSIZE, 0)`, the epilogue header at `p + 4148` is `PACK(0, 1)`, the
block walk visits exactly that one free block, and the bucket lists are empty
except for bucket 8 (sizes up to 4096), whose only entry is `p + 56`. -/
theorem mm_init_builds_the_initial_heap (h : Heap) (hs : h.mem_start_brk ≤ h.mem_brk)
    (hmax : h.mem_max_addr < U32) :
    ∃ r h', mm_init h = .ok (r, h') ∧
      (r = -1 ↔ (mem_sbrk h (14 * WSIZE) = none ∨
        mem_sbrk { h with mem_brk := h.mem_brk + 14 * WSIZE }
          (extend_size (CHUNKSIZE / WSIZE)) = none)) ∧
      (r ≠ -1 → r = 0 ∧
        h'.mem_start_brk = h.mem_start_brk ∧ h'.mem_brk = h.mem_brk + 14 * WSIZE + CHUNKSIZE ∧
        h'.heap_listp = h.mem_brk ∧ h'.seglist_start = h.mem_brk + WSIZE ∧
        GET h' (h.mem_brk + 44) = .ok (PACK DSIZE 1) ∧
        GET h' (h.mem_brk + 48) = .ok (PACK DSIZE 1) ∧
        GET h' (h.mem_brk + 52) = .ok (PACK CHUNKSIZE 0) ∧
        GET h' (h.mem_brk + 4144) = .ok (PACK CHUNKSIZE 0) ∧
        GET h' (h.mem_brk + 4148) = .ok (PACK 0 1) ∧
        Buckets h' (pushOn (fun _ => []) 8 (h.mem_brk + 56)) ∧
        (∀ fuel, 2 ≤ fuel → blocks fuel h' = .ok [(h.mem_brk + 52, CHUNKSIZE, 0)]) ∧
        (∀ fuel i, 1 ≤ fuel → i < 10 →
          bucket fuel h' i = .ok (if i = 8 then [h.mem_brk + 56] else []))) := by
  have hmax' : h.mem_max_addr < 4294967296 := hmax
  have k1 : 14 * WSIZE = 56 := by decide
  have k2 : extend_size (CHUNKSIZE / WSIZE) = 4096 := extend_size_chunk
  have n1 := mem_sbrk_none_iff h 56 (by decide)
  have n2 := mem_sbrk_none_iff { h with mem_brk := h.mem_brk + 56 } 4096 (by decide)
  simp only at n2
  rw [k1, k2]
  by_cases c1 : h.mem_max_addr < h.mem_brk + 56
  · -- the first growth fails
    refine ⟨-1, { h with heap_listp := U32 - 1 }, ?_, ?_, ?_⟩
    · have hn := n1.mpr c1
      simp only [mm_init, k1, hn]
      rfl
    · exact ⟨fun _ => Or.inl (n1.mpr c1), fun _ => rfl⟩
    · intro hne
      exact absurd rfl hne
  · by_cases c2 : h.mem_max_addr < h.mem_brk + 56 + 4096
    · -- the growth of `extend_heap` fails
      obtain ⟨h', hi⟩ := mm_init_second_fails h hs hmax' (by omega) c2
      refine ⟨-1, h', hi, ?_, ?_⟩
      · exact ⟨fun _ => Or.inr (n2.mpr c2), fun _ => rfl⟩
      · intro hne
        exact absurd rfl hne
    · obtain ⟨h', hi, b1, b2, b3, b4, b5, w1, w2, w3, w4, w5, hBk, _⟩ :=
        mm_init_ok h hs hmax' (by omega)
      have hb1 : h.mem_brk + 4152 < 4294967296 := by
        clear w1 w2 w3 w4 w5; omega
      have hrd : ∀ q, h.mem_brk ≤ q → q + 4 ≤ h.mem_brk + 4152 →
          GET h' q = .ok (getw h'.mem q) := by
        intro q hq1 hq2
        exact GET_ok h' q (by rw [b1]; exact Nat.le_trans hs hq1) (by rw [b2]; exact hq2)
      have q1 : ∀ d, d + 4 ≤ 4152 → h.mem_brk ≤ h.mem_brk + d ∧
          h.mem_brk + d + 4 ≤ h.mem_brk + 4152 := by
        clear w1 w2 w3 w4 w5
        intro d hd
        omega
      refine ⟨0, h', hi, ?_, ?_⟩
      · constructor
        · intro e
          exact absurd e (by decide)
        · intro e
          rcases e with e | e
          · exact absurd (n1.mp e) c1
          · exact absurd (n2.mp e) c2
      · intro _
        refine ⟨rfl, b1, b2, b4, b5, ?_, ?_, ?_, ?_, ?_, hBk, ?_, ?_⟩
        · rw [hrd _ (q1 44 (by decide)).1 (q1 44 (by decide)).2, w1]
          rfl
        · rw [hrd _ (q1 48 (by decide)).1 (q1 48 (by decide)).2, w2]
          rfl
        · rw [hrd _ (q1 52 (by decide)).1 (q1 52 (by decide)).2, w3]
          rfl
        · rw [hrd _ (q1 4144 (by decide)).1 (q1 4144 (by decide)).2, w4]
          rfl
        · rw [hrd _ (q1 4148 (by decide)).1 (q1 4148 (by decide)).2, w5]
          rfl
        · intro fuel hf
          exact blocks_single h' h.mem_brk fuel b4 (by rw [b1]; exact hs) b2 hb1 w3 w5 hf
        · intro fuel i hf hi10
          have := bucket_of_Buckets h' _ hBk fuel i hi10 (by
            unfold pushOn
            by_cases e : i = 8
            · rw [if_pos e]; exact hf
            · rw [if_neg e]; exact Nat.zero_le _)
          rw [this]
          rfl

/-- C14, at a concrete input: a fresh simulated heap at address 1000 with a
capacity of 20 MiB. -/
theorem mm_init_builds_the_initial_heap_witness :
    (mem_init 1000 20971520).mem_start_brk ≤ (mem_init 1000 20971520).mem_brk ∧
    (mem_init 1000 20971520).mem_max_addr < U32 ∧
    ∃ r h', mm_init (mem_init 1000 20971520) = .ok (r, h') ∧
      (r = -1 ↔ (mem_sbrk (mem_init 1000 20971520) (14 * WSIZE) = none ∨
        mem_sbrk { mem_init 1000 20971520 with
            mem_brk := (mem_init 1000 20971520).mem_brk + 14 * WSIZE }
          (extend_size (CHUNKSIZE / WSIZE)) = none)) ∧
      (r ≠ -1 → r = 0 ∧
        h'.mem_start_brk = (mem_init 1000 20971520).mem_start_brk ∧
        h'.mem_brk = (mem_init 1000 20971520).mem_brk + 14 * WSIZE + CHUNKSIZE ∧
        h'.heap_listp = (mem_init 1000 20971520).mem_brk ∧
        h'.seglist_start = (mem_init 1000 20971520).mem_brk + WSIZE ∧
        GET h' ((mem_init 1000 20971520).mem_brk + 44) = .ok (PACK DSIZE 1) ∧
        GET h' ((mem_init 1000 20971520).mem_brk + 48) = .ok (PACK DSIZE 1) ∧
        GET h' ((mem_init 1000 20971520).mem_brk + 52) = .ok (PACK CHUNKSIZE 0) ∧
        GET h' ((mem_init 1000 20971520).mem_brk + 4144) = .ok (PACK CHUNKSIZE 0) ∧
        GET h' ((mem_init 1000 20971520).mem_brk + 4148) = .ok (PACK 0 1) ∧
        Buckets h' (pushOn (fun _ => []) 8 ((mem_init 1000 20971520).mem_brk + 56)) ∧
        (∀ fuel, 2 ≤ fuel →
          blocks fuel h' = .ok [((mem_init 1000 20971520).mem_brk + 52, CHUNKSIZE, 0)]) ∧
        (∀ fuel i, 1 ≤ fuel → i < 10 →
          bucket fuel h' i
            = .ok (if i = 8 then [(mem_init 1000 20971520).mem_brk + 56] else []))) :=
  ⟨by decide, by decide,
    mm_init_builds_the_initial_heap (mem_init 1000 20971520) (by decide) (by decide)⟩

/-- C23: `LIST_OFFSET` maps every size to one of the ten bucket indices
0..9; sizes up to 16 map to 0, the sizes in `(2^(i+3), 2^(i+4)]` map to `i`
for `i = 1..8`, sizes above 4096 map to 9 (the bounds noted at the ten head
slots in `mm_init`, slot `i` being the word `i + 1` of the heap), each index is
taken on exactly these sizes, and the function is monotone. -/
theorem LIST_OFFSET_partitions_the_sizes (s : Nat) :
    LIST_OFFSET s ≤ 9 ∧ (LIST_OFFSET s = 0 ↔ s ≤ 16) ∧
    (∀ i, 1 ≤ i → i ≤ 8 → (LIST_OFFSET s = i ↔ 2 ^ (i + 3) < s ∧ s ≤ 2 ^ (i + 4))) ∧
    (LIST_OFFSET s = 9 ↔ 4096 < s) ∧
    (∀ a, a ≤ s → LIST_OFFSET a ≤ LIST_OFFSET s) := by
  have hs := LIST_OFFSET_class s
  refine ⟨LIST_OFFSET_le s, by omega, ?_, by omega, fun a ha => LIST_OFFSET_mono a s ha⟩
  intro i h1 h8
  interval_cases i <;> simp only [Nat.reducePow, Nat.reduceAdd] <;> omega

/-- C26 (fails on the code): after `traceShrink` the call `realloc(p, 8)` has
returned 1088, a block of size 16 (header 17); the call copied
`min(32, 16) - 4 = 12` bytes, four more than the payload of the new block, and
the footer of the new block is the word the client had stored at `p + 8`
(0x04030201), not the header word. -/
theorem realloc_copies_into_the_new_footer :
    (run 64 1000 20971520 traceShrink).bind (fun r => do
        let hd ← GET r.heap (HDRP 1088)
        let ft ← GET r.heap (← FTRP r.heap 1088)
        pure (r.out.head?, hd, ft))
      = .ok (some 1088, 17, 67305985) := by
  decide!

/-- C27 (fails on the code): right after `mm_init` the request of `2^32 - 8`
bytes has the adjusted size 0 and returns 1056, whose header records the size
4096, neither 0 nor 8. -/
theorem wrapped_request_returns_block_of_4096_bytes :
    (run 64 1000 20971520 [.malloc 4294967288]).bind (fun r => do
        let sz ← GET_SIZE r.heap (HDRP 1056)
        pure (r.out, adjust 4294967288, sz))
      = .ok ([1056], 0, 4096) := by
  decide!

/-- C25 (fails on the code): after `traceLargerEntry` the block `e` = 1144 of
112 bytes has just been freed between allocated neighbours and is the entry
of bucket 3; the request of 90 bytes has the adjusted size 104, of the same
bucket, and `mm_malloc(90)` returns 1096, not 1144: bucket 1 holds the entry
1096, which lies in the live payload of `q` and whose header the client has
set to 112. -/
theorem malloc_after_free_returns_another_block :
    (run 64 1000 20971520 traceLargerEntry).bind (fun r => do
        let bs ← buckets 64 r.heap
        let sz ← GET_SIZE r.heap (HDRP 1144)
        let pa ← GET_ALLOC r.heap (sub32 1144 DSIZE)
        let na ← GET_ALLOC r.heap (HDRP (add32 1144 sz))
        pure (bs, sz, pa, na))
      = .ok ([[], [1096, 1056], [], [1144], [], [], [], [], [1272], []], 112, 1, 1) ∧
    (adjust 90, LIST_OFFSET (adjust 90), LIST_OFFSET 112) = (104, 3, 3) ∧
    (run 64 1000 20971520 traceLargerEntry).bind (fun r => do
        let x ← mm_malloc 64 r.heap 90
        pure (isLive 1088 r.live, x.1))
      = .ok (true, 1096) := by
  refine ⟨?_, ?_, ?_⟩
  · decide!
  · decide
  · decide!

/-- C30 (counterexample): after `mm_init` the prologue header and footer
hold `PACK(8, 1)`: the size field of the prologue is 8, not 0; the size field
of the epilogue (the last word of the arena) is 0. -/
theorem prologue_size_is_eight :
    (boot 1000 20971520).bind (fun r => do
        let ph ← GET r.heap (add32 r.heap.heap_listp (11 * WSIZE))
        let pf ← GET r.heap (add32 r.heap.heap_listp (12 * WSIZE))
        let ps ← GET_SIZE r.heap (add32 r.heap.heap_listp (11 * WSIZE))
        let ep ← GET r.heap (sub32 r.heap.mem_brk WSIZE)
        pure (ph, pf, ps, ep))
      = .ok (9, 9, 8, 1) := by
  decide!

theorem word_fields (h : Heap) (q w : Nat) (h1 : h.mem_start_brk ≤ q) (h2 : q + 4 ≤ h.mem_brk)
    (hw : getw h.mem q = w) :
    GET h q = .ok w ∧ GET_SIZE h q = .ok (8 * (w / 8)) ∧ GET_ALLOC h q = .ok (w % 2) := by
  refine ⟨?_, ?_, ?_⟩
  · rw [GET_ok h q h1 h2, hw]
  · rw [GET_SIZE_ok h q h1 h2, hw]
  · rw [GET_ALLOC_ok h q h1 h2, hw]

/-- C29 (fails on the code): in mm.c, after `traceMergePrev` the block of `b`
has been merged into the free block 1016 (header 32, allocated bit clear),
and `freelist_headp` is still 1064, the block freed before. -/
theorem mm_merged_block_is_not_the_list_head :
    Mm.traceMergePrev.bind (fun x => do
        let w ← GET x.2 (HDRP 1016)
        pure (x.1, x.2.freelist_headp, w))
      = .ok ([1016, 1032, 1048, 1064, 1080], 1064, 32) := by
  decide!

/-- The word in the head slot of bucket `i` is the first entry of its list,
or `NULL` when the list is empty. -/
theorem Buckets_slot (h : Heap) (L : Nat → List Nat) (hB : Buckets h L) (i : Nat)
    (hi : i < 10) : GET h (h.seglist_start + i * 4) = .ok ((L i).headD NULL) := by
  have hlo := hB.lo
  have hs := hB.slots
  rw [GET_ok h _ (by omega) (by omega)]
  have hc := hB.chain i hi
  rcases Chain_head h.mem NULL _ (L i) hc with ⟨e1, e2⟩ | ⟨t, e⟩
  · rw [e1, e2]; rfl
  · rw [e]; rfl

/-- The link fields of the first entry `x` of a bucket list `x :: t`: its
back link is `NULL`, its forward link is the next entry or `NULL`, whose back
link is `x`. -/
theorem Buckets_first (h : Heap) (L : Nat → List Nat) (hB : Buckets h L) (i x : Nat)
    (t : List Nat) (hi : i < 10) (hl : L i = x :: t) :
    FDP h x = .ok (t.headD NULL) ∧ BKP h x = .ok NULL ∧
      (∀ y, t.head? = some y → BKP h y = .ok x) := by
  have hlo := hB.lo
  have hhi := hB.hi
  have hc := hB.chain i hi
  rw [hl] at hc
  obtain ⟨_, _, e3, e4⟩ := hc
  obtain ⟨a1, a2⟩ := hB.arena i hi x (by rw [hl]; simp)
  have hb : ∀ y, y ∈ L i → BKP h y = .ok (getw h.mem (y + 4)) := by
    intro y hy
    obtain ⟨b1, b2⟩ := hB.arena i hi y hy
    unfold BKP WSIZE
    rw [add32_eq _ _ (by omega)]
    exact GET_ok h _ (by omega) (by omega)
  refine ⟨?_, ?_, ?_⟩
  · unfold FDP
    rw [GET_ok h _ (by omega) (by omega)]
    rcases Chain_head h.mem x _ t e4 with ⟨e1, e2⟩ | ⟨t', e⟩
    · rw [e1, e2]; rfl
    · rw [e]; rfl
  · rw [hb x (by rw [hl]; simp), e3]
  · intro y hy
    cases t with
    | nil => simp at hy
    | cons z t' =>
      simp only [List.head?_cons, Option.some.injEq] at hy
      subst hy
      rw [hb z (by rw [hl]; simp), e4.2.2.1]

theorem removeFrom_pushOn (L : Nat → List Nat) (k x : Nat) :
    removeFrom (pushOn L k x) k x = L := by
  funext i
  unfold removeFrom pushOn
  by_cases e : i = k
  · rw [if_pos e, if_pos e, List.erase_cons_head]
  · rw [if_neg e, if_neg e]

/-- C21: `insert(bp)` for a free block `bp` of size `s` that is in no list
(its link fields overlap no entry) in a state whose bucket lists are `L`:
afterwards the list of bucket `LIST_OFFSET(s)` is `bp` followed by the
previous list, the other buckets are unchanged, the head slot of the bucket
holds `bp`, the forward link of `bp` is the old head (`NULL` for an empty
bucket), its back link is `NULL`, and the back link of the old head is
`bp`. -/
theorem insert_pushes_onto_the_bucket_head (h : Heap) (L : Nat → List Nat) (bp s : Nat)
    (hB : Buckets h L) (hsz : 8 * (getw h.mem (bp - 4) / 8) = s)
    (hb1 : h.seglist_start + 44 ≤ bp) (hb2 : bp + 8 ≤ h.mem_brk)
    (hfresh : ∀ i, i < 10 → ∀ x ∈ L i, x + 8 ≤ bp ∨ bp + 8 ≤ x) :
    ∃ h', insert h bp = .ok h' ∧ sameBounds h' h ∧
      Buckets h' (pushOn L (LIST_OFFSET s) bp) ∧
      (∀ fuel i, i < 10 → (L i).length < fuel →
        bucket fuel h' i = .ok (if i = LIST_OFFSET s then bp :: L i else L i)) ∧
      GET h' (h.seglist_start + LIST_OFFSET s * 4) = .ok bp ∧
      FDP h' bp = .ok ((L (LIST_OFFSET s)).headD NULL) ∧
      BKP h' bp = .ok NULL ∧
      (∀ y, (L (LIST_OFFSET s)).head? = some y → BKP h' y = .ok bp) := by
  have hk : LIST_OFFSET s < 10 := by
    have := LIST_OFFSET_le s; omega
  obtain ⟨h', hi, hsb, hBk, _⟩ := insert_spec h L bp (LIST_OFFSET s) hB (by rw [hsz])
    hb1 hb2 hfresh
  have hl : pushOn L (LIST_OFFSET s) bp (LIST_OFFSET s) = bp :: L (LIST_OFFSET s) :=
    pushOn_head L _ bp
  have hBk' : Buckets h' (pushOn L (LIST_OFFSET s) bp) := hBk
  obtain ⟨f1, f2, f3⟩ := Buckets_first h' (pushOn L (LIST_OFFSET s) bp) hBk' _ bp _ hk hl
  have hslot := Buckets_slot h' (pushOn L (LIST_OFFSET s) bp) hBk' _ hk
  rw [hl, hsb.2.2.2.2.1] at hslot
  refine ⟨h', hi, hsb, hBk, ?_, hslot, f1, f2, f3⟩
  intro fuel i hi10 hf
  refine bucket_of_Buckets h' _ hBk fuel i hi10 ?_
  by_cases e : i = LIST_OFFSET s
  · rw [if_pos e]
    simp only [List.length_cons]
    omega
  · rw [if_neg e]
    omega

/-- C22: `delete(bp)` in a state whose bucket lists are `L`, with `k` the
bucket of the size of `bp`.  If `bp` is an entry of bucket `k`, the list of
bucket `k` afterwards is the previous list without `bp`, in unchanged order,
the other buckets are unchanged, and every head slot holds the first entry of
its list.  If `bp` is in no list, `delete(bp)` directly after `insert(bp)`
gives back the bucket lists `L`. -/
theorem delete_unlinks_the_entry (h : Heap) (L : Nat → List Nat) (bp k : Nat)
    (hB : Buckets h L) (hk : LIST_OFFSET (8 * (getw h.mem (bp - 4) / 8)) = k) :
    (bp ∈ L k →
      ∃ h', delete h bp = .ok h' ∧ sameBounds h' h ∧
        Buckets h' (removeFrom L k bp) ∧
        (∀ fuel i, i < 10 → (L i).length ≤ fuel →
          bucket fuel h' i = .ok (if i = k then (L i).erase bp else L i)) ∧
        (∀ i, i < 10 → GET h' (h.seglist_start + i * 4)
          = .ok ((if i = k then (L i).erase bp else L i).headD NULL))) ∧
    (h.seglist_start + 44 ≤ bp → bp + 8 ≤ h.mem_brk →
      (∀ i, i < 10 → ∀ x ∈ L i, x + 12 ≤ bp ∨ bp + 8 ≤ x) →
      ∃ h1 h2, insert h bp = .ok h1 ∧ delete h1 bp = .ok h2 ∧ sameBounds h2 h ∧
        Buckets h2 L ∧
        (∀ fuel i, i < 10 → (L i).length ≤ fuel → bucket fuel h2 i = .ok (L i))) := by
  have hk10 : k < 10 := by
    have := LIST_OFFSET_le (8 * (getw h.mem (bp - 4) / 8)); omega
  constructor
  · intro hm
    obtain ⟨m', hd, hB', _⟩ := delete_spec h L bp k hB hk10 hm hk
    refine ⟨_, hd, ⟨rfl, rfl, rfl, rfl, rfl, rfl⟩, hB', ?_, ?_⟩
    · intro fuel i hi hf
      refine bucket_of_Buckets _ _ hB' fuel i hi ?_
      by_cases e : i = k
      · simp only [if_pos e]
        exact Nat.le_trans (List.length_erase_le _ _) hf
      · simp only [if_neg e]
        exact hf
    · intro i hi
      exact Buckets_slot _ _ hB' i hi
  · intro hb1 hb2 hfresh
    have hlo := hB.lo
    obtain ⟨h1, hi, hsb, hB1, hfr⟩ := insert_spec h L bp k hB hk hb1 hb2
      (by intro i hi x hx; have := hfresh i hi x hx; omega)
    obtain ⟨b1, b2, b3, b4, b5, b6⟩ := hsb
    have hhdr : getw h1.mem (bp - 4) = getw h.mem (bp - 4) := by
      refine getw_of_bytes _ _ _ ?_
      intro a ha1 ha2
      refine hfr a (by omega) (by omega) ?_
      intro i hi x hx
      have := hfresh i hi x hx
      omega
    have hB1' : Buckets h1 (pushOn L k bp) := hB1
    obtain ⟨m', hd, hB2, _⟩ := delete_spec h1 (pushOn L k bp) bp k hB1' hk10
      (by rw [pushOn_head]; simp) (by rw [hhdr]; exact hk)
    have hB2' : Buckets { h1 with mem := m' } (removeFrom (pushOn L k bp) k bp) := hB2
    rw [removeFrom_pushOn] at hB2'
    refine ⟨h1, _, hi, hd, ⟨b1, b2, b3, b4, b5, b6⟩, hB2', ?_⟩
    intro fuel i hi10 hf
    exact bucket_of_Buckets _ _ hB2' fuel i hi10 hf

theorem mergeHeap_free_block :
    8 * (getw mergeHeap.mem (1072 - 4) / 8) = 16 ∧
    mergeHeap.seglist_start + 44 ≤ 1072 ∧ 1072 + 8 ≤ mergeHeap.mem_brk ∧
    LIST_OFFSET (8 * (getw mergeHeap.mem (1072 - 4) / 8)) = 0 ∧
    LIST_OFFSET (8 * (getw mergeHeap.mem (1088 - 4) / 8)) = 0 := by
  decide!

theorem mergeLists_fresh :
    (∀ i, i < 10 → ∀ x ∈ mergeLists i, x + 12 ≤ 1072 ∨ 1072 + 8 ≤ x) ∧
    (∀ i, i < 10 → ∀ x ∈ mergeLists i, x + 8 ≤ 1072 ∨ 1072 + 8 ≤ x) ∧
    1088 ∈ mergeLists 0 := by
  decide

/-- C21, at a concrete input: in `mergeHeap` the free block 1072 of 16 bytes is
in no list; `insert(1072)` puts it in front of the list `[1088, 1056]` of
bucket 0. -/
theorem insert_pushes_onto_the_bucket_head_witness :
    Buckets mergeHeap mergeLists ∧
    ∃ h', insert mergeHeap 1072 = .ok h' ∧ sameBounds h' mergeHeap ∧
      Buckets h' (pushOn mergeLists (LIST_OFFSET 16) 1072) ∧
      (∀ fuel i, i < 10 → (mergeLists i).length < fuel →
        bucket fuel h' i = .ok (if i = LIST_OFFSET 16 then 1072 :: mergeLists i
          else mergeLists i)) ∧
      GET h' (mergeHeap.seglist_start + LIST_OFFSET 16 * 4) = .ok 1072 ∧
      FDP h' 1072 = .ok ((mergeLists (LIST_OFFSET 16)).headD NULL) ∧
      BKP h' 1072 = .ok NULL ∧
      (∀ y, (mergeLists (LIST_OFFSET 16)).head? = some y → BKP h' y = .ok 1072) :=
  ⟨Buckets_of_B _ _ mergeHeap_buckets,
    insert_pushes_onto_the_bucket_head mergeHeap mergeLists 1072 16
      (Buckets_of_B _ _ mergeHeap_buckets) mergeHeap_free_block.1
      mergeHeap_free_block.2.1 mergeHeap_free_block.2.2.1 mergeLists_fresh.2.1⟩

/-- C22, at a concrete input: in `mergeHeap`, `delete(1088)` removes the head
of bucket 0, and `insert(1072)` followed by `delete(1072)` gives back the
lists `mergeLists`. -/
theorem delete_unlinks_the_entry_witness :
    Buckets mergeHeap mergeLists ∧
    (∃ h', delete mergeHeap 1088 = .ok h' ∧ sameBounds h' mergeHeap ∧
        Buckets h' (removeFrom mergeLists 0 1088) ∧
        (∀ fuel i, i < 10 → (mergeLists i).length ≤ fuel →
          bucket fuel h' i = .ok (if i = 0 then (mergeLists i).erase 1088
            else mergeLists i)) ∧
        (∀ i, i < 10 → GET h' (mergeHeap.seglist_start + i * 4)
          = .ok ((if i = 0 then (mergeLists i).erase 1088 else mergeLists i).headD NULL))) ∧
    (∃ h1 h2, insert mergeHeap 1072 = .ok h1 ∧ delete h1 1072 = .ok h2 ∧
        sameBounds h2 mergeHeap ∧ Buckets h2 mergeLists ∧
        (∀ fuel i, i < 10 → (mergeLists i).length ≤ fuel →
          bucket fuel h2 i = .ok (mergeLists i))) :=
  ⟨Buckets_of_B _ _ mergeHeap_buckets,
    (delete_unlinks_the_entry mergeHeap mergeLists 1088 0
      (Buckets_of_B _ _ mergeHeap_buckets) mergeHeap_free_block.2.2.2.2).1
      mergeLists_fresh.2.2,
    (delete_unlinks_the_entry mergeHeap mergeLists 1072 0
      (Buckets_of_B _ _ mergeHeap_buckets) mergeHeap_free_block.2.2.2.1).2
      mergeHeap_free_block.2.1 mergeHeap_free_block.2.2.1 mergeLists_fresh.1⟩

theorem check_list_congr (h1 h : Heap) (hs : sameArena h1 h) :
    ∀ fuel cur, check_list h1 fuel cur = check_list h fuel cur := by
  intro fuel
  induction fuel with
  | zero => intro cur; rfl
  | succ k ih =>
    intro cur
    simp only [check_list, GET_SIZE, FDP, BKP, GET_congr h1 h hs, ih]

theorem listFrom_congr (h1 h : Heap) (hs : sameArena h1 h) :
    ∀ fuel cur, listFrom h1 fuel cur = listFrom h fuel cur := by
  intro fuel
  induction fuel with
  | zero => intro cur; rfl
  | succ k ih =>
    intro cur
    simp only [listFrom, FDP, GET_congr h1 h hs, ih]

theorem heapWalk_congr (h1 h : Heap) (hs : sameArena h1 h) :
    ∀ fuel hd, heapWalk h1 fuel hd = heapWalk h fuel hd := by
  intro fuel
  induction fuel with
  | zero => intro hd; rfl
  | succ k ih =>
    intro hd
    simp only [heapWalk, GET_SIZE, GET_ALLOC, GET_congr h1 h hs, ih]

theorem sameArena_trans (a b c : Heap) (h1 : sameArena a b) (h2 : sameArena b c) :
    sameArena a c := by
  obtain ⟨a1, a2, a3, a4, a5, a6, a7⟩ := h1
  obtain ⟨b1, b2, b3, b4, b5, b6, b7⟩ := h2
  exact ⟨a1.trans b1, a2.trans b2, a3.trans b3, a4.trans b4, a5.trans b5, a6.trans b6,
    a7.trans b7⟩

/-- A list walk that `check_freelist` completes is a NULL-terminated list in
which every entry's successor points back to it. -/
theorem check_list_spec (h : Heap) :
    ∀ (fuel cur : Nat), check_list h fuel cur = .ok true →
      ∃ l, listFrom h fuel cur = .ok l ∧
        List.Chain' (fun x y => BKP h y = .ok x) l ∧
        (cur ≠ NULL → l.head? = some cur) := by
  intro fuel
  induction fuel with
  | zero =>
    intro cur hc
    by_cases e : cur = NULL
    · refine ⟨[], ?_, List.chain'_nil, fun hne => absurd e hne⟩
      rw [listFrom, if_pos e]; rfl
    · rw [check_list, if_neg e] at hc
      cases hc
  | succ k ih =>
    intro cur hc
    by_cases e : cur = NULL
    · refine ⟨[], ?_, List.chain'_nil, fun hne => absurd e hne⟩
      rw [listFrom, if_pos e]; rfl
    · rw [check_list, if_neg e] at hc
      simp only [bind_eq_ok] at hc
      obtain ⟨next, hfd, _, _, hrest⟩ := hc
      by_cases en : next = NULL
      · rw [if_neg (by simpa using en)] at hrest
        obtain ⟨l, hl, _, _⟩ := ih next hrest
        have hl0 : l = [] := by
          subst en
          cases k with
          | zero => rw [listFrom, if_pos rfl] at hl; cases hl; rfl
          | succ k' => rw [listFrom, if_pos rfl] at hl; cases hl; rfl
        subst hl0
        refine ⟨[cur], ?_, List.chain'_singleton cur, fun _ => rfl⟩
        simp only [listFrom, if_neg e, hfd, ok_bind, hl]
        rfl
      · rw [if_pos en] at hrest
        simp only [bind_eq_ok] at hrest
        obtain ⟨b, hb, hrest⟩ := hrest
        by_cases eb : b = cur
        · rw [if_neg (by simpa using eb)] at hrest
          obtain ⟨l, hl, hch, hhd⟩ := ih next hrest
          have hh := hhd en
          cases l with
          | nil => simp at hh
          | cons y t =>
            simp only [List.head?_cons, Option.some.injEq] at hh
            subst hh
            subst eb
            refine ⟨b :: y :: t, ?_, List.Chain'.cons hb hch, fun _ => rfl⟩
            simp only [listFrom, if_neg e, hfd, ok_bind, hl]
            rfl
        · rw [if_pos eb] at hrest
          cases hrest

theorem sameArena_head (h : Heap) (x : Nat) : sameArena { h with freelist_headp := x } h := by
  simp [sameArena]

/-- The buckets that a completed `check_freelist` has visited. -/
theorem check_freelist_from_spec (fuel : Nat) (h : Heap) :
    ∀ (k i : Nat) (h1 : Heap) (r : Bool × Heap), sameArena h1 h →
      check_freelist_from fuel k i h1 = .ok r →
      sameArena r.2 h ∧ (r.1 = true → ∀ j, i ≤ j → j < i + k →
        ∃ l, bucket fuel h j = .ok l ∧ List.Chain' (fun x y => BKP h y = .ok x) l) := by
  intro k
  induction k with
  | zero =>
    intro i h1 r hs hc
    simp only [check_freelist_from, pure_eq_ok] at hc
    subst hc
    exact ⟨hs, fun _ j h1 h2 => by omega⟩
  | succ k ih =>
    intro i h1 r hs hc
    simp only [check_freelist_from, bind_eq_ok] at hc
    obtain ⟨head, hhead, hrest⟩ := hc
    have hs1 : sameArena { h1 with freelist_headp := head } h :=
      sameArena_trans _ _ _ (sameArena_head h1 head) hs
    have hseg : h1.seglist_start = h.seglist_start := hs.2.2.2.2.2.1
    rw [GET_congr h1 h hs, hseg] at hhead
    -- the list of bucket `i` when the walk of it completes
    have hthis : check_list h fuel head = .ok true →
        ∃ l, bucket fuel h i = .ok l ∧ List.Chain' (fun x y => BKP h y = .ok x) l := by
      intro hcl
      obtain ⟨l, hl, hch, _⟩ := check_list_spec h fuel head hcl
      refine ⟨l, ?_, hch⟩
      simp only [bucket, hhead, ok_bind, hl]
    by_cases e : head = NULL
    · rw [if_neg (by simpa using e)] at hrest
      obtain ⟨q1, q2⟩ := ih (i + 1) _ r hs1 hrest
      refine ⟨q1, ?_⟩
      intro hr j hj1 hj2
      by_cases ej : j = i
      · subst ej
        refine hthis ?_
        subst e
        cases fuel with
        | zero => rw [check_list, if_pos rfl]; rfl
        | succ f => rw [check_list, if_pos rfl]; rfl
      · exact q2 hr j (by omega) (by omega)
    · rw [if_pos e] at hrest
      simp only [bind_eq_ok] at hrest
      obtain ⟨_, _, ok, hok, hrest⟩ := hrest
      rw [check_list_congr _ h hs1] at hok
      cases ok with
      | false =>
        simp only [Bool.false_eq_true, if_false, pure_eq_ok] at hrest
        subst hrest
        exact ⟨hs1, fun hr => by cases hr⟩
      | true =>
        simp only [if_true] at hrest
        obtain ⟨q1, q2⟩ := ih (i + 1) _ r hs1 hrest
        refine ⟨q1, ?_⟩
        intro hr j hj1 hj2
        by_cases ej : j = i
        · subst ej
          exact hthis hok
        · exact q2 hr j (by omega) (by omega)

/-- The blocks that a completed traversal of `mm_checkheap` has passed. -/
theorem check_walk_spec (lfuel : Nat) (h : Heap) :
    ∀ (fuel header : Nat), check_walk lfuel h fuel header = .ok true →
      ∃ l, heapWalk h fuel header = .ok l ∧
        ∀ b ∈ l, b.2.1 % 8 = 0 ∧ b.2.1 ≠ 0 ∧ (add32 b.1 WSIZE) % 8 = 0 ∧
          (b.2.2 = 0 → ∃ na, GET_ALLOC h (add32 b.1 b.2.1) = .ok na ∧ na ≠ 0) := by
  intro fuel
  induction fuel with
  | zero =>
    intro header hc
    rw [check_walk] at hc
    cases hc
  | succ k ih =>
    intro header hc
    simp only [check_walk, bind_eq_ok] at hc
    obtain ⟨sz, hsz, hrest⟩ := hc
    have hsz8 : sz % 8 = 0 := by
      simp only [GET_SIZE, bind_eq_ok, pure_eq_ok] at hsz
      obtain ⟨w, hw, e⟩ := hsz
      have hwlt : w < 4294967296 := by
        unfold GET at hw
        split at hw
        · cases hw
          omega
        · cases hw
      rw [← e, land_mask w hwlt]
      omega
    by_cases e0 : sz = 0
    · refine ⟨[], ?_, fun b hb => by simp at hb⟩
      simp only [heapWalk, hsz, ok_bind, e0, if_true]
      rfl
    · rw [if_neg e0] at hrest
      by_cases ea : add32 header WSIZE % 8 = 0
      · rw [if_neg (by simpa using ea)] at hrest
        simp only [hsz, ok_bind, bind_eq_ok] at hrest
        obtain ⟨a, ha, hrest⟩ := hrest
        have hfin : ∀ (hnext : a = 0 → ∃ na, GET_ALLOC h (add32 header sz) = .ok na ∧ na ≠ 0),
            check_walk lfuel h k (add32 header sz) = .ok true →
            ∃ l, heapWalk h (k + 1) header = .ok l ∧
              ∀ b ∈ l, b.2.1 % 8 = 0 ∧ b.2.1 ≠ 0 ∧ (add32 b.1 WSIZE) % 8 = 0 ∧
                (b.2.2 = 0 → ∃ na, GET_ALLOC h (add32 b.1 b.2.1) = .ok na ∧ na ≠ 0) := by
          intro hnext hw
          obtain ⟨l, hl, hp⟩ := ih _ hw
          refine ⟨(header, sz, a) :: l, ?_, ?_⟩
          · simp only [heapWalk, hsz, ok_bind, if_neg e0, ha, hl]
            rfl
          · intro b hb
            rcases List.mem_cons.mp hb with eb | hb
            · subst eb
              exact ⟨hsz8, e0, ea, hnext⟩
            · exact hp b hb
        by_cases ez : a = 0
        · rw [if_pos ez] at hrest
          simp only [bind_eq_ok] at hrest
          obtain ⟨na, hna, hrest⟩ := hrest
          by_cases en : na = 0
          · rw [if_pos en] at hrest
            simp only [bind_eq_ok, pure_eq_ok] at hrest
            obtain ⟨_, _, hf⟩ := hrest
            cases hf
          · rw [if_neg en] at hrest
            exact hfin (fun _ => ⟨na, hna, en⟩) hrest
        · rw [if_neg ez] at hrest
          exact hfin (fun e => absurd e ez) hrest
      · rw [if_pos (by simpa using ea)] at hrest
        cases hrest

theorem map_fst_ok {α β : Type} (x : Except Err (α × β)) (a : α)
    (h : x.map Prod.fst = .ok a) : ∃ b, x = .ok (a, b) := by
  cases x with
  | error e => cases h
  | ok p =>
    obtain ⟨p1, p2⟩ := p
    simp only [Except.map] at h
    cases h
    exact ⟨p2, rfl⟩

theorem GET_SIZE_congr (h1 h : Heap) (hs : sameArena h1 h) (p : Nat) :
    GET_SIZE h1 p = GET_SIZE h p := by
  simp only [GET_SIZE, GET_congr h1 h hs]

theorem GET_ALLOC_congr (h1 h : Heap) (hs : sameArena h1 h) (p : Nat) :
    GET_ALLOC h1 p = GET_ALLOC h p := by
  simp only [GET_ALLOC, GET_congr h1 h hs]

theorem check_walk_congr (lfuel : Nat) (h1 h : Heap) (hs : sameArena h1 h) :
    ∀ fuel hd, check_walk lfuel h1 fuel hd = .ok true → check_walk lfuel h fuel hd = .ok true := by
  intro fuel
  induction fuel with
  | zero => intro hd hc; rw [check_walk] at hc; cases hc
  | succ k ih =>
    intro hd hc
    simp only [check_walk, GET_SIZE_congr h1 h hs, GET_ALLOC_congr h1 h hs] at hc
    simp only [check_walk]
    simp only [bind_eq_ok] at hc ⊢
    obtain ⟨sz, hsz, hrest⟩ := hc
    refine ⟨sz, hsz, ?_⟩
    by_cases e0 : sz = 0
    · rw [if_pos e0]; rfl
    · rw [if_neg e0] at hrest ⊢
      by_cases ea : add32 hd WSIZE % 8 = 0
      · rw [if_neg (by simpa using ea)] at hrest ⊢
        simp only [bind_eq_ok] at hrest ⊢
        obtain ⟨sz', hsz', a, ha, hrest⟩ := hrest
        refine ⟨sz', hsz', a, ha, ?_⟩
        by_cases ez : a = 0
        · rw [if_pos ez] at hrest ⊢
          simp only [bind_eq_ok] at hrest ⊢
          obtain ⟨na, hna, hrest⟩ := hrest
          refine ⟨na, hna, ?_⟩
          by_cases en : na = 0
          · rw [if_pos en] at hrest
            simp only [bind_eq_ok, pure_eq_ok] at hrest
            obtain ⟨_, _, hf⟩ := hrest
            cases hf
          · rw [if_neg en] at hrest ⊢
            exact ih _ hrest
        · rw [if_neg ez] at hrest ⊢
          exact ih _ hrest
      · rw [if_pos (by simpa using ea)] at hrest
        cases hrest

/-- What `mm_checkheap` does validate: on every state on which it runs to
completion without aborting, the prologue header and footer have size 8
and the allocated bit set; the block traversal reaches a header of size 0, and
every block it passes has a non-zero size that is a multiple of 8, an
8-aligned payload address and, when it is free, a successor (the next block or
the epilogue) with the allocated bit set; every bucket list is
NULL-terminated and the successor of each entry points back to it. -/
theorem checkheap_validates_links_prologue_and_adjacency (fuel : Nat) (h : Heap)
    (hc : (mm_checkheap fuel h).map Prod.fst = .ok true) :
    GET_SIZE h (add32 h.heap_listp (11 * WSIZE)) = .ok DSIZE ∧
    GET_ALLOC h (add32 h.heap_listp (11 * WSIZE)) = .ok 1 ∧
    GET_SIZE h (add32 (add32 h.heap_listp (11 * WSIZE)) WSIZE) = .ok DSIZE ∧
    GET_ALLOC h (add32 (add32 h.heap_listp (11 * WSIZE)) WSIZE) = .ok 1 ∧
    (∃ l, blocks fuel h = .ok l ∧
      ∀ b ∈ l, b.2.1 % 8 = 0 ∧ b.2.1 ≠ 0 ∧ (add32 b.1 WSIZE) % 8 = 0 ∧
        (b.2.2 = 0 → ∃ na, GET_ALLOC h (add32 b.1 b.2.1) = .ok na ∧ na ≠ 0)) ∧
    (∀ i, i < 10 →
      ∃ l, bucket fuel h i = .ok l ∧ List.Chain' (fun x y => BKP h y = .ok x) l) := by
  obtain ⟨h', hc⟩ := map_fst_ok _ _ hc
  simp only [mm_checkheap, bind_eq_ok] at hc
  obtain ⟨r, hr, hrest⟩ := hc
  obtain ⟨hs, hlists⟩ := check_freelist_from_spec fuel h 10 0 h r (sameArena_refl h) hr
  have hlp : r.2.heap_listp = h.heap_listp := hs.2.2.2.2.1
  by_cases e1 : r.1 = false
  · rw [if_pos e1, pure_eq_ok] at hrest
    rw [hrest] at e1
    cases e1
  · rw [if_neg e1] at hrest
    have hr1 : r.1 = true := by
      cases hb : r.1 with
      | false => exact absurd hb e1
      | true => rfl
    simp only [bind_eq_ok, hlp, GET_SIZE_congr r.2 h hs, GET_ALLOC_congr r.2 h hs] at hrest
    obtain ⟨s1, hs1, bad1, hbad1, hrest⟩ := hrest
    cases bad1 with
    | true =>
      simp only [if_true, pure_eq_ok] at hrest
      cases hrest
    | false =>
      simp only [Bool.false_eq_true, if_false, bind_eq_ok] at hrest
      obtain ⟨s2, hs2, bad2, hbad2, hrest⟩ := hrest
      cases bad2 with
      | true =>
        simp only [if_true, pure_eq_ok] at hrest
        cases hrest
      | false =>
        simp only [Bool.false_eq_true, if_false, bind_eq_ok, pure_eq_ok] at hrest
        obtain ⟨ok, hok, hfin⟩ := hrest
        have hok1 : ok = true := by
          have := congrArg Prod.fst hfin
          exact this
        subst hok1
        have p1 : s1 = DSIZE ∧ GET_ALLOC h (add32 h.heap_listp (11 * WSIZE)) = .ok 1 := by
          by_cases e : s1 = DSIZE
          · rw [if_neg (by simpa using e)] at hbad1
            simp only [bind_eq_ok, pure_eq_ok] at hbad1
            obtain ⟨a1, ha1, hd⟩ := hbad1
            have : a1 = 1 := by simpa using hd
            exact ⟨e, by rw [ha1, this]⟩
          · rw [if_pos e, pure_eq_ok] at hbad1
            cases hbad1
        have p2 : s2 = DSIZE ∧
            GET_ALLOC h (add32 (add32 h.heap_listp (11 * WSIZE)) WSIZE) = .ok 1 := by
          by_cases e : s2 = DSIZE
          · rw [if_neg (by simpa using e)] at hbad2
            simp only [bind_eq_ok, pure_eq_ok] at hbad2
            obtain ⟨a2, ha2, hd⟩ := hbad2
            have : a2 = 1 := by simpa using hd
            exact ⟨e, by rw [ha2, this]⟩
          · rw [if_pos e, pure_eq_ok] at hbad2
            cases hbad2
        obtain ⟨l, hl, hp⟩ := check_walk_spec fuel h fuel _
          (check_walk_congr fuel r.2 h hs fuel _ hok)
        refine ⟨by rw [hs1, p1.1], p1.2, by rw [hs2, p2.1], p2.2, ⟨l, hl, hp⟩, ?_⟩
        intro i hi
        exact hlists hr1 i (Nat.zero_le i) (by omega)

/-- The checker at a concrete input: `mm_checkheap` completes on `sampleHeap`,
so its bucket lists are NULL-terminated with consistent back links. -/
theorem checkheap_validates_sampleHeap :
    (mm_checkheap 64 sampleHeap).map Prod.fst = .ok true ∧
    ∀ i, i < 10 →
      ∃ l, bucket 64 sampleHeap i = .ok l ∧
        List.Chain' (fun x y => BKP sampleHeap y = .ok x) l :=
  ⟨by decide!,
    (checkheap_validates_links_prologue_and_adjacency 64 sampleHeap (by decide!)).2.2.2.2.2⟩

/-- C28 (fails on the code): after `traceLargerEntry` `mm_checkheap` runs to
completion without aborting, although bucket 1 (sizes 17..32) lists the entry
1096 whose header gives the size 112 (bucket 3), which is no block of the
traversal and lies in the live payload of 1088, and although the free block
1112 has the header word 16 and the footer word 32. -/
theorem checkheap_passes_a_heap_with_broken_invariants :
    (run 64 1000 20971520 traceLargerEntry).bind (fun r => do
        let c ← mm_checkheap 64 r.heap
        let bl ← blocks 64 r.heap
        pure (c.1, bl))
      = .ok (true, [(1052, 32, 0), (1084, 24, 1), (1108, 16, 0), (1124, 16, 1),
          (1140, 112, 0), (1252, 16, 1), (1268, 3880, 0)]) ∧
    (run 64 1000 20971520 traceLargerEntry).bind (fun r => do
        let bs ← buckets 64 r.heap
        let sz ← GET_SIZE r.heap (HDRP 1096)
        let hd ← GET r.heap (HDRP 1112)
        let ft ← GET r.heap (sub32 (add32 1112 16) DSIZE)
        pure (bs, sz, LIST_OFFSET sz, hd, ft, isLive 1088 r.live))
      = .ok ([[], [1096, 1056], [], [1144], [], [], [], [], [1272], []],
          112, 3, 16, 32, true) := by
  refine ⟨?_, ?_⟩
  · decide!
  · decide!

theorem adjust_mod8 (n : Nat) : adjust n % 8 = 0 := by
  unfold adjust ALIGN DSIZE
  split
  · rfl
  · rw [land_mask _ (by unfold add32 U32; exact Nat.mod_lt _ (by decide))]
    omega

theorem MAX_chunk (a : Nat) (ha : a % 8 = 0) :
    MAX a CHUNKSIZE % 8 = 0 ∧ 4096 ≤ MAX a CHUNKSIZE ∧ a ≤ MAX a CHUNKSIZE := by
  unfold MAX CHUNKSIZE
  split <;> omega

theorem extend_size_even (sz : Nat) (h8 : sz % 8 = 0) (hlt : sz < 4294967296) :
    extend_size (sz / WSIZE) = sz := by
  unfold extend_size WSIZE mul32 U32
  have : sz / 4 % 2 = 0 := by omega
  rw [if_neg (by omega)]
  omega

/-- The first part of `extend_heap(words)` when the growth succeeds: the size
is stored in the header at the old end of the arena minus 4 and in the footer,
a new epilogue header is stored in the last word, and `coalesce` is called on
the resulting state. -/
theorem extend_heap_stores (g : Heap) (L : Nat → List Nat) (words sz : Nat)
    (hB : Buckets g L) (hsz : extend_size words = sz) (hs8 : sz % 8 = 0) (hs16 : 16 ≤ sz)
    (hs31 : sz < 2147483648) (hmax : g.mem_max_addr < 4294967296)
    (hfit : g.mem_brk + sz ≤ g.mem_max_addr) (hpro : g.seglist_start + 44 ≤ g.mem_brk)
    (hout : ∀ i, i < 10 → ∀ x ∈ L i, x + 12 ≤ g.mem_brk) :
    ∃ m3, extend_heap g words
        = coalesce { g with mem_brk := g.mem_brk + sz, mem := m3 } g.mem_brk ∧
      getw m3 (g.mem_brk - 4) = sz ∧ getw m3 (g.mem_brk + sz - 8) = sz ∧
      getw m3 (g.mem_brk + sz - 4) = 1 ∧
      Buckets { g with mem_brk := g.mem_brk + sz, mem := m3 } L ∧
      (∀ a, a < g.mem_brk - 4 → m3 a = g.mem a) := by
  have hlo := hB.lo
  have hhi := hB.hi
  have hsl := hB.slots
  have hsb : mem_sbrk g sz = some (g.mem_brk, { g with mem_brk := g.mem_brk + sz }) := by
    unfold mem_sbrk
    rw [if_neg (by omega)]
  have hs32 : sz % 4294967296 = sz := Nat.mod_eq_of_lt (by omega)
  obtain ⟨m1, hm1⟩ : ∃ m, m = setWord g.mem (g.mem_brk - 4) sz := ⟨_, rfl⟩
  obtain ⟨m2, hm2⟩ : ∃ m, m = setWord m1 (g.mem_brk + sz - 8) sz := ⟨_, rfl⟩
  obtain ⟨m3, hm3⟩ : ∃ m, m = setWord m2 (g.mem_brk + sz - 4) 1 := ⟨_, rfl⟩
  have w1 : getw m1 (g.mem_brk - 4) = sz := by rw [hm1, getw_setWord_same, hs32]
  have w2 : getw m2 (g.mem_brk - 4) = sz := by
    rw [hm2, getw_setWord_disj _ _ _ _ (by omega), w1]
  have ep1 : PUT { g with mem_brk := g.mem_brk + sz } (HDRP g.mem_brk) (PACK sz 0)
      = .ok { g with mem_brk := g.mem_brk + sz, mem := m1 } := by
    rw [HDRP_eq _ (by omega) (by omega), PACK_zero, hm1]
    exact PUT_ok _ _ _ (by simp only; omega) (by simp only; omega)
  have ef1 : FTRP { g with mem_brk := g.mem_brk + sz, mem := m1 } g.mem_brk
      = .ok (g.mem_brk + sz - 8) :=
    FTRP_ok _ _ sz (by simp only; omega) (by simp only; omega) (by simp only; omega)
      (by simp only; rw [w1, size_round sz hs8]) (by omega) (by omega)
  have ep2 : PUT { g with mem_brk := g.mem_brk + sz, mem := m1 } (g.mem_brk + sz - 8)
      (PACK sz 0) = .ok { g with mem_brk := g.mem_brk + sz, mem := m2 } := by
    rw [PACK_zero, hm2]
    exact PUT_ok _ _ _ (by simp only; omega) (by simp only; omega)
  have en2 : NEXT_BLKP { g with mem_brk := g.mem_brk + sz, mem := m2 } g.mem_brk
      = .ok (g.mem_brk + sz) :=
    NEXT_BLKP_ok _ _ sz (by simp only; omega) (by simp only; omega) (by simp only; omega)
      (by simp only; rw [w2, size_round sz hs8]) (by omega)
  have ep3 : PUT { g with mem_brk := g.mem_brk + sz, mem := m2 } (HDRP (g.mem_brk + sz))
      (PACK 0 1) = .ok { g with mem_brk := g.mem_brk + sz, mem := m3 } := by
    rw [HDRP_eq _ (by omega) (by omega), PACK_zero_one, hm3]
    exact PUT_ok _ _ _ (by simp only; omega) (by simp only; omega)
  have hfr3 : ∀ a, a < g.mem_brk - 4 → m3 a = g.mem a := by
    intro a ha
    rw [hm3, hm2, hm1, setWord_other _ _ _ _ (by omega), setWord_other _ _ _ _ (by omega),
      setWord_other _ _ _ _ (by omega)]
  have hB3 : Buckets { g with mem_brk := g.mem_brk + sz, mem := m3 } L := by
    refine Buckets_grow g _ L hB rfl (by simp only; omega) (by simp only; omega) rfl ?_ ?_
    · intro a ha1 ha2
      exact hfr3 a (by omega)
    · intro i hi x hx a ha1 ha2
      have := hout i hi x hx
      exact hfr3 a (by omega)
  have e3 : getw m3 (g.mem_brk - 4) = sz := by
    rw [hm3, getw_setWord_disj _ _ _ _ (by omega), w2]
  have e4 : getw m3 (g.mem_brk + sz - 8) = sz := by
    rw [hm3, getw_setWord_disj _ _ _ _ (by omega), hm2, getw_setWord_same, hs32]
  have e5 : getw m3 (g.mem_brk + sz - 4) = 1 := by
    rw [hm3, getw_setWord_same]
  refine ⟨m3, ?_, e3, e4, e5, hB3, hfr3⟩
  simp only [extend_heap, hsz, hsb, ep1, ok_bind, ef1, ep2, en2, ep3]

/-- `extend_heap(words)` behind a free last block `brk - 8 * (pw / 8)`: the new
extent is merged with it and the merged block becomes the head of the bucket
of the sum of the sizes. -/
theorem extend_heap_merged (g : Heap) (L : Nat → List Nat) (words sz pw : Nat)
    (hB : Buckets g L) (hsz : extend_size words = sz) (hs8 : sz % 8 = 0) (hs16 : 16 ≤ sz)
    (hs31 : sz < 2147483648) (hmax : g.mem_max_addr < 4294967296)
    (hfit : g.mem_brk + sz ≤ g.mem_max_addr)
    (hpw : getw g.mem (g.mem_brk - 8) = pw)
    (hph : getw g.mem (g.mem_brk - 8 * (pw / 8) - 4) = pw)
    (hp16 : 16 ≤ 8 * (pw / 8)) (hpf : pw % 2 = 0)
    (hpm : g.mem_brk - 8 * (pw / 8) ∈ L (LIST_OFFSET (8 * (pw / 8))))
    (hout : ∀ i, i < 10 → ∀ x ∈ L i,
      x = g.mem_brk - 8 * (pw / 8) ∨ x + 12 ≤ g.mem_brk - 8 * (pw / 8)) :
    ∃ h', extend_heap g words = .ok (g.mem_brk - 8 * (pw / 8), h') ∧
      h'.mem_brk = g.mem_brk + sz ∧ h'.mem_start_brk = g.mem_start_brk ∧
      h'.mem_max_addr = g.mem_max_addr ∧ h'.heap_listp = g.heap_listp ∧
      h'.seglist_start = g.seglist_start ∧
      getw h'.mem (g.mem_brk - 8 * (pw / 8) - 4) = sz + 8 * (pw / 8) ∧
      getw h'.mem (g.mem_brk + sz - 8) = sz + 8 * (pw / 8) ∧
      getw h'.mem (g.mem_brk + sz - 4) = 1 ∧
      Buckets h' (pushOn (removeFrom L (LIST_OFFSET (8 * (pw / 8))) (g.mem_brk - 8 * (pw / 8)))
        (LIST_OFFSET (sz + 8 * (pw / 8))) (g.mem_brk - 8 * (pw / 8))) := by
  have hk : LIST_OFFSET (8 * (pw / 8)) < 10 := by
    have := LIST_OFFSET_le (8 * (pw / 8)); omega
  obtain ⟨hP1, hP2⟩ := hB.arena _ hk _ hpm
  have hlo := hB.lo
  have hhi := hB.hi
  have hout12 : ∀ i, i < 10 → ∀ x ∈ L i, x + 12 ≤ g.mem_brk := by
    intro i hi x hx
    rcases hout i hi x hx with e | e <;> omega
  obtain ⟨m3, hext, e3, e4, e5, hB3, hfr3⟩ :=
    extend_heap_stores g L words sz hB hsz hs8 hs16 hs31 hmax hfit (by omega) hout12
  obtain ⟨h', hc, hsb', w1, w2, hBk, hfr⟩ := coalesce_prev
    { g with mem_brk := g.mem_brk + sz, mem := m3 } L g.mem_brk sz pw 1 hB3 hs8 hs16
    (by simp only; omega) (by simp only; exact e3)
    (by
      simp only
      refine Eq.trans ?_ hpw
      exact getw_of_bytes _ _ (g.mem_brk - 8) (fun a ha1 ha2 => hfr3 a (by omega)))
    (by
      simp only
      refine Eq.trans ?_ hph
      exact getw_of_bytes _ _ (g.mem_brk - 8 * (pw / 8) - 4)
        (fun a ha1 ha2 => hfr3 a (by omega)))
    (by simp only; exact e5) hp16 hpm
    (by intro i hi x hx; rcases hout i hi x hx with e | e <;> omega)
    hpf (by decide)
  simp only at hfr w1 w2
  obtain ⟨b1, b2, b3, b4, b5, b6⟩ := hsb'
  simp only at b1 b2 b3 b4 b5 b6
  refine ⟨h', by rw [hext, hc], b2, b1, b3, b4, b5, ?_, ?_, ?_, hBk⟩
  · rw [w1]
  · rw [w2]
  · rw [← e5]
    refine getw_of_bytes _ _ _ ?_
    intro a ha1 ha2
    refine hfr a (by omega) (by omega) ?_
    intro i hi x hx
    have := hout12 i hi x hx
    omega

/-- The growth path of `mm_malloc`: after a failed search the result is the
block returned by `extend_heap`, placed. -/
theorem mm_malloc_growth (fuel : Nat) (h h1 e : Heap) (n M : Nat) (hn : n ≠ 0)
    (hnofit : find_fit fuel h (adjust n) = .ok (NULL, h1))
    (hext : extend_heap h1 (MAX (adjust n) CHUNKSIZE / WSIZE) = .ok (M, e)) (hM : M ≠ NULL) :
    mm_malloc fuel h n = (place e M (adjust n)).map (fun h' => (M, h')) := by
  simp only [mm_malloc, if_neg hn, hnofit, ok_bind, hext]
  rw [if_neg (by simp), if_neg hM]
  cases place e M (adjust n) <;> rfl

/-- C24: `mm_malloc(n)` in a state whose bucket lists are `L` and whose last
block is consistent (`pw` is its footer word, the word in front of the
epilogue, and equals its header word; when it is free it is a listed block of
at least 16 bytes), when the search finds no fit and `mem_sbrk` succeeds: the
arena grows by `MAX(asize, CHUNKSIZE)` bytes, a multiple of 8; `extend_heap`
stores that size at the old epilogue's position `brk - 4` and a size-0
allocated header in the new last word before it calls `coalesce`; the block
handed to `place` is the new extent when the last block was allocated, and the
last block grown by the new extent when it was free; it is the head of the
bucket of its size, which is at least the adjusted size. -/
theorem malloc_without_fit_grows_the_arena (fuel : Nat) (h h1 : Heap) (L : Nat → List Nat)
    (n pw : Nat) (hn : n ≠ 0) (hB : Buckets h L)
    (hnofit : find_fit fuel h (adjust n) = .ok (NULL, h1))
    (hgrow : mem_sbrk h (MAX (adjust n) CHUNKSIZE) ≠ none)
    (hmax : h.mem_max_addr < 4294967296)
    (hpw : getw h.mem (h.mem_brk - 8) = pw)
    (hph : getw h.mem (h.mem_brk - 8 * (pw / 8) - 4) = pw)
    (hprev : 8 * (pw / 8) + h.seglist_start + 44 ≤ h.mem_brk) (hps : 8 ≤ 8 * (pw / 8))
    (hout : ∀ i, i < 10 → ∀ x ∈ L i, x + 12 ≤ h.mem_brk)
    (hfree : pw % 2 = 0 → 16 ≤ 8 * (pw / 8) ∧
      h.mem_brk - 8 * (pw / 8) ∈ L (LIST_OFFSET (8 * (pw / 8))) ∧
      ∀ i, i < 10 → ∀ x ∈ L i,
        x = h.mem_brk - 8 * (pw / 8) ∨ x + 12 ≤ h.mem_brk - 8 * (pw / 8)) :
    MAX (adjust n) CHUNKSIZE % 8 = 0 ∧ adjust n ≤ MAX (adjust n) CHUNKSIZE ∧
    (∃ m3, extend_heap h1 (MAX (adjust n) CHUNKSIZE / WSIZE)
        = coalesce { h1 with mem_brk := h1.mem_brk + MAX (adjust n) CHUNKSIZE, mem := m3 }
            h.mem_brk ∧
      getw m3 (h.mem_brk - 4) = MAX (adjust n) CHUNKSIZE ∧
      getw m3 (h.mem_brk + MAX (adjust n) CHUNKSIZE - 4) = 1) ∧
    (pw % 2 = 1 → ∃ e, extend_heap h1 (MAX (adjust n) CHUNKSIZE / WSIZE)
        = .ok (h.mem_brk, e) ∧
      mm_malloc fuel h n = (place e h.mem_brk (adjust n)).map (fun h' => (h.mem_brk, h')) ∧
      e.mem_brk = h.mem_brk + MAX (adjust n) CHUNKSIZE ∧
      getw e.mem (h.mem_brk - 4) = MAX (adjust n) CHUNKSIZE ∧
      getw e.mem (h.mem_brk + MAX (adjust n) CHUNKSIZE - 8) = MAX (adjust n) CHUNKSIZE ∧
      getw e.mem (h.mem_brk + MAX (adjust n) CHUNKSIZE - 4) = 1 ∧
      Buckets e (pushOn L (LIST_OFFSET (MAX (adjust n) CHUNKSIZE)) h.mem_brk)) ∧
    (pw % 2 = 0 → ∃ e, extend_heap h1 (MAX (adjust n) CHUNKSIZE / WSIZE)
        = .ok (h.mem_brk - 8 * (pw / 8), e) ∧
      mm_malloc fuel h n = (place e (h.mem_brk - 8 * (pw / 8)) (adjust n)).map
        (fun h' => (h.mem_brk - 8 * (pw / 8), h')) ∧
      e.mem_brk = h.mem_brk + MAX (adjust n) CHUNKSIZE ∧
      getw e.mem (h.mem_brk - 8 * (pw / 8) - 4) = MAX (adjust n) CHUNKSIZE + 8 * (pw / 8) ∧
      getw e.mem (h.mem_brk + MAX (adjust n) CHUNKSIZE - 8)
        = MAX (adjust n) CHUNKSIZE + 8 * (pw / 8) ∧
      getw e.mem (h.mem_brk + MAX (adjust n) CHUNKSIZE - 4) = 1 ∧
      Buckets e (pushOn
        (removeFrom L (LIST_OFFSET (8 * (pw / 8))) (h.mem_brk - 8 * (pw / 8)))
        (LIST_OFFSET (MAX (adjust n) CHUNKSIZE + 8 * (pw / 8))) (h.mem_brk - 8 * (pw / 8)))) := by
  obtain ⟨hs8, hs4096, hale⟩ := MAX_chunk (adjust n) (adjust_mod8 n)
  obtain ⟨sz, hszd⟩ : ∃ s, s = MAX (adjust n) CHUNKSIZE := ⟨_, rfl⟩
  rw [← hszd] at hs8 hs4096 hale hgrow ⊢
  have hroom : sz < 2147483648 ∧ h.mem_brk + sz ≤ h.mem_max_addr := by
    unfold mem_sbrk at hgrow
    by_contra hc
    exact hgrow (if_pos (by omega))
  obtain ⟨a1, a2, a3, a4, a5, a6, a7⟩ := find_fit_from_frame fuel (adjust n) 10 0 h _ hnofit
  simp only at a1 a2 a3 a4 a5 a6 a7
  have hB1 : Buckets h1 L :=
    Buckets_congr h h1 L hB ⟨a2, a3, a4, a5, a6, a7⟩ (fun a _ _ => by rw [a1])
      (fun i _ x _ a _ _ => by rw [a1])
  have hesz : extend_size (sz / WSIZE) = sz := extend_size_even sz hs8 (by omega)
  have hlo := hB.lo
  refine ⟨hs8, hale, ?_, ?_, ?_⟩
  · obtain ⟨m3, hext, e3, _, e5, _, _⟩ := extend_heap_stores h1 L (sz / WSIZE) sz hB1 hesz
      hs8 (by omega) hroom.1 (by rw [a4]; exact hmax) (by rw [a3, a4]; exact hroom.2)
      (by rw [a6, a3]; omega) (by rw [a3]; exact hout)
    rw [a3] at hext e3 e5
    refine ⟨m3, ?_, e3, e5⟩
    rw [hext, a3]
  · intro hpa
    obtain ⟨e, hext, c1, c2, c3, c4, c5, w1, w2, w3, hBk, _⟩ :=
      extend_heap_fresh h1 L (sz / WSIZE) sz pw hB1 hesz hs8 (by omega) hroom.1
        (by rw [a4]; exact hmax) (by rw [a3, a4]; exact hroom.2)
        (by rw [a1, a3]; exact hpw) (by rw [a1, a3]; exact hph)
        (by rw [a6, a3]; exact hprev) hps hpa (by rw [a3]; exact hout)
    rw [a3] at hext c1 w1 w2 w3 hBk
    exact ⟨e, hext, mm_malloc_growth fuel h h1 e n _ hn hnofit (hszd ▸ hext)
      (by unfold NULL; omega), c1, w1, w2, w3, hBk⟩
  · intro hpf
    obtain ⟨hp16, hpm, hsep⟩ := hfree hpf
    obtain ⟨e, hext, c1, c2, c3, c4, c5, w1, w2, w3, hBk⟩ :=
      extend_heap_merged h1 L (sz / WSIZE) sz pw hB1 hesz hs8 (by omega) hroom.1
        (by rw [a4]; exact hmax) (by rw [a3, a4]; exact hroom.2)
        (by rw [a1, a3]; exact hpw) (by rw [a1, a3]; exact hph)
        hp16 hpf (by rw [a3]; exact hpm) (by rw [a3]; exact hsep)
    rw [a3] at hext c1 w1 w2 w3 hBk
    exact ⟨e, hext, mm_malloc_growth fuel h h1 e n _ hn hnofit (hszd ▸ hext)
      (by unfold NULL; omega), c1, w1, w2, w3, hBk⟩

theorem growHeap_buckets : BucketsB growHeap growLists := by
  decide!

theorem growHeap_nofit : find_fit 64 growHeap (adjust 5000) = .ok (NULL, growSearched) := by
  have h : (find_fit 64 growHeap (adjust 5000)).map Prod.fst = .ok NULL := by decide!
  unfold growSearched
  cases hx : find_fit 64 growHeap (adjust 5000) with
  | error e => rw [hx] at h; cases h
  | ok r =>
    rw [hx] at h
    obtain ⟨r1, r2⟩ := r
    simp only [Except.map] at h
    cases h
    rfl

theorem growHeap_words :
    growHeap.mem_max_addr < 4294967296 ∧
    getw growHeap.mem (growHeap.mem_brk - 8) = 4080 ∧
    getw growHeap.mem (growHeap.mem_brk - 8 * (4080 / 8) - 4) = 4080 ∧
    8 * (4080 / 8) + growHeap.seglist_start + 44 ≤ growHeap.mem_brk ∧
    growHeap.mem_brk - 8 * (4080 / 8) ∈ growLists (LIST_OFFSET (8 * (4080 / 8))) := by
  decide!

theorem growHeap_room : mem_sbrk growHeap (MAX (adjust 5000) CHUNKSIZE) ≠ none := by
  unfold mem_sbrk
  rw [if_neg (by decide!)]
  exact fun h => Option.noConfusion h

theorem growLists_apart :
    (∀ i, i < 10 → ∀ x ∈ growLists i, x + 12 ≤ growHeap.mem_brk) ∧
    ∀ i, i < 10 → ∀ x ∈ growLists i,
      x = growHeap.mem_brk - 8 * (4080 / 8) ∨ x + 12 ≤ growHeap.mem_brk - 8 * (4080 / 8) := by
  decide!

/-- C24, at a concrete input: in `growHeap` no free block holds the adjusted
size 5008 of `malloc(5000)`; the arena grows by 5008 bytes and the block handed
to `place` is the free last block 1072 grown to 4080 + 5008 bytes. -/
theorem malloc_without_fit_grows_the_arena_witness :
    Buckets growHeap growLists ∧
    find_fit 64 growHeap (adjust 5000) = .ok (NULL, growSearched) ∧
    mem_sbrk growHeap (MAX (adjust 5000) CHUNKSIZE) ≠ none ∧
    ∃ e, extend_heap growSearched (MAX (adjust 5000) CHUNKSIZE / WSIZE)
        = .ok (growHeap.mem_brk - 8 * (4080 / 8), e) ∧
      mm_malloc 64 growHeap 5000 = (place e (growHeap.mem_brk - 8 * (4080 / 8))
        (adjust 5000)).map (fun h' => (growHeap.mem_brk - 8 * (4080 / 8), h')) ∧
      e.mem_brk = growHeap.mem_brk + MAX (adjust 5000) CHUNKSIZE ∧
      getw e.mem (growHeap.mem_brk - 8 * (4080 / 8) - 4)
        = MAX (adjust 5000) CHUNKSIZE + 8 * (4080 / 8) ∧
      getw e.mem (growHeap.mem_brk + MAX (adjust 5000) CHUNKSIZE - 8)
        = MAX (adjust 5000) CHUNKSIZE + 8 * (4080 / 8) ∧
      getw e.mem (growHeap.mem_brk + MAX (adjust 5000) CHUNKSIZE - 4) = 1 ∧
      Buckets e (pushOn
        (removeFrom growLists (LIST_OFFSET (8 * (4080 / 8))) (growHeap.mem_brk - 8 * (4080 / 8)))
        (LIST_OFFSET (MAX (adjust 5000) CHUNKSIZE + 8 * (4080 / 8)))
        (growHeap.mem_brk - 8 * (4080 / 8))) :=
  ⟨Buckets_of_B _ _ growHeap_buckets, growHeap_nofit, growHeap_room,
    (malloc_without_fit_grows_the_arena 64 growHeap growSearched growLists 5000 4080
      (by decide) (Buckets_of_B _ _ growHeap_buckets) growHeap_nofit growHeap_room
      growHeap_words.1 growHeap_words.2.1 growHeap_words.2.2.1 growHeap_words.2.2.2.1
      (by decide) growLists_apart.1
      (fun _ => ⟨by decide, growHeap_words.2.2.2.2, growLists_apart.2⟩)).2.2.2.2 (by decide)⟩

/-! ### The heap invariant is kept by `mm_malloc`, `mm_free` and client stores -/

theorem Segm_append (m : Nat → Nat) (l1 l2 : List (Nat × Nat)) :
    ∀ p a q c, Segm m p a (l1 ++ l2) q c ↔ ∃ r d, Segm m p a l1 r d ∧ Segm m r d l2 q c := by
  induction l1 with
  | nil =>
    intro p a q c
    constructor
    · intro h; exact ⟨p, a, ⟨rfl, rfl⟩, h⟩
    · rintro ⟨r, d, ⟨e1, e2⟩, h⟩
      rw [e1, e2]; exact h
  | cons b l1 ih =>
    intro p a q c
    simp only [List.cons_append, Segm]
    constructor
    · rintro ⟨hb, hadj, h⟩
      obtain ⟨r, d, h1, h2⟩ := (ih _ _ _ _).mp h
      exact ⟨r, d, ⟨hb, hadj, h1⟩, h2⟩
    · rintro ⟨r, d, ⟨hb, hadj, h1⟩, h2⟩
      exact ⟨hb, hadj, (ih _ _ _ _).mpr ⟨r, d, h1, h2⟩⟩

theorem Segm_span (m : Nat → Nat) (l : List (Nat × Nat)) :
    ∀ p a q c, Segm m p a l q c → q = p + span l := by
  induction l with
  | nil => intro p a q c h; simp only [span]; exact h.1.symm
  | cons b l ih =>
    intro p a q c h
    have := ih _ _ _ _ h.2.2
    simp only [span]
    omega

theorem span_append (l1 l2 : List (Nat × Nat)) : span (l1 ++ l2) = span l1 + span l2 := by
  induction l1 with
  | nil => simp [span]
  | cons b l1 ih =>
    show b.1 + span (l1 ++ l2) = b.1 + span l1 + span l2
    rw [ih]; omega

theorem Segm_flag (m : Nat → Nat) (l : List (Nat × Nat)) :
    ∀ p a q c, Segm m p a l q c → a < 2 → c < 2 := by
  induction l with
  | nil => intro p a q c h ha; rw [← h.2]; exact ha
  | cons b l ih =>
    intro p a q c h _
    exact ih _ _ _ _ h.2.2 h.1.2.2.1

theorem Segm_last (m : Nat → Nat) (l : List (Nat × Nat)) :
    ∀ p a q c, Segm m p a l q c →
      (l = [] ∧ a = c ∧ p = q) ∨
      ∃ l1 s0 r d, l = l1 ++ [(s0, c)] ∧ Segm m p a l1 r d ∧ Blk m r (s0, c) ∧
        (c = 0 → d = 1) ∧ q = r + s0 := by
  induction l with
  | nil => intro p a q c h; exact Or.inl ⟨rfl, h.2, h.1⟩
  | cons b l ih =>
    intro p a q c h
    obtain ⟨hb, hadj, ht⟩ := h
    right
    rcases ih _ _ _ _ ht with ⟨e1, e2, e3⟩ | ⟨l1, s0, r, d, e, hs, hbl, hd, hq⟩
    · refine ⟨[], b.1, p, a, ?_, ⟨rfl, rfl⟩, ?_, ?_, by omega⟩
      · rw [e1, ← e2]; rfl
      · rw [← e2]; exact hb
      · rw [← e2]; exact hadj
    · exact ⟨b :: l1, s0, r, d, by rw [e]; rfl, ⟨hb, hadj, hs⟩, hbl, hd, hq⟩

/-! ### Looking up a block -/

theorem descr_ge (l : List (Nat × Nat)) :
    ∀ p x b, descr p l x = some b → p ≤ x := by
  induction l with
  | nil => intro p x b h; simp [descr] at h
  | cons c l ih =>
    intro p x b h
    simp only [descr] at h
    by_cases e : x = p
    · omega
    · rw [if_neg e] at h
      have := ih _ _ _ h
      omega

theorem descr_end (l : List (Nat × Nat)) :
    ∀ p x b, descr p l x = some b → x + b.1 ≤ p + span l := by
  induction l with
  | nil => intro p x b h; simp [descr] at h
  | cons c l ih =>
    intro p x b h
    simp only [descr] at h
    simp only [span]
    by_cases e : x = p
    · rw [if_pos e] at h
      cases h
      omega
    · rw [if_neg e] at h
      have := ih _ _ _ h
      omega

theorem descr_append (l1 l2 : List (Nat × Nat)) :
    ∀ p x, descr p (l1 ++ l2) x = (match descr p l1 x with
        | some b => some b
        | none => descr (p + span l1) l2 x) := by
  induction l1 with
  | nil => intro p x; simp only [List.nil_append, descr, span, Nat.add_zero]
  | cons b l1 ih =>
    intro p x
    show descr p (b :: (l1 ++ l2)) x = _
    simp only [descr, span]
    by_cases e : x = p
    · rw [if_pos e, if_pos e]
    · rw [if_neg e, if_neg e, ih, Nat.add_assoc]

theorem descr_none_of_ge (l : List (Nat × Nat)) :
    ∀ p x, p + span l ≤ x → (∀ b ∈ l, 0 < b.1) → descr p l x = none := by
  induction l with
  | nil => intro p x _ _; rfl
  | cons b l ih =>
    intro p x hx hpos
    have hb := hpos b (List.mem_cons_self _ _)
    simp only [span] at hx
    simp only [descr]
    rw [if_neg (by omega)]
    exact ih _ _ (by omega) (fun c hc => hpos c (List.mem_cons_of_mem _ hc))

theorem Segm_pos (m : Nat → Nat) (l : List (Nat × Nat)) :
    ∀ p a q c, Segm m p a l q c → ∀ b ∈ l, 16 ≤ b.1 ∧ b.1 % 8 = 0 ∧ b.2 < 2 := by
  induction l with
  | nil => intro p a q c _ b hb; cases hb
  | cons b0 l ih =>
    intro p a q c h b hb
    rcases List.mem_cons.mp hb with e | e
    · rw [e]; exact ⟨h.1.2.1, h.1.1, h.1.2.2.1⟩
    · exact ih _ _ _ _ h.2.2 b e

theorem descr_mem (l : List (Nat × Nat)) :
    ∀ p x b, descr p l x = some b → b ∈ l := by
  induction l with
  | nil => intro p x b h; simp [descr] at h
  | cons c l ih =>
    intro p x b h
    simp only [descr] at h
    by_cases e : x = p
    · rw [if_pos e] at h
      cases h
      exact List.mem_cons_self _ _
    · rw [if_neg e] at h
      exact List.mem_cons_of_mem _ (ih _ _ _ h)

/-- A block found by `descr` splits the layout. -/
theorem descr_split (l : List (Nat × Nat)) :
    ∀ p x b, descr p l x = some b →
      ∃ pre post, l = pre ++ b :: post ∧ x = p + span pre ∧ descr p pre x = none := by
  induction l with
  | nil => intro p x b h; simp [descr] at h
  | cons b0 l ih =>
    intro p x b h
    simp only [descr] at h
    by_cases ex : x = p
    · rw [if_pos ex] at h
      cases h
      exact ⟨[], l, rfl, by simp only [span]; omega, rfl⟩
    · rw [if_neg ex] at h
      obtain ⟨pre, post, hl, hx, hn⟩ := ih _ _ _ h
      refine ⟨b0 :: pre, post, by rw [hl]; rfl, by simp only [span]; omega, ?_⟩
      simp only [descr]
      rw [if_neg ex]
      exact hn

theorem descr_cases (pre post : List (Nat × Nat)) (b c : Nat × Nat) (p y : Nat)
    (h : descr p (pre ++ b :: post) y = some c) :
    (descr p pre y = some c ∧ y + c.1 ≤ p + span pre) ∨ (y = p + span pre ∧ c = b) ∨
    (descr (p + span pre + b.1) post y = some c ∧ p + span pre + b.1 ≤ y) := by
  rw [descr_append] at h
  cases hp : descr p pre y with
  | some d =>
    rw [hp] at h
    cases h
    exact Or.inl ⟨rfl, descr_end pre p y _ hp⟩
  | none =>
    rw [hp] at h
    change descr (p + span pre) (b :: post) y = some c at h
    simp only [descr] at h
    by_cases e : y = p + span pre
    · rw [if_pos e] at h
      cases h
      exact Or.inr (Or.inl ⟨e, rfl⟩)
    · rw [if_neg e] at h
      exact Or.inr (Or.inr ⟨h, descr_ge post _ _ _ h⟩)

theorem descr_of_split (pre post : List (Nat × Nat)) (b : Nat × Nat) (p : Nat)
    (hpos : ∀ c ∈ pre, 0 < c.1) :
    descr p (pre ++ b :: post) (p + span pre) = some b := by
  rw [descr_append, descr_none_of_ge pre p _ (Nat.le_refl _) hpos]
  change descr (p + span pre) (b :: post) (p + span pre) = some b
  simp only [descr]
  exact if_pos trivial

/-- The layout at a block found by `descr`. -/
theorem Segm_at (m : Nat → Nat) (l : List (Nat × Nat)) (p a0 e c x : Nat) (b : Nat × Nat)
    (hs : Segm m p a0 l e c) (hd : descr p l x = some b) :
    ∃ pre post a, l = pre ++ b :: post ∧ x = p + span pre ∧ Segm m p a0 pre x a ∧
      Blk m x b ∧ (b.2 = 0 → a = 1) ∧ Segm m (x + b.1) b.2 post e c := by
  obtain ⟨pre, post, hl, hx, _⟩ := descr_split l p x b hd
  rw [hl] at hs
  obtain ⟨r, d, h1, h2⟩ := (Segm_append m pre (b :: post) _ _ _ _).mp hs
  have hr := Segm_span m pre _ _ _ _ h1
  have e1 : r = x := by omega
  subst e1
  exact ⟨pre, post, d, hl, hx, h1, h2.1, h2.2.1, h2.2.2⟩

/-- A change of the memory outside the headers and footers of a layout, in
particular one inside the link fields `[x, x + 8)` of its free blocks, keeps
the layout. -/
theorem Segm_frame_free (m m' : Nat → Nat) (l : List (Nat × Nat)) :
    ∀ p a q c, 4 ≤ p →
      (∀ y, p - 4 ≤ y → y < q - 4 →
        (∀ x s, descr p l x = some (s, 0) → y < x ∨ x + 8 ≤ y) → m' y = m y) →
      Segm m p a l q c → Segm m' p a l q c := by
  induction l with
  | nil => intro p a q c _ _ h; exact h
  | cons b l ih =>
    intro p a q c hp hfr h
    obtain ⟨hb, hadj, ht⟩ := h
    obtain ⟨b1, b2, b3, b4, b5⟩ := hb
    have hq := Segm_span m l _ _ _ _ ht
    have hkey : ∀ y, (p - 4 ≤ y ∧ y < p) ∨ (p + b.1 - 8 ≤ y ∧ y < p + b.1 - 4) →
        m' y = m y := by
      intro y hy
      refine hfr y (by omega) (by omega) ?_
      intro x s hx
      simp only [descr] at hx
      by_cases e : x = p
      · omega
      · rw [if_neg e] at hx
        have := descr_ge l _ _ _ hx
        omega
    refine ⟨⟨b1, b2, b3, ?_, ?_⟩, hadj, ?_⟩
    · rw [← b4]
      exact getw_of_bytes _ _ (p - 4) (fun y h1 h2 => hkey y (by omega))
    · rw [← b5]
      exact getw_of_bytes _ _ (p + b.1 - 8) (fun y h1 h2 => hkey y (by omega))
    · refine ih _ _ _ _ (by omega) ?_ ht
      intro y hy1 hy2 hfree
      refine hfr y (by omega) hy2 ?_
      intro x s hx
      simp only [descr] at hx
      by_cases e : x = p
      · omega
      · rw [if_neg e] at hx
        exact hfree x s hx

/-- The word in front of a block: the footer of the block before it, or of the
prologue. -/
theorem Segm_prev_word (m : Nat → Nat) (pre : List (Nat × Nat)) (P x a : Nat)
    (hP : 12 ≤ P) (hproh : getw m (P - 12) = 9) (hprof : getw m (P - 8) = 9)
    (hs : Segm m P 1 pre x a) :
    ∃ pw, getw m (x - 8) = pw ∧ getw m (x - 8 * (pw / 8) - 4) = pw ∧ pw % 2 = a ∧
      8 ≤ 8 * (pw / 8) ∧ 8 * (pw / 8) + (P - 8) ≤ x ∧
      (a = 0 → 16 ≤ 8 * (pw / 8) ∧ ∃ pre1, pre = pre1 ++ [(8 * (pw / 8), 0)] ∧
        Segm m P 1 pre1 (x - 8 * (pw / 8)) 1) := by
  rcases Segm_last m pre _ _ _ _ hs with ⟨e1, e2, e3⟩ | ⟨pre1, s0, r, d, hl, hs1, hb, hd, hq⟩
  · subst e3
    refine ⟨9, hprof, ?_, by omega, by decide, by omega, ?_⟩
    · have e : P - 8 * (9 / 8) - 4 = P - 12 := by omega
      rw [e]; exact hproh
    · intro ha; omega
  · obtain ⟨b1, b2, b3, b4, b5⟩ := hb
    simp only at b1 b2 b3 b4 b5
    have hle := Segm_span m pre1 _ _ _ _ hs1
    have e1 : x - 8 = r + s0 - 8 := by omega
    have e2 : 8 * ((s0 + a) / 8) = s0 := by omega
    refine ⟨s0 + a, by rw [e1]; exact b5, ?_, by omega, by omega, by omega, ?_⟩
    · rw [e2]
      have e3 : x - s0 - 4 = r - 4 := by omega
      rw [e3]; exact b4
    · intro ha
      rw [e2]
      subst ha
      have hd1 := hd rfl
      subst hd1
      have e4 : x - s0 = r := by omega
      rw [e4]
      exact ⟨b2, pre1, hl, hs1⟩

/-- The word behind a block: the header of the next block, or the epilogue. -/
theorem Segm_next_word (m : Nat → Nat) (post : List (Nat × Nat)) (q f e c : Nat)
    (hepi : getw m (e - 4) = 1) (hs : Segm m q f post e c) :
    q ≤ e ∧ ((post = [] ∧ q = e ∧ getw m (q - 4) = 1) ∨
      ∃ s2 c2 post2, post = (s2, c2) :: post2 ∧ getw m (q - 4) = s2 + c2 ∧
        Blk m q (s2, c2) ∧ q + s2 ≤ e ∧ Segm m (q + s2) c2 post2 e c) := by
  have hq := Segm_span m post _ _ _ _ hs
  refine ⟨by omega, ?_⟩
  cases post with
  | nil =>
    left
    have := hs.1
    subst this
    exact ⟨rfl, rfl, hepi⟩
  | cons b post2 =>
    right
    obtain ⟨hb, _, ht⟩ := hs
    have := Segm_span m post2 _ _ _ _ ht
    exact ⟨b.1, b.2, post2, rfl, hb.2.2.2.1, hb, by omega, ht⟩

theorem mem_pushOn_iff (L : Nat → List Nat) (k x i y : Nat) :
    y ∈ pushOn L k x i ↔ (i = k ∧ y = x) ∨ y ∈ L i := by
  unfold pushOn
  by_cases e : i = k
  · rw [if_pos e]
    simp only [List.mem_cons, e, true_and]
  · rw [if_neg e]
    simp only [e, false_and, false_or]

theorem mem_removeFrom_iff (L : Nat → List Nat) (k x i y : Nat) (hn : (L k).Nodup) :
    y ∈ removeFrom L k x i ↔ y ∈ L i ∧ ¬ (i = k ∧ y = x) := by
  unfold removeFrom
  by_cases e : i = k
  · rw [if_pos e]
    subst e
    rw [hn.mem_erase_iff]
    constructor
    · rintro ⟨h1, h2⟩
      exact ⟨h2, fun h => h1 h.2⟩
    · rintro ⟨h1, h2⟩
      exact ⟨fun h => h2 ⟨rfl, h⟩, h1⟩
  · rw [if_neg e]
    constructor
    · intro h; exact ⟨h, fun h2 => e h2.1⟩
    · intro h; exact h.1

/-- Replacing a run of blocks by another run of the same span changes `descr`
only at the payload addresses of the two runs. -/
theorem descr_replace (pre mid mid2 post : List (Nat × Nat)) (p y : Nat)
    (hspan : span mid2 = span mid)
    (h1 : descr (p + span pre) mid y = none) (h2 : descr (p + span pre) mid2 y = none) :
    descr p (pre ++ (mid2 ++ post)) y = descr p (pre ++ (mid ++ post)) y := by
  rw [descr_append, descr_append pre]
  cases descr p pre y with
  | some b => rfl
  | none =>
    change descr (p + span pre) (mid2 ++ post) y = descr (p + span pre) (mid ++ post) y
    rw [descr_append, descr_append mid, h1, h2, hspan]

/-- The value of `descr` on the replaced run. -/
theorem descr_in_run (pre mid post : List (Nat × Nat)) (p y : Nat) (b : Nat × Nat)
    (hpos : ∀ c ∈ pre, 0 < c.1) (hy : p + span pre ≤ y)
    (h : descr (p + span pre) mid y = some b) :
    descr p (pre ++ (mid ++ post)) y = some b := by
  rw [descr_append, descr_none_of_ge pre p y hy hpos]
  change descr (p + span pre) (mid ++ post) y = some b
  rw [descr_append, h]

/-- The allocated bit in front of a layout may change when that suits the
first block. -/
theorem Segm_reflag (m : Nat → Nat) (post : List (Nat × Nat)) (q f f2 e c : Nat)
    (hs : Segm m q f post e c)
    (hok : ∀ b post2, post = b :: post2 → b.2 = 0 → f2 = 1) :
    ∃ c2, Segm m q f2 post e c2 := by
  cases post with
  | nil => exact ⟨f2, hs.1, rfl⟩
  | cons b post2 => exact ⟨c, hs.1, hok b post2 rfl, hs.2.2⟩

/-- The invariant after a run `mid` of blocks has been replaced by the run
`mid2` of the same span, by stores inside the run and inside the link fields
of listed blocks; before, the listed blocks are free blocks of the layout
`pre ++ mid ++ post`, of which only `pre` and `post` need be laid out in the
memory. -/
theorem SInv_replace (h h2 : Heap) (L L2 : Nat → List Nat)
    (pre mid mid2 post : List (Nat × Nat)) (M a cm : Nat)
    (hb : SBase h)
    (hent : ∀ i, i < 10 → ∀ x ∈ L i,
      ∃ s, descr (h.seglist_start + 52) (pre ++ (mid ++ post)) x = some (s, 0) ∧ 16 ≤ s)
    (hsb : sameBounds h2 h) (hBk : Buckets h2 L2) (hspan : span mid2 = span mid)
    (hpre : Segm h.mem (h.seglist_start + 52) 1 pre M a)
    (hmid : Segm h2.mem M a mid2 (M + span mid) cm)
    (hpost : ∃ c, Segm h.mem (M + span mid) cm post h.mem_brk c)
    (hfr : ∀ y, h.seglist_start + 40 ≤ y → (y < M - 4 ∨ M + span mid - 4 ≤ y) →
      (∀ i, i < 10 → ∀ x ∈ L i, y < x ∨ x + 8 ≤ y) → h2.mem y = h.mem y)
    (hfree : ∀ i, i < 10 → ∀ x, x ∈ L2 i ↔
      ∃ s, descr (h.seglist_start + 52) (pre ++ (mid2 ++ post)) x = some (s, 0) ∧
        LIST_OFFSET s = i) :
    SInv h2 (pre ++ (mid2 ++ post)) L2 := by
  obtain ⟨e1, e2, e3, e4, e5, e6⟩ := hsb
  obtain ⟨c, hpost⟩ := hpost
  have hM := Segm_span _ _ _ _ _ _ hpre
  have hE := Segm_span _ _ _ _ _ _ hpost
  have hspan0 : span (pre ++ (mid ++ post)) = span pre + (span mid + span post) := by
    rw [span_append, span_append]
  have hlow : ∀ y, h.seglist_start + 40 ≤ y → y < h.seglist_start + 48 →
      h2.mem y = h.mem y := by
    intro y hy1 hy2
    refine hfr y hy1 (by omega) ?_
    intro i hi x hx
    obtain ⟨s, hs, _⟩ := hent i hi x hx
    have := descr_ge _ _ _ _ hs
    omega
  have hhigh : ∀ y, h.mem_brk - 4 ≤ y → h2.mem y = h.mem y := by
    intro y hy
    refine hfr y (by omega) (by omega) ?_
    intro i hi x hx
    obtain ⟨s, hs, hs16⟩ := hent i hi x hx
    have := descr_end _ _ _ _ hs
    simp only at this
    omega
  refine ⟨hBk, ⟨by rw [e5, e4]; exact hb.seg, by rw [e2, e3]; exact hb.top,
    by rw [e3]; exact hb.max, ?_, ?_, ?_⟩, ?_, ?_⟩
  · rw [e5, ← hb.proh]
    exact getw_of_bytes _ _ _ (fun y h1 h2 => hlow y (by omega) (by omega))
  · rw [e5, ← hb.prof]
    exact getw_of_bytes _ _ _ (fun y h1 h2 => hlow y (by omega) (by omega))
  · rw [e2, ← hb.epi]
    exact getw_of_bytes _ _ _ (fun y h1 h2 => hhigh y (by omega))
  · rw [e5, e2]
    refine ⟨c, (Segm_append _ _ _ _ _ _ _).mpr ⟨M, a, ?_,
      (Segm_append _ _ _ _ _ _ _).mpr ⟨M + span mid, cm, hmid, ?_⟩⟩⟩
    · refine Segm_frame_free h.mem h2.mem pre _ _ _ _ (by omega) ?_ hpre
      intro y hy1 hy2 hfree1
      refine hfr y (by omega) (by omega) ?_
      intro i hi x hx
      obtain ⟨s, hs, hs16⟩ := hent i hi x hx
      rw [descr_append] at hs
      cases hp : descr (h.seglist_start + 52) pre x with
      | some b =>
        rw [hp] at hs
        cases hs
        exact hfree1 x s hp
      | none =>
        rw [hp] at hs
        have := descr_ge _ _ _ _ hs
        omega
    · refine Segm_frame_free h.mem h2.mem post _ _ _ _ (by omega) ?_ hpost
      intro y hy1 hy2 hfree1
      refine hfr y (by omega) (by omega) ?_
      intro i hi x hx
      obtain ⟨s, hs, hs16⟩ := hent i hi x hx
      rw [descr_append] at hs
      cases hp : descr (h.seglist_start + 52) pre x with
      | some b =>
        rw [hp] at hs
        cases hs
        have := descr_end _ _ _ _ hp
        simp only at this
        omega
      | none =>
        rw [hp] at hs
        change descr (h.seglist_start + 52 + span pre) (mid ++ post) x = some (s, 0) at hs
        rw [descr_append] at hs
        cases hq : descr (h.seglist_start + 52 + span pre) mid x with
        | some b =>
          rw [hq] at hs
          cases hs
          have := descr_end _ _ _ _ hq
          simp only at this
          omega
        | none =>
          rw [hq] at hs
          have e : h.seglist_start + 52 + span pre + span mid = M + span mid := by omega
          rw [e] at hs
          exact hfree1 x s hs
  · rw [e5]
    exact hfree

/-- The listed blocks of a state in which the block `x` is not listed lie in
front of `x` or behind it. -/
theorem pend_entries (m : Nat → Nat) (L : Nat → List Nat) (pre post : List (Nat × Nat))
    (P x s a e c : Nat)
    (hpre : Segm m P 1 pre x a) (hpost : Segm m (x + s) 1 post e c)
    (hfree : ∀ i, i < 10 → ∀ y, y ∈ L i ↔
      ∃ t, descr P (pre ++ ((s, 1) :: post)) y = some (t, 0) ∧ LIST_OFFSET t = i) :
    ∀ i, i < 10 → ∀ y ∈ L i, ∃ t, 16 ≤ t ∧ t % 8 = 0 ∧ LIST_OFFSET t = i ∧
      descr P (pre ++ ((s, 1) :: post)) y = some (t, 0) ∧
      ((descr P pre y = some (t, 0) ∧ y + t ≤ x ∧ P ≤ y) ∨
        (descr (x + s) post y = some (t, 0) ∧ x + s ≤ y ∧ y + t ≤ e)) := by
  intro i hi y hy
  obtain ⟨t, ht, hk⟩ := (hfree i hi y).mp hy
  have hM := Segm_span _ _ _ _ _ _ hpre
  have hE := Segm_span _ _ _ _ _ _ hpost
  rcases descr_cases pre post (s, 1) (t, 0) P y ht with ⟨h1, h2⟩ | ⟨_, h2⟩ | ⟨h1, h2⟩
  · have hp := Segm_pos _ _ _ _ _ _ hpre _ (descr_mem _ _ _ _ h1)
    have := descr_ge _ _ _ _ h1
    simp only at h2 hp
    exact ⟨t, hp.1, hp.2.1, hk, ht, Or.inl ⟨h1, by omega, this⟩⟩
  · cases h2
  · rw [← hM] at h1 h2
    simp only at h1 h2
    have hp := Segm_pos _ _ _ _ _ _ hpost _ (descr_mem _ _ _ _ h1)
    have := descr_end _ _ _ _ h1
    simp only at this hp
    exact ⟨t, hp.1, hp.2.1, hk, ht, Or.inr ⟨h1, h2, by omega⟩⟩

theorem descr_single (x s al y : Nat) (hy : y ≠ x) : descr x [(s, al)] y = none := by
  simp only [descr]
  rw [if_neg hy]

/-- The case of `coalesce` with both neighbours allocated. -/
theorem coalesce_keeps_none (h : Heap) (L : Nat → List Nat) (pre post : List (Nat × Nat))
    (x s c nw : Nat) (hB : Buckets h L) (hb : SBase h)
    (hpre : Segm h.mem (h.seglist_start + 52) 1 pre x 1) (hblk : Blk h.mem x (s, 0))
    (hpost : Segm h.mem (x + s) 1 post h.mem_brk c)
    (hnw : getw h.mem (x + s - 4) = nw) (hna : nw % 2 = 1)
    (hhead : ∀ b post2, post = b :: post2 → b.2 = 0 → 0 = 1)
    (hfree : ∀ i, i < 10 → ∀ y, y ∈ L i ↔
      ∃ t, descr (h.seglist_start + 52) (pre ++ ((s, 1) :: post)) y = some (t, 0) ∧
        LIST_OFFSET t = i) :
    ∃ h', coalesce h x = .ok (x, h') ∧ sameBounds h' h ∧
      SInv h' (pre ++ ([(s, 0)] ++ post)) (pushOn L (LIST_OFFSET s) x) := by
  have b1 : s % 8 = 0 := hblk.1
  have b2 : 16 ≤ s := hblk.2.1
  have b4 : getw h.mem (x - 4) = s := hblk.2.2.2.1
  have b5 : getw h.mem (x + s - 8) = s := hblk.2.2.2.2
  have hM := Segm_span _ _ _ _ _ _ hpre
  have hE := Segm_span _ _ _ _ _ _ hpost
  have hent := pend_entries h.mem L pre post _ x s 1 _ c hpre hpost hfree
  have hout : ∀ i, i < 10 → ∀ y ∈ L i, y + 12 ≤ x ∨ x + s ≤ y := by
    clear b4 b5 hnw
    intro i hi y hy
    obtain ⟨t, t16, _, _, _, hc⟩ := hent i hi y hy
    omega
  have hP12 : 12 ≤ h.seglist_start + 52 := by omega
  have hx4 : h.seglist_start + 52 ≤ x ∧ x + s ≤ h.mem_brk := by
    clear b4 b5 hnw
    omega
  obtain ⟨pw, p1, p2, p3, p4, p5, _⟩ := Segm_prev_word h.mem pre (h.seglist_start + 52) x 1
    hP12 hb.proh hb.prof hpre
  have hprev : 8 * (pw / 8) + h.seglist_start + 44 ≤ x := by
    clear b4 b5 hnw p1 p2
    omega
  obtain ⟨h', hc, hsb, hBk, hfr⟩ := coalesce_none h L x s pw nw hB b1 b2 hprev hx4.2
    b4 p1 p2 hnw hout p3 hna
  clear p1 p2 hnw
  have hkeep : ∀ y, x - 4 ≤ y → y < x + s - 4 → (y < x ∨ x + 8 ≤ y) → h'.mem y = h.mem y := by
    clear b4 b5
    intro y hy1 hy2 hy3
    refine hfr y (by omega) hy3 ?_
    intro i hi z hz
    have := hout i hi z hz
    omega
  have w1 : getw h'.mem (x - 4) = s := by
    refine Eq.trans ?_ b4
    clear b4 b5
    exact getw_of_bytes _ _ (x - 4) (fun y h1 h2 => hkeep y (by omega) (by omega) (by omega))
  have w2 : getw h'.mem (x + s - 8) = s := by
    refine Eq.trans ?_ b5
    clear b4 b5
    exact getw_of_bytes _ _ (x + s - 8)
      (fun y h1 h2 => hkeep y (by omega) (by omega) (by omega))
  clear b4 b5
  have espan : x + span [(s, 1)] = x + s := by simp only [span, Nat.add_zero]
  refine ⟨h', hc, hsb, ?_⟩
  refine SInv_replace h h' L _ pre [(s, 1)] [(s, 0)] post x 1 0 hb ?_ hsb hBk rfl hpre ?_ ?_ ?_ ?_
  · intro i hi y hy
    obtain ⟨t, t16, _, _, ht, _⟩ := hent i hi y hy
    exact ⟨t, ht, t16⟩
  · rw [espan]
    exact ⟨⟨b1, b2, Nat.zero_lt_two, w1, w2⟩, fun _ => rfl, rfl, rfl⟩
  · rw [espan]
    exact Segm_reflag _ _ _ _ 0 _ _ hpost hhead
  · intro y hy1 hy2 hy3
    rw [espan] at hy2
    clear w1 w2
    exact hfr y (Or.inr hy1) (by omega) hy3
  · intro i hi y
    rw [mem_pushOn_iff]
    by_cases ey : y = x
    · subst ey
      have hd : descr (h.seglist_start + 52) (pre ++ ([(s, 0)] ++ post)) y = some (s, 0) := by
        refine descr_in_run pre [(s, 0)] post _ y (s, 0)
          (fun c hc => by have := (Segm_pos _ _ _ _ _ _ hpre c hc).1; omega) (by omega) ?_
        rw [← hM]
        simp only [descr]
        exact if_pos trivial
      constructor
      · rintro (⟨e, _⟩ | hy)
        · exact ⟨s, hd, e.symm⟩
        · obtain ⟨t, _, _, _, _, hc⟩ := hent i hi y hy
          have := b2
          omega
      · rintro ⟨t, ht, hk⟩
        rw [hd] at ht
        cases ht
        exact Or.inl ⟨hk.symm, rfl⟩
    · have hrep := descr_replace pre [(s, 1)] [(s, 0)] post (h.seglist_start + 52) y rfl
        (by rw [← hM]; exact descr_single x s 1 y ey)
        (by rw [← hM]; exact descr_single x s 0 y ey)
      rw [hrep]
      constructor
      · rintro (⟨_, e⟩ | hy)
        · exact absurd e ey
        · exact (hfree i hi y).mp hy
      · intro hy
        exact Or.inr ((hfree i hi y).mpr hy)

theorem descr_pos (l : List (Nat × Nat)) (p y : Nat) (b : Nat × Nat)
    (hpos : ∀ c ∈ l, 0 < c.1) (h : descr p l y = some b) : 0 < b.1 :=
  hpos b (descr_mem l p y b h)

/-- Outside the replaced run nothing is found in it. -/
theorem descr_run_none (mid : List (Nat × Nat)) (M y : Nat) (hpos : ∀ c ∈ mid, 0 < c.1)
    (hy : y < M ∨ M + span mid ≤ y) : descr M mid y = none := by
  cases hd : descr M mid y with
  | none => rfl
  | some b =>
    have h1 := descr_ge _ _ _ _ hd
    have h2 := descr_end _ _ _ _ hd
    have h3 := descr_pos _ _ _ _ hpos hd
    omega

/-- The free blocks of a layout in which a run has been replaced: those of
the new run and the old ones outside the old run. -/
theorem free_replace (L L2 : Nat → List Nat) (pre mid mid2 post : List (Nat × Nat)) (P : Nat)
    (hspan : span mid2 = span mid)
    (hp0 : ∀ c ∈ pre, 0 < c.1) (hp1 : ∀ c ∈ mid, 0 < c.1) (hp2 : ∀ c ∈ mid2, 0 < c.1)
    (hfree : ∀ i, i < 10 → ∀ y, y ∈ L i ↔
      ∃ t, descr P (pre ++ (mid ++ post)) y = some (t, 0) ∧ LIST_OFFSET t = i)
    (hL2 : ∀ i, i < 10 → ∀ y, y ∈ L2 i ↔
      (∃ t, descr (P + span pre) mid2 y = some (t, 0) ∧ LIST_OFFSET t = i) ∨
      (y ∈ L i ∧ descr (P + span pre) mid y = none)) :
    ∀ i, i < 10 → ∀ y, y ∈ L2 i ↔
      ∃ t, descr P (pre ++ (mid2 ++ post)) y = some (t, 0) ∧ LIST_OFFSET t = i := by
  intro i hi y
  rw [hL2 i hi y]
  cases h2 : descr (P + span pre) mid2 y with
  | some b2 =>
    have hge := descr_ge _ _ _ _ h2
    have hend := descr_end _ _ _ _ h2
    have hpos := descr_pos _ _ _ _ hp2 h2
    rw [descr_in_run pre mid2 post P y b2 hp0 hge h2]
    constructor
    · rintro (h | ⟨hy, hn⟩)
      · exact h
      · exfalso
        obtain ⟨t, ht, _⟩ := (hfree i hi y).mp hy
        rw [descr_append, descr_none_of_ge pre P y hge hp0] at ht
        change descr (P + span pre) (mid ++ post) y = some (t, 0) at ht
        rw [descr_append, hn] at ht
        have := descr_ge _ _ _ _ ht
        omega
    · intro h
      exact Or.inl h
  | none =>
    cases h1 : descr (P + span pre) mid y with
    | none =>
      rw [descr_replace pre mid mid2 post P y hspan h1 h2]
      constructor
      · rintro (⟨t, ht, _⟩ | ⟨hy, _⟩)
        · cases ht
        · exact (hfree i hi y).mp hy
      · intro h
        exact Or.inr ⟨(hfree i hi y).mpr h, rfl⟩
    | some b1 =>
      have hge := descr_ge _ _ _ _ h1
      have hend := descr_end _ _ _ _ h1
      have hpos := descr_pos _ _ _ _ hp1 h1
      constructor
      · rintro (⟨t, ht, _⟩ | ⟨_, hn⟩)
        · cases ht
        · cases hn
      · rintro ⟨t, ht, _⟩
        exfalso
        rw [descr_append, descr_none_of_ge pre P y hge hp0] at ht
        change descr (P + span pre) (mid2 ++ post) y = some (t, 0) at ht
        rw [descr_append, h2] at ht
        have := descr_ge _ _ _ _ ht
        omega

/-- An allocated block outside the replaced run, or allocated in the new run
as well, is still there. -/
theorem alloc_replace (pre mid mid2 post : List (Nat × Nat)) (P y t : Nat)
    (hspan : span mid2 = span mid)
    (hp0 : ∀ c ∈ pre, 0 < c.1) (hp2 : ∀ c ∈ mid2, 0 < c.1)
    (h0 : descr P (pre ++ (mid ++ post)) y = some (t, 1))
    (hmid : descr (P + span pre) mid y = none ∨ descr (P + span pre) mid2 y = some (t, 1)) :
    descr P (pre ++ (mid2 ++ post)) y = some (t, 1) := by
  rcases hmid with hn | hs
  · have h2 : descr (P + span pre) mid2 y = none := by
      rw [descr_append] at h0
      cases hp : descr P pre y with
      | some b =>
        have := descr_end _ _ _ _ hp
        have := descr_pos _ _ _ _ hp0 hp
        exact descr_run_none mid2 _ y hp2 (by omega)
      | none =>
        rw [hp] at h0
        change descr (P + span pre) (mid ++ post) y = some (t, 1) at h0
        rw [descr_append, hn] at h0
        have := descr_ge _ _ _ _ h0
        exact descr_run_none mid2 _ y hp2 (by omega)
    rw [descr_replace pre mid mid2 post P y hspan hn h2]
    exact h0
  · exact descr_in_run pre mid2 post P y _ hp0 (descr_ge _ _ _ _ hs) hs

theorem mem_removeFrom_free (L : Nat → List Nat) (k M i y : Nat) (hn : (L k).Nodup)
    (hk : M ∈ L i → i = k) :
    y ∈ removeFrom L k M i ↔ y ∈ L i ∧ y ≠ M := by
  rw [mem_removeFrom_iff L k M i y hn]
  constructor
  · rintro ⟨h1, h2⟩
    refine ⟨h1, fun e => h2 ⟨?_, e⟩⟩
    subst e
    exact hk h1
  · rintro ⟨h1, h2⟩
    exact ⟨h1, fun e => h2 e.2⟩

theorem nodup_removeFrom (L : Nat → List Nat) (k M i : Nat) (hn : (L i).Nodup) :
    (removeFrom L k M i).Nodup := by
  unfold removeFrom
  by_cases e : i = k
  · rw [if_pos e]; exact hn.erase M
  · rw [if_neg e]; exact hn

/-- The bucket of a listed block is determined by its size. -/
theorem free_bucket (L : Nat → List Nat) (l : List (Nat × Nat)) (P y t : Nat)
    (hfree : ∀ i, i < 10 → ∀ y, y ∈ L i ↔
      ∃ t, descr P l y = some (t, 0) ∧ LIST_OFFSET t = i)
    (hd : descr P l y = some (t, 0)) :
    y ∈ L (LIST_OFFSET t) ∧ ∀ i, i < 10 → y ∈ L i → i = LIST_OFFSET t := by
  have hlt : LIST_OFFSET t < 10 := by
    have := LIST_OFFSET_le t; omega
  refine ⟨(hfree _ hlt y).mpr ⟨t, hd, rfl⟩, ?_⟩
  intro i hi hy
  obtain ⟨t2, h2, hk⟩ := (hfree i hi y).mp hy
  rw [hd] at h2
  cases h2
  exact hk.symm

theorem not_listed (L : Nat → List Nat) (l : List (Nat × Nat)) (P y t : Nat)
    (hfree : ∀ i, i < 10 → ∀ y, y ∈ L i ↔
      ∃ t, descr P l y = some (t, 0) ∧ LIST_OFFSET t = i)
    (hd : descr P l y = some (t, 1)) : ∀ i, i < 10 → y ∉ L i := by
  intro i hi hy
  obtain ⟨t2, h2, _⟩ := (hfree i hi y).mp hy
  rw [hd] at h2
  cases h2

/-- The case of `coalesce` with a free block in front and an allocated block
behind. -/
theorem coalesce_keeps_prev (h : Heap) (L : Nat → List Nat) (pre1 post : List (Nat × Nat))
    (x s s0 c nw : Nat) (hB : Buckets h L) (hb : SBase h)
    (hpre1 : Segm h.mem (h.seglist_start + 52) 1 pre1 (x - s0) 1)
    (hprev : Blk h.mem (x - s0) (s0, 0)) (hs0 : s0 ≤ x)
    (hblk : Blk h.mem x (s, 0))
    (hpost : Segm h.mem (x + s) 1 post h.mem_brk c)
    (hnw : getw h.mem (x + s - 4) = nw) (hna : nw % 2 = 1)
    (hhead : ∀ b post2, post = b :: post2 → b.2 = 0 → 0 = 1)
    (hfree : ∀ i, i < 10 → ∀ y, y ∈ L i ↔
      ∃ t, descr (h.seglist_start + 52) (pre1 ++ ([(s0, 0), (s, 1)] ++ post)) y = some (t, 0) ∧
        LIST_OFFSET t = i) :
    ∃ h', coalesce h x = .ok (x - s0, h') ∧ sameBounds h' h ∧
      SInv h' (pre1 ++ ([(s + s0, 0)] ++ post))
        (pushOn (removeFrom L (LIST_OFFSET s0) (x - s0)) (LIST_OFFSET (s + s0)) (x - s0)) := by
  have b1 : s % 8 = 0 := hblk.1
  have b2 : 16 ≤ s := hblk.2.1
  have b4 : getw h.mem (x - 4) = s := hblk.2.2.2.1
  have c1 : s0 % 8 = 0 := hprev.1
  have c2 : 16 ≤ s0 := hprev.2.1
  have c4 : getw h.mem (x - s0 - 4) = s0 := hprev.2.2.2.1
  have c5 : getw h.mem (x - s0 + s0 - 8) = s0 := hprev.2.2.2.2
  have hM := Segm_span _ _ _ _ _ _ hpre1
  have hE := Segm_span _ _ _ _ _ _ hpost
  have hp0 : ∀ c ∈ pre1, 0 < c.1 := fun c hc => by
    have := (Segm_pos _ _ _ _ _ _ hpre1 c hc).1; omega
  have hsz : 8 * (s0 / 8) = s0 := by omega
  have hxs : x - s0 + s0 = x := by omega
  have hspan1 : span [(s0, 0), (s, 1)] = s0 + s := by simp only [span, Nat.add_zero]
  have hspan2 : span [(s + s0, 0)] = s0 + s := by simp only [span, Nat.add_zero]; omega
  -- the listed blocks
  have hdM : descr (h.seglist_start + 52) (pre1 ++ ([(s0, 0), (s, 1)] ++ post)) (x - s0)
      = some (s0, 0) := by
    refine descr_in_run pre1 _ post _ _ (s0, 0) hp0 (by omega) ?_
    rw [← hM]
    simp only [descr]
    exact if_pos trivial
  have hbM := free_bucket L _ _ _ _ hfree hdM
  have hent : ∀ i, i < 10 → ∀ y ∈ L i, ∃ t, 16 ≤ t ∧
      descr (h.seglist_start + 52) (pre1 ++ ([(s0, 0), (s, 1)] ++ post)) y = some (t, 0) ∧
      (y = x - s0 ∨ y + 16 ≤ x - s0 ∨ x + s ≤ y) ∧ y + t ≤ h.mem_brk ∧
      h.seglist_start + 52 ≤ y := by
    clear b4 c4 c5 hnw
    intro i hi y hy
    obtain ⟨t, ht, _⟩ := (hfree i hi y).mp hy
    have hge := descr_ge _ _ _ _ ht
    have ht0 := ht
    rw [descr_append] at ht
    cases hp : descr (h.seglist_start + 52) pre1 y with
    | some b =>
      rw [hp] at ht
      cases ht
      have := descr_end _ _ _ _ hp
      have := (Segm_pos _ _ _ _ _ _ hpre1 _ (descr_mem _ _ _ _ hp)).1
      simp only at *
      exact ⟨t, by omega, ht0, by omega, by omega, hge⟩
    | none =>
      rw [hp] at ht
      change descr (h.seglist_start + 52 + span pre1) ((s0, 0) :: (s, 1) :: post) y
        = some (t, 0) at ht
      rw [← hM] at ht
      simp only [descr] at ht
      by_cases e1 : y = x - s0
      · rw [if_pos e1] at ht
        cases ht
        exact ⟨_, c2, ht0, Or.inl e1, by omega, hge⟩
      · rw [if_neg e1] at ht
        by_cases e3 : y = x - s0 + s0
        · rw [if_pos e3] at ht
          cases ht
        · rw [if_neg e3] at ht
          have h5 := descr_ge _ _ _ _ ht
          have h6 := descr_end _ _ _ _ ht
          have := (Segm_pos _ _ _ _ _ _ hpost _ (descr_mem _ _ _ _ ht)).1
          simp only at *
          exact ⟨t, by omega, ht0, by omega, by omega, hge⟩
  have hout : ∀ i, i < 10 → ∀ y ∈ L i, y = x - s0 ∨ y + 12 ≤ x - s0 ∨ x + s ≤ y := by
    clear b4 c4 c5 hnw
    intro i hi y hy
    obtain ⟨t, _, _, hc, _⟩ := hent i hi y hy
    omega
  have hx4 : x + s ≤ h.mem_brk := by
    clear b4 c4 c5 hnw
    omega
  have hpw : getw h.mem (x - 8) = s0 := by
    refine Eq.trans ?_ c5
    rw [hxs]
  have hph : getw h.mem (x - 8 * (s0 / 8) - 4) = s0 := by
    rw [hsz]; exact c4
  obtain ⟨h', hc, hsb, w1, w2, hBk, hfr⟩ := coalesce_prev h L x s s0 nw hB b1 b2 hx4 b4 hpw hph
    hnw (by rw [hsz]; exact c2) (by rw [hsz]; exact hbM.1) (by rw [hsz]; exact hout)
    (by clear b4 c4 c5 hnw hpw hph; omega) hna
  rw [hsz] at hc w1 w2 hBk hfr
  clear b4 c4 c5 hnw hpw hph
  refine ⟨h', hc, hsb, ?_⟩
  refine SInv_replace h h' L _ pre1 [(s0, 0), (s, 1)] [(s + s0, 0)] post (x - s0) 1 0 hb ?_ hsb
    hBk (by rw [hspan1, hspan2]) hpre1 ?_ ?_ ?_ ?_
  · intro i hi y hy
    obtain ⟨t, t16, ht, _⟩ := hent i hi y hy
    exact ⟨t, ht, t16⟩
  · rw [hspan1]
    refine ⟨⟨by omega, by omega, Nat.zero_lt_two, w1, ?_⟩, fun _ => rfl, ?_, rfl⟩
    · refine Eq.trans ?_ w2
      have e : x - s0 + (s + s0, 0).1 - 8 = x + s - 8 := by
        clear w1 w2
        simp only
        omega
      rw [e]
    · clear w1 w2
      simp only
      omega
  · have e : x - s0 + span [(s0, 0), (s, 1)] = x + s := by
      clear w1 w2
      rw [hspan1]; omega
    rw [e]
    exact Segm_reflag _ _ _ _ 0 _ _ hpost hhead
  · intro y hy1 hy2 hy3
    rw [hspan1] at hy2
    clear w1 w2
    exact hfr y (Or.inr hy1) (by omega) hy3
  · refine free_replace L _ pre1 [(s0, 0), (s, 1)] [(s + s0, 0)] post _
      (by rw [hspan1, hspan2]) hp0 ?_ ?_ hfree ?_
    · clear w1 w2
      intro c hc
      simp only [List.mem_cons, List.mem_singleton, List.not_mem_nil, or_false] at hc
      rcases hc with e | e <;> rw [e] <;> simp only <;> omega
    · clear w1 w2
      intro c hc
      simp only [List.mem_singleton] at hc
      rw [hc]; simp only; omega
    · clear w1 w2
      intro i hi y
      rw [mem_pushOn_iff, mem_removeFrom_free L _ _ i y (hB.nodup _ (by
        have := LIST_OFFSET_le s0; omega)) (fun hy => hbM.2 i hi hy), ← hM]
      simp only [descr]
      by_cases e1 : y = x - s0
      · rw [if_pos e1, if_pos e1]
        constructor
        · rintro (⟨hk, _⟩ | ⟨_, hne⟩)
          · exact Or.inl ⟨s + s0, rfl, hk.symm⟩
          · exact absurd e1 hne
        · rintro (⟨t, ht, hk⟩ | ⟨_, hn⟩)
          · cases ht
            exact Or.inl ⟨hk.symm, e1⟩
          · cases hn
      · rw [if_neg e1, if_neg e1]
        by_cases e2 : y = x - s0 + s0
        · rw [if_pos e2]
          constructor
          · rintro (⟨_, e⟩ | ⟨hy, _⟩)
            · exact absurd e e1
            · exfalso
              obtain ⟨t, _, _, hc, _⟩ := hent i hi y hy
              omega
          · rintro (⟨t, ht, _⟩ | ⟨_, hn⟩)
            · cases ht
            · cases hn
        · rw [if_neg e2]
          constructor
          · rintro (⟨_, e⟩ | ⟨hy, _⟩)
            · exact absurd e e1
            · exact Or.inr ⟨hy, rfl⟩
          · rintro (⟨t, ht, _⟩ | ⟨hy, _⟩)
            · cases ht
            · exact Or.inr ⟨hy, e1⟩

/-- The case of `coalesce` with an allocated block in front and a free block
behind. -/
theorem coalesce_keeps_next (h : Heap) (L : Nat → List Nat) (pre post2 : List (Nat × Nat))
    (x s s2 c : Nat) (hB : Buckets h L) (hb : SBase h)
    (hpre : Segm h.mem (h.seglist_start + 52) 1 pre x 1)
    (hblk : Blk h.mem x (s, 0)) (hnext : Blk h.mem (x + s) (s2, 0))
    (hpost : Segm h.mem (x + s + s2) 0 post2 h.mem_brk c)
    (hfree : ∀ i, i < 10 → ∀ y, y ∈ L i ↔
      ∃ t, descr (h.seglist_start + 52) (pre ++ ([(s, 1), (s2, 0)] ++ post2)) y = some (t, 0) ∧
        LIST_OFFSET t = i) :
    ∃ h', coalesce h x = .ok (x, h') ∧ sameBounds h' h ∧
      SInv h' (pre ++ ([(s + s2, 0)] ++ post2))
        (pushOn (removeFrom L (LIST_OFFSET s2) (x + s)) (LIST_OFFSET (s + s2)) x) := by
  have b1 : s % 8 = 0 := hblk.1
  have b2 : 16 ≤ s := hblk.2.1
  have b4 : getw h.mem (x - 4) = s := hblk.2.2.2.1
  have c1 : s2 % 8 = 0 := hnext.1
  have c2 : 16 ≤ s2 := hnext.2.1
  have c4 : getw h.mem (x + s - 4) = s2 := hnext.2.2.2.1
  have hM := Segm_span _ _ _ _ _ _ hpre
  have hE := Segm_span _ _ _ _ _ _ hpost
  have hp0 : ∀ c ∈ pre, 0 < c.1 := fun c hc => by
    have := (Segm_pos _ _ _ _ _ _ hpre c hc).1; omega
  have hsz : 8 * (s2 / 8) = s2 := by omega
  have hspan1 : span [(s, 1), (s2, 0)] = s + s2 := by simp only [span, Nat.add_zero]
  have hspan2 : span [(s + s2, 0)] = s + s2 := by simp only [span, Nat.add_zero]
  have hdN : descr (h.seglist_start + 52) (pre ++ ([(s, 1), (s2, 0)] ++ post2)) (x + s)
      = some (s2, 0) := by
    refine descr_in_run pre _ post2 _ _ (s2, 0) hp0 (by omega) ?_
    rw [← hM]
    simp only [descr]
    rw [if_neg (by omega)]
    exact if_pos trivial
  have hbN := free_bucket L _ _ _ _ hfree hdN
  have hent : ∀ i, i < 10 → ∀ y ∈ L i, ∃ t, 16 ≤ t ∧
      descr (h.seglist_start + 52) (pre ++ ([(s, 1), (s2, 0)] ++ post2)) y = some (t, 0) ∧
      (y = x + s ∨ y + 16 ≤ x ∨ x + s + s2 ≤ y) ∧ y + t ≤ h.mem_brk ∧
      h.seglist_start + 52 ≤ y := by
    clear b4 c4
    intro i hi y hy
    obtain ⟨t, ht, _⟩ := (hfree i hi y).mp hy
    have hge := descr_ge _ _ _ _ ht
    have ht0 := ht
    rw [descr_append] at ht
    cases hp : descr (h.seglist_start + 52) pre y with
    | some b =>
      rw [hp] at ht
      cases ht
      have := descr_end _ _ _ _ hp
      have := (Segm_pos _ _ _ _ _ _ hpre _ (descr_mem _ _ _ _ hp)).1
      simp only at *
      exact ⟨t, by omega, ht0, by omega, by omega, hge⟩
    | none =>
      rw [hp] at ht
      change descr (h.seglist_start + 52 + span pre) ((s, 1) :: (s2, 0) :: post2) y
        = some (t, 0) at ht
      rw [← hM] at ht
      simp only [descr] at ht
      by_cases e1 : y = x
      · rw [if_pos e1] at ht
        cases ht
      · rw [if_neg e1] at ht
        by_cases e3 : y = x + s
        · rw [if_pos e3] at ht
          cases ht
          exact ⟨_, c2, ht0, Or.inl e3, by omega, hge⟩
        · rw [if_neg e3] at ht
          have h5 := descr_ge _ _ _ _ ht
          have h6 := descr_end _ _ _ _ ht
          have := (Segm_pos _ _ _ _ _ _ hpost _ (descr_mem _ _ _ _ ht)).1
          simp only at *
          exact ⟨t, by omega, ht0, by omega, by omega, hge⟩
  have hout : ∀ i, i < 10 → ∀ y ∈ L i, y = x + s ∨ y + 12 ≤ x ∨ x + s + 8 * (s2 / 8) ≤ y := by
    clear b4 c4
    intro i hi y hy
    obtain ⟨t, _, _, hc, _⟩ := hent i hi y hy
    omega
  have hx4 : x + s + 8 * (s2 / 8) ≤ h.mem_brk ∧ h.seglist_start + 52 ≤ x := by
    clear b4 c4
    omega
  have hP12 : 12 ≤ h.seglist_start + 52 := by omega
  obtain ⟨pw, p1, p2, p3, p4, p5, _⟩ := Segm_prev_word h.mem pre (h.seglist_start + 52) x 1
    hP12 hb.proh hb.prof hpre
  have hprev : 8 * (pw / 8) + h.seglist_start + 44 ≤ x := by
    clear b4 c4 p1 p2
    omega
  obtain ⟨h', hc, hsb, w1, w2, hBk, hfr⟩ := coalesce_next h L x s pw s2 hB b1 b2 hprev b4 p1 p2
    c4 (by rw [hsz]; exact c2) (by rw [hsz]; exact hbN.1) hx4.1 hout p3
    (by clear b4 c4 p1 p2; omega)
  rw [hsz] at w1 w2 hBk hfr
  clear b4 c4 p1 p2
  refine ⟨h', hc, hsb, ?_⟩
  refine SInv_replace h h' L _ pre [(s, 1), (s2, 0)] [(s + s2, 0)] post2 x 1 0 hb ?_ hsb
    hBk (by rw [hspan1, hspan2]) hpre ?_ ?_ ?_ ?_
  · intro i hi y hy
    obtain ⟨t, t16, ht, _⟩ := hent i hi y hy
    exact ⟨t, ht, t16⟩
  · rw [hspan1]
    exact ⟨⟨by omega, by omega, Nat.zero_lt_two, w1, w2⟩, fun _ => rfl, rfl, rfl⟩
  · have e : x + span [(s, 1), (s2, 0)] = x + s + s2 := by
      clear w1 w2
      rw [hspan1]; omega
    rw [e]
    exact ⟨c, hpost⟩
  · intro y hy1 hy2 hy3
    rw [hspan1] at hy2
    clear w1 w2
    exact hfr y (Or.inr hy1) (by omega) hy3
  · refine free_replace L _ pre [(s, 1), (s2, 0)] [(s + s2, 0)] post2 _
      (by rw [hspan1, hspan2]) hp0 ?_ ?_ hfree ?_
    · clear w1 w2
      intro c hc
      simp only [List.mem_cons, List.mem_singleton, List.not_mem_nil, or_false] at hc
      rcases hc with e | e <;> rw [e] <;> simp only <;> omega
    · clear w1 w2
      intro c hc
      simp only [List.mem_singleton] at hc
      rw [hc]; simp only; omega
    · clear w1 w2
      intro i hi y
      rw [mem_pushOn_iff, mem_removeFrom_free L _ _ i y (hB.nodup _ (by
        have := LIST_OFFSET_le s2; omega)) (fun hy => hbN.2 i hi hy), ← hM]
      simp only [descr]
      by_cases e1 : y = x
      · rw [if_pos e1, if_pos e1]
        constructor
        · rintro (⟨hk, _⟩ | ⟨hy, _⟩)
          · exact Or.inl ⟨s + s2, rfl, hk.symm⟩
          · exfalso
            obtain ⟨t, _, _, hc, _⟩ := hent i hi y hy
            omega
        · rintro (⟨t, ht, hk⟩ | ⟨_, hn⟩)
          · cases ht
            exact Or.inl ⟨hk.symm, e1⟩
          · cases hn
      · rw [if_neg e1, if_neg e1]
        by_cases e2 : y = x + s
        · rw [if_pos e2]
          constructor
          · rintro (⟨_, e⟩ | ⟨_, hne⟩)
            · exact absurd e e1
            · exact absurd e2 hne
          · rintro (⟨t, ht, _⟩ | ⟨_, hn⟩)
            · cases ht
            · cases hn
        · rw [if_neg e2]
          constructor
          · rintro (⟨_, e⟩ | ⟨hy, _⟩)
            · exact absurd e e1
            · exact Or.inr ⟨hy, rfl⟩
          · rintro (⟨t, ht, _⟩ | ⟨hy, _⟩)
            · cases ht
            · exact Or.inr ⟨hy, e2⟩

/-- The case of `coalesce` between two free blocks. -/
theorem coalesce_keeps_both (h : Heap) (L : Nat → List Nat) (pre1 post2 : List (Nat × Nat))
    (x s s0 s2 c : Nat) (hB : Buckets h L) (hb : SBase h)
    (hpre1 : Segm h.mem (h.seglist_start + 52) 1 pre1 (x - s0) 1)
    (hprev : Blk h.mem (x - s0) (s0, 0)) (hs0 : s0 ≤ x)
    (hblk : Blk h.mem x (s, 0)) (hnext : Blk h.mem (x + s) (s2, 0))
    (hpost : Segm h.mem (x + s + s2) 0 post2 h.mem_brk c)
    (hfree : ∀ i, i < 10 → ∀ y, y ∈ L i ↔
      ∃ t, descr (h.seglist_start + 52) (pre1 ++ ([(s0, 0), (s, 1), (s2, 0)] ++ post2)) y
          = some (t, 0) ∧ LIST_OFFSET t = i) :
    ∃ h', coalesce h x = .ok (x - s0, h') ∧ sameBounds h' h ∧
      SInv h' (pre1 ++ ([(s + s0 + s2, 0)] ++ post2))
        (pushOn (removeFrom (removeFrom L (LIST_OFFSET s0) (x - s0)) (LIST_OFFSET s2) (x + s))
          (LIST_OFFSET (s + s0 + s2)) (x - s0)) := by
  have b1 : s % 8 = 0 := hblk.1
  have b2 : 16 ≤ s := hblk.2.1
  have b4 : getw h.mem (x - 4) = s := hblk.2.2.2.1
  have c1 : s0 % 8 = 0 := hprev.1
  have c2 : 16 ≤ s0 := hprev.2.1
  have c4 : getw h.mem (x - s0 - 4) = s0 := hprev.2.2.2.1
  have c5 : getw h.mem (x - s0 + s0 - 8) = s0 := hprev.2.2.2.2
  have d1 : s2 % 8 = 0 := hnext.1
  have d2 : 16 ≤ s2 := hnext.2.1
  have d4 : getw h.mem (x + s - 4) = s2 := hnext.2.2.2.1
  have d5 : getw h.mem (x + s + s2 - 8) = s2 := hnext.2.2.2.2
  have hM := Segm_span _ _ _ _ _ _ hpre1
  have hE := Segm_span _ _ _ _ _ _ hpost
  have hp0 : ∀ c ∈ pre1, 0 < c.1 := fun c hc => by
    have := (Segm_pos _ _ _ _ _ _ hpre1 c hc).1; omega
  have hsz0 : 8 * (s0 / 8) = s0 := by omega
  have hsz2 : 8 * (s2 / 8) = s2 := by omega
  have hxs : x - s0 + s0 = x := by omega
  have hspan1 : span [(s0, 0), (s, 1), (s2, 0)] = s0 + (s + s2) := by
    simp only [span, Nat.add_zero]
  have hspan2 : span [(s + s0 + s2, 0)] = s0 + (s + s2) := by
    simp only [span, Nat.add_zero]; omega
  have hdM : descr (h.seglist_start + 52) (pre1 ++ ([(s0, 0), (s, 1), (s2, 0)] ++ post2))
      (x - s0) = some (s0, 0) := by
    refine descr_in_run pre1 _ post2 _ _ (s0, 0) hp0 (by omega) ?_
    rw [← hM]
    simp only [descr]
    exact if_pos trivial
  have hdN : descr (h.seglist_start + 52) (pre1 ++ ([(s0, 0), (s, 1), (s2, 0)] ++ post2))
      (x + s) = some (s2, 0) := by
    refine descr_in_run pre1 _ post2 _ _ (s2, 0) hp0 (by omega) ?_
    rw [← hM]
    simp only [descr]
    rw [if_neg (by omega), if_neg (by omega)]
    exact if_pos (by omega)
  have hbM := free_bucket L _ _ _ _ hfree hdM
  have hbN := free_bucket L _ _ _ _ hfree hdN
  have hent : ∀ i, i < 10 → ∀ y ∈ L i, ∃ t, 16 ≤ t ∧
      descr (h.seglist_start + 52) (pre1 ++ ([(s0, 0), (s, 1), (s2, 0)] ++ post2)) y
        = some (t, 0) ∧
      (y = x - s0 ∨ y = x + s ∨ y + 16 ≤ x - s0 ∨ x + s + s2 ≤ y) ∧ y + t ≤ h.mem_brk ∧
      h.seglist_start + 52 ≤ y := by
    clear b4 c4 c5 d4 d5
    intro i hi y hy
    obtain ⟨t, ht, _⟩ := (hfree i hi y).mp hy
    have hge := descr_ge _ _ _ _ ht
    have ht0 := ht
    rw [descr_append] at ht
    cases hp : descr (h.seglist_start + 52) pre1 y with
    | some b =>
      rw [hp] at ht
      cases ht
      have := descr_end _ _ _ _ hp
      have := (Segm_pos _ _ _ _ _ _ hpre1 _ (descr_mem _ _ _ _ hp)).1
      simp only at *
      exact ⟨t, by omega, ht0, by omega, by omega, hge⟩
    | none =>
      rw [hp] at ht
      change descr (h.seglist_start + 52 + span pre1) ((s0, 0) :: (s, 1) :: (s2, 0) :: post2) y
        = some (t, 0) at ht
      rw [← hM] at ht
      simp only [descr] at ht
      by_cases e1 : y = x - s0
      · rw [if_pos e1] at ht
        cases ht
        exact ⟨_, c2, ht0, Or.inl e1, by omega, hge⟩
      · rw [if_neg e1] at ht
        by_cases e3 : y = x - s0 + s0
        · rw [if_pos e3] at ht
          cases ht
        · rw [if_neg e3] at ht
          by_cases e4 : y = x - s0 + s0 + s
          · rw [if_pos e4] at ht
            cases ht
            exact ⟨_, d2, ht0, Or.inr (Or.inl (by omega)), by omega, hge⟩
          · rw [if_neg e4] at ht
            have h5 := descr_ge _ _ _ _ ht
            have h6 := descr_end _ _ _ _ ht
            have := (Segm_pos _ _ _ _ _ _ hpost _ (descr_mem _ _ _ _ ht)).1
            simp only at *
            exact ⟨t, by omega, ht0, by omega, by omega, hge⟩
  have hout : ∀ i, i < 10 → ∀ y ∈ L i, y = x - 8 * (s0 / 8) ∨ y = x + s ∨
      y + 12 ≤ x - 8 * (s0 / 8) ∨ x + s + 8 * (s2 / 8) ≤ y := by
    clear b4 c4 c5 d4 d5
    intro i hi y hy
    obtain ⟨t, _, _, hc, _⟩ := hent i hi y hy
    omega
  have hx4 : x + s + 8 * (s2 / 8) ≤ h.mem_brk := by
    clear b4 c4 c5 d4 d5
    omega
  have hpw : getw h.mem (x - 8) = s0 := by
    refine Eq.trans ?_ c5
    rw [hxs]
  have hph : getw h.mem (x - 8 * (s0 / 8) - 4) = s0 := by
    rw [hsz0]; exact c4
  have hnf : getw h.mem (x + s + 8 * (s2 / 8) - 8) = s2 := by
    rw [hsz2]; exact d5
  obtain ⟨h', hc, hsb, w1, w2, hBk, hfr⟩ := coalesce_both h L x s s0 s2 hB b1 b2 b4 hpw hph d4
    (by rw [hsz0]; exact c2) (by rw [hsz0]; exact hbM.1) (by rw [hsz2]; exact d2)
    (by rw [hsz2]; exact hbN.1) hx4 hnf hout
    (by clear b4 c4 c5 d4 d5 hpw hph hnf; omega)
    (by clear b4 c4 c5 d4 d5 hpw hph hnf; omega)
  rw [hsz0, hsz2] at w1 w2 hBk hfr
  rw [hsz0] at hc
  clear b4 c4 c5 d4 d5 hpw hph hnf
  refine ⟨h', hc, hsb, ?_⟩
  refine SInv_replace h h' L _ pre1 [(s0, 0), (s, 1), (s2, 0)] [(s + s0 + s2, 0)] post2 (x - s0)
    1 0 hb ?_ hsb hBk (by rw [hspan1, hspan2]) hpre1 ?_ ?_ ?_ ?_
  · intro i hi y hy
    obtain ⟨t, t16, ht, _⟩ := hent i hi y hy
    exact ⟨t, ht, t16⟩
  · rw [hspan1]
    refine ⟨⟨by omega, by omega, Nat.zero_lt_two, w1, ?_⟩, fun _ => rfl, ?_, rfl⟩
    · refine Eq.trans ?_ w2
      have e : x - s0 + (s + s0 + s2, 0).1 - 8 = x + s + s2 - 8 := by
        clear w1 w2
        simp only
        omega
      rw [e]
    · clear w1 w2
      simp only
      omega
  · have e : x - s0 + span [(s0, 0), (s, 1), (s2, 0)] = x + s + s2 := by
      clear w1 w2
      rw [hspan1]; omega
    rw [e]
    exact ⟨c, hpost⟩
  · intro y hy1 hy2 hy3
    rw [hspan1] at hy2
    clear w1 w2
    exact hfr y (Or.inr hy1) (by omega) hy3
  · refine free_replace L _ pre1 [(s0, 0), (s, 1), (s2, 0)] [(s + s0 + s2, 0)] post2 _
      (by rw [hspan1, hspan2]) hp0 ?_ ?_ hfree ?_
    · clear w1 w2
      intro c hc
      simp only [List.mem_cons, List.mem_singleton, List.not_mem_nil, or_false] at hc
      rcases hc with e | e | e <;> rw [e] <;> simp only <;> omega
    · clear w1 w2
      intro c hc
      simp only [List.mem_singleton] at hc
      rw [hc]; simp only; omega
    · clear w1 w2
      intro i hi y
      have hn0 : (L (LIST_OFFSET s0)).Nodup := hB.nodup _ (by
        have := LIST_OFFSET_le s0; omega)
      have hn2 : (L (LIST_OFFSET s2)).Nodup := hB.nodup _ (by
        have := LIST_OFFSET_le s2; omega)
      rw [mem_pushOn_iff, mem_removeFrom_free _ _ _ i y
        (nodup_removeFrom L _ _ _ hn2)
        (fun hy => hbN.2 i hi ((mem_removeFrom_free L _ _ i _ hn0
          (fun hy2 => hbM.2 i hi hy2)).mp hy).1),
        mem_removeFrom_free L _ _ i y hn0 (fun hy => hbM.2 i hi hy), ← hM]
      simp only [descr]
      by_cases e1 : y = x - s0
      · rw [if_pos e1, if_pos e1]
        constructor
        · rintro (⟨hk, _⟩ | ⟨⟨_, hne⟩, _⟩)
          · exact Or.inl ⟨s + s0 + s2, rfl, hk.symm⟩
          · exact absurd e1 hne
        · rintro (⟨t, ht, hk⟩ | ⟨_, hn⟩)
          · cases ht
            exact Or.inl ⟨hk.symm, e1⟩
          · cases hn
      · rw [if_neg e1, if_neg e1]
        by_cases e2 : y = x - s0 + s0
        · rw [if_pos e2]
          constructor
          · rintro (⟨_, e⟩ | ⟨⟨hy, _⟩, _⟩)
            · exact absurd e e1
            · exfalso
              obtain ⟨t, _, _, hc, _⟩ := hent i hi y hy
              omega
          · rintro (⟨t, ht, _⟩ | ⟨_, hn⟩)
            · cases ht
            · cases hn
        · rw [if_neg e2]
          by_cases e3 : y = x - s0 + s0 + s
          · rw [if_pos e3]
            constructor
            · rintro (⟨_, e⟩ | ⟨_, hne⟩)
              · exact absurd e e1
              · exact absurd (by omega) hne
            · rintro (⟨t, ht, _⟩ | ⟨_, hn⟩)
              · cases ht
              · cases hn
          · rw [if_neg e3]
            constructor
            · rintro (⟨_, e⟩ | ⟨⟨hy, _⟩, _⟩)
              · exact absurd e e1
              · exact Or.inr ⟨hy, rfl⟩
            · rintro (⟨t, ht, _⟩ | ⟨hy, _⟩)
              · cases ht
              · exact Or.inr ⟨⟨hy, e1⟩, by omega⟩

/-- A block found in the run at its place in the layout. -/
theorem descr_run_some (pre mid post : List (Nat × Nat)) (p y : Nat) (b c : Nat × Nat)
    (hpos : ∀ c ∈ pre, 0 < c.1)
    (h0 : descr p (pre ++ (mid ++ post)) y = some c)
    (h : descr (p + span pre) mid y = some b) : b = c := by
  rw [descr_in_run pre mid post p y b hpos (descr_ge _ _ _ _ h) h] at h0
  cases h0
  rfl

theorem Segm_pos0 (m : Nat → Nat) (l : List (Nat × Nat)) (p a q c : Nat)
    (h : Segm m p a l q c) : ∀ b ∈ l, 0 < b.1 := fun b hb => by
  have := (Segm_pos m l p a q c h b hb).1
  omega

/-- The conclusion of `coalesce_keeps`. -/
theorem coalesce_keeps_prev_alloc (h : Heap) (L : Nat → List Nat) (pre post : List (Nat × Nat))
    (x s c : Nat) (hB : Buckets h L) (hb : SBase h)
    (hpre : Segm h.mem (h.seglist_start + 52) 1 pre x 1) (hblk : Blk h.mem x (s, 0))
    (hpost : Segm h.mem (x + s) 1 post h.mem_brk c)
    (hfree : ∀ i, i < 10 → ∀ y, y ∈ L i ↔
      ∃ t, descr (h.seglist_start + 52) (pre ++ ((s, 1) :: post)) y = some (t, 0) ∧
        LIST_OFFSET t = i) :
    ∃ r h' l' L', coalesce h x = .ok (r, h') ∧ sameBounds h' h ∧ SInv h' l' L' ∧
      l'.length ≤ pre.length + 1 + post.length ∧
      (∃ T, descr (h.seglist_start + 52) l' r = some (T, 0) ∧ s ≤ T) ∧
      (∀ y t, y ≠ x → descr (h.seglist_start + 52) (pre ++ ((s, 1) :: post)) y = some (t, 1) →
        descr (h.seglist_start + 52) l' y = some (t, 1)) := by
  have hM := Segm_span _ _ _ _ _ _ hpre
  have hs16 : 16 ≤ s := hblk.2.1
  have hp0 := Segm_pos0 _ _ _ _ _ _ hpre
  obtain ⟨_, hnext⟩ := Segm_next_word h.mem post (x + s) 1 h.mem_brk c hb.epi hpost
  by_cases hfr : ∃ s2 post2, post = (s2, 0) :: post2
  · obtain ⟨s2, post2, hp⟩ := hfr
    subst hp
    obtain ⟨h', hc, hsb, hI⟩ := coalesce_keeps_next h L pre post2 x s s2 c hB hb hpre hblk
      hpost.1 hpost.2.2 hfree
    refine ⟨x, h', _, _, hc, hsb, hI, ?_, ⟨s + s2, ?_, by omega⟩, ?_⟩
    · simp only [List.length_append, List.length_cons, List.length_nil]
      omega
    · refine descr_in_run pre _ post2 _ x _ hp0 (by omega) ?_
      rw [← hM]
      simp only [descr]
      exact if_pos trivial
    · intro y t hy h0
      refine alloc_replace pre [(s, 1), (s2, 0)] [(s + s2, 0)] post2 _ y t
        (by simp only [span, Nat.add_zero]) hp0
        (fun c hc => by
          simp only [List.mem_singleton] at hc
          rw [hc]; simp only; omega) h0 (Or.inl ?_)
      cases hd : descr (h.seglist_start + 52 + span pre) [(s, 1), (s2, 0)] y with
      | none => rfl
      | some b =>
        exfalso
        have e := descr_run_some pre _ post2 _ y b (t, 1) hp0 h0 hd
        subst e
        rw [← hM] at hd
        simp only [descr] at hd
        rw [if_neg hy] at hd
        by_cases e2 : y = x + s
        · rw [if_pos e2] at hd; cases hd
        · rw [if_neg e2] at hd; cases hd
  · have hhead : ∀ b post2, post = b :: post2 → b.2 = 0 → 0 = 1 := by
      intro b post2 hp hb0
      exact absurd ⟨b.1, post2, by rw [hp, ← hb0]⟩ hfr
    obtain ⟨nw, hnw, hna⟩ : ∃ nw, getw h.mem (x + s - 4) = nw ∧ nw % 2 = 1 := by
      rcases hnext with ⟨_, _, hw⟩ | ⟨s2, c2, post2, hp, hw, hbl, _, _⟩
      · exact ⟨1, hw, rfl⟩
      · refine ⟨s2 + c2, hw, ?_⟩
        have h1 := hbl.1
        have h2 := hbl.2.2.1
        simp only at h1 h2
        have : c2 ≠ 0 := fun e0 => by
          subst e0
          exact hfr ⟨s2, post2, hp⟩
        omega
    obtain ⟨h', hc, hsb, hI⟩ := coalesce_keeps_none h L pre post x s c nw hB hb hpre hblk
      hpost hnw hna hhead hfree
    refine ⟨x, h', _, _, hc, hsb, hI, ?_, ⟨s, ?_, Nat.le_refl _⟩, ?_⟩
    · simp only [List.length_append, List.length_cons, List.length_nil]
      omega
    · refine descr_in_run pre _ post _ x _ hp0 (by omega) ?_
      rw [← hM]
      simp only [descr]
      exact if_pos trivial
    · intro y t hy h0
      exact alloc_replace pre [(s, 1)] [(s, 0)] post _ y t rfl hp0
        (fun c hc => by
          simp only [List.mem_singleton] at hc
          rw [hc]; simp only; omega) h0
        (Or.inl (by rw [← hM]; exact descr_single x s 1 y hy))

theorem coalesce_keeps_prev_free (h : Heap) (L : Nat → List Nat) (pre1 post : List (Nat × Nat))
    (x s s0 c : Nat) (hB : Buckets h L) (hb : SBase h)
    (hpre1 : Segm h.mem (h.seglist_start + 52) 1 pre1 (x - s0) 1)
    (hprev : Blk h.mem (x - s0) (s0, 0)) (hs0 : s0 ≤ x)
    (hblk : Blk h.mem x (s, 0))
    (hpost : Segm h.mem (x + s) 1 post h.mem_brk c)
    (hfree : ∀ i, i < 10 → ∀ y, y ∈ L i ↔
      ∃ t, descr (h.seglist_start + 52) (pre1 ++ ((s0, 0) :: (s, 1) :: post)) y = some (t, 0) ∧
        LIST_OFFSET t = i) :
    ∃ r h' l' L', coalesce h x = .ok (r, h') ∧ sameBounds h' h ∧ SInv h' l' L' ∧
      l'.length ≤ pre1.length + 2 + post.length ∧
      (∃ T, descr (h.seglist_start + 52) l' r = some (T, 0) ∧ s ≤ T) ∧
      (∀ y t, y ≠ x →
        descr (h.seglist_start + 52) (pre1 ++ ((s0, 0) :: (s, 1) :: post)) y = some (t, 1) →
        descr (h.seglist_start + 52) l' y = some (t, 1)) := by
  have hM := Segm_span _ _ _ _ _ _ hpre1
  have hs16 : 16 ≤ s := hblk.2.1
  have hs016 : 16 ≤ s0 := hprev.2.1
  have hp0 := Segm_pos0 _ _ _ _ _ _ hpre1
  have hxs : x - s0 + s0 = x := by omega
  obtain ⟨_, hnext⟩ := Segm_next_word h.mem post (x + s) 1 h.mem_brk c hb.epi hpost
  by_cases hfr : ∃ s2 post2, post = (s2, 0) :: post2
  · obtain ⟨s2, post2, hp⟩ := hfr
    subst hp
    obtain ⟨h', hc, hsb, hI⟩ := coalesce_keeps_both h L pre1 post2 x s s0 s2 c hB hb hpre1
      hprev hs0 hblk hpost.1 hpost.2.2 hfree
    refine ⟨x - s0, h', _, _, hc, hsb, hI, ?_, ⟨s + s0 + s2, ?_, by omega⟩, ?_⟩
    · simp only [List.length_append, List.length_cons, List.length_nil]
      omega
    · refine descr_in_run pre1 _ post2 _ (x - s0) _ hp0 (by omega) ?_
      rw [← hM]
      simp only [descr]
      exact if_pos trivial
    · intro y t hy h0
      refine alloc_replace pre1 [(s0, 0), (s, 1), (s2, 0)] [(s + s0 + s2, 0)] post2 _ y t
        (by simp only [span, Nat.add_zero]; omega) hp0
        (fun c hc => by
          simp only [List.mem_singleton] at hc
          rw [hc]; simp only; omega) h0 (Or.inl ?_)
      cases hd : descr (h.seglist_start + 52 + span pre1) [(s0, 0), (s, 1), (s2, 0)] y with
      | none => rfl
      | some b =>
        exfalso
        have e := descr_run_some pre1 _ post2 _ y b (t, 1) hp0 h0 hd
        subst e
        rw [← hM] at hd
        simp only [descr] at hd
        by_cases e1 : y = x - s0
        · rw [if_pos e1] at hd; cases hd
        · rw [if_neg e1, hxs, if_neg hy] at hd
          by_cases e2 : y = x + s
          · rw [if_pos e2] at hd; cases hd
          · rw [if_neg e2] at hd; cases hd
  · have hhead : ∀ b post2, post = b :: post2 → b.2 = 0 → 0 = 1 := by
      intro b post2 hp hb0
      exact absurd ⟨b.1, post2, by rw [hp, ← hb0]⟩ hfr
    obtain ⟨nw, hnw, hna⟩ : ∃ nw, getw h.mem (x + s - 4) = nw ∧ nw % 2 = 1 := by
      rcases hnext with ⟨_, _, hw⟩ | ⟨s2, c2, post2, hp, hw, hbl, _, _⟩
      · exact ⟨1, hw, rfl⟩
      · refine ⟨s2 + c2, hw, ?_⟩
        have h1 := hbl.1
        have h2 := hbl.2.2.1
        simp only at h1 h2
        have : c2 ≠ 0 := fun e0 => by
          subst e0
          exact hfr ⟨s2, post2, hp⟩
        omega
    obtain ⟨h', hc, hsb, hI⟩ := coalesce_keeps_prev h L pre1 post x s s0 c nw hB hb hpre1
      hprev hs0 hblk hpost hnw hna hhead hfree
    refine ⟨x - s0, h', _, _, hc, hsb, hI, ?_, ⟨s + s0, ?_, by omega⟩, ?_⟩
    · simp only [List.length_append, List.length_cons, List.length_nil]
      omega
    · refine descr_in_run pre1 _ post _ (x - s0) _ hp0 (by omega) ?_
      rw [← hM]
      simp only [descr]
      exact if_pos trivial
    · intro y t hy h0
      refine alloc_replace pre1 [(s0, 0), (s, 1)] [(s + s0, 0)] post _ y t
        (by simp only [span, Nat.add_zero]; omega) hp0
        (fun c hc => by
          simp only [List.mem_singleton] at hc
          rw [hc]; simp only; omega) h0 (Or.inl ?_)
      cases hd : descr (h.seglist_start + 52 + span pre1) [(s0, 0), (s, 1)] y with
      | none => rfl
      | some b =>
        exfalso
        have e := descr_run_some pre1 _ post _ y b (t, 1) hp0 h0 hd
        subst e
        rw [← hM] at hd
        simp only [descr] at hd
        by_cases e1 : y = x - s0
        · rw [if_pos e1] at hd; cases hd
        · rw [if_neg e1, hxs, if_neg hy] at hd
          cases hd

/-- Source `coalesce(bp)` on a block marked free that is not yet listed, between
consistent neighbours: the call returns, the invariant holds afterwards, the
returned block is a free block that contains `bp`, and every other allocated
block is still allocated. -/
theorem coalesce_keeps (h : Heap) (L : Nat → List Nat) (pre post : List (Nat × Nat))
    (x s a c : Nat) (hB : Buckets h L) (hb : SBase h)
    (hpre : Segm h.mem (h.seglist_start + 52) 1 pre x a) (hblk : Blk h.mem x (s, 0))
    (hpost : Segm h.mem (x + s) 1 post h.mem_brk c)
    (hfree : ∀ i, i < 10 → ∀ y, y ∈ L i ↔
      ∃ t, descr (h.seglist_start + 52) (pre ++ ((s, 1) :: post)) y = some (t, 0) ∧
        LIST_OFFSET t = i) :
    ∃ r h' l' L', coalesce h x = .ok (r, h') ∧ sameBounds h' h ∧ SInv h' l' L' ∧
      l'.length ≤ pre.length + 1 + post.length ∧
      (∃ T, descr (h.seglist_start + 52) l' r = some (T, 0) ∧ s ≤ T) ∧
      (∀ y t, y ≠ x → descr (h.seglist_start + 52) (pre ++ ((s, 1) :: post)) y = some (t, 1) →
        descr (h.seglist_start + 52) l' y = some (t, 1)) := by
  rcases Segm_last h.mem pre _ _ _ _ hpre with ⟨e1, e2, e3⟩ | ⟨pre1, s0, r, d, hl, hs1, hb1, hd, hq⟩
  · subst e2
    exact coalesce_keeps_prev_alloc h L pre post x s c hB hb hpre hblk hpost hfree
  · have ha : a < 2 := hb1.2.2.1
    by_cases e : a = 1
    · subst e
      exact coalesce_keeps_prev_alloc h L pre post x s c hB hb hpre hblk hpost hfree
    · have e0 : a = 0 := by omega
      subst e0
      have hd1 := hd rfl
      subst hd1
      have hr : r = x - s0 := by omega
      subst hr
      subst hl
      have hfree2 : ∀ i, i < 10 → ∀ y, y ∈ L i ↔
          ∃ t, descr (h.seglist_start + 52) (pre1 ++ ((s0, 0) :: (s, 1) :: post)) y
            = some (t, 0) ∧ LIST_OFFSET t = i := by
        intro i hi y
        rw [hfree i hi y, List.append_assoc]
        rfl
      obtain ⟨r, h', l', L', q1, q2, q3, q4, q5, q6⟩ := coalesce_keeps_prev_free h L pre1 post x s
        s0 c hB hb hs1 hb1 (by omega) hblk hpost hfree2
      refine ⟨r, h', l', L', q1, q2, q3, ?_, q5, ?_⟩
      · simp only [List.length_append, List.length_cons, List.length_nil]
        omega
      · intro y t hy h0
        rw [List.append_assoc] at h0
        exact q6 y t hy h0

/-- The two stores of `mm_free(bp)` in front of its call of `coalesce`. -/
theorem mm_free_exec (h : Heap) (x s : Nat) (hlo : h.mem_start_brk + 4 ≤ x)
    (hhi : h.mem_brk < 4294967296) (hs8 : s % 8 = 0) (hs16 : 16 ≤ s)
    (hend : x + s ≤ h.mem_brk) (hhdr : getw h.mem (x - 4) = s + 1) (r : Nat × Heap)
    (hc : coalesce { h with mem := setWord (setWord h.mem (x - 4) s) (x + s - 8) s } x = .ok r) :
    mm_free h x = .ok r.2 := by
  have eH : HDRP x = x - 4 := HDRP_eq x (by omega) (by omega)
  have hlt : s % 4294967296 = s := Nat.mod_eq_of_lt (by omega)
  have hsz : 8 * ((s + 1) / 8) = s := by omega
  have e1 : GET_SIZE h (HDRP x) = .ok s := by
    rw [eH, GET_SIZE_ok h _ (by omega) (by omega), hhdr, hsz]
  have e2 : PUT h (HDRP x) (PACK s 0) = .ok { h with mem := setWord h.mem (x - 4) s } := by
    rw [eH, PACK_zero]
    exact PUT_ok _ _ _ (by omega) (by omega)
  have w1 : getw (setWord h.mem (x - 4) s) (x - 4) = s := by
    rw [getw_setWord_same, hlt]
  have e3 : FTRP { h with mem := setWord h.mem (x - 4) s } x = .ok (x + s - 8) :=
    FTRP_ok _ x s (by simp only; omega) (by simp only; omega) (by simp only; omega)
      (by simp only; rw [w1]; omega) (by omega) (by omega)
  have e4 : GET_SIZE { h with mem := setWord h.mem (x - 4) s } (HDRP x) = .ok s := by
    rw [eH, GET_SIZE_ok _ _ (by simp only; omega) (by simp only; omega)]
    simp only
    rw [w1]
    have : 8 * (s / 8) = s := by omega
    rw [this]
  have e5 : PUT { h with mem := setWord h.mem (x - 4) s } (x + s - 8) (PACK s 0)
      = .ok { h with mem := setWord (setWord h.mem (x - 4) s) (x + s - 8) s } := by
    rw [PACK_zero]
    exact PUT_ok _ _ _ (by simp only; omega) (by simp only; omega)
  simp only [mm_free, e1, e2, e3, e4, e5, ok_bind, hc]
  rfl

/-- Source `mm_free(bp)` on an allocated block keeps the invariant and every
other allocated block. -/
theorem mm_free_keeps (h : Heap) (l : List (Nat × Nat)) (L : Nat → List Nat) (x s : Nat)
    (hI : SInv h l L) (hd : descr (h.seglist_start + 52) l x = some (s, 1)) :
    ∃ h' l' L', mm_free h x = .ok h' ∧ sameBounds h' h ∧ SInv h' l' L' ∧
      l'.length ≤ l.length ∧
      (∀ y t, y ≠ x → descr (h.seglist_start + 52) l y = some (t, 1) →
        descr (h.seglist_start + 52) l' y = some (t, 1)) := by
  obtain ⟨c, hseg⟩ := hI.blocks
  obtain ⟨pre, post, a, hl, hx, hpre, hblk, _, hpost⟩ := Segm_at h.mem l _ 1 _ c x (s, 1) hseg hd
  simp only at hpost
  have hB := hI.lists
  have hb := hI.base
  have hlo := hB.lo
  have hhi := hB.hi
  have b1 : s % 8 = 0 := hblk.1
  have b2 : 16 ≤ s := hblk.2.1
  have b4 : getw h.mem (x - 4) = s + 1 := hblk.2.2.2.1
  have hE := Segm_span _ _ _ _ _ _ hpost
  have hfree : ∀ i, i < 10 → ∀ y, y ∈ L i ↔
      ∃ t, descr (h.seglist_start + 52) (pre ++ ((s, 1) :: post)) y = some (t, 0) ∧
        LIST_OFFSET t = i := by
    rw [← hl]; exact hI.free
  have hent := pend_entries h.mem L pre post _ x s a _ c hpre hpost hfree
  have hxlo : h.seglist_start + 52 ≤ x ∧ x + s ≤ h.mem_brk := by
    clear b4; omega
  obtain ⟨m2, hm2⟩ : ∃ m2, m2 = setWord (setWord h.mem (x - 4) s) (x + s - 8) s := ⟨_, rfl⟩
  have hlt : s % 4294967296 = s := Nat.mod_eq_of_lt (by clear b4; omega)
  have hfr2 : ∀ y, (y < x - 4 ∨ x ≤ y) → (y < x + s - 8 ∨ x + s - 4 ≤ y) → m2 y = h.mem y := by
    clear b4
    intro y h1 h2
    rw [hm2, setWord_other _ _ _ _ (by omega), setWord_other _ _ _ _ (by omega)]
  have w1 : getw m2 (x - 4) = s := by
    clear b4
    rw [hm2, getw_setWord_disj _ _ _ _ (by omega), getw_setWord_same, hlt]
  have w2 : getw m2 (x + s - 8) = s := by
    clear b4
    rw [hm2, getw_setWord_same, hlt]
  have hB2 : Buckets { h with mem := m2 } L := by
    clear b4 w1 w2
    refine Buckets_congr h _ L hB ⟨rfl, rfl, rfl, rfl, rfl, rfl⟩ ?_ ?_
    · intro y hy1 hy2
      exact hfr2 y (by omega) (by omega)
    · intro i hi z hz y hy1 hy2
      obtain ⟨t, t16, _, _, _, hc⟩ := hent i hi z hz
      exact hfr2 y (by omega) (by omega)
  have hb2 : SBase { h with mem := m2 } := by
    clear b4 w1 w2
    refine ⟨hb.seg, hb.top, hb.max, ?_, ?_, ?_⟩
    · refine Eq.trans ?_ hb.proh
      exact getw_of_bytes _ _ (h.seglist_start + 40)
        (fun y h1 h2 => hfr2 y (by omega) (by omega))
    · refine Eq.trans ?_ hb.prof
      exact getw_of_bytes _ _ (h.seglist_start + 44)
        (fun y h1 h2 => hfr2 y (by omega) (by omega))
    · refine Eq.trans ?_ hb.epi
      exact getw_of_bytes _ _ (h.mem_brk - 4)
        (fun y h1 h2 => hfr2 y (by omega) (by omega))
  have hpre2 : Segm m2 (h.seglist_start + 52) 1 pre x a := by
    clear b4 w1 w2
    exact Segm_frame_free h.mem m2 pre _ _ _ _ (by omega)
      (fun y h1 h2 _ => hfr2 y (by omega) (by omega)) hpre
  have hpost2 : Segm m2 (x + s) 1 post h.mem_brk c := by
    clear b4 w1 w2
    exact Segm_frame_free h.mem m2 post _ _ _ _ (by omega)
      (fun y h1 h2 _ => hfr2 y (by omega) (by omega)) hpost
  have hblk2 : Blk m2 x (s, 0) := ⟨b1, b2, Nat.zero_lt_two, w1, w2⟩
  obtain ⟨r, h', l', L', q1, q2, q3, q4, q5, q6⟩ := coalesce_keeps { h with mem := m2 } L pre post
    x s a c hB2 hb2 hpre2 hblk2 hpost2 hfree
  refine ⟨h', l', L', ?_, q2, q3, ?_, ?_⟩
  · have := mm_free_exec h x s (by clear b4 w1 w2; omega) hhi b1 b2 hxlo.2 b4 (r, h')
      (by rw [← hm2]; exact q1)
    exact this
  · rw [hl]
    simp only [List.length_append, List.length_cons]
    omega
  · intro y t hy h0
    rw [hl] at h0
    exact q6 y t hy h0

/-- The listed blocks of a consistent state relative to the free block `x`. -/
theorem free_entries (m : Nat → Nat) (L : Nat → List Nat) (pre post : List (Nat × Nat))
    (P x S a e c : Nat)
    (hpre : Segm m P 1 pre x a) (hpost : Segm m (x + S) 0 post e c) (hS : 16 ≤ S)
    (hfree : ∀ i, i < 10 → ∀ y, y ∈ L i ↔
      ∃ t, descr P (pre ++ ((S, 0) :: post)) y = some (t, 0) ∧ LIST_OFFSET t = i) :
    ∀ i, i < 10 → ∀ y ∈ L i, ∃ t, 16 ≤ t ∧
      descr P (pre ++ ((S, 0) :: post)) y = some (t, 0) ∧
      ((descr P pre y = some (t, 0) ∧ y + t ≤ x ∧ P ≤ y) ∨ y = x ∨
        (descr (x + S) post y = some (t, 0) ∧ x + S ≤ y ∧ y + t ≤ e)) := by
  intro i hi y hy
  obtain ⟨t, ht, hk⟩ := (hfree i hi y).mp hy
  have hM := Segm_span _ _ _ _ _ _ hpre
  have hE := Segm_span _ _ _ _ _ _ hpost
  rcases descr_cases pre post (S, 0) (t, 0) P y ht with ⟨h1, h2⟩ | ⟨h1, _⟩ | ⟨h1, h2⟩
  · have hp := Segm_pos _ _ _ _ _ _ hpre _ (descr_mem _ _ _ _ h1)
    have := descr_ge _ _ _ _ h1
    simp only at h2 hp
    exact ⟨t, hp.1, ht, Or.inl ⟨h1, by omega, this⟩⟩
  · have hp := Segm_pos _ _ _ _ _ _ hpre
    refine ⟨t, ?_, ht, Or.inr (Or.inl (by omega))⟩
    have hx : y = x := by omega
    subst hx
    rw [hM, descr_of_split pre post (S, 0) P (fun c hc => by
      have := (hp c hc).1; omega)] at ht
    cases ht
    exact hS
  · rw [← hM] at h1 h2
    simp only at h1 h2
    have hp := Segm_pos _ _ _ _ _ _ hpost _ (descr_mem _ _ _ _ h1)
    have := descr_end _ _ _ _ h1
    simp only at this hp
    exact ⟨t, hp.1, ht, Or.inr (Or.inr ⟨h1, h2, by omega⟩)⟩

/-- The first step of `place(bp, asize)` on a free block of a consistent state:
`delete(bp)` takes the block out of its list and leaves all headers and
footers as they are. -/
theorem place_prep (h : Heap) (L : Nat → List Nat) (pre post : List (Nat × Nat))
    (x S a c : Nat) (hB : Buckets h L) (hb : SBase h)
    (hpre : Segm h.mem (h.seglist_start + 52) 1 pre x a) (hblk : Blk h.mem x (S, 0))
    (hpost : Segm h.mem (x + S) 0 post h.mem_brk c)
    (hfree : ∀ i, i < 10 → ∀ y, y ∈ L i ↔
      ∃ t, descr (h.seglist_start + 52) (pre ++ ((S, 0) :: post)) y = some (t, 0) ∧
        LIST_OFFSET t = i) :
    ∃ m1, delete h x = .ok { h with mem := m1 } ∧
      Buckets { h with mem := m1 } (removeFrom L (LIST_OFFSET S) x) ∧
      GET_SIZE { h with mem := m1 } (HDRP x) = .ok S ∧
      (∀ y, h.seglist_start + 40 ≤ y →
        (∀ i, i < 10 → ∀ z ∈ L i, z ≠ x → y < z ∨ z + 8 ≤ y) → m1 y = h.mem y) ∧
      (∀ i, i < 10 → ∀ y, y ∈ removeFrom L (LIST_OFFSET S) x i ↔ y ∈ L i ∧ y ≠ x) := by
  have b1 : S % 8 = 0 := hblk.1
  have b2 : 16 ≤ S := hblk.2.1
  have b4 : getw h.mem (x - 4) = S := hblk.2.2.2.1
  have hM := Segm_span _ _ _ _ _ _ hpre
  have hE := Segm_span _ _ _ _ _ _ hpost
  have hp0 := Segm_pos0 _ _ _ _ _ _ hpre
  have hk : LIST_OFFSET S < 10 := by
    have := LIST_OFFSET_le S; omega
  have hdx : descr (h.seglist_start + 52) (pre ++ ((S, 0) :: post)) x = some (S, 0) := by
    rw [hM]; exact descr_of_split pre post (S, 0) _ hp0
  have hbx := free_bucket L _ _ _ _ hfree hdx
  have hent := free_entries h.mem L pre post _ x S a _ c hpre hpost b2 hfree
  have hlo := hB.lo
  have hhi := hB.hi
  have hsz : 8 * (S / 8) = S := by omega
  obtain ⟨m1, hdel, hB1, hfr1⟩ := delete_spec h L x _ hB hk hbx.1 (by rw [b4, hsz])
  have hfr : ∀ y, h.seglist_start + 40 ≤ y →
      (∀ i, i < 10 → ∀ z ∈ L i, z ≠ x → y < z ∨ z + 8 ≤ y) → m1 y = h.mem y :=
    fun y hy hz => hfr1 y (Or.inr hy) hz
  have hhdr1 : getw m1 (x - 4) = S := by
    refine Eq.trans ?_ b4
    clear b4
    refine getw_of_bytes _ _ (x - 4) (fun y h1 h2 => hfr y (by omega) ?_)
    intro i hi z hz hne
    obtain ⟨t, t16, _, hc⟩ := hent i hi z hz
    omega
  refine ⟨m1, hdel, hB1, ?_, hfr, ?_⟩
  · clear b4
    rw [HDRP_eq x (by omega) (by omega),
      GET_SIZE_ok _ _ (by simp only; omega) (by simp only; omega)]
    simp only
    rw [hhdr1, hsz]
  · intro i hi y
    exact mem_removeFrom_free L _ _ i y (hB.nodup _ hk) (fun hy => hbx.2 i hi hy)

/-- Source `place(bp, asize)` when the rest is smaller than a minimum block. -/
theorem place_keeps_whole (h : Heap) (L : Nat → List Nat) (pre post : List (Nat × Nat))
    (x S a c asz : Nat) (hB : Buckets h L) (hb : SBase h)
    (hpre : Segm h.mem (h.seglist_start + 52) 1 pre x a) (hblk : Blk h.mem x (S, 0))
    (hpost : Segm h.mem (x + S) 0 post h.mem_brk c)
    (hfree : ∀ i, i < 10 → ∀ y, y ∈ L i ↔
      ∃ t, descr (h.seglist_start + 52) (pre ++ ((S, 0) :: post)) y = some (t, 0) ∧
        LIST_OFFSET t = i)
    (has : asz ≤ S) (hlt : S - asz < 16) :
    ∃ h', place h x asz = .ok h' ∧ sameBounds h' h ∧
      SInv h' (pre ++ ([(S, 1)] ++ post)) (removeFrom L (LIST_OFFSET S) x) := by
  have b1 : S % 8 = 0 := hblk.1
  have b2 : 16 ≤ S := hblk.2.1
  have hM := Segm_span _ _ _ _ _ _ hpre
  have hE := Segm_span _ _ _ _ _ _ hpost
  have hp0 := Segm_pos0 _ _ _ _ _ _ hpre
  have hlo := hB.lo
  have hhi := hB.hi
  have hent := free_entries h.mem L pre post _ x S a _ c hpre hpost b2 hfree
  obtain ⟨m1, hdel, hB1, hsize, hfr1, hmem1⟩ := place_prep h L pre post x S a c hB hb hpre hblk
    hpost hfree
  have hcond : ¬ (sub32 S asz ≥ MINBLOCKSIZE) := by
    rw [sub32_eq S asz has (by omega)]
    unfold MINBLOCKSIZE
    omega
  have hs32 : (S + 1) % 4294967296 = S + 1 := Nat.mod_eq_of_lt (by omega)
  obtain ⟨m2, hm2⟩ : ∃ m, m = setWord m1 (x - 4) (S + 1) := ⟨_, rfl⟩
  obtain ⟨m3, hm3⟩ : ∃ m, m = setWord m2 (x + S - 8) (S + 1) := ⟨_, rfl⟩
  have w2 : getw m2 (x - 4) = S + 1 := by rw [hm2, getw_setWord_same, hs32]
  have ep1 : PUT { h with mem := m1 } (HDRP x) (PACK S 1) = .ok { h with mem := m2 } := by
    clear w2
    rw [HDRP_eq x (by omega) (by omega), PACK_one S b1, hm2]
    exact PUT_ok _ _ _ (by simp only; omega) (by simp only; omega)
  have ef : FTRP { h with mem := m2 } x = .ok (x + S - 8) := by
    refine FTRP_ok _ x S (by simp only; omega) (by simp only; omega) (by simp only; omega)
      ?_ (by omega) (by omega)
    simp only
    rw [w2]
    clear w2
    omega
  have ep2 : PUT { h with mem := m2 } (x + S - 8) (PACK S 1) = .ok { h with mem := m3 } := by
    clear w2
    rw [PACK_one S b1, hm3]
    exact PUT_ok _ _ _ (by simp only; omega) (by simp only; omega)
  have w3 : getw m3 (x - 4) = S + 1 := by
    clear w2
    rw [hm3, hm2, getw_setWord_disj _ _ _ _ (by omega), getw_setWord_same, hs32]
  have w4 : getw m3 (x + S - 8) = S + 1 := by
    rw [hm3, getw_setWord_same, hs32]
  clear w2
  have hfr3 : ∀ y, (y < x - 4 ∨ x + S - 4 ≤ y) → m3 y = m1 y := by
    clear w3 w4
    intro y hy
    rw [hm3, hm2, setWord_other _ _ _ _ (by omega), setWord_other _ _ _ _ (by omega)]
  have hBk : Buckets { h with mem := m3 } (removeFrom L (LIST_OFFSET S) x) := by
    clear w3 w4
    refine Buckets_congr _ _ _ hB1 ⟨rfl, rfl, rfl, rfl, rfl, rfl⟩ ?_ ?_
    · intro y hy1 hy2
      simp only at hy1 hy2 ⊢
      exact hfr3 y (by omega)
    · intro i hi z hz y hy1 hy2
      obtain ⟨hz1, hz2⟩ := (hmem1 i hi z).mp hz
      obtain ⟨t, t16, _, hc⟩ := hent i hi z hz1
      simp only
      exact hfr3 y (by omega)
  have espan : x + span [(S, 0)] = x + S := by simp only [span, Nat.add_zero]
  refine ⟨{ h with mem := m3 }, ?_, ⟨rfl, rfl, rfl, rfl, rfl, rfl⟩, ?_⟩
  · simp only [place, hdel, ok_bind, hsize, if_neg hcond, ep1, ef, ep2]
  refine SInv_replace h { h with mem := m3 } L _ pre [(S, 0)] [(S, 1)] post x a 1 hb ?_
    ⟨rfl, rfl, rfl, rfl, rfl, rfl⟩ hBk rfl hpre ?_ ?_ ?_ ?_
  · intro i hi y hy
    obtain ⟨t, t16, ht, _⟩ := hent i hi y hy
    exact ⟨t, ht, t16⟩
  · rw [espan]
    exact ⟨⟨b1, b2, Nat.one_lt_two, w3, w4⟩, fun e => absurd e Nat.one_ne_zero, rfl, rfl⟩
  · rw [espan]
    exact Segm_reflag _ _ _ _ 1 _ _ hpost (fun _ _ _ _ => rfl)
  · clear w3 w4
    intro y hy1 hy2 hy3
    rw [espan] at hy2
    simp only
    rw [hfr3 y hy2]
    exact hfr1 y hy1 (fun i hi z hz _ => hy3 i hi z hz)
  · clear w3 w4
    refine free_replace L _ pre [(S, 0)] [(S, 1)] post _ rfl hp0 ?_ ?_ hfree ?_
    · intro c hc
      simp only [List.mem_singleton] at hc
      rw [hc]; simp only; omega
    · intro c hc
      simp only [List.mem_singleton] at hc
      rw [hc]; simp only; omega
    · intro i hi y
      rw [hmem1 i hi y, ← hM]
      simp only [descr]
      by_cases e1 : y = x
      · rw [if_pos e1, if_pos e1]
        constructor
        · rintro ⟨_, hne⟩
          exact absurd e1 hne
        · rintro (⟨t, ht, _⟩ | ⟨_, hn⟩)
          · cases ht
          · cases hn
      · rw [if_neg e1, if_neg e1]
        constructor
        · rintro ⟨hy, _⟩
          exact Or.inr ⟨hy, rfl⟩
        · rintro (⟨t, ht, _⟩ | ⟨hy, _⟩)
          · cases ht
          · exact ⟨hy, e1⟩

/-- Source `place(bp, asize)` when the rest is at least a minimum block. -/
theorem place_keeps_split (h : Heap) (L : Nat → List Nat) (pre post : List (Nat × Nat))
    (x S a c asz : Nat) (hB : Buckets h L) (hb : SBase h)
    (hpre : Segm h.mem (h.seglist_start + 52) 1 pre x a) (hblk : Blk h.mem x (S, 0))
    (hpost : Segm h.mem (x + S) 0 post h.mem_brk c)
    (hfree : ∀ i, i < 10 → ∀ y, y ∈ L i ↔
      ∃ t, descr (h.seglist_start + 52) (pre ++ ((S, 0) :: post)) y = some (t, 0) ∧
        LIST_OFFSET t = i)
    (ha8 : asz % 8 = 0) (ha16 : 16 ≤ asz) (hsplit : asz + 16 ≤ S) :
    ∃ h' l' L', place h x asz = .ok h' ∧ sameBounds h' h ∧ SInv h' l' L' ∧
      l'.length ≤ pre.length + 2 + post.length ∧
      descr (h.seglist_start + 52) l' x = some (asz, 1) ∧
      (∀ y t, descr (h.seglist_start + 52) (pre ++ ((S, 0) :: post)) y = some (t, 1) →
        descr (h.seglist_start + 52) l' y = some (t, 1)) := by
  have b1 : S % 8 = 0 := hblk.1
  have b2 : 16 ≤ S := hblk.2.1
  have hM := Segm_span _ _ _ _ _ _ hpre
  have hE := Segm_span _ _ _ _ _ _ hpost
  have hp0 := Segm_pos0 _ _ _ _ _ _ hpre
  have hlo := hB.lo
  have hhi := hB.hi
  have hent := free_entries h.mem L pre post _ x S a _ c hpre hpost b2 hfree
  obtain ⟨m1, hdel, hB1, hsize, hfr1, hmem1⟩ := place_prep h L pre post x S a c hB hb hpre hblk
    hpost hfree
  have hcond : sub32 S asz ≥ MINBLOCKSIZE := by
    rw [sub32_eq S asz (by omega) (by omega)]
    unfold MINBLOCKSIZE
    omega
  obtain ⟨m2, m3, m4, m5, ep1, ef2, ep2, en3, ep3, en4, ef4, ep4, en5, w1, w2, w3, w4, hfr5⟩ :=
    place_stores h m1 x S asz (by omega) hhi (by omega) b1 ha8 (by omega) hsplit
  -- the memory after the four stores against the memory before `place`
  have hfr : ∀ y, h.seglist_start + 40 ≤ y → (y < x - 4 ∨ x + S - 4 ≤ y) →
      (∀ i, i < 10 → ∀ z ∈ L i, z ≠ x → y < z ∨ z + 8 ≤ y) → m5 y = h.mem y := by
    clear w1 w2 w3 w4
    intro y hy1 hy2 hy3
    rw [hfr5 y hy2]
    exact hfr1 y hy1 hy3
  have hB5 : Buckets { h with mem := m5 } (removeFrom L (LIST_OFFSET S) x) := by
    clear w1 w2 w3 w4
    refine Buckets_congr _ _ _ hB1 ⟨rfl, rfl, rfl, rfl, rfl, rfl⟩ ?_ ?_
    · intro y hy1 hy2
      simp only at hy1 hy2 ⊢
      exact hfr5 y (by omega)
    · intro i hi z hz y hy1 hy2
      obtain ⟨hz1, hz2⟩ := (hmem1 i hi z).mp hz
      obtain ⟨t, t16, _, hc⟩ := hent i hi z hz1
      simp only
      exact hfr5 y (by omega)
  have hout : ∀ y, h.seglist_start + 40 ≤ y → (y < x - 4 ∨ x + S - 4 ≤ y) →
      (y < h.seglist_start + 48 ∨ h.mem_brk - 4 ≤ y) → m5 y = h.mem y := by
    clear w1 w2 w3 w4
    intro y hy1 hy2 hy3
    refine hfr y hy1 hy2 ?_
    intro i hi z hz _
    obtain ⟨t, t16, _, hc⟩ := hent i hi z hz
    omega
  have hb5 : SBase { h with mem := m5 } := by
    clear w1 w2 w3 w4
    refine ⟨hb.seg, hb.top, hb.max, ?_, ?_, ?_⟩
    · refine Eq.trans ?_ hb.proh
      exact getw_of_bytes _ _ (h.seglist_start + 40)
        (fun y h1 h2 => hout y (by omega) (by omega) (by omega))
    · refine Eq.trans ?_ hb.prof
      exact getw_of_bytes _ _ (h.seglist_start + 44)
        (fun y h1 h2 => hout y (by omega) (by omega) (by omega))
    · refine Eq.trans ?_ hb.epi
      exact getw_of_bytes _ _ (h.mem_brk - 4)
        (fun y h1 h2 => hout y (by omega) (by omega) (by omega))
  have hpre5 : Segm m5 (h.seglist_start + 52) 1 pre x a := by
    clear w1 w2 w3 w4
    refine Segm_frame_free h.mem m5 pre _ _ _ _ (by omega) ?_ hpre
    intro y hy1 hy2 hfree1
    refine hfr y (by omega) (by omega) ?_
    intro i hi z hz hne
    obtain ⟨t, t16, _, hc⟩ := hent i hi z hz
    rcases hc with ⟨hc1, _, _⟩ | hc | ⟨_, hc2, _⟩
    · exact hfree1 z t hc1
    · exact absurd hc hne
    · omega
  have hpost5 : ∃ c2, Segm m5 (x + asz + (S - asz)) 1 post h.mem_brk c2 := by
    clear w1 w2 w3 w4
    have e : x + asz + (S - asz) = x + S := by omega
    rw [e]
    obtain ⟨c2, hp2⟩ := Segm_reflag _ _ _ _ 1 _ _ hpost (fun _ _ _ _ => rfl)
    refine ⟨c2, Segm_frame_free h.mem m5 post _ _ _ _ (by omega) ?_ hp2⟩
    intro y hy1 hy2 hfree1
    refine hfr y (by omega) (by omega) ?_
    intro i hi z hz hne
    obtain ⟨t, t16, _, hc⟩ := hent i hi z hz
    rcases hc with ⟨_, hc2, _⟩ | hc | ⟨hc1, _, _⟩
    · omega
    · exact absurd hc hne
    · exact hfree1 z t hc1
  obtain ⟨c2, hpost5⟩ := hpost5
  have hblk5 : Blk m5 (x + asz) (S - asz, 0) := by
    refine ⟨by clear w1 w2 w3 w4; simp only; omega, by clear w1 w2 w3 w4; simp only; omega,
      Nat.zero_lt_two, w3, ?_⟩
    refine Eq.trans ?_ w4
    have e : x + asz + (S - asz, 0).1 - 8 = x + S - 8 := by
      clear w1 w2 w3 w4
      simp only
      omega
    rw [e]
  have hpre6 : Segm m5 (h.seglist_start + 52) 1 (pre ++ [(asz, 1)]) (x + asz) 1 :=
    (Segm_append _ _ _ _ _ _ _).mpr ⟨x, a, hpre5,
      ⟨ha8, ha16, Nat.one_lt_two, w1, w2⟩, fun e => absurd e Nat.one_ne_zero, rfl, rfl⟩
  clear w1 w2 w3 w4
  have hspan2 : span [(asz, 1), (S - asz, 1)] = span [(S, 0)] := by
    simp only [span, Nat.add_zero]; omega
  have hpos2 : ∀ c ∈ [(asz, 1), (S - asz, 1)], 0 < c.1 := by
    intro c hc
    simp only [List.mem_cons, List.mem_singleton, List.not_mem_nil, or_false] at hc
    rcases hc with e | e <;> rw [e] <;> simp only <;> omega
  have hfree5 : ∀ i, i < 10 → ∀ y, y ∈ removeFrom L (LIST_OFFSET S) x i ↔
      ∃ t, descr (h.seglist_start + 52) ((pre ++ [(asz, 1)]) ++ ((S - asz, 1) :: post)) y
        = some (t, 0) ∧ LIST_OFFSET t = i := by
    have key := free_replace L (removeFrom L (LIST_OFFSET S) x) pre [(S, 0)]
      [(asz, 1), (S - asz, 1)] post _ hspan2 hp0
      (fun c hc => by
        simp only [List.mem_singleton] at hc
        rw [hc]; simp only; omega) hpos2 hfree (by
        intro i hi y
        rw [hmem1 i hi y, ← hM]
        simp only [descr]
        by_cases e1 : y = x
        · rw [if_pos e1, if_pos e1]
          constructor
          · rintro ⟨_, hne⟩
            exact absurd e1 hne
          · rintro (⟨t, ht, _⟩ | ⟨_, hn⟩)
            · cases ht
            · cases hn
        · rw [if_neg e1, if_neg e1]
          by_cases e2 : y = x + asz
          · rw [if_pos e2]
            constructor
            · rintro ⟨hy, _⟩
              exfalso
              obtain ⟨t, t16, _, hc⟩ := hent i hi y hy
              omega
            · rintro (⟨t, ht, _⟩ | ⟨hy, _⟩)
              · cases ht
              · exfalso
                obtain ⟨t, t16, _, hc⟩ := hent i hi y hy
                omega
          · rw [if_neg e2]
            constructor
            · rintro ⟨hy, _⟩
              exact Or.inr ⟨hy, rfl⟩
            · rintro (⟨t, ht, _⟩ | ⟨hy, _⟩)
              · cases ht
              · exact ⟨hy, e1⟩)
    intro i hi y
    rw [key i hi y, List.append_assoc]
    rfl
  obtain ⟨r, h', l', L', q1, q2, q3, q4, q5, q6⟩ := coalesce_keeps { h with mem := m5 } _
    (pre ++ [(asz, 1)]) post (x + asz) (S - asz) 1 c2 hB5 hb5 hpre6 hblk5 hpost5 hfree5
  have hre : ∀ y t, descr (h.seglist_start + 52) (pre ++ ([(asz, 1), (S - asz, 1)] ++ post)) y
      = some (t, 1) → y ≠ x + asz →
      descr (h.seglist_start + 52) l' y = some (t, 1) := by
    intro y t h0 hy
    refine q6 y t hy ?_
    rw [List.append_assoc]
    exact h0
  refine ⟨h', l', L', ?_, q2, q3, ?_, ?_, ?_⟩
  · simp only [place, hdel, ok_bind, hsize, if_pos hcond, ep1, ef2, ep2, en3, ep3, en4, ef4,
      ep4, en5, q1]
    rfl
  · simp only [List.length_append, List.length_cons, List.length_nil] at q4
    omega
  · refine hre x asz ?_ (by omega)
    refine descr_in_run pre _ post _ x _ hp0 (by omega) ?_
    rw [← hM]
    simp only [descr]
    exact if_pos trivial
  · intro y t h0
    have hyx : y ≠ x ∧ y ≠ x + asz := by
      rcases descr_cases pre post (S, 0) (t, 1) _ y h0 with ⟨h1, h2⟩ | ⟨_, h2⟩ | ⟨h1, h2⟩
      · have := descr_pos _ _ _ _ hp0 h1
        simp only at h2 this
        omega
      · cases h2
      · omega
    refine hre y t ?_ hyx.2
    exact alloc_replace pre [(S, 0)] [(asz, 1), (S - asz, 1)] post _ y t hspan2 hp0 hpos2 h0
      (Or.inl (by rw [← hM]; exact descr_single x S 0 y hyx.1))

/-- Source `place(bp, asize)` on a free block of at least `asize` bytes keeps the
invariant and every allocated block, and leaves `bp` allocated with at least
`asize` bytes. -/
theorem place_keeps (h : Heap) (l : List (Nat × Nat)) (L : Nat → List Nat) (x S asz : Nat)
    (hI : SInv h l L) (hd : descr (h.seglist_start + 52) l x = some (S, 0))
    (ha8 : asz % 8 = 0) (ha16 : 16 ≤ asz) (hle : asz ≤ S) :
    ∃ h' l' L', place h x asz = .ok h' ∧ sameBounds h' h ∧ SInv h' l' L' ∧
      l'.length ≤ l.length + 1 ∧
      (∃ A, descr (h.seglist_start + 52) l' x = some (A, 1) ∧ asz ≤ A) ∧
      (∀ y t, descr (h.seglist_start + 52) l y = some (t, 1) →
        descr (h.seglist_start + 52) l' y = some (t, 1)) := by
  obtain ⟨c, hseg⟩ := hI.blocks
  obtain ⟨pre, post, a, hl, hx, hpre, hblk, _, hpost⟩ := Segm_at h.mem l _ 1 _ c x (S, 0) hseg hd
  simp only at hpost
  have hp0 := Segm_pos0 _ _ _ _ _ _ hpre
  have hS : 16 ≤ S := hblk.2.1
  have hfree : ∀ i, i < 10 → ∀ y, y ∈ L i ↔
      ∃ t, descr (h.seglist_start + 52) (pre ++ ((S, 0) :: post)) y = some (t, 0) ∧
        LIST_OFFSET t = i := by
    rw [← hl]; exact hI.free
  by_cases hsplit : asz + 16 ≤ S
  · obtain ⟨h', l', L', q1, q2, q3, q4, q5, q6⟩ := place_keeps_split h L pre post x S a c asz
      hI.lists hI.base hpre hblk hpost hfree ha8 ha16 hsplit
    refine ⟨h', l', L', q1, q2, q3, ?_, ⟨asz, q5, Nat.le_refl _⟩, ?_⟩
    · rw [hl]
      simp only [List.length_append, List.length_cons]
      omega
    · intro y t h0
      rw [hl] at h0
      exact q6 y t h0
  · obtain ⟨h', q1, q2, q3⟩ := place_keeps_whole h L pre post x S a c asz
      hI.lists hI.base hpre hblk hpost hfree hle (by omega)
    refine ⟨h', _, _, q1, q2, q3, ?_, ⟨S, ?_, hle⟩, ?_⟩
    · rw [hl]
      simp only [List.length_append, List.length_cons, List.length_nil]
      omega
    · refine descr_in_run pre _ post _ x _ hp0 (by omega) ?_
      rw [← hx]
      simp only [descr]
      exact if_pos trivial
    · intro y t h0
      rw [hl] at h0
      have hyx : y ≠ x := by
        intro e
        subst e
        rw [hl] at hd
        rw [hd] at h0
        cases h0
      exact alloc_replace pre [(S, 0)] [(S, 1)] post _ y t rfl hp0
        (fun c hc => by
          simp only [List.mem_singleton] at hc
          rw [hc]; simp only; omega) h0
        (Or.inl (by rw [← hx]; exact descr_single x S 0 y hyx))

/-- The invariant does not depend on the scratch variable `freelist_headp`. -/
theorem SInv_arena (h h2 : Heap) (l : List (Nat × Nat)) (L : Nat → List Nat)
    (hs : sameArena h2 h) (hI : SInv h l L) : SInv h2 l L := by
  obtain ⟨e0, e1, e2, e3, e4, e5, e6⟩ := hs
  have hb := hI.base
  refine ⟨Buckets_congr h h2 L hI.lists ⟨e1, e2, e3, e4, e5, e6⟩ (fun a _ _ => by rw [e0])
    (fun i _ x _ a _ _ => by rw [e0]), ⟨?_, ?_, ?_, ?_, ?_, ?_⟩, ?_, ?_⟩
  · rw [e5, e4]; exact hb.seg
  · rw [e2, e3]; exact hb.top
  · rw [e3]; exact hb.max
  · rw [e0, e5]; exact hb.proh
  · rw [e0, e5]; exact hb.prof
  · rw [e0, e2]; exact hb.epi
  · rw [e0, e5, e2]; exact hI.blocks
  · rw [e5]; exact hI.free

/-- Source `extend_heap(words)` when the growth fails. -/
theorem extend_heap_fails (h : Heap) (words : Nat)
    (hf : 2147483648 ≤ extend_size words ∨ h.mem_max_addr < h.mem_brk + extend_size words) :
    extend_heap h words = .ok (NULL, h) := by
  unfold extend_heap mem_sbrk
  simp only
  rw [if_pos hf]
  rfl

/-- Source `extend_heap(words)` when the growth succeeds: the invariant holds
afterwards, the returned block is a free block that contains the new extent,
and every allocated block is still allocated. -/
theorem extend_heap_keeps (h : Heap) (l : List (Nat × Nat)) (L : Nat → List Nat)
    (words sz : Nat) (hI : SInv h l L) (hsz : extend_size words = sz) (hs8 : sz % 8 = 0)
    (hs16 : 16 ≤ sz) (hs31 : sz < 2147483648) (hfit : h.mem_brk + sz ≤ h.mem_max_addr) :
    ∃ r h' l' L', extend_heap h words = .ok (r, h') ∧ SInv h' l' L' ∧
      h'.seglist_start = h.seglist_start ∧ h'.heap_listp = h.heap_listp ∧
      h'.mem_start_brk = h.mem_start_brk ∧ h'.mem_max_addr = h.mem_max_addr ∧
      l'.length ≤ l.length + 1 ∧ r ≠ NULL ∧
      (∃ T, descr (h.seglist_start + 52) l' r = some (T, 0) ∧ sz ≤ T) ∧
      (∀ y t, descr (h.seglist_start + 52) l y = some (t, 1) →
        descr (h.seglist_start + 52) l' y = some (t, 1)) ∧
      (∀ t, descr (h.seglist_start + 52) l r ≠ some (t, 1)) := by
  obtain ⟨c, hseg⟩ := hI.blocks
  have hB := hI.lists
  have hb := hI.base
  have hE := Segm_span _ _ _ _ _ _ hseg
  have hp0 := Segm_pos0 _ _ _ _ _ _ hseg
  have hmax := hb.max
  have hent : ∀ i, i < 10 → ∀ x ∈ L i, x + 16 ≤ h.mem_brk ∧ h.seglist_start + 52 ≤ x := by
    intro i hi x hx
    obtain ⟨t, ht, _⟩ := (hI.free i hi x).mp hx
    have h1 := descr_end _ _ _ _ ht
    have h2 := descr_ge _ _ _ _ ht
    have h3 := (Segm_pos _ _ _ _ _ _ hseg _ (descr_mem _ _ _ _ ht)).1
    simp only at h1 h3
    omega
  obtain ⟨m3, hext, w1, w2, w3, hB3, hfr3⟩ := extend_heap_stores h L words sz hB hsz hs8 hs16
    hs31 hmax hfit (by omega) (fun i hi x hx => by
      have := hent i hi x hx
      omega)
  have hb3 : SBase { h with mem_brk := h.mem_brk + sz, mem := m3 } := by
    refine ⟨hb.seg, hfit, hb.max, ?_, ?_, w3⟩
    · refine Eq.trans ?_ hb.proh
      clear w1 w2 w3
      exact getw_of_bytes _ _ (h.seglist_start + 40) (fun y h1 h2 => hfr3 y (by omega))
    · refine Eq.trans ?_ hb.prof
      clear w1 w2 w3
      exact getw_of_bytes _ _ (h.seglist_start + 44) (fun y h1 h2 => hfr3 y (by omega))
  have hpre3 : Segm m3 (h.seglist_start + 52) 1 l h.mem_brk c := by
    clear w1 w2 w3
    exact Segm_frame_free h.mem m3 l _ _ _ _ (by omega) (fun y _ h2 _ => hfr3 y h2) hseg
  have hblk3 : Blk m3 h.mem_brk (sz, 0) := ⟨hs8, hs16, Nat.zero_lt_two, w1, w2⟩
  clear w1 w2 w3
  have hfree3 : ∀ i, i < 10 → ∀ y, y ∈ L i ↔
      ∃ t, descr (h.seglist_start + 52) (l ++ ((sz, 1) :: [])) y = some (t, 0) ∧
        LIST_OFFSET t = i := by
    intro i hi y
    rw [hI.free i hi y, descr_append]
    cases hp : descr (h.seglist_start + 52) l y with
    | some b => rfl
    | none =>
      change (∃ t, none = some (t, 0) ∧ LIST_OFFSET t = i) ↔
        ∃ t, descr (h.seglist_start + 52 + span l) [(sz, 1)] y = some (t, 0) ∧ LIST_OFFSET t = i
      simp only [descr]
      constructor
      · rintro ⟨t, ht, _⟩
        cases ht
      · rintro ⟨t, ht, _⟩
        by_cases e : y = h.seglist_start + 52 + span l
        · rw [if_pos e] at ht
          cases ht
        · rw [if_neg e] at ht
          cases ht
  obtain ⟨r, h', l', L', q1, q2, q3, q4, q5, q6⟩ := coalesce_keeps
    { h with mem_brk := h.mem_brk + sz, mem := m3 } L l [] h.mem_brk sz c 1 hB3 hb3 hpre3 hblk3
    ⟨rfl, rfl⟩ hfree3
  obtain ⟨e1, e2, e3, e4, e5, e6⟩ := q2
  simp only at e1 e2 e3 e4 e5 e6 q5 q6
  obtain ⟨T, hT, hTle⟩ := q5
  have hlive : ∀ y t, descr (h.seglist_start + 52) l y = some (t, 1) →
      descr (h.seglist_start + 52) (l ++ [(sz, 1)]) y = some (t, 1) ∧ y + 1 ≤ h.mem_brk := by
    intro y t h0
    have h1 := descr_end _ _ _ _ h0
    have h2 := descr_pos _ _ _ _ hp0 h0
    simp only at h1 h2
    refine ⟨?_, by omega⟩
    rw [descr_append, h0]
  refine ⟨r, h', l', L', by rw [hext]; exact q1, q3, e5, e4, e1, e3, ?_, ?_, ⟨T, hT, hTle⟩, ?_,
    ?_⟩
  · simp only [List.length_nil] at q4
    omega
  · have := descr_ge _ _ _ _ hT
    unfold NULL
    omega
  · intro y t h0
    obtain ⟨h1, h2⟩ := hlive y t h0
    exact q6 y t (by omega) h1
  · intro t h0
    obtain ⟨h1, h2⟩ := hlive r t h0
    have h3 := q6 r t (by omega) h1
    rw [hT] at h3
    cases h3

/-- Every block of a layout has at least 16 bytes. -/
theorem Segm_len (m : Nat → Nat) (l : List (Nat × Nat)) :
    ∀ p a q c, Segm m p a l q c → 16 * l.length ≤ span l := by
  induction l with
  | nil => intro p a q c _; simp only [List.length_nil, span]; omega
  | cons b l ih =>
    intro p a q c h
    have h1 := ih _ _ _ _ h.2.2
    have h2 := h.1.2.1
    simp only [List.length_cons, span]
    omega

/-- A block start of a layout is the end of one of its proper prefixes. -/
theorem descr_index (l : List (Nat × Nat)) :
    ∀ p x b, descr p l x = some b →
      x ∈ (List.range l.length).map (fun k => p + span (l.take k)) := by
  induction l with
  | nil => intro p x b h; simp [descr] at h
  | cons c l ih =>
    intro p x b h
    simp only [descr] at h
    rw [List.mem_map]
    by_cases e : x = p
    · exact ⟨0, List.mem_range.mpr (by simp only [List.length_cons]; omega), by
        simp only [List.take_zero, span]; omega⟩
    · rw [if_neg e] at h
      obtain ⟨k, hk, hx⟩ := List.mem_map.mp (ih _ _ _ h)
      refine ⟨k + 1, List.mem_range.mpr ?_, ?_⟩
      · have := List.mem_range.mp hk
        simp only [List.length_cons]
        omega
      · simp only [List.take_succ_cons, span]
        omega

/-- A bucket list is no longer than the block layout. -/
theorem bucket_len (h : Heap) (l : List (Nat × Nat)) (L : Nat → List Nat) (hI : SInv h l L)
    (i : Nat) (hi : i < 10) : (L i).length ≤ l.length := by
  have hsub : L i ⊆ (List.range l.length).map
      (fun k => h.seglist_start + 52 + span (l.take k)) := by
    intro x hx
    obtain ⟨t, ht, _⟩ := (hI.free i hi x).mp hx
    exact descr_index l _ x _ ht
  have := (List.subperm_of_subset (hI.lists.nodup i hi) hsub).length_le
  simpa using this

/-- The header of a block of the layout holds its size. -/
theorem SInv_size (h : Heap) (l : List (Nat × Nat)) (L : Nat → List Nat) (hI : SInv h l L)
    (x s a : Nat) (hd : descr (h.seglist_start + 52) l x = some (s, a)) :
    GET_SIZE h (HDRP x) = .ok s ∧ GET_ALLOC h (HDRP x) = .ok a := by
  obtain ⟨c, hseg⟩ := hI.blocks
  obtain ⟨pre, post, a0, hl, hx, hpre, hblk, _, hpost⟩ := Segm_at h.mem l _ 1 _ c x (s, a) hseg hd
  have h1 := descr_ge _ _ _ _ hd
  have h2 := descr_end _ _ _ _ hd
  have hE := Segm_span _ _ _ _ _ _ hseg
  have hlo := hI.lists.lo
  have hhi := hI.lists.hi
  have h8 := hblk.1
  have h16 := hblk.2.1
  have ha := hblk.2.2.1
  have hw := hblk.2.2.2.1
  simp only at h2 h8 h16 ha hw
  have k1 : 8 * ((s + a) / 8) = s := by clear hw; omega
  have k2 : (s + a) % 2 = a := by clear hw; omega
  have k3 : h.mem_start_brk ≤ x - 4 := by clear hw; omega
  have k4 : x - 4 + 4 ≤ h.mem_brk := by clear hw; omega
  have e : HDRP x = x - 4 := HDRP_eq x (by clear hw; omega) (by clear hw; omega)
  rw [e, GET_SIZE_ok h _ k3 k4, GET_ALLOC_ok h _ k3 k4, hw, k1, k2]
  exact ⟨rfl, rfl⟩

/-- Source `find_fit(asize)` under the invariant: it returns; a block it
returns is a free block of at least `asize` bytes. -/
theorem find_fit_keeps (fuel : Nat) (h : Heap) (l : List (Nat × Nat)) (L : Nat → List Nat)
    (a : Nat) (hI : SInv h l L) (hf : l.length ≤ fuel) :
    ∃ r h', find_fit fuel h a = .ok (r, h') ∧ sameArena h' h ∧
      (r ≠ NULL → ∃ S, descr (h.seglist_start + 52) l r = some (S, 0) ∧ a ≤ S) := by
  have hL : ∀ i, i < 10 → bucket fuel h i = .ok (L i) := fun i hi =>
    bucket_of_Buckets h L hI.lists fuel i hi (Nat.le_trans (bucket_len h l L hI i hi) hf)
  have hsz : ∀ i, i < 10 → ∀ x ∈ L i,
      GET_SIZE h (HDRP x) = .ok ((fun y => 8 * (getw h.mem (y - 4) / 8)) x) := by
    intro i hi x hx
    have h1 := hI.lists.arena i hi x hx
    have hlo := hI.lists.lo
    have hhi := hI.lists.hi
    rw [HDRP_eq x (by omega) (by omega), GET_SIZE_ok h _ (by omega) (by omega)]
  obtain ⟨r, h', q1, q2, _, q4⟩ := find_fit_correct fuel h a L _ hL hsz
  refine ⟨r, h', q1, q2, ?_⟩
  intro hr
  obtain ⟨i, pre, post, hi, hLi, _, hle, _⟩ := q4 hr
  have hmem : r ∈ L i := by rw [hLi]; simp
  obtain ⟨t, ht, _⟩ := (hI.free i hi r).mp hmem
  refine ⟨t, ht, ?_⟩
  have h1 := (SInv_size h l L hI r t 0 ht).1
  rw [hsz i hi r hmem] at h1
  cases h1
  exact hle

/-- Source `mm_malloc(n)` for a request below the wrap-around, under the
invariant and with fuel for the longest bucket list: it returns, the invariant
holds afterwards, every allocated block is still allocated, and a pointer it
returns is a block that was not allocated before and now is, with room for `n`
bytes of payload. -/
theorem mm_malloc_keeps (fuel : Nat) (h : Heap) (l : List (Nat × Nat)) (L : Nat → List Nat)
    (n : Nat) (hI : SInv h l L) (hf : l.length ≤ fuel) (hn : n ≤ 4294967280) :
    ∃ r h' l' L', mm_malloc fuel h n = .ok (r, h') ∧ SInv h' l' L' ∧
      h'.seglist_start = h.seglist_start ∧ h'.heap_listp = h.heap_listp ∧
      h'.mem_start_brk = h.mem_start_brk ∧ h'.mem_max_addr = h.mem_max_addr ∧
      l'.length ≤ l.length + 2 ∧
      (r ≠ NULL → (∃ A, descr (h.seglist_start + 52) l' r = some (A, 1) ∧ n + 8 ≤ A) ∧
        ∀ t, descr (h.seglist_start + 52) l r ≠ some (t, 1)) ∧
      (∀ y t, descr (h.seglist_start + 52) l y = some (t, 1) →
        descr (h.seglist_start + 52) l' y = some (t, 1)) := by
  by_cases h0 : n = 0
  · refine ⟨NULL, h, l, L, ?_, hI, rfl, rfl, rfl, rfl, by omega, fun e => absurd rfl e,
      fun y t hy => hy⟩
    simp only [mm_malloc, if_pos h0]
    rfl
  obtain ⟨a8, a16, an⟩ := adjust_ok n (by omega) hn
  have alt : adjust n < 4294967296 := by
    unfold adjust ALIGN add32 U32 DSIZE
    split
    · omega
    · rw [land_mask _ (Nat.mod_lt _ (by norm_num))]
      omega
  generalize hasz : adjust n = asz at a8 a16 an alt
  obtain ⟨r, h1, f1, f2, f3⟩ := find_fit_keeps fuel h l L asz hI hf
  have hI1 := SInv_arena h h1 l L f2 hI
  obtain ⟨_, e1, e2, e3, e4, e5, _⟩ := f2
  by_cases hr : r = NULL
  · -- no fit: grow the arena
    obtain ⟨m8, m4096, mle⟩ := MAX_chunk asz a8
    have mlt : MAX asz CHUNKSIZE < 4294967296 := by
      unfold MAX CHUNKSIZE
      split <;> omega
    have hes := extend_size_even (MAX asz CHUNKSIZE) m8 mlt
    generalize hsz : MAX asz CHUNKSIZE = sz at m8 m4096 mle mlt hes
    by_cases hfail : 2147483648 ≤ sz ∨ h1.mem_max_addr < h1.mem_brk + sz
    · have hx := extend_heap_fails h1 (sz / WSIZE) (by rw [hes]; exact hfail)
      refine ⟨NULL, h1, l, L, ?_, hI1, e5, e4, e1, e3, by omega, fun e => absurd rfl e,
        fun y t hy => hy⟩
      subst hr
      simp only [mm_malloc, if_neg h0, hasz, f1, ok_bind, hsz]
      rw [if_neg (fun e => e rfl), hx]
      simp only [ok_bind]
      rw [if_pos trivial]
      rfl
    · obtain ⟨r2, h2, l2, L2, x1, x2, x3, x4, x5, x6, x7, x8, ⟨T, x9, x10⟩, x11, x12⟩ :=
        extend_heap_keeps h1 l L (sz / WSIZE) sz hI1 hes m8 (by omega) (by omega) (by omega)
      rw [e5] at x9 x11 x12
      have x9b : descr (h2.seglist_start + 52) l2 r2 = some (T, 0) := by rw [x3, e5]; exact x9
      obtain ⟨h3, l3, L3, p1, p2, p3, p4, ⟨A, p5, p6⟩, p7⟩ :=
        place_keeps h2 l2 L2 r2 T asz x2 x9b a8 a16 (by omega)
      rw [x3, e5] at p5 p7
      obtain ⟨s1, s2, s3, s4, s5, s6⟩ := p2
      refine ⟨r2, h3, l3, L3, ?_, p3, by omega, by omega, by omega, by omega, by omega,
        fun _ => ⟨⟨A, p5, by omega⟩, x12⟩, fun y t hy => p7 y t (x11 y t hy)⟩
      subst hr
      rw [← hsz] at x1
      rw [← hasz] at f1 x1 p1
      rw [mm_malloc_growth fuel h h1 h2 n r2 h0 f1 x1 x8, p1]
      rfl
  · obtain ⟨S, hS, hle⟩ := f3 hr
    have hSb : descr (h1.seglist_start + 52) l r = some (S, 0) := by rw [e5]; exact hS
    obtain ⟨h3, l3, L3, p1, p2, p3, p4, ⟨A, p5, p6⟩, p7⟩ :=
      place_keeps h1 l L r S asz hI1 hSb a8 a16 hle
    rw [e5] at p5 p7
    obtain ⟨s1, s2, s3, s4, s5, s6⟩ := p2
    refine ⟨r, h3, l3, L3, ?_, p3, by omega, by omega, by omega, by omega, by omega,
      fun _ => ⟨⟨A, p5, by omega⟩, fun t ht => by rw [hS] at ht; cases ht⟩, p7⟩
    simp only [mm_malloc, if_neg h0, hasz, f1, ok_bind]
    rw [if_pos hr, p1]
    rfl

/-- Source `storeBytes` inside the arena succeeds and changes only the bytes
written. -/
theorem storeBytes_ok : ∀ (bs : List Nat) (h : Heap) (p : Nat),
    h.mem_start_brk ≤ p → p + bs.length ≤ h.mem_brk →
    ∃ h2, storeBytes bs h p = .ok h2 ∧ h2.mem_start_brk = h.mem_start_brk ∧
      h2.mem_brk = h.mem_brk ∧ h2.mem_max_addr = h.mem_max_addr ∧
      h2.heap_listp = h.heap_listp ∧ h2.seglist_start = h.seglist_start ∧
      h2.prev_listp = h.prev_listp ∧
      ∀ y, (y < p ∨ p + bs.length ≤ y) → h2.mem y = h.mem y := by
  intro bs
  induction bs with
  | nil =>
    intro h p _ _
    exact ⟨h, rfl, rfl, rfl, rfl, rfl, rfl, rfl, fun _ _ => rfl⟩
  | cons b bs ih =>
    intro h p h1 h2
    simp only [List.length_cons] at h2
    obtain ⟨h3, q1, q2, q3, q4, q5, q6, q7, q8⟩ :=
      ih { h with mem := setByte h.mem p (b % 256) } (p + 1) (by simp only; omega)
        (by simp only; omega)
    refine ⟨h3, ?_, q2, q3, q4, q5, q6, q7, ?_⟩
    · simp only [storeBytes, store8]
      rw [if_pos ⟨h1, by omega⟩]
      exact q1
    · intro y hy
      simp only [List.length_cons] at hy
      rw [q8 y (by omega)]
      show setByte h.mem p (b % 256) y = h.mem y
      unfold setByte
      rw [if_neg (by omega)]

/-- A layout depends on the bytes from its first header to its last footer
only. -/
theorem Segm_frame (m m' : Nat → Nat) (l : List (Nat × Nat)) (p a q c : Nat) (hp : 4 ≤ p)
    (hfr : ∀ y, p - 4 ≤ y → y < q - 4 → m' y = m y) (h : Segm m p a l q c) :
    Segm m' p a l q c :=
  Segm_frame_free m m' l p a q c hp (fun y h1 h2 _ => hfr y h1 h2) h

/-- A change of bytes in the payload of an allocated block, away from its
footer, keeps the invariant. -/
theorem SInv_store (h h2 : Heap) (l : List (Nat × Nat)) (L : Nat → List Nat) (X T : Nat)
    (hI : SInv h l L) (hd : descr (h.seglist_start + 52) l X = some (T, 1))
    (hb : sameBounds h2 h) (hfr : ∀ y, (y < X ∨ X + T - 8 ≤ y) → h2.mem y = h.mem y) :
    SInv h2 l L := by
  obtain ⟨c, hseg⟩ := hI.blocks
  obtain ⟨pre, post, a, hl, hx, hpre, hblk, hadj, hpost⟩ :=
    Segm_at h.mem l _ 1 _ c X (T, 1) hseg hd
  obtain ⟨b1, b2, b3, b4, b5, b6⟩ := hb
  have hB := hI.lists
  have hbase := hI.base
  have hE := Segm_span _ _ _ _ _ _ hpost
  have hT := hblk.2.1
  simp only at hpost hE hT
  have hw1 := hblk.2.2.2.1
  have hw2 := hblk.2.2.2.2
  simp only at hw1 hw2
  have hlo := hB.lo
  refine ⟨Buckets_congr h h2 L hB ⟨b1, b2, b3, b4, b5, b6⟩ (fun y _ h2 => hfr y (by
      clear hw1 hw2; omega)) ?_, ⟨?_, ?_, ?_, ?_, ?_, ?_⟩, ⟨c, ?_⟩, ?_⟩
  · intro i hi x hxi y hy1 hy2
    obtain ⟨s, hs, _⟩ := (hI.free i hi x).mp hxi
    have hs16 := (Segm_pos _ _ _ _ _ _ hseg _ (descr_mem _ _ _ _ hs)).1
    simp only at hs16
    rw [hl] at hs
    rcases descr_cases pre post (T, 1) (s, 0) _ x hs with ⟨_, e⟩ | ⟨_, e⟩ | ⟨_, e⟩
    · simp only at e
      exact hfr y (by clear hw1 hw2; omega)
    · cases e
    · simp only at e
      exact hfr y (by clear hw1 hw2; omega)
  · rw [b5, b4]; exact hbase.seg
  · rw [b2, b3]; exact hbase.top
  · rw [b3]; exact hbase.max
  · rw [b5]
    refine Eq.trans ?_ hbase.proh
    clear hw1 hw2
    exact getw_of_bytes _ _ (h.seglist_start + 40) (fun y _ _ => hfr y (by omega))
  · rw [b5]
    refine Eq.trans ?_ hbase.prof
    clear hw1 hw2
    exact getw_of_bytes _ _ (h.seglist_start + 44) (fun y _ _ => hfr y (by omega))
  · rw [b2]
    refine Eq.trans ?_ hbase.epi
    clear hw1 hw2
    exact getw_of_bytes _ _ (h.mem_brk - 4) (fun y _ _ => hfr y (by omega))
  · rw [b5, b2, hl]
    refine (Segm_append _ _ _ _ _ _ _).mpr ⟨X, a, ?_, ⟨?_, hadj, ?_⟩⟩
    · clear hw1 hw2
      exact Segm_frame h.mem h2.mem pre _ _ _ _ (by omega)
        (fun y _ _ => hfr y (by omega)) hpre
    · refine ⟨hblk.1, hblk.2.1, hblk.2.2.1, ?_, ?_⟩
      · refine Eq.trans ?_ hw1
        clear hw1 hw2
        exact getw_of_bytes _ _ (X - 4) (fun y _ _ => hfr y (by omega))
      · refine Eq.trans ?_ hw2
        clear hw1 hw2
        exact getw_of_bytes _ _ (X + T - 8) (fun y _ _ => hfr y (by omega))
    · clear hw1 hw2
      exact Segm_frame h.mem h2.mem post _ _ _ _ (by omega)
        (fun y _ _ => hfr y (by omega)) hpost
  · rw [b5]; exact hI.free

/-- Source `mm_init()` on a heap with room for the two growth requests
establishes the invariant: one free block of `CHUNKSIZE` bytes in bucket 8. -/
theorem mm_init_SInv (h : Heap) (hs : h.mem_start_brk ≤ h.mem_brk)
    (hmax : h.mem_max_addr < 4294967296) (hfit : h.mem_brk + 56 + 4096 ≤ h.mem_max_addr) :
    ∃ h', mm_init h = .ok (0, h') ∧
      SInv h' [(4096, 0)] (pushOn (fun _ => []) 8 (h.mem_brk + 56)) ∧
      h'.mem_start_brk = h.mem_start_brk ∧ h'.mem_max_addr = h.mem_max_addr := by
  obtain ⟨h', hi, b1, b2, b3, b4, b5, w1, w2, w3, w4, w5, hB, _⟩ := mm_init_ok h hs hmax hfit
  refine ⟨h', hi, ⟨hB, ⟨?_, ?_, ?_, ?_, ?_, ?_⟩, ⟨0, ?_⟩, ?_⟩, b1, b3⟩
  · rw [b5, b4]
  · rw [b2, b3]; omega
  · rw [b3]; exact hmax
  · rw [b5]; exact w1
  · rw [b5]; exact w2
  · rw [b2]; exact w5
  · rw [b5, b2]
    refine ⟨⟨by decide, by decide, by decide, ?_, ?_⟩, fun _ => rfl, ?_, rfl⟩
    · exact w3
    · exact w4
    · show h.mem_brk + 4 + 52 + 4096 = h.mem_brk + 4152
      omega
  · intro i hi x
    rw [b5]
    have e : h.mem_brk + 4 + 52 = h.mem_brk + 56 := by omega
    rw [e]
    simp only [descr, pushOn]
    constructor
    · intro hx
      by_cases e8 : i = 8
      · rw [if_pos e8] at hx
        simp only [List.mem_singleton] at hx
        refine ⟨4096, by rw [if_pos hx], ?_⟩
        rw [e8]
        decide
      · rw [if_neg e8] at hx
        cases hx
    · rintro ⟨s, hs1, hs2⟩
      by_cases ex : x = h.mem_brk + 56
      · rw [if_pos ex] at hs1
        cases hs1
        have e8 : i = 8 := by rw [← hs2]; decide
        rw [if_pos e8, ex]
        exact List.mem_singleton.mpr rfl
      · rw [if_neg ex] at hs1
        cases hs1

theorem unlive_sub (p : Nat) : ∀ (live : List (Nat × Nat)) (q : Nat × Nat),
    q ∈ unlive p live → q ∈ live := by
  intro live
  induction live with
  | nil => intro q hq; exact hq
  | cons a l ih =>
    intro q hq
    simp only [unlive] at hq
    by_cases e : a.1 = p
    · rw [if_pos e] at hq
      exact List.mem_cons_of_mem _ hq
    · rw [if_neg e] at hq
      rcases List.mem_cons.mp hq with h1 | h1
      · rw [h1]; exact List.mem_cons_self _ _
      · exact List.mem_cons_of_mem _ (ih q h1)

theorem unlive_ne (p : Nat) : ∀ (live : List (Nat × Nat)), (live.map Prod.fst).Nodup →
    ∀ q, q ∈ unlive p live → q.1 ≠ p := by
  intro live
  induction live with
  | nil => intro _ q hq; cases hq
  | cons a l ih =>
    intro hn q hq
    simp only [List.map_cons, List.nodup_cons] at hn
    simp only [unlive] at hq
    by_cases e : a.1 = p
    · rw [if_pos e] at hq
      intro hqp
      exact hn.1 (List.mem_map.mpr ⟨q, hq, by rw [hqp, e]⟩)
    · rw [if_neg e] at hq
      rcases List.mem_cons.mp hq with h1 | h1
      · rw [h1]; exact e
      · exact ih hn.2 q h1

theorem unlive_nodup (p : Nat) : ∀ (live : List (Nat × Nat)), (live.map Prod.fst).Nodup →
    ((unlive p live).map Prod.fst).Nodup := by
  intro live
  induction live with
  | nil => intro h; exact h
  | cons a l ih =>
    intro hn
    simp only [List.map_cons, List.nodup_cons] at hn
    simp only [unlive]
    by_cases e : a.1 = p
    · rw [if_pos e]; exact hn.2
    · rw [if_neg e]
      simp only [List.map_cons, List.nodup_cons]
      refine ⟨?_, ih hn.2⟩
      intro hmem
      obtain ⟨q, hq, hqa⟩ := List.mem_map.mp hmem
      exact hn.1 (List.mem_map.mpr ⟨q, unlive_sub p l q hq, hqa⟩)

theorem isLive_mem (p : Nat) (live : List (Nat × Nat)) (h : isLive p live = true) :
    ∃ q, q ∈ live ∧ q.1 = p := by
  unfold isLive at h
  obtain ⟨q, hq, he⟩ := List.any_eq_true.mp h
  exact ⟨q, hq, by simpa using he⟩

theorem inLive_mem (p off len : Nat) (live : List (Nat × Nat))
    (h : inLive p off len live = true) : ∃ q, q ∈ live ∧ q.1 = p ∧ off + len ≤ q.2 := by
  unfold inLive at h
  obtain ⟨q, hq, he⟩ := List.any_eq_true.mp h
  simp only [Bool.and_eq_true, beq_iff_eq, decide_eq_true_eq] at he
  exact ⟨q, hq, he.1, he.2⟩

/-- The layout has at most one block per 16 bytes of the arena. -/
theorem SInv_fuel (h : Heap) (l : List (Nat × Nat)) (L : Nat → List Nat) (fuel : Nat)
    (hI : SInv h l L) (hf : h.mem_max_addr ≤ h.mem_start_brk + 16 * fuel) : l.length ≤ fuel := by
  obtain ⟨c, hseg⟩ := hI.blocks
  have h1 := Segm_len _ _ _ _ _ _ hseg
  have h2 := Segm_span _ _ _ _ _ _ hseg
  have h3 := hI.base.top
  have h4 := hI.lists.lo
  omega

/-- One covered client step keeps the invariant of the run, unless the client
breaks a precondition. -/
theorem step_keeps (fuel : Nat) (r : Run) (op : Op) (hR : RunInv r)
    (hf : r.heap.mem_max_addr ≤ r.heap.mem_start_brk + 16 * fuel)
    (hop : plainOp op = true) :
    step fuel r op = .error Err.misuse ∨
    ∃ r', step fuel r op = .ok r' ∧ RunInv r' ∧
      r'.heap.mem_start_brk = r.heap.mem_start_brk ∧
      r'.heap.mem_max_addr = r.heap.mem_max_addr := by
  obtain ⟨l, L, hI, hlive, hnd⟩ := hR
  cases op with
  | malloc size =>
    right
    have hsz : size ≤ 4294967280 := by simpa [plainOp] using hop
    obtain ⟨x, h', l', L', m1, m2, m3, m4, m5, m6, m7, m8, m9⟩ :=
      mm_malloc_keeps fuel r.heap l L size hI (SInv_fuel _ _ _ _ hI hf) hsz
    refine ⟨_, by simp only [step, m1, ok_bind]; rfl, ⟨l', L', m2, ?_, ?_⟩, m5, m6⟩
    · simp only
      rw [m3]
      by_cases hx : x = NULL
      · rw [if_pos hx]
        intro p hp
        obtain ⟨t, ht, hle⟩ := hlive p hp
        exact ⟨t, m9 _ _ ht, hle⟩
      · rw [if_neg hx]
        intro p hp
        rcases List.mem_cons.mp hp with e | e
        · obtain ⟨⟨A, hA, hle⟩, _⟩ := m8 hx
          rw [e]
          exact ⟨A, hA, hle⟩
        · obtain ⟨t, ht, hle⟩ := hlive p e
          exact ⟨t, m9 _ _ ht, hle⟩
    · simp only
      by_cases hx : x = NULL
      · rw [if_pos hx]; exact hnd
      · rw [if_neg hx]
        simp only [List.map_cons, List.nodup_cons]
        refine ⟨?_, hnd⟩
        intro hmem
        obtain ⟨q, hq, hqx⟩ := List.mem_map.mp hmem
        obtain ⟨t, ht, _⟩ := hlive q hq
        rw [hqx] at ht
        exact (m8 hx).2 t ht
  | free ptr =>
    by_cases hl : isLive ptr r.live = true
    · right
      obtain ⟨q, hq, hqp⟩ := isLive_mem ptr r.live hl
      obtain ⟨t, ht, _⟩ := hlive q hq
      rw [hqp] at ht
      obtain ⟨h', l', L', f1, f2, f3, f4, f5⟩ := mm_free_keeps r.heap l L ptr t hI ht
      obtain ⟨s1, s2, s3, s4, s5, s6⟩ := f2
      refine ⟨_, by simp only [step, if_pos hl, f1, ok_bind]; rfl, ⟨l', L', f3, ?_, ?_⟩, s1, s3⟩
      · simp only
        rw [s5]
        intro p hp
        obtain ⟨u, hu, hle⟩ := hlive p (unlive_sub ptr r.live p hp)
        exact ⟨u, f5 _ _ (unlive_ne ptr r.live hnd p hp) hu, hle⟩
      · exact unlive_nodup ptr r.live hnd
    · left
      simp only [step, if_neg hl]
      rfl
  | realloc ptr size => simp [plainOp] at hop
  | store ptr off bytes =>
    by_cases hl : inLive ptr off bytes.length r.live = true
    · right
      obtain ⟨q, hq, hqp, hlen⟩ := inLive_mem ptr off bytes.length r.live hl
      obtain ⟨t, ht, hle⟩ := hlive q hq
      rw [hqp] at ht
      have h1 := descr_ge _ _ _ _ ht
      have h2 := descr_end _ _ _ _ ht
      obtain ⟨c, hseg⟩ := hI.blocks
      have h3 := Segm_span _ _ _ _ _ _ hseg
      have h4 := hI.lists.lo
      simp only at h2
      obtain ⟨h', q1, q2, q3, q4, q5, q6, q7, q8⟩ :=
        storeBytes_ok bytes r.heap (ptr + off) (by omega) (by omega)
      have hI2 : SInv h' l L := SInv_store r.heap h' l L ptr t hI ht ⟨q2, q3, q4, q5, q6, q7⟩
        (fun y hy => q8 y (by omega))
      refine ⟨{ heap := h', live := r.live, out := r.out },
        by simp only [step, if_pos hl, q1, ok_bind]; rfl, ⟨l, L, hI2, ?_, hnd⟩, q2, q4⟩
      simp only
      rw [q6]
      exact hlive
    · left
      simp only [step, if_neg hl]
      rfl

/-- A sequence of covered client steps keeps the invariant of the run, unless
the client breaks a precondition. -/
theorem steps_keeps (fuel : Nat) : ∀ (ops : List Op) (r : Run), RunInv r →
    r.heap.mem_max_addr ≤ r.heap.mem_start_brk + 16 * fuel →
    (∀ op ∈ ops, plainOp op = true) →
    steps fuel r ops = .error Err.misuse ∨ ∃ r', steps fuel r ops = .ok r' ∧ RunInv r' := by
  intro ops
  induction ops with
  | nil => intro r hR _ _; exact Or.inr ⟨r, rfl, hR⟩
  | cons op ops ih =>
    intro r hR hf hops
    rcases step_keeps fuel r op hR hf (hops op (List.mem_cons_self _ _)) with e | ⟨r1, e, hR1, b1, b2⟩
    · left
      simp only [steps, e]
      rfl
    · have := ih r1 hR1 (by rw [b1, b2]; exact hf)
        (fun o ho => hops o (List.mem_cons_of_mem _ ho))
      simp only [steps, e, ok_bind]
      exact this

/-- The prologue and epilogue words of a heap that satisfies the invariant. -/
theorem SInv_sentinels (h : Heap) (l : List (Nat × Nat)) (L : Nat → List Nat) (hI : SInv h l L) :
    GET h (add32 h.heap_listp (11 * WSIZE)) = .ok (PACK DSIZE 1) ∧
    GET_SIZE h (add32 h.heap_listp (11 * WSIZE)) = .ok DSIZE ∧
    GET_ALLOC h (add32 h.heap_listp (11 * WSIZE)) = .ok 1 ∧
    GET h (add32 h.heap_listp (12 * WSIZE)) = .ok (PACK DSIZE 1) ∧
    GET_SIZE h (add32 h.heap_listp (12 * WSIZE)) = .ok DSIZE ∧
    GET_ALLOC h (add32 h.heap_listp (12 * WSIZE)) = .ok 1 ∧
    GET h (sub32 h.mem_brk WSIZE) = .ok (PACK 0 1) ∧
    GET_SIZE h (sub32 h.mem_brk WSIZE) = .ok 0 ∧
    GET_ALLOC h (sub32 h.mem_brk WSIZE) = .ok 1 := by
  obtain ⟨c, hseg⟩ := hI.blocks
  have hb := hI.base
  have h1 := Segm_span _ _ _ _ _ _ hseg
  have h2 := hb.top
  have h3 := hb.max
  have h4 := hI.lists.lo
  have h5 := hb.seg
  have e1 : add32 h.heap_listp (11 * WSIZE) = h.seglist_start + 40 := by
    have := add32_eq h.heap_listp 44 (by omega)
    show add32 h.heap_listp 44 = _
    rw [this]; omega
  have e2 : add32 h.heap_listp (12 * WSIZE) = h.seglist_start + 44 := by
    have := add32_eq h.heap_listp 48 (by omega)
    show add32 h.heap_listp 48 = _
    rw [this]; omega
  have e3 : sub32 h.mem_brk WSIZE = h.mem_brk - 4 := by
    have := sub32_eq h.mem_brk 4 (by omega) (by omega)
    show sub32 h.mem_brk 4 = _
    rw [this]
  obtain ⟨p1, p2, p3⟩ := word_fields h (h.seglist_start + 40) 9 (by omega) (by omega) hb.proh
  obtain ⟨q1, q2, q3⟩ := word_fields h (h.seglist_start + 44) 9 (by omega) (by omega) hb.prof
  obtain ⟨r1, r2, r3⟩ := word_fields h (h.mem_brk - 4) 1 (by omega) (by omega) hb.epi
  rw [e1, e2, e3]
  exact ⟨p1, p2, p3, q1, q2, q3, r1, r2, r3⟩

/-- C30 (amended): on a fresh simulated heap with 32-bit addresses and room
for the two growth requests of `mm_init`, after `mm_init` and any sequence of
`mm_malloc` calls with a size of at most 4294967280, `mm_free` calls on live
pointers and client stores inside the requested payloads, with fuel for the
longest possible bucket list, the run returns a state (or stops at a step
that breaks a precondition of the client), and in that state the prologue
header and footer (the words 11 and 12 of the initial extent) have the size
field `DSIZE = 8` and the allocated bit set, and the epilogue header (the last
word of the arena) has the size field 0 and the allocated bit set. -/
theorem prologue_eight_and_epilogue_zero_in_reachable_states (fuel base cap : Nat)
    (ops : List Op) (hcap : 14 * WSIZE + CHUNKSIZE ≤ cap) (hmax : base + cap < U32)
    (hfuel : cap ≤ 16 * fuel) (hops : ∀ op ∈ ops, plainOp op = true) :
    run fuel base cap ops = .error Err.misuse ∨
    ∃ r, run fuel base cap ops = .ok r ∧
      GET r.heap (add32 r.heap.heap_listp (11 * WSIZE)) = .ok (PACK DSIZE 1) ∧
      GET_SIZE r.heap (add32 r.heap.heap_listp (11 * WSIZE)) = .ok DSIZE ∧
      GET_ALLOC r.heap (add32 r.heap.heap_listp (11 * WSIZE)) = .ok 1 ∧
      GET r.heap (add32 r.heap.heap_listp (12 * WSIZE)) = .ok (PACK DSIZE 1) ∧
      GET_SIZE r.heap (add32 r.heap.heap_listp (12 * WSIZE)) = .ok DSIZE ∧
      GET_ALLOC r.heap (add32 r.heap.heap_listp (12 * WSIZE)) = .ok 1 ∧
      GET r.heap (sub32 r.heap.mem_brk WSIZE) = .ok (PACK 0 1) ∧
      GET_SIZE r.heap (sub32 r.heap.mem_brk WSIZE) = .ok 0 ∧
      GET_ALLOC r.heap (sub32 r.heap.mem_brk WSIZE) = .ok 1 := by
  have hcap' : 4152 ≤ cap := hcap
  have hmax' : base + cap < 4294967296 := hmax
  obtain ⟨h', hi, hI, b1, b2⟩ := mm_init_SInv (mem_init base cap) (Nat.le_refl _) hmax'
    (by show base + 56 + 4096 ≤ base + cap; omega)
  have hboot : boot base cap = .ok { heap := h', live := [], out := [] } := by
    simp only [boot, hi, ok_bind]
    rfl
  have hR : RunInv { heap := h', live := [], out := [] } :=
    ⟨_, _, hI, fun p hp => (by cases hp), List.nodup_nil⟩
  have hf : h'.mem_max_addr ≤ h'.mem_start_brk + 16 * fuel := by
    rw [b1, b2]
    show base + cap ≤ base + 16 * fuel
    omega
  rcases steps_keeps fuel ops _ hR hf hops with e | ⟨r, e, l, L, hI2, _, _⟩
  · left
    simp only [run, hboot, ok_bind]
    exact e
  · right
    refine ⟨r, ?_, SInv_sentinels r.heap l L hI2⟩
    simp only [run, hboot, ok_bind]
    exact e

/-- C30 (amended), at a concrete input: a fresh simulated heap at address 1000
with a capacity of 20 MiB and the run `sentinelOps`, which returns. -/
theorem prologue_eight_and_epilogue_zero_in_reachable_states_witness :
    14 * WSIZE + CHUNKSIZE ≤ 20971520 ∧ 1000 + 20971520 < U32 ∧ 20971520 ≤ 16 * 1310720 ∧
    (∀ op ∈ sentinelOps, plainOp op = true) ∧
    ∃ r, run 1310720 1000 20971520 sentinelOps = .ok r ∧
      GET r.heap (add32 r.heap.heap_listp (11 * WSIZE)) = .ok (PACK DSIZE 1) ∧
      GET_SIZE r.heap (add32 r.heap.heap_listp (11 * WSIZE)) = .ok DSIZE ∧
      GET_ALLOC r.heap (add32 r.heap.heap_listp (11 * WSIZE)) = .ok 1 ∧
      GET r.heap (add32 r.heap.heap_listp (12 * WSIZE)) = .ok (PACK DSIZE 1) ∧
      GET_SIZE r.heap (add32 r.heap.heap_listp (12 * WSIZE)) = .ok DSIZE ∧
      GET_ALLOC r.heap (add32 r.heap.heap_listp (12 * WSIZE)) = .ok 1 ∧
      GET r.heap (sub32 r.heap.mem_brk WSIZE) = .ok (PACK 0 1) ∧
      GET_SIZE r.heap (sub32 r.heap.mem_brk WSIZE) = .ok 0 ∧
      GET_ALLOC r.heap (sub32 r.heap.mem_brk WSIZE) = .ok 1 :=
  ⟨by decide, by decide, by decide, by decide,
    (prologue_eight_and_epilogue_zero_in_reachable_states 1310720 1000 20971520 sentinelOps
      (by decide) (by decide) (by decide) (by decide)).resolve_left (fun e => by
        have k : (run 1310720 1000 20971520 sentinelOps).bind (fun r => pure r.out)
            = .ok [1056, 1120, 1104, 1056] := by decide!
        rw [e] at k
        cases k)⟩

/-- With `mm_realloc` the prologue and the epilogue are not preserved. The
shrinking `mm_realloc` of `shrinkOps` copies 28 bytes into the 24-byte payload
of the new block 1120, so the footer of 1120 becomes the client's word 16;
`mm_free(1152)` then takes the client's bytes at 1136 for a free block in
front of 1152 and unlinks it, which stores the client's forward link 1120 at
the client's back link: with the back link 5148 the epilogue header becomes
1120 (size field 1120, allocated bit clear), with the back link 1044 the
prologue header becomes 1120. -/
theorem sentinels_overwritten_after_shrinking_realloc :
    (run 64 1000 20971520 (shrinkOps 28 20)).bind (fun r => do
        let ph ← GET r.heap (add32 r.heap.heap_listp (11 * WSIZE))
        let pf ← GET r.heap (add32 r.heap.heap_listp (12 * WSIZE))
        let ep ← GET r.heap (sub32 r.heap.mem_brk WSIZE)
        let es ← GET_SIZE r.heap (sub32 r.heap.mem_brk WSIZE)
        let ea ← GET_ALLOC r.heap (sub32 r.heap.mem_brk WSIZE)
        pure (r.out, ph, pf, ep, es, ea))
      = .ok ([1152, 1120, 1056], 9, 9, 1120, 1120, 0) ∧
    (run 64 1000 20971520 (shrinkOps 20 4)).bind (fun r => do
        let ph ← GET r.heap (add32 r.heap.heap_listp (11 * WSIZE))
        let pf ← GET r.heap (add32 r.heap.heap_listp (12 * WSIZE))
        let ep ← GET r.heap (sub32 r.heap.mem_brk WSIZE)
        let ps ← GET_SIZE r.heap (add32 r.heap.heap_listp (11 * WSIZE))
        let pa ← GET_ALLOC r.heap (add32 r.heap.heap_listp (11 * WSIZE))
        pure (r.out, ph, pf, ep, ps, pa))
      = .ok ([1152, 1120, 1056], 1120, 9, 1, 1120, 0) := by
  constructor
  · decide!
  · decide!

end Seg

/-! ## Theorems: mm_implicit_no_footer.c -/

namespace NoFooter

/-- C31 (fails on the code): after `mm_init`, three allocations of 8 bytes
`a` = 1016, `b` = 1032, `c` = 1048 and `mm_free(a)`, the previous-allocated
bits are right and the rover is a block of the walk.  `mm_malloc(4294967292)`
then computes the adjusted size 0 (`size + 4` wraps), `find_fit` returns the
free block `a`, and `place(a, 0)` clears bit 1 of the header of `c` (17, was
19) although the block `b` in front of `c` is allocated (header 17); the call
returns `a`, whose header (18) is still marked free, and has stored the word
18 at `b + 8`, in the live payload of `b` (0 before). -/
theorem prev_alloc_bit_cleared_behind_an_allocated_block :
    traceFreeFirst.bind (fun r => do
        let bl ← blocks 64 r.2
        let ok ← invariantOk 64 r.2
        let w ← GET r.2 (1032 + 8)
        pure (r.1, bl, ok, w))
      = .ok ([1016, 1032, 1048],
          [(1008, 11), (1016, 18), (1032, 17), (1048, 19), (1064, 4050), (5112, 1)],
          true, 0) ∧
    adjust 4294967292 = 0 ∧
    traceFreeFirst.bind (fun r => do
        let x ← mm_malloc 64 r.2 4294967292
        let bl ← blocks 64 x.2
        let ok ← invariantOk 64 x.2
        let w ← GET x.2 (1032 + 8)
        pure (x.1, bl, ok, w))
      = .ok (1016,
          [(1008, 11), (1016, 18), (1032, 17), (1048, 17), (1064, 4050), (5112, 1)],
          false, 18) := by
  refine ⟨?_, ?_, ?_⟩
  · decide!
  · decide
  · decide!

end NoFooter

end Malloclab

/-! ## Theorems: datalab/bits.p.c -/

namespace Datalab

theorem sign_field (uf : Nat) : (uf >>> 31) &&& 1 = signOf uf := by
  rw [Nat.shiftRight_eq_div_pow, Nat.and_one_is_mod]
  rfl

theorem exp_field (uf : Nat) : (uf >>> 23) &&& 255 = expOf uf := by
  rw [Nat.shiftRight_eq_div_pow]
  exact Nat.and_pow_two_sub_one_eq_mod _ 8

theorem frac_field (uf : Nat) : uf &&& 8388607 = fracOf uf :=
  Nat.and_pow_two_sub_one_eq_mod _ 23

theorem fields_lt (uf : Nat) : signOf uf < 2 ∧ expOf uf < 256 ∧ fracOf uf < 8388608 := by
  unfold signOf expOf fracOf
  omega

theorem fields_sum (uf : Nat) (h : uf < 4294967296) :
    uf = signOf uf * 2147483648 + expOf uf * 8388608 + fracOf uf := by
  unfold signOf expOf fracOf
  omega

theorem fields_of (s e f : Nat) (hs : s < 2) (he : e < 256) (hf : f < 8388608) :
    signOf (s * 2147483648 + e * 8388608 + f) = s ∧
    expOf (s * 2147483648 + e * 8388608 + f) = e ∧
    fracOf (s * 2147483648 + e * 8388608 + f) = f := by
  unfold signOf expOf fracOf
  omega

theorem or_high (a b : Nat) (i : Nat) (hb : b < 2 ^ i) : a * 2 ^ i ||| b = a * 2 ^ i + b := by
  rw [Nat.mul_comm]
  exact (Nat.mul_add_lt_is_or hb a).symm

/-- The result of `floatScale2` in terms of the three fields. -/
theorem floatScale2_fields (uf : Nat) :
    floatScale2 uf =
      if expOf uf = 0 ∧ fracOf uf = 0 then uf
      else if expOf uf = 255 then uf
      else if expOf uf = 0 then signOf uf * 2147483648 + 2 * fracOf uf
      else signOf uf * 2147483648 + (expOf uf + 1) * 8388608 + fracOf uf := by
  obtain ⟨hs, he, hf⟩ := fields_lt uf
  unfold floatScale2
  simp only [sign_field, exp_field, frac_field]
  have e1 : shl32 (signOf uf) 31 = signOf uf * 2147483648 := by
    unfold shl32
    rw [Nat.shiftLeft_eq]
    omega
  have e2 : shl32 (fracOf uf) 1 = 2 * fracOf uf := by
    unfold shl32
    rw [Nat.shiftLeft_eq]
    omega
  have e3 : expOf uf ≠ 255 → shl32 (expOf uf + 1) 23 = (expOf uf + 1) * 8388608 := by
    intro hne
    unfold shl32
    rw [Nat.shiftLeft_eq]
    omega
  by_cases c1 : expOf uf = 0 ∧ fracOf uf = 0
  · rw [if_pos c1, if_pos c1]
  · rw [if_neg c1, if_neg c1]
    by_cases c2 : expOf uf = 255
    · rw [if_pos c2, if_pos c2]
    · rw [if_neg c2, if_neg c2]
      by_cases c3 : expOf uf = 0
      · rw [if_pos c3, if_pos c3, e1, e2]
        exact or_high (signOf uf) (2 * fracOf uf) 31 (by omega)
      · rw [if_neg c3, if_neg c3, e1, e3 c2]
        have a1 : signOf uf * 2147483648 ||| (expOf uf + 1) * 8388608
            = signOf uf * 2147483648 + (expOf uf + 1) * 8388608 :=
          or_high (signOf uf) ((expOf uf + 1) * 8388608) 31 (by omega)
        rw [a1]
        have a2 : signOf uf * 2147483648 + (expOf uf + 1) * 8388608
            = (signOf uf * 256 + expOf uf + 1) * 2 ^ 23 := by omega
        rw [a2]
        exact or_high _ (fracOf uf) 23 (by omega)

theorem floatScale2_nan (uf : Nat) (h : expOf uf = 255) : floatScale2 uf = uf := by
  rw [floatScale2_fields, if_neg (by omega), if_pos h]

theorem floatScale2_zero (uf : Nat) (h : expOf uf = 0) (hf : fracOf uf = 0) :
    floatScale2 uf = uf := by
  rw [floatScale2_fields, if_pos ⟨h, hf⟩]

theorem floatScale2_denormal (uf : Nat) (h : expOf uf = 0) (hf : fracOf uf ≠ 0) :
    floatScale2 uf = signOf uf * 2147483648 + 2 * fracOf uf := by
  rw [floatScale2_fields, if_neg (by omega), if_neg (by omega), if_pos h]

theorem floatScale2_normal (uf : Nat) (h : expOf uf ≠ 0) (h1 : expOf uf ≠ 255) :
    floatScale2 uf = signOf uf * 2147483648 + (expOf uf + 1) * 8388608 + fracOf uf := by
  rw [floatScale2_fields, if_neg (by omega), if_neg h1, if_neg h]

/-- Where `floatScale2` meets the claim: everywhere except at the exponent
field `0xFE` with a fraction field other than 0. -/
theorem floatScale2_meets_claim_iff (uf : Nat) (h : uf < 4294967296) :
    scale2Spec uf (floatScale2 uf) ↔ ¬ (expOf uf = 254 ∧ fracOf uf ≠ 0) := by
  obtain ⟨hs, he, hf⟩ := fields_lt uf
  have hsum := fields_sum uf h
  unfold scale2Spec isNanOrInf
  by_cases c2 : expOf uf = 255
  · rw [if_pos c2, floatScale2_nan uf c2]
    constructor
    · intro _; omega
    · intro _; rfl
  · rw [if_neg c2]
    by_cases c4 : expOf uf = 254
    · rw [if_pos c4, floatScale2_normal uf (by omega) c2]
      constructor
      · intro hr; omega
      · intro hr; omega
    · rw [if_neg c4]
      have hright : ¬ (expOf uf = 254 ∧ fracOf uf ≠ 0) := by omega
      refine ⟨fun _ => hright, fun _ => ?_⟩
      by_cases c3 : expOf uf = 0
      · by_cases c5 : fracOf uf = 0
        · rw [floatScale2_zero uf c3 c5]
          refine ⟨h, c2, rfl, ?_⟩
          unfold scaledMagnitude
          rw [if_pos c3, c5]
        · rw [floatScale2_denormal uf c3 c5]
          by_cases c6 : fracOf uf < 4194304
          · obtain ⟨g1, g2, g3⟩ := fields_of (signOf uf) 0 (2 * fracOf uf) hs (by omega)
              (by omega)
            have er : signOf uf * 2147483648 + 2 * fracOf uf
                = signOf uf * 2147483648 + 0 * 8388608 + 2 * fracOf uf := by omega
            rw [er]
            refine ⟨by omega, by rw [g2]; omega, g1, ?_⟩
            unfold scaledMagnitude
            rw [g2, g3, if_pos rfl, if_pos c3]
          · obtain ⟨g1, g2, g3⟩ := fields_of (signOf uf) 1 (2 * fracOf uf - 8388608) hs
              (by omega) (by omega)
            have er : signOf uf * 2147483648 + 2 * fracOf uf
                = signOf uf * 2147483648 + 1 * 8388608 + (2 * fracOf uf - 8388608) := by omega
            rw [er]
            refine ⟨by omega, by rw [g2]; omega, g1, ?_⟩
            unfold scaledMagnitude
            rw [g2, g3, if_neg (by omega), if_pos c3]
            simp only [Nat.sub_self, Nat.pow_zero, Nat.mul_one]
            omega
      · rw [floatScale2_normal uf c3 c2]
        obtain ⟨g1, g2, g3⟩ := fields_of (signOf uf) (expOf uf + 1) (fracOf uf) hs
          (by omega) hf
        refine ⟨by omega, by rw [g2]; omega, g1, ?_⟩
        unfold scaledMagnitude
        rw [g2, g3, if_neg (by omega), if_neg c3]
        have hp : 2 ^ (expOf uf + 1 - 1) = 2 * 2 ^ (expOf uf - 1) := by
          have : expOf uf + 1 - 1 = (expOf uf - 1) + 1 := by omega
          rw [this, Nat.pow_succ, Nat.mul_comm]
        rw [hp]
        ring

/-- The result of `floatFloat2Int` in terms of the three fields. -/
theorem floatFloat2Int_fields (uf : Nat) :
    floatFloat2Int uf =
      if expOf uf = 255 then 2147483648
      else if expOf uf = 0 then 0
      else if 158 < expOf uf then 2147483648
      else if expOf uf < 127 then 0
      else if signOf uf ≠ 0 then
        (4294967296 - (if 150 ≤ expOf uf then (8388608 + fracOf uf) * 2 ^ (expOf uf - 150)
          else (8388608 + fracOf uf) / 2 ^ (150 - expOf uf))) % 4294967296
      else (if 150 ≤ expOf uf then (8388608 + fracOf uf) * 2 ^ (expOf uf - 150)
          else (8388608 + fracOf uf) / 2 ^ (150 - expOf uf)) := by
  obtain ⟨hs, he, hf⟩ := fields_lt uf
  unfold floatFloat2Int
  simp only [sign_field, exp_field, frac_field]
  have e0 : shl32 1 31 = 2147483648 := by decide
  have e1 : fracOf uf ||| shl32 1 23 = 8388608 + fracOf uf := by
    have : shl32 1 23 = 1 * 2 ^ 23 := by decide
    rw [this, Nat.lor_comm, or_high 1 (fracOf uf) 23 (by omega)]
    norm_num
  rw [e0, e1]
  by_cases c1 : expOf uf = 255
  · rw [if_pos c1, if_pos c1]
  · rw [if_neg c1, if_neg c1]
    by_cases c2 : expOf uf = 0
    · rw [if_pos c2, if_pos c2]
    · rw [if_neg c2, if_neg c2]
      by_cases c3 : 158 < expOf uf
      · rw [if_pos c3, if_pos (by omega)]
      · rw [if_neg c3, if_neg (by omega)]
        by_cases c4 : expOf uf < 127
        · rw [if_pos c4, if_pos (by omega)]
        · rw [if_neg c4, if_neg (by omega)]
          have hr : (if (expOf uf : Int) - 127 ≥ 23 then
                shl32 (8388608 + fracOf uf) ((expOf uf : Int) - 127 - 23).toNat
              else (8388608 + fracOf uf) >>> (23 - ((expOf uf : Int) - 127)).toNat)
              = (if 150 ≤ expOf uf then (8388608 + fracOf uf) * 2 ^ (expOf uf - 150)
                else (8388608 + fracOf uf) / 2 ^ (150 - expOf uf)) := by
            by_cases c5 : 150 ≤ expOf uf
            · rw [if_pos (by omega), if_pos c5]
              have ek : ((expOf uf : Int) - 127 - 23).toNat = expOf uf - 150 := by omega
              rw [ek]
              unfold shl32
              rw [Nat.shiftLeft_eq]
              refine Nat.mod_eq_of_lt ?_
              have hk : expOf uf - 150 ≤ 8 := by omega
              have hp : 2 ^ (expOf uf - 150) ≤ 2 ^ 8 :=
                Nat.pow_le_pow_right (by decide) hk
              calc (8388608 + fracOf uf) * 2 ^ (expOf uf - 150)
                  ≤ (8388608 + fracOf uf) * 2 ^ 8 := Nat.mul_le_mul_left _ hp
                _ < 4294967296 := by omega
            · rw [if_neg (by omega), if_neg c5]
              have ek : (23 - ((expOf uf : Int) - 127)).toNat = 150 - expOf uf := by omega
              rw [ek, Nat.shiftRight_eq_div_pow]
          rw [hr]
          by_cases c6 : signOf uf ≠ 0
          · rw [if_pos c6, if_pos c6]
            unfold not32
            have hlt : (if 150 ≤ expOf uf then (8388608 + fracOf uf) * 2 ^ (expOf uf - 150)
                else (8388608 + fracOf uf) / 2 ^ (150 - expOf uf)) < 4294967296 := by
              split
              · have hk : expOf uf - 150 ≤ 8 := by omega
                have hp : 2 ^ (expOf uf - 150) ≤ 2 ^ 8 :=
                  Nat.pow_le_pow_right (by decide) hk
                calc (8388608 + fracOf uf) * 2 ^ (expOf uf - 150)
                    ≤ (8388608 + fracOf uf) * 2 ^ 8 := Nat.mul_le_mul_left _ hp
                  _ < 4294967296 := by omega
              · have := Nat.div_le_self (8388608 + fracOf uf) (2 ^ (150 - expOf uf))
                omega
            rw [Nat.mod_eq_of_lt hlt]
            congr 1
            omega
          · rw [if_neg c6, if_neg c6]

theorem pow149 : (2 : Nat) ^ 149 = 713623846352979940529142984724747568191373312 := by norm_num

theorem magnitude_small (uf : Nat) (h : expOf uf < 127) :
    scaledMagnitude uf < 713623846352979940529142984724747568191373312 := by
  obtain ⟨hs, he, hf⟩ := fields_lt uf
  unfold scaledMagnitude
  split
  · omega
  · have hp : 2 ^ (expOf uf - 1) ≤ 2 ^ 125 := Nat.pow_le_pow_right (by decide) (by omega)
    calc (8388608 + fracOf uf) * 2 ^ (expOf uf - 1)
        ≤ (8388608 + fracOf uf) * 2 ^ 125 := Nat.mul_le_mul_left _ hp
      _ < 713623846352979940529142984724747568191373312 := by
        norm_num
        omega

theorem magnitude_mid (uf : Nat) (h1 : 127 ≤ expOf uf) (h2 : expOf uf < 150) :
    scaledMagnitude uf / 713623846352979940529142984724747568191373312
      = (8388608 + fracOf uf) / 2 ^ (150 - expOf uf) ∧
    1 ≤ (8388608 + fracOf uf) / 2 ^ (150 - expOf uf) ∧
    (8388608 + fracOf uf) / 2 ^ (150 - expOf uf) < 16777216 ∧
    scaledMagnitude uf < 16777216 * 713623846352979940529142984724747568191373312 := by
  obtain ⟨hs, he, hf⟩ := fields_lt uf
  unfold scaledMagnitude
  rw [if_neg (by omega)]
  have hsplit : 713623846352979940529142984724747568191373312
      = 2 ^ (150 - expOf uf) * 2 ^ (expOf uf - 1) := by
    rw [← pow149, ← Nat.pow_add]
    congr 1
    omega
  have hpos : 0 < 2 ^ (expOf uf - 1) := Nat.pow_pos (by decide)
  have hq : 2 ^ (150 - expOf uf) ≤ 2 ^ 23 := Nat.pow_le_pow_right (by decide) (by omega)
  have hq0 : 0 < 2 ^ (150 - expOf uf) := Nat.pow_pos (by decide)
  refine ⟨?_, ?_, ?_, ?_⟩
  · rw [hsplit]
    exact Nat.mul_div_mul_right _ _ hpos
  · rw [Nat.le_div_iff_mul_le hq0]
    have : 2 ^ 23 = 8388608 := by norm_num
    omega
  · have := Nat.div_le_self (8388608 + fracOf uf) (2 ^ (150 - expOf uf))
    omega
  · have hp : 2 ^ (expOf uf - 1) ≤ 2 ^ 148 := Nat.pow_le_pow_right (by decide) (by omega)
    calc (8388608 + fracOf uf) * 2 ^ (expOf uf - 1)
        ≤ (8388608 + fracOf uf) * 2 ^ 148 := Nat.mul_le_mul_left _ hp
      _ < 16777216 * 713623846352979940529142984724747568191373312 := by
        norm_num
        omega

theorem magnitude_high (uf : Nat) (h1 : 150 ≤ expOf uf) (h2 : expOf uf ≤ 158) :
    scaledMagnitude uf = (8388608 + fracOf uf) * 2 ^ (expOf uf - 150)
      * 713623846352979940529142984724747568191373312 ∧
    (expOf uf < 158 → (8388608 + fracOf uf) * 2 ^ (expOf uf - 150) < 2147483648) ∧
    (expOf uf = 158 → (8388608 + fracOf uf) * 2 ^ (expOf uf - 150)
      = 2147483648 + 256 * fracOf uf) ∧
    8388608 ≤ (8388608 + fracOf uf) * 2 ^ (expOf uf - 150) := by
  obtain ⟨hs, he, hf⟩ := fields_lt uf
  unfold scaledMagnitude
  rw [if_neg (by omega)]
  have hsplit : 2 ^ (expOf uf - 1)
      = 2 ^ (expOf uf - 150) * 713623846352979940529142984724747568191373312 := by
    rw [← pow149, ← Nat.pow_add]
    congr 1
    omega
  have hq0 : 1 ≤ 2 ^ (expOf uf - 150) := Nat.pow_pos (by decide)
  refine ⟨?_, ?_, ?_, ?_⟩
  · rw [hsplit, Nat.mul_assoc]
  · intro hlt
    have hp : 2 ^ (expOf uf - 150) ≤ 2 ^ 7 := Nat.pow_le_pow_right (by decide) (by omega)
    calc (8388608 + fracOf uf) * 2 ^ (expOf uf - 150)
        ≤ (8388608 + fracOf uf) * 2 ^ 7 := Nat.mul_le_mul_left _ hp
      _ < 2147483648 := by omega
  · intro heq
    rw [heq]
    norm_num
    omega
  · calc 8388608 ≤ (8388608 + fracOf uf) * 1 := by omega
      _ ≤ (8388608 + fracOf uf) * 2 ^ (expOf uf - 150) := Nat.mul_le_mul_left _ hq0

theorem magnitude_huge (uf : Nat) (h1 : 158 < expOf uf) :
    2 * (2147483648 * 713623846352979940529142984724747568191373312) ≤ scaledMagnitude uf := by
  obtain ⟨hs, he, hf⟩ := fields_lt uf
  unfold scaledMagnitude
  rw [if_neg (by omega)]
  have hp : 2 ^ 158 ≤ 2 ^ (expOf uf - 1) := Nat.pow_le_pow_right (by decide) (by omega)
  calc 2 * (2147483648 * 713623846352979940529142984724747568191373312)
      = 8388608 * 2 ^ 158 := by norm_num
    _ ≤ (8388608 + fracOf uf) * 2 ^ 158 := Nat.mul_le_mul_right _ (by omega)
    _ ≤ (8388608 + fracOf uf) * 2 ^ (expOf uf - 1) := Nat.mul_le_mul_left _ hp

theorem toInt32_small (x : Nat) (h : x < 2147483648) : toInt32 x = (x : Int) := by
  unfold toInt32
  rw [Nat.mod_eq_of_lt (by omega), if_pos h]

theorem toInt32_large (x : Nat) (h : 2147483648 ≤ x) (h1 : x < 4294967296) :
    toInt32 x = (x : Int) - 4294967296 := by
  unfold toInt32
  rw [Nat.mod_eq_of_lt h1, if_neg (by omega)]

/-- The claimed result in terms of the magnitude. -/
theorem float2IntSpec_eq (uf : Nat) :
    float2IntSpec uf =
      if expOf uf = 255 then -2147483648
      else if signOf uf = 0 then
        (if scaledMagnitude uf < 2147483648 * 713623846352979940529142984724747568191373312
          then ((scaledMagnitude uf / 713623846352979940529142984724747568191373312 : Nat) : Int)
          else -2147483648)
      else
        (if scaledMagnitude uf ≤ 2147483648 * 713623846352979940529142984724747568191373312
          then - ((scaledMagnitude uf / 713623846352979940529142984724747568191373312 : Nat) : Int)
          else -2147483648) := by
  unfold float2IntSpec isNanOrInf scaledValue
  have p : (2 : Int) ^ 149 = 713623846352979940529142984724747568191373312 := by norm_num
  rw [p, pow149]
  by_cases c1 : expOf uf = 255
  · rw [if_pos c1, if_pos c1]
  · rw [if_neg c1, if_neg c1]
    by_cases c2 : signOf uf = 0
    · simp only [if_pos c2]
      by_cases c3 : scaledMagnitude uf
          < 2147483648 * 713623846352979940529142984724747568191373312
      · rw [if_pos c3, if_pos (by omega)]
      · rw [if_neg c3, if_neg (by omega)]
    · simp only [if_neg c2]
      by_cases c3 : scaledMagnitude uf
          ≤ 2147483648 * 713623846352979940529142984724747568191373312
      · rw [if_pos c3, if_pos (by omega)]
      · rw [if_neg c3, if_neg (by omega)]

/-- Where `floatFloat2Int` meets the claim: everywhere except at the exponent
field 158 with a fraction field other than 0. -/
theorem floatFloat2Int_meets_claim_iff (uf : Nat) :
    toInt32 (floatFloat2Int uf) = float2IntSpec uf ↔ ¬ (expOf uf = 158 ∧ fracOf uf ≠ 0) := by
  obtain ⟨hs, he, hf⟩ := fields_lt uf
  rw [floatFloat2Int_fields, float2IntSpec_eq]
  by_cases c1 : expOf uf = 255
  · rw [if_pos c1, if_pos c1, toInt32_large _ (by omega) (by omega)]
    constructor
    · intro _; omega
    · intro _; norm_num
  · rw [if_neg c1, if_neg c1]
    by_cases c3 : 158 < expOf uf
    · have hm := magnitude_huge uf c3
      rw [if_neg (by omega), if_pos c3, toInt32_large _ (by omega) (by omega)]
      constructor
      · intro _; omega
      · intro _
        by_cases c2 : signOf uf = 0
        · rw [if_pos c2, if_neg (by omega)]; norm_num
        · rw [if_neg c2, if_neg (by omega)]; norm_num
    · by_cases c4 : expOf uf < 127
      · have hm := magnitude_small uf c4
        have hz : scaledMagnitude uf / 713623846352979940529142984724747568191373312 = 0 :=
          Nat.div_eq_of_lt hm
        have hcode : (if expOf uf = 0 then 0
            else if 158 < expOf uf then 2147483648
            else if expOf uf < 127 then 0
            else if signOf uf ≠ 0 then
              (4294967296 - (if 150 ≤ expOf uf then
                (8388608 + fracOf uf) * 2 ^ (expOf uf - 150)
                else (8388608 + fracOf uf) / 2 ^ (150 - expOf uf))) % 4294967296
            else (if 150 ≤ expOf uf then (8388608 + fracOf uf) * 2 ^ (expOf uf - 150)
                else (8388608 + fracOf uf) / 2 ^ (150 - expOf uf))) = 0 := by
          by_cases c2 : expOf uf = 0
          · rw [if_pos c2]
          · rw [if_neg c2, if_neg c3, if_pos c4]
        rw [hcode, hz, toInt32_small 0 (by omega)]
        constructor
        · intro _; omega
        · intro _
          by_cases c2 : signOf uf = 0
          · rw [if_pos c2, if_pos (by omega)]
          · rw [if_neg c2, if_pos (by omega)]; norm_num
      · rw [if_neg (by omega), if_neg c3, if_neg c4]
        by_cases c5 : 150 ≤ expOf uf
        · obtain ⟨hm, hlt, h158, hge⟩ := magnitude_high uf c5 (by omega)
          simp only [if_pos c5]
          obtain ⟨r, hr⟩ : ∃ r, r = (8388608 + fracOf uf) * 2 ^ (expOf uf - 150) := ⟨_, rfl⟩
          rw [← hr] at hm hlt h158 hge ⊢
          have hdiv : scaledMagnitude uf / 713623846352979940529142984724747568191373312
              = r := by
            rw [hm]
            exact Nat.mul_div_cancel _ (by norm_num)
          rw [hdiv]
          by_cases c6 : expOf uf = 158
          · have hr158 := h158 c6
            by_cases c2 : signOf uf = 0
            · rw [if_neg (by omega), if_pos c2, if_neg (by omega),
                toInt32_large r (by omega) (by omega)]
              constructor
              · intro heq; omega
              · intro hno; omega
            · have hmod : (4294967296 - r) % 4294967296 = 4294967296 - r :=
                Nat.mod_eq_of_lt (by omega)
              rw [if_pos c2, if_neg c2, hmod]
              by_cases c7 : fracOf uf = 0
              · rw [if_pos (by omega), toInt32_large _ (by omega) (by omega)]
                constructor
                · intro _; omega
                · intro _; omega
              · rw [if_neg (by omega), toInt32_small _ (by omega)]
                constructor
                · intro heq; omega
                · intro hno; omega
          · have hr31 := hlt (by omega)
            constructor
            · intro _; omega
            · intro _
              by_cases c2 : signOf uf = 0
              · rw [if_neg (by omega), if_pos c2, if_pos (by omega), toInt32_small r hr31]
              · have hmod : (4294967296 - r) % 4294967296 = 4294967296 - r :=
                  Nat.mod_eq_of_lt (by omega)
                rw [if_pos c2, if_neg c2, if_pos (by omega), hmod,
                  toInt32_large _ (by omega) (by omega)]
                omega
        · obtain ⟨hdiv, h1, h24, hm⟩ := magnitude_mid uf (by omega) (by omega)
          simp only [if_neg c5]
          obtain ⟨r, hr⟩ : ∃ r, r = (8388608 + fracOf uf) / 2 ^ (150 - expOf uf) := ⟨_, rfl⟩
          rw [← hr] at hdiv h1 h24 ⊢
          rw [hdiv]
          constructor
          · intro _; omega
          · intro _
            by_cases c2 : signOf uf = 0
            · rw [if_neg (by omega), if_pos c2, if_pos (by omega),
                toInt32_small r (by omega)]
            · have hmod : (4294967296 - r) % 4294967296 = 4294967296 - r :=
                Nat.mod_eq_of_lt (by omega)
              rw [if_pos c2, if_neg c2, if_pos (by omega), hmod,
                toInt32_large _ (by omega) (by omega)]
              omega

/-- C32 (fails on the code): the pattern `0x4F000001` has the exponent field
158 and the fraction field 1; it encodes `(2^23 + 1) * 2^8 = 2^31 + 256`,
which is finite and not below `2^31`.  The claimed result is `0x80000000`;
`floatFloat2Int` only rejects `E > 31`, shifts the significand left by 8 and
returns `0x80000100`, the `int` -2147483392. -/
theorem float2int_keeps_the_fraction_at_exponent_158 :
    expOf 0x4F000001 = 158 ∧ fracOf 0x4F000001 = 1 ∧ signOf 0x4F000001 = 0 ∧
    scaledValue 0x4F000001 = (2 ^ 31 + 256) * 2 ^ 149 ∧
    float2IntSpec 0x4F000001 = toInt32 0x80000000 ∧
    floatFloat2Int 0x4F000001 = 0x80000100 ∧
    toInt32 (floatFloat2Int 0x4F000001) = -2147483392 ∧
    toInt32 (floatFloat2Int 0x4F000001) ≠ float2IntSpec 0x4F000001 := by
  refine ⟨?_, ?_, ?_, ?_, ?_, ?_, ?_, ?_⟩ <;> decide!

/-- C33 (fails on the code): the pattern `0x7F7FFFFF` (the largest finite
single) has the exponent field `0xFE`; doubling overflows and the claimed
result is the infinity `0x7F800000`.  `floatScale2` increments the exponent
field and keeps the fraction: it returns `0x7FFFFFFF`, whose exponent field is
`0xFF` and whose fraction field is not 0, a NaN. -/
theorem scale2_keeps_the_fraction_at_exponent_254 :
    expOf 0x7F7FFFFF = 254 ∧ fracOf 0x7F7FFFFF = 8388607 ∧
    floatScale2 0x7F7FFFFF = 0x7FFFFFFF ∧
    expOf (floatScale2 0x7F7FFFFF) = 255 ∧ fracOf (floatScale2 0x7F7FFFFF) = 8388607 ∧
    floatScale2 0x7F7FFFFF ≠ 0x7F800000 ∧
    ¬ scale2Spec 0x7F7FFFFF (floatScale2 0x7F7FFFFF) := by
  refine ⟨?_, ?_, ?_, ?_, ?_, ?_, ?_⟩ <;> decide!

end Datalab
